import Mathlib

/-!
# Focus navigation (`core/page/FocusController.cpp`)

A shallow embedding of the sequential focus navigation code of
`FocusController.cpp`: the linear scanner over one focus scope, the recursive
descent into shadow scopes and the climb across focus scopes; of the members
`setFocusedFrame`, `advanceFocus` and `setFocusedElement` of the controller; and
of `updateFocusCandidateIfNeeded` of the directional navigation.

## Data model

* A tree scope (a document or a shadow root) is the list of its elements in
  document order; an `Element*` inside one scope is a position in that list
  (`Option Nat`, `none` for `nullptr`).  `ElementTraversal::next` and
  `ElementTraversal::previous` are the successor and predecessor position.
* A `Dom` maps tree scope ids to tree scopes; an `Element*` that may point into
  any scope is a `Ref` (scope id and position).
* The recursive functions take a fuel argument and return `none` when the fuel
  runs out.
* The controller is a function on a `FocusState`; every call that it makes to a
  collaborator (an event dispatched, a notification of the embedder) is appended
  to the `effects` of the state.  The event handlers that such a call may run
  are not part of the embedding.

The definitions of the image bitmap code (`core/frame/ImageBitmap.cpp`) follow
those of the focus navigation, in the namespace `ImageBitmap`; the theorems on
them are at the end.
-/

namespace FocusController

/-! ## External collaborators -/

/-- Modelled from the spec: the C++ type `short` of `Element::tabIndex()`, whose
declaration is not part of the sources; the spec calls 32767 the "maximum
representable positive tab index". -/
structure Short where
  val : Int
  lo : -32768 ≤ val
  hi : val ≤ 32767

/-- The value of `std::numeric_limits<short>::max()`. -/
def shortMax : Int := 32767

/-- The frame behind `HTMLFrameOwnerElement::contentFrame()`: a local frame
with the tree scope id of its document, or a remote frame. -/
inductive ContentFrame where
  | localFrame (document : Nat)
  | remoteFrame

/-- The two sequential values of `WebFocusType`. -/
inductive WebFocusType where
  | Forward
  | Backward

/-- The facts about one element that the focus code queries from the DOM. -/
structure Element where
  /-- Value of `Element::tabIndex()`. -/
  tabIndex : Short
  /-- Value of `Element::isKeyboardFocusable()`. -/
  isKeyboardFocusable : Bool
  /-- Value of `Element::isHTMLElement()`. -/
  isHTMLElement : Bool := true
  /-- Value of `HTMLElement::hasCustomFocusLogic()`. -/
  customFocusLogic : Bool := false
  /-- Tree scope id of `element.shadow()->youngestShadowRoot()`; the element is
  a shadow host iff this is `some`. -/
  youngestShadowRoot : Option Nat := none
  /-- Value of `authorShadowRoot() && authorShadowRoot()->delegatesFocus()`. -/
  delegatesFocus : Bool := false
  /-- Value of `isActiveShadowInsertionPoint(element)`. -/
  isActiveShadowInsertionPoint : Bool := false
  /-- Tree scope id of `toHTMLShadowElement(element).olderShadowRoot()`. -/
  olderShadowRoot : Option Nat := none
  /-- Value of `Element::isFrameOwnerElement()`. -/
  isFrameOwnerElement : Bool := false
  /-- Value of `HTMLFrameOwnerElement::contentFrame()`. -/
  contentFrame : Option ContentFrame := none

/-- An `Element*` across tree scopes: tree scope id and document-order position. -/
structure Ref where
  scope : Nat
  pos : Nat
deriving DecidableEq, Repr

/-- One tree scope: its elements in document order (the order that
`ElementTraversal` walks) and the element that `FocusNavigationScope::owner()`
answers for it: the host of a youngest shadow root, the shadow insertion point
of the younger shadow root of an older one, the local owner of the frame of a
document. -/
structure TreeScope where
  elements : List Element
  owner : Option Ref := none

/-- The tree scopes of a page, by id. -/
structure Dom where
  scope : Nat → TreeScope

/-! ## Predicates on elements -/

/-- `isShadowHost(element)`: the element has a shadow root. -/
def isShadowHost (element : Element) : Bool :=
  element.youngestShadowRoot.isSome

def isShadowInsertionPointFocusScopeOwner (element : Element) : Bool :=
  element.isActiveShadowInsertionPoint && element.olderShadowRoot.isSome

def hasCustomFocusLogic (element : Element) : Bool :=
  element.isHTMLElement && element.customFocusLogic

def isShadowHostWithoutCustomFocusLogic (element : Element) : Bool :=
  isShadowHost element && !hasCustomFocusLogic element

def isNonKeyboardFocusableShadowHost (element : Element) : Bool :=
  isShadowHostWithoutCustomFocusLogic element && !element.isKeyboardFocusable

def isKeyboardFocusableShadowHost (element : Element) : Bool :=
  isShadowHostWithoutCustomFocusLogic element && element.isKeyboardFocusable

def isNonFocusableFocusScopeOwner (element : Element) : Bool :=
  isNonKeyboardFocusableShadowHost element || isShadowInsertionPointFocusScopeOwner element

def isShadowHostDelegatesFocus (element : Element) : Bool :=
  element.delegatesFocus

/-- `adjustedTabIndex`: 0 for a non-focusable focus scope owner, else the tab
index of the element. -/
def adjustedTabIndex (element : Element) : Int :=
  if isNonFocusableFocusScopeOwner element then 0 else element.tabIndex.val

/-- `shouldVisit`: the elements that the linear scanner stops at. -/
def shouldVisit (element : Element) : Bool :=
  element.isKeyboardFocusable || isNonFocusableFocusScopeOwner element

/-! ## Linear scanner over one scope -/

/-- `FocusNavigationScope::firstElement()`: the first element of the scope in
document order. -/
def firstElement (els : List Element) : Option Nat :=
  if els.isEmpty then none else some 0

/-- `FocusNavigationScope::lastElement()`: the last element of the scope in
document order. -/
def lastElement (els : List Element) : Option Nat :=
  if els.isEmpty then none else some (els.length - 1)

/-- Modelled from the spec: `ElementTraversal::next`, which is not part of the
sources: the next element of the tree scope in document order (preorder). -/
def traversalNext (els : List Element) (i : Nat) : Option Nat :=
  if i + 1 < els.length then some (i + 1) else none

/-- Modelled from the spec: `ElementTraversal::previous`, which is not part of
the sources: the previous element of the tree scope in document order. -/
def traversalPrevious (i : Nat) : Option Nat :=
  if i = 0 then none else some (i - 1)

/-- The loop `for (element = start; element; element = next(element))` that
returns the first element satisfying `p`; the list is the part of the scope
from `start` on and `i` is the position of its head. -/
def scanForward (p : Element → Bool) : List Element → Nat → Option Nat
  | [], _ => none
  | e :: rest, i => if p e then some i else scanForward p rest (i + 1)

/-- The loop `for (element = start; element; element = previous(element))`
that returns the first element satisfying `p`, walking down from position `i`. -/
def scanBackward (p : Element → Bool) (els : List Element) : Nat → Option Nat
  | 0 => if (els[0]?.map p).getD false then some 0 else none
  | i + 1 => if (els[i + 1]?.map p).getD false then some (i + 1) else scanBackward p els i

/-- The test of `findElementWithExactTabIndex`. -/
def exactTabIndexTest (tabIndex : Int) (element : Element) : Bool :=
  shouldVisit element && decide (adjustedTabIndex element = tabIndex)

def findElementWithExactTabIndex (els : List Element) (start : Option Nat) (tabIndex : Int)
    (type : WebFocusType) : Option Nat :=
  match start with
  | none => none
  | some i =>
    match type with
    | .Forward => scanForward (exactTabIndexTest tabIndex) (els.drop i) i
    | .Backward => scanBackward (exactTabIndexTest tabIndex) els i

/-- Body of the loop of `nextElementWithGreaterTabIndex`, over the elements
from the current one on; `i` is the position of the head of the list. -/
def nextGreaterLoop (tabIndex : Int) : List Element → Nat → Int → Option Nat → Option Nat
  | [], _, _, winner => winner
  | element :: rest, i, winningTabIndex, winner =>
    let currentTabIndex := adjustedTabIndex element
    if shouldVisit element && decide (currentTabIndex > tabIndex)
        && decide (currentTabIndex < winningTabIndex) then
      nextGreaterLoop tabIndex rest (i + 1) currentTabIndex (some i)
    else
      nextGreaterLoop tabIndex rest (i + 1) winningTabIndex winner

def nextElementWithGreaterTabIndex (els : List Element) (start : Option Nat) (tabIndex : Int) :
    Option Nat :=
  match start with
  | none => none
  | some i => nextGreaterLoop tabIndex (els.drop i) i (shortMax + 1) none

/-- One iteration of the loop of `previousElementWithLowerTabIndex` at position `i`. -/
def prevLowerStep (els : List Element) (tabIndex : Int) (i : Nat) (state : Int × Option Nat) :
    Int × Option Nat :=
  match els[i]? with
  | none => state
  | some element =>
    let currentTabIndex := adjustedTabIndex element
    if shouldVisit element && decide (currentTabIndex < tabIndex)
        && decide (currentTabIndex > state.1) then
      (currentTabIndex, some i)
    else
      state

/-- The loop of `previousElementWithLowerTabIndex`, walking down from position
`i`; the state is `(winningTabIndex, winner)`. -/
def prevLowerLoop (els : List Element) (tabIndex : Int) : Nat → Int × Option Nat → Option Nat
  | 0, state => (prevLowerStep els tabIndex 0 state).2
  | i + 1, state => prevLowerLoop els tabIndex i (prevLowerStep els tabIndex (i + 1) state)

def previousElementWithLowerTabIndex (els : List Element) (start : Option Nat) (tabIndex : Int) :
    Option Nat :=
  match start with
  | none => none
  | some i => prevLowerLoop els tabIndex i (0, none)

/-- The test of the tree-order loops of `nextFocusableElement` and
`previousFocusableElement` for a start outside the tabbing cycle. -/
def treeOrderTest (element : Element) : Bool :=
  shouldVisit element && decide (adjustedTabIndex element ≥ 0)

/-- The tail of `nextFocusableElement` after the `if (start)` block. -/
def nextFocusableElementTail (els : List Element) (tabIndex : Int) : Option Nat :=
  match nextElementWithGreaterTabIndex els (firstElement els) tabIndex with
  | some winner => some winner
  | none => findElementWithExactTabIndex els (firstElement els) 0 .Forward

/-- `nextFocusableElement(scope, start)`; a start that is not an element of
the scope yields `none`. -/
def nextFocusableElement (els : List Element) (start : Option Nat) : Option Nat :=
  match start with
  | none => nextFocusableElementTail els 0
  | some s =>
    match els[s]? with
    | none => none
    | some startElement =>
      let tabIndex := adjustedTabIndex startElement
      let found :=
        if tabIndex < 0 then scanForward treeOrderTest (els.drop (s + 1)) (s + 1)
        else findElementWithExactTabIndex els (traversalNext els s) tabIndex .Forward
      match found with
      | some winner => some winner
      | none => if tabIndex = 0 then none else nextFocusableElementTail els tabIndex

/-- `previousFocusableElement(scope, start)`; a start that is not an element
of the scope yields `none`. -/
def previousFocusableElement (els : List Element) (start : Option Nat) : Option Nat :=
  let last := lastElement els
  let go (startElement : Option Nat) (startTabIndex : Int) : Option Nat :=
    let found :=
      if startTabIndex < 0 then
        match startElement with
        | none => none
        | some i => scanBackward treeOrderTest els i
      else findElementWithExactTabIndex els startElement startTabIndex .Backward
    match found with
    | some winner => some winner
    | none =>
      let startTabIndex2 :=
        if start.isSome && decide (startTabIndex ≠ 0) then startTabIndex else shortMax
      previousElementWithLowerTabIndex els last startTabIndex2
  match start with
  | none => go last 0
  | some s =>
    match els[s]? with
    | none => none
    | some startElement => go (traversalPrevious s) (adjustedTabIndex startElement)

def findFocusableElementInternal (type : WebFocusType) (els : List Element)
    (element : Option Nat) : Option Nat :=
  match type with
  | .Forward => nextFocusableElement els element
  | .Backward => previousFocusableElement els element

/-! ## Recursive descent into inner scopes -/

/-- The element a `Ref` points to. -/
def elementAt (dom : Dom) (r : Ref) : Option Element :=
  (dom.scope r.scope).elements[r.pos]?

/-- `FocusNavigationScope::ownedByShadowHost`: the tree scope id of the
youngest shadow root of the host. -/
def ownedByShadowHost (element : Element) : Option Nat :=
  element.youngestShadowRoot

/-- `FocusNavigationScope::ownedByShadowInsertionPoint`. -/
def ownedByShadowInsertionPoint (element : Element) : Option Nat :=
  element.olderShadowRoot

/-- `FocusNavigationScope::ownedByNonFocusableFocusScopeOwner`. -/
def ownedByNonFocusableFocusScopeOwner (element : Element) : Option Nat :=
  if isShadowHost element then ownedByShadowHost element
  else ownedByShadowInsertionPoint element

/-- The `while (found)` loop of `findFocusableElementRecursivelyForward` in the
scope `scope`, entered with the candidate `found`.  The call
`findFocusableElementRecursivelyForward(innerScope, nullptr)` is this loop on
the inner scope entered with `nextFocusableElement(innerScope, nullptr)`.
`none` is returned when the fuel runs out. -/
def recursivelyForwardLoop (dom : Dom) : Nat → Nat → Option Nat → Option (Option Ref)
  | 0, _, _ => none
  | _ + 1, _, none => some none
  | fuel + 1, scope, some found =>
    let els := (dom.scope scope).elements
    let inner (innerScope : Option Nat) : Option (Option Ref) :=
      match innerScope with
      | none => some none
      | some i =>
        recursivelyForwardLoop dom fuel i
          (findFocusableElementInternal .Forward (dom.scope i).elements none)
    let skip : Option (Option Ref) :=
      recursivelyForwardLoop dom fuel scope (findFocusableElementInternal .Forward els (some found))
    match els[found]? with
    | none => some none
    | some element =>
      if isShadowHostDelegatesFocus element then
        if decide (element.tabIndex.val ≥ 0) && isShadowHostWithoutCustomFocusLogic element then
          match inner (ownedByShadowHost element) with
          | none => none
          | some (some foundInInnerFocusScope) => some (some foundInInnerFocusScope)
          | some none => skip
        else skip
      else if !isNonFocusableFocusScopeOwner element then
        some (some ⟨scope, found⟩)
      else
        match inner (ownedByNonFocusableFocusScopeOwner element) with
        | none => none
        | some (some foundInInnerFocusScope) => some (some foundInInnerFocusScope)
        | some none => skip

def findFocusableElementRecursivelyForward (dom : Dom) (fuel : Nat) (scope : Nat)
    (start : Option Nat) : Option (Option Ref) :=
  recursivelyForwardLoop dom fuel scope
    (findFocusableElementInternal .Forward (dom.scope scope).elements start)

/-- The `while (found)` loop of `findFocusableElementRecursivelyBackward`. -/
def recursivelyBackwardLoop (dom : Dom) : Nat → Nat → Option Nat → Option (Option Ref)
  | 0, _, _ => none
  | _ + 1, _, none => some none
  | fuel + 1, scope, some found =>
    let els := (dom.scope scope).elements
    let inner (innerScope : Option Nat) : Option (Option Ref) :=
      match innerScope with
      | none => some none
      | some i =>
        recursivelyBackwardLoop dom fuel i
          (findFocusableElementInternal .Backward (dom.scope i).elements none)
    let skip : Option (Option Ref) :=
      recursivelyBackwardLoop dom fuel scope
        (findFocusableElementInternal .Backward els (some found))
    match els[found]? with
    | none => some none
    | some element =>
      if isKeyboardFocusableShadowHost element then
        match inner (ownedByShadowHost element) with
        | none => none
        | some (some foundInInnerFocusScope) => some (some foundInInnerFocusScope)
        | some none =>
          if isShadowHostDelegatesFocus element then skip
          else some (some ⟨scope, found⟩)
      else if isShadowHostDelegatesFocus element && decide (element.tabIndex.val < 0) then
        skip
      else if isNonFocusableFocusScopeOwner element then
        match inner (ownedByNonFocusableFocusScopeOwner element) with
        | none => none
        | some (some foundInInnerFocusScope) => some (some foundInInnerFocusScope)
        | some none => skip
      else if !isShadowHostDelegatesFocus element then
        some (some ⟨scope, found⟩)
      else skip

def findFocusableElementRecursivelyBackward (dom : Dom) (fuel : Nat) (scope : Nat)
    (start : Option Nat) : Option (Option Ref) :=
  recursivelyBackwardLoop dom fuel scope
    (findFocusableElementInternal .Backward (dom.scope scope).elements start)

def findFocusableElementRecursively (dom : Dom) (type : WebFocusType) (fuel : Nat) (scope : Nat)
    (start : Option Nat) : Option (Option Ref) :=
  match type with
  | .Forward => findFocusableElementRecursivelyForward dom fuel scope start
  | .Backward => findFocusableElementRecursivelyBackward dom fuel scope start

/-! ## Across focus scopes and frames -/

/-- `findFocusableElementDescendingDownIntoFrameDocument`. -/
def findFocusableElementDescendingDownIntoFrameDocument (dom : Dom) (type : WebFocusType) :
    Nat → Option Ref → Option (Option Ref)
  | 0, _ => none
  | _ + 1, none => some none
  | fuel + 1, some element =>
    match elementAt dom element with
    | none => some (some element)
    | some owner =>
      if !owner.isFrameOwnerElement then some (some element)
      else
        match owner.contentFrame with
        | some (.localFrame document) =>
          match findFocusableElementRecursively dom type fuel document none with
          | none => none
          | some none => some (some element)
          | some (some foundElement) =>
            findFocusableElementDescendingDownIntoFrameDocument dom type fuel (some foundElement)
        | _ => some (some element)

/-- The loop `while (!found)` of `findFocusableElementAcrossFocusScopesForward`
that moves up the focus scopes. -/
def climbForward (dom : Dom) : Nat → Nat → Option Ref → Option (Option Ref)
  | 0, _, _ => none
  | _ + 1, _, some found => some (some found)
  | fuel + 1, currentScope, none =>
    match (dom.scope currentScope).owner with
    | none => some none
    | some owner =>
      match findFocusableElementRecursivelyForward dom fuel owner.scope (some owner.pos) with
      | none => none
      | some found => climbForward dom fuel owner.scope found

def findFocusableElementAcrossFocusScopesForward (dom : Dom) (fuel : Nat) (scope : Nat)
    (current : Option Nat) : Option (Option Ref) :=
  let plainSearch := findFocusableElementRecursivelyForward dom fuel scope current
  let found : Option (Option Ref) :=
    match current.bind (fun c => (dom.scope scope).elements[c]?) with
    | some element =>
      if isShadowHostWithoutCustomFocusLogic element then
        match ownedByShadowHost element with
        | none => plainSearch
        | some innerScope =>
          match findFocusableElementRecursivelyForward dom fuel innerScope none with
          | none => none
          | some (some foundInInnerFocusScope) => some (some foundInInnerFocusScope)
          | some none => plainSearch
      else plainSearch
    | none => plainSearch
  match found with
  | none => none
  | some found =>
    match climbForward dom fuel scope found with
    | none => none
    | some found => findFocusableElementDescendingDownIntoFrameDocument dom .Forward fuel found

/-- The loop `while (!found)` of `findFocusableElementAcrossFocusScopesBackward`. -/
def climbBackward (dom : Dom) : Nat → Nat → Option Ref → Option (Option Ref)
  | 0, _, _ => none
  | _ + 1, _, some found => some (some found)
  | fuel + 1, currentScope, none =>
    match (dom.scope currentScope).owner with
    | none => some none
    | some owner =>
      match elementAt dom owner with
      | none => some none
      | some ownerElement =>
        if isKeyboardFocusableShadowHost ownerElement && !isShadowHostDelegatesFocus ownerElement then
          some (some owner)
        else
          match findFocusableElementRecursivelyBackward dom fuel owner.scope (some owner.pos) with
          | none => none
          | some found => climbBackward dom fuel owner.scope found

def findFocusableElementAcrossFocusScopesBackward (dom : Dom) (fuel : Nat) (scope : Nat)
    (current : Option Nat) : Option (Option Ref) :=
  match findFocusableElementRecursivelyBackward dom fuel scope current with
  | none => none
  | some found =>
    match climbBackward dom fuel scope found with
    | none => none
    | some found => findFocusableElementDescendingDownIntoFrameDocument dom .Backward fuel found

def findFocusableElementAcrossFocusScopes (dom : Dom) (type : WebFocusType) (fuel : Nat)
    (scope : Nat) (current : Option Nat) : Option (Option Ref) :=
  match type with
  | .Forward => findFocusableElementAcrossFocusScopesForward dom fuel scope current
  | .Backward => findFocusableElementAcrossFocusScopesBackward dom fuel scope current

/-- `FocusController::findFocusableElement(type, element)`: the search starts
in the tree scope of `element`. -/
def findFocusableElement (dom : Dom) (type : WebFocusType) (fuel : Nat) (element : Ref) :
    Option (Option Ref) :=
  findFocusableElementAcrossFocusScopes dom type fuel element.scope (some element.pos)

/-! ## The tabbing order of one scope -/

/-- The elements visited by calling `nextFocusableElement` again and again,
each result being the next start, until it returns null; `none` when the fuel
runs out before null is returned. -/
def tabbingSequence (els : List Element) : Nat → Option Nat → Option (List Nat)
  | 0, _ => none
  | fuel + 1, start =>
    match nextFocusableElement els start with
    | none => some []
    | some r => (tabbingSequence els fuel (some r)).map (fun rest => r :: rest)

/-- Whether position `i` holds an element that `shouldVisit`. -/
def visitableAt (els : List Element) (i : Nat) : Bool :=
  match els[i]? with
  | some e => shouldVisit e
  | none => false

/-- The adjusted tab index of the element at position `i`. -/
def adjustedTabIndexAt (els : List Element) (i : Nat) : Int :=
  match els[i]? with
  | some e => adjustedTabIndex e
  | none => 0

/-- The tabbing order of the HTML spec: positive tab indices in ascending
order, then tab index 0, equal tab indices in document order. -/
def precedesInTabOrder (els : List Element) (i j : Nat) : Prop :=
  (0 < adjustedTabIndexAt els i ∧ adjustedTabIndexAt els i < adjustedTabIndexAt els j) ∨
  (0 < adjustedTabIndexAt els i ∧ adjustedTabIndexAt els j = 0) ∨
  (adjustedTabIndexAt els i = adjustedTabIndexAt els j ∧ i < j)

/-- The sort key of the tabbing order: tab index 0 comes after every positive
tab index. -/
def tabOrderKey (els : List Element) (i : Nat) : Int :=
  if adjustedTabIndexAt els i = 0 then shortMax + 1 else adjustedTabIndexAt els i

/-- The strict order of the tabbing sequence on positions. -/
def keyBefore (els : List Element) (i j : Nat) : Prop :=
  tabOrderKey els i < tabOrderKey els j ∨ (tabOrderKey els i = tabOrderKey els j ∧ i < j)

/-- Position `v` comes after the start `prev` in the tabbing order; every
position comes after a null start. -/
def afterStart (els : List Element) (prev : Option Nat) (v : Nat) : Prop :=
  match prev with
  | none => True
  | some a => keyBefore els a v

/-! ## Removing the elements of positive tab index -/

/-- The elements that stay when those of positive tab index are removed. -/
def keepsNonPositive (element : Element) : Bool :=
  !decide (0 < element.tabIndex.val)

/-- The tree `T'`: `T` without its elements of positive tab index. -/
def removePositive (els : List Element) : List Element :=
  els.filter keepsNonPositive

/-- The position in `T` of the element at position `j` of `T.filter keep`. -/
def originalPosition (keep : Element → Bool) : List Element → Nat → Nat
  | [], j => j
  | e :: rest, j =>
    if keep e then
      match j with
      | 0 => 0
      | j + 1 => originalPosition keep rest j + 1
    else originalPosition keep rest j + 1

/-- Whether iterating `nextFocusableElement` in `T` from `s` reaches `t` before
any other element that stays in `T'`. -/
def reachesFirstKept (els : List Element) : Nat → Nat → Nat → Bool
  | 0, _, _ => false
  | fuel + 1, s, t =>
    match nextFocusableElement els (some s) with
    | none => false
    | some x =>
      match els[x]? with
      | none => false
      | some e => if keepsNonPositive e then decide (x = t) else reachesFirstKept els fuel x t

/-- With enough fuel the computation `f` returns `r`. -/
def Returns (f : Nat → Option (Option Ref)) (r : Option Ref) : Prop :=
  ∃ fuel, ∀ n, fuel ≤ n → f n = some r

/-! ## Well-formed trees of focus scopes -/

/-- The tree scope behind an element: the youngest shadow root of a shadow
host, the older shadow root of a shadow insertion point that owns a focus
scope, the document of the local content frame of a frame owner. -/
def innerScope (x : Element) : Option Nat :=
  if isShadowHost x then x.youngestShadowRoot
  else if isShadowInsertionPointFocusScopeOwner x then x.olderShadowRoot
  else if x.isFrameOwnerElement then
    match x.contentFrame with
    | some (.localFrame document) => some document
    | _ => none
  else none

/-- The facts about the DOM that the round trip of the navigation relies on:
the owner of the scope behind an element is that element, the kinds of scope
owners exclude each other, and no visitable element has the tab index 32767. -/
structure WellFormed (dom : Dom) : Prop where
  owner_of_inner : ∀ (S p : Nat) (x : Element) (i : Nat),
    (dom.scope S).elements[p]? = some x → innerScope x = some i →
    (dom.scope i).owner = some ⟨S, p⟩
  delegates_host : ∀ (S p : Nat) (x : Element), (dom.scope S).elements[p]? = some x →
    isShadowHostDelegatesFocus x = true → isShadowHost x = true
  insertion_point : ∀ (S p : Nat) (x : Element), (dom.scope S).elements[p]? = some x →
    isShadowInsertionPointFocusScopeOwner x = true → isShadowHost x = false
  frame_owner : ∀ (S p : Nat) (x : Element), (dom.scope S).elements[p]? = some x →
    x.isFrameOwnerElement = true →
    isShadowHost x = false ∧ isShadowInsertionPointFocusScopeOwner x = false
  below_short_max : ∀ (S p : Nat) (x : Element), (dom.scope S).elements[p]? = some x →
    shouldVisit x = true → adjustedTabIndex x ≠ 32767

/-- An element through which the navigation enters the scope behind it, in
both directions: it is visited, inside the tabbing cycle, and as a shadow host
it has no custom focus logic and, when it delegates focus, a tab index `>= 0`. -/
def Enterable (x : Element) : Prop :=
  shouldVisit x = true ∧ 0 ≤ adjustedTabIndex x ∧
  (isShadowHost x = true → hasCustomFocusLogic x = false) ∧
  (isShadowHostDelegatesFocus x = true → 0 ≤ x.tabIndex.val)

/-- The scopes above a scope, along `FocusNavigationScope::owner()`. -/
inductive AncestorScope (dom : Dom) (S : Nat) : Nat → Prop where
  | refl : AncestorScope dom S S
  | step {T : Nat} {o : Ref} : AncestorScope dom S T → (dom.scope T).owner = some o →
      AncestorScope dom S o.scope

/-- Every owner of a scope above `S` is enterable and owns that scope. -/
def EnterableAbove (dom : Dom) (S : Nat) : Prop :=
  ∀ (T : Nat) (o : Ref), AncestorScope dom S T → (dom.scope T).owner = some o →
    ∃ x, elementAt dom o = some x ∧ Enterable x ∧ innerScope x = some T

/-- The search `findFocusableElementRecursively(type, innerScope, nullptr)` of
the loops, on the scope behind a candidate. -/
def innerSearch (dom : Dom) (type : WebFocusType) (n : Nat) (o : Option Nat) :
    Option (Option Ref) :=
  match o with
  | none => some none
  | some i => findFocusableElementRecursively dom type n i none

/-- What one turn of the forward loop does with the candidate `x` at position
`v`: `some (some r)` returns `r`, `some none` skips to the next candidate. -/
def forwardYield (dom : Dom) (n S v : Nat) (x : Element) : Option (Option Ref) :=
  if isShadowHostDelegatesFocus x then
    if decide (x.tabIndex.val ≥ 0) && isShadowHostWithoutCustomFocusLogic x then
      innerSearch dom .Forward n (ownedByShadowHost x)
    else some none
  else if !isNonFocusableFocusScopeOwner x then some (some ⟨S, v⟩)
  else innerSearch dom .Forward n (ownedByNonFocusableFocusScopeOwner x)

/-- What one turn of the backward loop does with the candidate `x` at position `v`. -/
def backwardYield (dom : Dom) (n S v : Nat) (x : Element) : Option (Option Ref) :=
  if isKeyboardFocusableShadowHost x then
    match innerSearch dom .Backward n (ownedByShadowHost x) with
    | none => none
    | some (some r) => some (some r)
    | some none => if isShadowHostDelegatesFocus x then some none else some (some ⟨S, v⟩)
  else if isShadowHostDelegatesFocus x && decide (x.tabIndex.val < 0) then some none
  else if isNonFocusableFocusScopeOwner x then
    innerSearch dom .Backward n (ownedByNonFocusableFocusScopeOwner x)
  else if !isShadowHostDelegatesFocus x then some (some ⟨S, v⟩)
  else some none

/-- The backward loop entered with a candidate, followed by the climb up the
focus scopes: `findFocusableElementAcrossFocusScopesBackward` before its last
step, the descent into frames. -/
def backFrom (dom : Dom) (n S : Nat) (cand : Option Nat) : Option (Option Ref) :=
  match recursivelyBackwardLoop dom n S cand with
  | none => none
  | some found => climbBackward dom n S found

/-- A start of a search inside the tabbing cycle: null, or a visitable
element whose adjusted tab index is not negative. -/
def StartOk (dom : Dom) (S : Nat) (start : Option Nat) : Prop :=
  start = none ∨ ∃ a x, start = some a ∧ (dom.scope S).elements[a]? = some x ∧
    shouldVisit x = true ∧ 0 ≤ adjustedTabIndex x

/-- The backward loop entered with the candidate `c` of the scope `S`, followed
by the descent into frames, arrives at `e`. -/
def ArrivesAt (dom : Dom) (e : Ref) (S c : Nat) : Prop :=
  ∃ n y, recursivelyBackwardLoop dom n S (some c) = some (some y) ∧
    findFocusableElementDescendingDownIntoFrameDocument dom .Backward n (some y) = some (some e)

/-- The backward navigation from `f`, before and after the descent into
frames, arrives at `e`. -/
def BackwardArrivesAt (dom : Dom) (e f : Ref) : Prop :=
  ∃ n y, backFrom dom n f.scope
      (previousFocusableElement (dom.scope f.scope).elements (some f.pos)) = some (some y) ∧
    findFocusableElementDescendingDownIntoFrameDocument dom .Backward n (some y) = some (some e)

/-! ## The walk of the exact search -/

/-- The positions that the walk of `findElementWithExactTabIndex` from `s`
reaches strictly before `r`: `s` inclusive, then the next (forward) or the
previous (backward) position. -/
def walkedBefore (type : WebFocusType) (s r j : Nat) : Prop :=
  match type with
  | .Forward => s ≤ j ∧ j < r
  | .Backward => r < j ∧ j ≤ s

/-- The positions that the walk of `findElementWithExactTabIndex` from `s`
reaches at all. -/
def onWalk (type : WebFocusType) (s j : Nat) : Prop :=
  match type with
  | .Forward => s ≤ j
  | .Backward => j ≤ s

/-! ## Finitely nested scopes and the candidates of the loops -/

instance keyBeforeDecidable (els : List Element) (i j : Nat) : Decidable (keyBefore els i j) := by
  unfold keyBefore
  infer_instance

/-- The number of positions of the scope that come after `c` in the tabbing
order: the candidates that a forward loop entered with `c` can still meet. -/
def candidatesAfter (els : List Element) (c : Nat) : Nat :=
  ((Finset.range els.length).filter (fun j => keyBefore els c j)).card

/-- The number of positions of the scope that come before `c` in the tabbing
order. -/
def candidatesBefore (els : List Element) (c : Nat) : Nat :=
  ((Finset.range els.length).filter (fun j => keyBefore els j c)).card

/-- A bound on the backward steps that can follow the candidate `c`: the
positions before it in the tabbing order, or all positions and one more when
`c` is outside the tabbing cycle. -/
def backwardMeasure (els : List Element) (c : Nat) : Nat :=
  if 0 ≤ adjustedTabIndexAt els c then candidatesBefore els c else els.length + 1

/-- The document that `findFocusableElementDescendingDownIntoFrameDocument`
enters behind an element: the document of the local content frame of a frame
owner element. -/
def localContentDocument (x : Element) : Option Nat :=
  if x.isFrameOwnerElement then
    match x.contentFrame with
    | some (.localFrame document) => some document
    | _ => none
  else none

/-- The document entered behind the element that `r` points to. -/
def localContentDocumentAt (dom : Dom) (r : Ref) : Option Nat :=
  (elementAt dom r).bind localContentDocument

/-- Finitely nested shadow scopes and frames: `rank` strictly decreases from
the tree scope of an element to the scope behind it, be it the youngest shadow
root of a shadow host, the older shadow root of a shadow insertion point or the
document of a local content frame. -/
structure NestedBelow (dom : Dom) (rank : Nat → Nat) : Prop where
  shadow_root : ∀ (S p : Nat) (x : Element) (i : Nat),
    (dom.scope S).elements[p]? = some x → x.youngestShadowRoot = some i → rank i < rank S
  older_shadow_root : ∀ (S p : Nat) (x : Element) (i : Nat),
    (dom.scope S).elements[p]? = some x → isShadowInsertionPointFocusScopeOwner x = true →
    x.olderShadowRoot = some i → rank i < rank S
  content_document : ∀ (S p : Nat) (x : Element) (d : Nat),
    (dom.scope S).elements[p]? = some x → localContentDocument x = some d → rank d < rank S

/-- Finitely many scopes above each scope: `level` strictly decreases from a
scope to the scope of its `owner()`. -/
def NestedAbove (dom : Dom) (level : Nat → Nat) : Prop :=
  ∀ (S : Nat) (o : Ref), (dom.scope S).owner = some o → level o.scope < level S

/-- The candidates that the loop of `findFocusableElementRecursively` goes
through in one scope when each of them is skipped: the results of calling
`findFocusableElementInternal` again and again, each result being the next
start, until it returns null; `none` when the fuel runs out before that. -/
def candidateSequence (type : WebFocusType) (els : List Element) :
    Nat → Option Nat → Option (List Nat)
  | 0, _ => none
  | fuel + 1, start =>
    match findFocusableElementInternal type els start with
    | none => some []
    | some r => (candidateSequence type els fuel (some r)).map (fun rest => r :: rest)

/-! ## The focus controller -/

deriving instance DecidableEq for WebFocusType

/-- A `Node*` as `adjustToElement` sees it: an element, or another node, given
by the elements before and after it in document order. -/
inductive Node where
  | element (e : Ref)
  | other (previous next : Option Ref)

/-- The facts about a `Frame` that the controller queries. -/
structure Frame where
  /-- Value of `Frame::isLocalFrame()`; `isRemoteFrame()` is its negation. -/
  isLocalFrame : Bool := true
  /-- Whether `LocalFrame::view()` is not null. -/
  hasView : Bool := true
  /-- Whether `Frame::client()` is not null. -/
  hasClient : Bool := true
  /-- Whether `Frame::page()` is not null. -/
  hasPage : Bool := true
  /-- Value of `Frame::isLocalRoot()`. -/
  isLocalRoot : Bool := true
  /-- Tree scope id of `LocalFrame::document()`. -/
  document : Nat := 0
  /-- Frame id of `LocalFrame::localFrameRoot()`. -/
  localFrameRoot : Nat := 0
  /-- Frame id of `frame->tree().top()`. -/
  treeTop : Nat := 0
  /-- Value of `settings() && settings()->caretBrowsingEnabled()`. -/
  caretBrowsingEnabled : Bool := false
  /-- Value of `selection().start().anchorNode()`. -/
  selectionAnchor : Option Node := none
  /-- Value of `selection().isNone()`. -/
  selectionIsNone : Bool := true
  /-- Whether `enclosingTextFormControl(selectionStartNode)` is not null. -/
  selectionInTextFormControl : Bool := false

/-- What the controller does to its collaborators, in the order of the calls. -/
inductive Effect where
  /-- The call `frame->selection().setFocused(focused)`. -/
  | selectionSetFocused (frame : Nat) (focused : Bool)
  /-- The event `blur` dispatched on the window of the frame. -/
  | windowBlur (frame : Nat)
  /-- The event `focus` dispatched on the window of the frame. -/
  | windowFocus (frame : Nat)
  /-- The call `frame->client()->frameFocused()`. -/
  | frameFocused (frame : Nat)
  /-- The call `document->clearFocusedElement()`. -/
  | clearFocusedElement (document : Nat)
  /-- The call `chromeClient().takeFocus(type)`. -/
  | takeFocus (type : WebFocusType)
  /-- The call `advanceFocus(type, source)` on a remote frame. -/
  | remoteAdvanceFocus (type : WebFocusType) (source : Nat)
  /-- The call `chromeClient().willSetInputMethodState()`. -/
  | willSetInputMethodState
  /-- The call `frame->selection().setSelection` at the element. -/
  | setSelection (frame : Nat) (element : Ref)
  /-- The call `selection.clear()` on the selection of the frame. -/
  | selectionClear (frame : Nat)
  /-- The call `element->focus(FocusParams(Reset, type, ...))`. -/
  | focus (element : Ref) (type : WebFocusType)
  /-- The call `document->setFocusedElement(element, params)`. -/
  | setFocusedElement (document : Nat) (element : Option Ref)
deriving DecidableEq

/-- The page that a `FocusController` belongs to: the facts that the controller
reads and does not change. -/
structure Page where
  /-- The tree scopes of the documents and shadow trees. -/
  dom : Dom
  /-- The facts about each frame, by frame id. -/
  frame : Nat → Frame
  /-- Frame id of `m_page->mainFrame()`. -/
  mainFrame : Nat := 0
  /-- The frames from `mainFrame()->tree().top()` on, in the order of
  `traverseNext()`. -/
  frameTree : List Nat := [mainFrame]
  /-- Tree scope id of `element.document()` for the elements of a tree scope. -/
  documentOf : Nat → Nat := fun S => S
  /-- Value of `Document::frame()`. -/
  documentFrame : Nat → Option Nat := fun _ => none
  /-- The local content frame whose document has the given tree scope id. -/
  localFrameOf : Nat → Nat := fun d => d
  /-- The remote content frame of a frame owner element. -/
  remoteFrameOf : Ref → Nat := fun _ => 0
  /-- Value of `chromeClient().canTakeFocus(type)`. -/
  canTakeFocus : WebFocusType → Bool := fun _ => false
  /-- Value of `isHTMLPlugInElement(element)`. -/
  isHTMLPlugInElement : Ref → Bool := fun _ => false
  /-- Value of `Element::isRootEditableElement()`. -/
  isRootEditableElement : Ref → Bool := fun _ => false
  /-- Whether `Element::rootEditableElement()` is not null. -/
  hasRootEditableElement : Ref → Bool := fun _ => false
  /-- Whether the selection start node of the frame is the element or one of
  its descendants. -/
  selectionStartsIn : Nat → Option Ref → Bool := fun _ _ => false
  /-- Whether the selection start node of the frame is in a shadow tree whose
  host is the element. -/
  selectionShadowHostIs : Nat → Option Ref → Bool := fun _ _ => false
  /-- Whether `Document::setFocusedElement(element, params)` succeeds. -/
  acceptsFocus : Nat → Option Ref → Bool := fun _ _ => true
  /-- The default value of the parameter `notifyEmbedder` of `setFocusedFrame`,
  which `FocusController.h` declares. -/
  notifyEmbedderDefault : Bool := true

/-- The state that the controller reads and writes: its own members, the
focused element and the sequential navigation starting point of each document,
and the calls made so far. -/
structure FocusState where
  /-- The member `m_focusedFrame`. -/
  focusedFrame : Option Nat := none
  /-- The member `m_isActive`. -/
  isActive : Bool := false
  /-- The member `m_isFocused`. -/
  isFocused : Bool := false
  /-- The member `m_isChangingFocusedFrame`. -/
  isChangingFocusedFrame : Bool := false
  /-- Value of `Document::focusedElement()`, by document. -/
  focusedElement : Nat → Option Ref := fun _ => none
  /-- The recorded sequential focus navigation starting point, by document. -/
  startingPoint : Nat → Option Ref := fun _ => none
  /-- The calls made so far, oldest first. -/
  effects : List Effect := []

/-- Appends calls to the record of the state. -/
def FocusState.dispatch (st : FocusState) (calls : List Effect) : FocusState :=
  { st with effects := st.effects ++ calls }

/-- Modelled from the spec: `Document::clearFocusedElement()`, which is not part
of the sources: the document has no focused element afterwards. -/
def clearFocusedElement (st : FocusState) (document : Nat) : FocusState :=
  { st with
    focusedElement := fun d => if d = document then none else st.focusedElement d
    effects := st.effects ++ [.clearFocusedElement document] }

/-- Modelled from the spec: `Document::setSequentialFocusNavigationStartingPoint`,
which is not part of the sources. -/
def setSequentialFocusNavigationStartingPoint (st : FocusState) (document : Nat)
    (node : Option Ref) : FocusState :=
  { st with startingPoint := fun d => if d = document then node else st.startingPoint d }

/-- Modelled from the spec: `Document::sequentialFocusNavigationStartingPoint`,
which is not part of the sources: "the currently focused element (or a
previously recorded sequential navigation starting point if no element is
focused)". -/
def sequentialFocusNavigationStartingPoint (st : FocusState) (document : Nat) : Option Ref :=
  match st.focusedElement document with
  | some e => some e
  | none => st.startingPoint document

/-- `adjustToElement(node, type)`. -/
def adjustToElement (node : Option Node) (type : WebFocusType) : Option Ref :=
  match node with
  | none => none
  | some (.element e) => some e
  | some (.other previous next) =>
    match type with
    | .Forward => previous
    | .Backward => next

/-- The blur of the old frame in `setFocusedFrame`. -/
def blurOldFrame (page : Page) (oldFrame : Option Nat) : List Effect :=
  match oldFrame with
  | some f =>
    if (page.frame f).hasView then [.selectionSetFocused f false, .windowBlur f] else []
  | none => []

/-- The focus of the new frame in `setFocusedFrame`. -/
def focusNewFrame (page : Page) (newFrame : Option Nat) (isFocused : Bool) : List Effect :=
  match newFrame with
  | some f =>
    if (page.frame f).hasView && isFocused then [.selectionSetFocused f true, .windowFocus f]
    else []
  | none => []

/-- The notification of the embedder at the end of `setFocusedFrame`. -/
def notifyFrameFocused (page : Page) (focusedFrame : Option Nat) (notifyEmbedder : Bool) :
    List Effect :=
  match focusedFrame with
  | some f => if (page.frame f).hasClient && notifyEmbedder then [.frameFocused f] else []
  | none => []

/-- `FocusController::setFocusedFrame(frame, notifyEmbedder)`. -/
def setFocusedFrame (page : Page) (st : FocusState) (frame : Option Nat)
    (notifyEmbedder : Bool) : FocusState :=
  if decide (st.focusedFrame = frame) || (st.isChangingFocusedFrame && frame.isSome) then st
  else
    let oldFrame := st.focusedFrame.filter (fun f => (page.frame f).isLocalFrame)
    let newFrame := frame.filter (fun f => (page.frame f).isLocalFrame)
    let st1 := { st with isChangingFocusedFrame := true, focusedFrame := frame }
    let st2 := st1.dispatch (blurOldFrame page oldFrame)
    let st3 := st2.dispatch (focusNewFrame page newFrame st2.isFocused)
    let st4 := { st3 with isChangingFocusedFrame := false }
    st4.dispatch (notifyFrameFocused page st4.focusedFrame notifyEmbedder)

/-- `FocusController::focusedFrame()`: the focused frame when it is local. -/
def focusedLocalFrame (page : Page) (st : FocusState) : Option Nat :=
  match st.focusedFrame with
  | some f => if !(page.frame f).isLocalFrame then none else some f
  | none => none

/-- `FocusController::focusedOrMainFrame()`. -/
def focusedOrMainFrame (page : Page) (st : FocusState) : Nat :=
  match focusedLocalFrame page st with
  | some f => f
  | none =>
    match page.frameTree.find? (fun f => (page.frame f).isLocalRoot) with
    | some f => f
    | none => page.mainFrame

/-- Value of `owner->contentFrame()` as a frame id. -/
def contentFrameOf (page : Page) (owner : Ref) : Option Nat :=
  match (elementAt page.dom owner).bind (fun x => x.contentFrame) with
  | some (.localFrame document) => some (page.localFrameOf document)
  | some .remoteFrame => some (page.remoteFrameOf owner)
  | none => none

/-- The start of the search of `advanceFocusInDocumentOrder`: the variable
`current` when the resolver is called. -/
def navigationStart (page : Page) (st : FocusState) (frame : Nat) (start : Option Ref)
    (type : WebFocusType) (initialFocus : Bool) : Option Ref :=
  let document := (page.frame frame).document
  let current :=
    if start.isNone && !initialFocus then sequentialFocusNavigationStartingPoint st document
    else start
  if (page.frame frame).caretBrowsingEnabled && current.isNone then
    adjustToElement (page.frame frame).selectionAnchor type
  else current

/-- The call of `findFocusableElementAcrossFocusScopes` in
`advanceFocusInDocumentOrder`: in the tree scope of `current`, or in the
document when `current` is null. -/
def resolveCandidate (page : Page) (type : WebFocusType) (fuel : Nat) (document : Nat)
    (current : Option Ref) : Option (Option Ref) :=
  match current with
  | some c => findFocusableElementAcrossFocusScopes page.dom type fuel c.scope (some c.pos)
  | none => findFocusableElementAcrossFocusScopes page.dom type fuel document none

/-- The search that wraps the focus in `advanceFocusInDocumentOrder`: from null
in the document of the main frame, then down into frame documents. -/
def wrapSearch (page : Page) (type : WebFocusType) (fuel : Nat) : Option (Option Ref) :=
  match findFocusableElementRecursively page.dom type fuel
      (page.frame page.mainFrame).document none with
  | none => none
  | some element =>
    findFocusableElementDescendingDownIntoFrameDocument page.dom type fuel element

/-- Where the first part of `advanceFocusInDocumentOrder` ends: with a return
value, or with an element to focus. -/
inductive Candidate where
  | done (result : Bool) (state : FocusState)
  | found (element : Ref)

/-- The first part of `advanceFocusInDocumentOrder`, up to `ASSERT(element)`. -/
def findCandidate (page : Page) (st : FocusState) (frame : Nat) (start : Option Ref)
    (type : WebFocusType) (initialFocus : Bool) (fuel : Nat) : Option Candidate :=
  let document := (page.frame frame).document
  let current := navigationStart page st frame start type initialFocus
  match resolveCandidate page type fuel document current with
  | none => none
  | some (some element) => some (.found element)
  | some none =>
    if decide ((page.frame frame).localFrameRoot ≠ (page.frame frame).treeTop) then
      let st1 := clearFocusedElement st document
      let st2 := setSequentialFocusNavigationStartingPoint st1 document none
      some (.done true
        (st2.dispatch [.remoteAdvanceFocus type (page.frame frame).localFrameRoot]))
    else if !initialFocus && page.canTakeFocus type then
      let st1 := clearFocusedElement st document
      let st2 := setSequentialFocusNavigationStartingPoint st1 document none
      let st3 := setFocusedFrame page st2 none page.notifyEmbedderDefault
      some (.done true (st3.dispatch [.takeFocus type]))
    else
      match wrapSearch page type fuel with
      | none => none
      | some none => some (.done false st)
      | some (some element) => some (.found element)

/-- Whether the element is handled as a frame owner by
`advanceFocusInDocumentOrder`: a frame owner element that is not a
keyboard-focusable plug-in element. -/
def focusesFrame (page : Page) (element : Ref) : Bool :=
  match elementAt page.dom element with
  | some x =>
    x.isFrameOwnerElement && (!page.isHTMLPlugInElement element || !x.isKeyboardFocusable)
  | none => false

/-- The second part of `advanceFocusInDocumentOrder`, from `ASSERT(element)` on. -/
def focusCandidate (page : Page) (st : FocusState) (frame : Nat) (type : WebFocusType)
    (element : Ref) : Bool × FocusState :=
  let document := (page.frame frame).document
  if decide (st.focusedElement document = some element) then (true, st)
  else if focusesFrame page element then
    match contentFrameOf page element with
    | none => (false, st)
    | some contentFrame =>
      let st1 := clearFocusedElement st document
      let st2 := setFocusedFrame page st1 (some contentFrame) page.notifyEmbedderDefault
      if !(page.frame contentFrame).isLocalFrame then
        (true, st2.dispatch [.remoteAdvanceFocus type frame])
      else (true, st2)
  else
    let newDocument := page.documentOf element.scope
    let st1 := if decide (newDocument ≠ document) then clearFocusedElement st document else st
    let st2 := setFocusedFrame page st1 (page.documentFrame newDocument)
      page.notifyEmbedderDefault
    let st3 :=
      if (page.frame frame).caretBrowsingEnabled then st2.dispatch [.setSelection frame element]
      else st2
    (true, st3.dispatch [.focus element type])

/-- `FocusController::advanceFocusInDocumentOrder`. -/
def advanceFocusInDocumentOrder (page : Page) (st : FocusState) (frame : Nat)
    (start : Option Ref) (type : WebFocusType) (initialFocus : Bool) (fuel : Nat) :
    Option (Bool × FocusState) :=
  match findCandidate page st frame start type initialFocus fuel with
  | none => none
  | some (.done result state) => some (result, state)
  | some (.found element) => some (focusCandidate page st frame type element)

/-- `FocusController::advanceFocus(type, initialFocus)` for the two sequential
focus types. -/
def advanceFocus (page : Page) (st : FocusState) (type : WebFocusType) (initialFocus : Bool)
    (fuel : Nat) : Option (Bool × FocusState) :=
  advanceFocusInDocumentOrder page st (focusedOrMainFrame page st) none type initialFocus fuel

/-- `relinquishesEditingFocus(element)`. -/
def relinquishesEditingFocus (page : Page) (element : Ref) : Bool :=
  (page.documentFrame (page.documentOf element.scope)).isSome &&
    page.hasRootEditableElement element

/-- `clearSelectionIfNeeded(oldFocusedFrame, newFocusedFrame, newFocusedElement)`. -/
def clearSelectionIfNeeded (page : Page) (st : FocusState) (oldFocusedFrame : Option Nat)
    (newFocusedFrame : Option Nat) (newFocusedElement : Option Ref) : FocusState :=
  match oldFocusedFrame, newFocusedFrame with
  | some oldFrame, some newFrame =>
    if decide ((page.frame oldFrame).document ≠ (page.frame newFrame).document) then st
    else if (page.frame oldFrame).selectionIsNone then st
    else if (page.frame oldFrame).caretBrowsingEnabled then st
    else if page.selectionStartsIn oldFrame newFocusedElement then st
    else if !(page.frame oldFrame).selectionInTextFormControl then st
    else if page.selectionShadowHostIs oldFrame newFocusedElement then st
    else st.dispatch [.selectionClear oldFrame]
  | _, _ => st

/-- Modelled from the spec: `Document::setFocusedElement(element, params)`,
which is not part of the sources: the document commits the element as focused,
or refuses and reports the failure. -/
def documentSetFocusedElement (page : Page) (st : FocusState) (document : Nat)
    (element : Option Ref) : Bool × FocusState :=
  let st1 := st.dispatch [.setFocusedElement document element]
  if page.acceptsFocus document element then
    (true, { st1 with
      focusedElement := fun d => if d = document then element else st1.focusedElement d })
  else (false, st1)

/-- `FocusController::setFocusedElement(element, newFocusedFrame, params)`. -/
def setFocusedElement (page : Page) (st : FocusState) (element : Option Ref)
    (newFocusedFrame : Option Nat) : Bool × FocusState :=
  let oldFocusedFrame := focusedLocalFrame page st
  let oldDocument := oldFocusedFrame.map (fun f => (page.frame f).document)
  let oldFocusedElement := oldDocument.bind st.focusedElement
  if element.isSome && decide (oldFocusedElement = element) then (true, st)
  else if (match oldFocusedElement with
      | some old => page.isRootEditableElement old && !relinquishesEditingFocus page old
      | none => false) then (false, st)
  else
    let st1 := st.dispatch [.willSetInputMethodState]
    let newFrameIsLocal :=
      match newFocusedFrame with
      | some f => (page.frame f).isLocalFrame
      | none => false
    let newDocument : Option Nat :=
      match element with
      | some e => some (page.documentOf e.scope)
      | none =>
        match newFocusedFrame with
        | some f => if (page.frame f).isLocalFrame then some (page.frame f).document else none
        | none => none
    if newDocument.isSome && decide (oldDocument = newDocument) &&
        decide (newDocument.bind st1.focusedElement = element) then (true, st1)
    else
      let st2 :=
        if newFrameIsLocal then
          clearSelectionIfNeeded page st1 oldFocusedFrame newFocusedFrame element
        else st1
      let st3 :=
        match oldDocument with
        | some d => if decide (oldDocument ≠ newDocument) then clearFocusedElement st2 d else st2
        | none => st2
      let newFrameHasNoPage :=
        match newFocusedFrame with
        | some f => !(page.frame f).hasPage
        | none => false
      if newFrameHasNoPage then
        (false, setFocusedFrame page st3 none page.notifyEmbedderDefault)
      else
        let st4 := setFocusedFrame page st3 newFocusedFrame page.notifyEmbedderDefault
        match newDocument with
        | some d => documentSetFocusedElement page st4 d element
        | none => (true, st4)

/-- The calls made between the state `st` and the later state `st'`. -/
def dispatchedSince (st st' : FocusState) : List Effect :=
  st'.effects.drop st.effects.length

/-- With enough fuel the computation `f` returns `r`. -/
def ReturnsResult {α : Type} (f : Nat → Option α) (r : α) : Prop :=
  ∃ fuel, ∀ n, fuel ≤ n → f n = some r

/-- The hand-off to the embedder in `advanceFocusInDocumentOrder`. -/
def handOff (page : Page) (st : FocusState) (document : Nat) (type : WebFocusType) :
    FocusState :=
  (setFocusedFrame page
    (setSequentialFocusNavigationStartingPoint (clearFocusedElement st document) document none)
    none page.notifyEmbedderDefault).dispatch [.takeFocus type]

/-- What a call of `advanceFocus` shows: the return value, the focused frame,
the focused element of document 0 and the calls made. -/
def observe (r : Option (Bool × FocusState)) :
    Option (Bool × Option Nat × Option Ref × List Effect) :=
  r.map (fun p => (p.1, p.2.focusedFrame, p.2.focusedElement 0, p.2.effects))

/-! ## Directional navigation -/

/-- The four directional values of `WebFocusType`. -/
inductive Direction where
  | Left
  | Right
  | Up
  | Down

/-- Modelled from the spec: `LayoutRect`, whose declaration is not part of the
sources: the position and the size of a rectangle, in layout units. -/
structure LayoutRect where
  x : Int
  y : Int
  width : Int
  height : Int
deriving DecidableEq

/-- Modelled from the spec: `LayoutRect::isEmpty()`, which is not part of the
sources: a rectangle without area. -/
def LayoutRect.isEmpty (r : LayoutRect) : Bool :=
  decide (r.width ≤ 0) || decide (r.height ≤ 0)

/-- Modelled from the spec: `intersection(a, b)` of two rectangles, which is not
part of the sources: their common part, the zero rectangle when they do not
overlap. -/
def intersection (a b : LayoutRect) : LayoutRect :=
  let left := max a.x b.x
  let top := max a.y b.y
  let right := min (a.x + a.width) (b.x + b.width)
  let bottom := min (a.y + a.height) (b.y + b.height)
  if decide (left ≥ right) || decide (top ≥ bottom) then ⟨0, 0, 0, 0⟩
  else ⟨left, top, right - left, bottom - top⟩

/-- Modelled from the spec: the midpoint coordinate `start + extent / 2` in
layout units, as an integer coordinate of `IntPoint`; the arithmetic of
`LayoutUnit`, 64 units to the pixel with truncating division, is not part of the
sources. -/
def midpoint (start extent : Int) : Int :=
  (start + extent.tdiv 2).tdiv 64

/-- The fields of `FocusCandidate` that `updateFocusCandidateIfNeeded` reads;
nodes are given by an id. -/
structure FocusCandidate where
  visibleNode : Option Nat := none
  focusableNode : Option Nat := none
  distance : Int := 0
  rect : LayoutRect := ⟨0, 0, 0, 0⟩
  isOffscreen : Bool := false
  isOffscreenAfterScrolling : Bool := false
  /-- Whether `frameOwnerElement(candidate)` is not null. -/
  isFrameOwner : Bool := false
  /-- Whether `frameOwnerElement(candidate)->contentFrame()` is not null. -/
  hasContentFrame : Bool := false
deriving DecidableEq

/-- `FocusCandidate::isNull()`: the candidate has no visible node. -/
def FocusCandidate.isNull (c : FocusCandidate) : Bool :=
  c.visibleNode.isNone

/-- The helpers of spatial navigation that `updateFocusCandidateIfNeeded`
calls and that are not part of the sources, and the hit test of the main frame. -/
structure SpatialNavigation where
  canBeScrolledIntoView : Direction → FocusCandidate → Bool
  /-- The candidate after `distanceDataForNode(type, current, candidate)`. -/
  distanceDataForNode : Direction → FocusCandidate → FocusCandidate → FocusCandidate
  maxDistance : Int
  areElementsOnSameLine : FocusCandidate → FocusCandidate → Bool
  /-- Whether the main frame of the page is a local frame. -/
  mainFrameIsLocal : Bool
  /-- The inner node of `hitTestResultAtPoint(IntPoint(x, y), ...)`. -/
  hitTest : Int → Int → Option Nat
  /-- Value of `node->contains(other)`. -/
  contains : Nat → Option Nat → Bool

/-- Value of `candidate.visibleNode->contains(node)`. -/
def visibleNodeContains (env : SpatialNavigation) (c : FocusCandidate) (node : Option Nat) :
    Bool :=
  match c.visibleNode with
  | some v => env.contains v node
  | none => false

/-- The inner node of the hit test at the midpoint of a rectangle. -/
def hitTestAtMidpoint (env : SpatialNavigation) (r : LayoutRect) : Option Nat :=
  env.hitTest (midpoint r.x r.width) (midpoint r.y r.height)

/-- Whether `updateFocusCandidateIfNeeded` gets past its early returns with the
candidate: it is no frame owner without content, not off screen for good, and
it has a distance. -/
def acceptsCandidate (env : SpatialNavigation) (type : Direction)
    (current candidate : FocusCandidate) : Bool :=
  !(candidate.isFrameOwner && (!candidate.hasContentFrame || candidate.rect.isEmpty)) &&
  !(candidate.isOffscreen && !env.canBeScrolledIntoView type candidate) &&
  !decide ((env.distanceDataForNode type current candidate).distance = env.maxDistance) &&
  !(env.distanceDataForNode type current candidate).isOffscreenAfterScrolling

/-- `updateFocusCandidateIfNeeded(type, current, candidate, closest)`: the value
of `closest` after the call. -/
def updateFocusCandidateIfNeeded (env : SpatialNavigation) (type : Direction)
    (current candidate closest : FocusCandidate) : FocusCandidate :=
  if candidate.isFrameOwner && (!candidate.hasContentFrame || candidate.rect.isEmpty) then
    closest
  else if candidate.isOffscreen && !env.canBeScrolledIntoView type candidate then closest
  else
    let candidate := env.distanceDataForNode type current candidate
    if decide (candidate.distance = env.maxDistance) then closest
    else if candidate.isOffscreenAfterScrolling then closest
    else if closest.isNull then candidate
    else
      let intersectionRect := intersection candidate.rect closest.rect
      let byDistance := if decide (candidate.distance < closest.distance) then candidate
        else closest
      if !intersectionRect.isEmpty && !env.areElementsOnSameLine closest candidate
          && decide (intersectionRect = candidate.rect) then
        if !env.mainFrameIsLocal then closest
        else
          let result := hitTestAtMidpoint env intersectionRect
          if visibleNodeContains env candidate result then candidate
          else if visibleNodeContains env closest result then closest
          else byDistance
      else byDistance

/-! ## Example scopes -/

/-- A keyboard-focusable element with the given tab index and no shadow tree. -/
def focusable (n : Int) (lo : -32768 ≤ n) (hi : n ≤ 32767) : Element :=
  { tabIndex := ⟨n, lo, hi⟩, isKeyboardFocusable := true }

/-- A start of tab index 3 followed by A and B, both of tab index 5. -/
def scopeTie : List Element :=
  [focusable 3 (by decide) (by decide), focusable 5 (by decide) (by decide),
   focusable 5 (by decide) (by decide)]

/-- One element with the largest tab index of a `short`. -/
def scopeMax : List Element := [focusable 32767 (by decide) (by decide)]

/-- A positive tab index followed by the last element of tab index 0. -/
def scopeEndsInZero : List Element :=
  [focusable 5 (by decide) (by decide), focusable 0 (by decide) (by decide)]

/-- Tab indices 0, 2, 1, 0, 2 in document order. -/
def scopeMixed : List Element :=
  [focusable 0 (by decide) (by decide), focusable 2 (by decide) (by decide),
   focusable 1 (by decide) (by decide), focusable 0 (by decide) (by decide),
   focusable 2 (by decide) (by decide)]

/-- Tab indices 0, -1, 5, 0 in document order. -/
def scopeNegativeStart : List Element :=
  [focusable 0 (by decide) (by decide), focusable (-1) (by decide) (by decide),
   focusable 5 (by decide) (by decide), focusable 0 (by decide) (by decide)]

/-- Two positive tab indices, nothing at 0 or below. -/
def scopePositiveOnly : List Element :=
  [focusable 1 (by decide) (by decide), focusable 2 (by decide) (by decide)]

/-- A shadow host of tab index -1 that is not keyboard-focusable; its shadow
root is tree scope 1. -/
def hostNotFocusable : Element :=
  { tabIndex := ⟨-1, by decide, by decide⟩, isKeyboardFocusable := false,
    youngestShadowRoot := some 1 }

/-- The document `[Host, B]` with the shadow tree `[A]` of `Host`. -/
def domHostThenB : Dom where
  scope := fun i =>
    match i with
    | 0 => { elements := [hostNotFocusable, focusable 0 (by decide) (by decide)] }
    | 1 => { elements := [focusable 0 (by decide) (by decide)], owner := some ⟨0, 0⟩ }
    | _ => { elements := [] }


/-- A keyboard-focusable shadow host of tab index 0 that delegates focus; its
shadow root is tree scope 1. -/
def hostDelegating : Element :=
  { tabIndex := ⟨0, by decide, by decide⟩, isKeyboardFocusable := true,
    youngestShadowRoot := some 1, delegatesFocus := true }

/-- The document `[Host, D]`, the shadow tree of the delegating `Host` being `[C]`. -/
def domDelegating : Dom where
  scope := fun i =>
    match i with
    | 0 => { elements := [hostDelegating, focusable 0 (by decide) (by decide)] }
    | 1 => { elements := [focusable 0 (by decide) (by decide)], owner := some ⟨0, 0⟩ }
    | _ => { elements := [] }

/-- The document `[Host, D]`, the shadow tree of the delegating `Host` being empty. -/
def domDelegatingEmpty : Dom where
  scope := fun i =>
    match i with
    | 0 => { elements := [hostDelegating, focusable 0 (by decide) (by decide)] }
    | 1 => { elements := [], owner := some ⟨0, 0⟩ }
    | _ => { elements := [] }

/-- An element of tab index 0 that is not keyboard-focusable. -/
def notFocusable : Element :=
  { tabIndex := ⟨0, by decide, by decide⟩, isKeyboardFocusable := false }

/-- The document `[A, E, F]`: `A` and `F` keyboard-focusable, `E` not. -/
def domNotFocusableStart : Dom where
  scope := fun i =>
    match i with
    | 0 => { elements := [focusable 0 (by decide) (by decide), notFocusable,
        focusable 0 (by decide) (by decide)] }
    | _ => { elements := [] }

/-- The document of the tab indices 0, 2, 1, 0, 2. -/
def domMixed : Dom where
  scope := fun i =>
    match i with
    | 0 => { elements := scopeMixed }
    | _ => { elements := [] }

/-- A keyboard-focusable frame owner element of tab index 0 whose content frame
is local, with the document of tree scope 2. -/
def frameOwnerLocal : Element :=
  { tabIndex := ⟨0, by decide, by decide⟩, isKeyboardFocusable := true,
    isFrameOwnerElement := true, contentFrame := some (.localFrame 2) }

/-- The document `[Host, Frame, B]`: the shadow tree of `Host` is the tree
scope 1, `[A]`, and the document of the frame behind `Frame` is the tree scope
2, `[C]`. -/
def domNested : Dom where
  scope := fun i =>
    match i with
    | 0 => { elements := [hostNotFocusable, frameOwnerLocal,
        focusable 0 (by decide) (by decide)] }
    | 1 => { elements := [focusable 0 (by decide) (by decide)], owner := some ⟨0, 0⟩ }
    | 2 => { elements := [focusable 0 (by decide) (by decide)], owner := some ⟨0, 1⟩ }
    | _ => { elements := [] }

/-- The nesting rank of the tree scopes of `domNested`: 1 for the document, 0
for the scopes nested in it. -/
def domNestedRank (i : Nat) : Nat := if i = 0 then 1 else 0

/-- The nesting level of the tree scopes of `domNested`: 0 for the document. -/
def domNestedLevel (i : Nat) : Nat := if i = 0 then 0 else 1

/-- A page of local frames, each with a view and a client; the document of
frame `f` is the tree scope `f`. -/
def pageOfLocalFrames : Page where
  dom := domNested
  frame := fun f => { document := f }
  documentFrame := fun d => some d

/-- The controller while it changes the focused frame away from frame 1:
`m_isChangingFocusedFrame` is set. -/
def stateInTransition : FocusState :=
  { focusedFrame := some 1, isFocused := true, isChangingFocusedFrame := true }

/-- The controller of a page without focus whose focused frame is frame 1. -/
def stateUnfocusedPage : FocusState :=
  { focusedFrame := some 1, isFocused := false }

/-- A page whose document holds one root editable element that is focused. -/
def pageEditable : Page where
  dom := domMixed
  frame := fun _ => { document := 0 }
  isRootEditableElement := fun e => decide (e = ⟨0, 0⟩)

/-- The controller of `pageEditable`: frame 0 is focused and the first element
of its document is the focused element. -/
def stateEditing : FocusState :=
  { focusedFrame := some 0, isFocused := true,
    focusedElement := fun d => if d = 0 then some ⟨0, 0⟩ else none }

/-- A tree of empty documents. -/
def domEmpty : Dom where
  scope := fun _ => { elements := [] }

/-- A page with an empty document whose embedder can take the focus. -/
def pageEmptyDocument : Page where
  dom := domEmpty
  frame := fun _ => { document := 0 }
  canTakeFocus := fun _ => true

/-- A keyboard-focusable frame owner element of tab index 0 without a content
frame. -/
def frameOwnerEmpty : Element :=
  { tabIndex := ⟨0, by decide, by decide⟩, isKeyboardFocusable := true,
    isFrameOwnerElement := true }

/-- A keyboard-focusable frame owner element of tab index 0 whose content
frame is remote. -/
def frameOwnerRemote : Element :=
  { tabIndex := ⟨0, by decide, by decide⟩, isKeyboardFocusable := true,
    isFrameOwnerElement := true, contentFrame := some .remoteFrame }

/-- A page whose document holds one frame owner element without a content
frame; the embedder does not take the focus. -/
def pageFrameOwnerEmpty : Page where
  dom := { scope := fun i =>
    match i with
    | 0 => { elements := [frameOwnerEmpty] }
    | _ => { elements := [] } }
  frame := fun _ => { document := 0 }

/-- A page whose document holds one frame owner element; its content frame is
the remote frame 7. -/
def pageFrameOwnerRemote : Page where
  dom := { scope := fun i =>
    match i with
    | 0 => { elements := [frameOwnerRemote] }
    | _ => { elements := [] } }
  frame := fun f => if f = 7 then { isLocalFrame := false } else { document := 0 }
  remoteFrameOf := fun _ => 7

/-- The navigation starting point of document 0 is its first element; no
element is focused. -/
def stateStartingPoint : FocusState :=
  { focusedFrame := some 0, isFocused := true,
    startingPoint := fun d => if d = 0 then some ⟨0, 0⟩ else none }

/-- The first element of document 0 is focused. -/
def stateFirstFocused : FocusState :=
  { focusedFrame := some 0, isFocused := true,
    focusedElement := fun d => if d = 0 then some ⟨0, 0⟩ else none }

/-- The controller of frame 0 while it changes the focused frame. -/
def stateChanging : FocusState :=
  { focusedFrame := some 0, isFocused := true, isChangingFocusedFrame := true }

/-- The controller of frame 0; nothing is focused in its document. -/
def stateFrameFocused : FocusState :=
  { focusedFrame := some 0, isFocused := true }

/-- A candidate at the top left, farther away than the closest one. -/
def candidateTopLeft : FocusCandidate :=
  { visibleNode := some 1, focusableNode := some 1, distance := 10, rect := ⟨0, 0, 640, 640⟩ }

/-- The closest candidate so far; its rectangle overlaps a corner of
`candidateTopLeft`. -/
def closestOverlapping : FocusCandidate :=
  { visibleNode := some 2, focusableNode := some 2, distance := 5,
    rect := ⟨320, 320, 640, 640⟩ }

/-- A candidate inside the rectangle of `closestOverlapping`, farther away. -/
def candidateInside : FocusCandidate :=
  { visibleNode := some 1, focusableNode := some 1, distance := 10,
    rect := ⟨384, 384, 128, 128⟩ }

/-- Spatial navigation in which every hit test finds node 1 and a node
contains itself only. -/
def hitTestFindsFirst : SpatialNavigation where
  canBeScrolledIntoView := fun _ _ => true
  distanceDataForNode := fun _ _ c => c
  maxDistance := 1000000
  areElementsOnSameLine := fun _ _ => false
  mainFrameIsLocal := true
  hitTest := fun _ _ => some 1
  contains := fun v node => decide (node = some v)

/-- As `hitTestFindsFirst`, with all candidates on the same line. -/
def hitTestSameLine : SpatialNavigation :=
  { hitTestFindsFirst with areElementsOnSameLine := fun _ _ => true }

/-- As `hitTestFindsFirst`, with a remote main frame. -/
def hitTestRemoteMainFrame : SpatialNavigation :=
  { hitTestFindsFirst with mainFrameIsLocal := false }

/-- One element of tab index 32767 followed by one of tab index 0. -/
def scopeMaxThenZero : List Element :=
  [focusable 32767 (by decide) (by decide), focusable 0 (by decide) (by decide)]

/-- Two keyboard-focusable elements outside the tabbing cycle, of tab index -1
and -2. -/
def scopeNegativeOnly : List Element :=
  [focusable (-1) (by decide) (by decide), focusable (-2) (by decide) (by decide)]

/-- A page whose document holds the tab indices 0, 2, 1, 0, 2; the embedder
does not take the focus. -/
def pageMixed : Page where
  dom := domMixed
  frame := fun _ => { document := 0 }

/-- As `pageMixed`, with an embedder that can take the focus. -/
def pageMixedHost : Page :=
  { pageMixed with canTakeFocus := fun _ => true }

/-- The controller of frame 0 whose document has its fourth element focused,
the last one of the tabbing order of `scopeMixed`. -/
def stateLastFocused : FocusState :=
  { focusedFrame := some 0, isFocused := true,
    focusedElement := fun d => if d = 0 then some ⟨0, 3⟩ else none }

end FocusController

/-!
# Image bitmaps (`core/frame/ImageBitmap.cpp`)

A shallow embedding of `normalizeRect`, of `swizzleImageData` and of the path of
the constructor `ImageBitmap(ImageData*, cropRect, options)` for images that are
not premultiplied.

* An `int` is an `Int`; the arithmetic of the code goes through `toInt32`, the
  32-bit two's complement value of the exact result.
* A pixel buffer (`unsigned char*`) is a function from positions to bytes; a
  position outside the allocated part is a position like any other, and the
  positions that the copy loops of the constructor write and read are recorded
  in the `accesses` of the `CopyState`.
* A loop `for (int k = 0; k < n; k++)` is `forRange n`; a loop that advances by
  four has `strideCount` turns.
-/

namespace ImageBitmap

/-- The value of an `int` expression whose exact value is `n`: its 32-bit two's
complement representative. -/
def toInt32 (n : Int) : Int :=
  (n + 2147483648) % 4294967296 - 2147483648

/-- The values of type `int`. -/
def InInt32 (n : Int) : Prop :=
  -2147483648 ≤ n ∧ n ≤ 2147483647

instance inInt32Decidable (n : Int) : Decidable (InInt32 n) := by
  unfold InInt32
  infer_instance

/-- The sum `a + b` of two `int`. -/
def addInt (a b : Int) : Int := toInt32 (a + b)

/-- The difference `a - b` of two `int`. -/
def subInt (a b : Int) : Int := toInt32 (a - b)

/-- The product `a * b` of two `int`. -/
def mulInt (a b : Int) : Int := toInt32 (a * b)

/-- The negation `-a` of an `int`. -/
def negInt (a : Int) : Int := toInt32 (-a)

/-- Modelled from the spec: `IntRect`, whose declaration is not part of the
sources: a rectangle given by its location and its size, four `int`. -/
structure IntRect where
  x : Int
  y : Int
  width : Int
  height : Int
deriving DecidableEq

/-- Modelled from the spec: `IntRect::maxX()`, which is not part of the sources:
`x() + width()`. -/
def IntRect.maxX (r : IntRect) : Int := addInt r.x r.width

/-- Modelled from the spec: `IntRect::maxY()`, which is not part of the sources:
`y() + height()`. -/
def IntRect.maxY (r : IntRect) : Int := addInt r.y r.height

/-- Modelled from the spec: `IntRect::isEmpty()`, which is not part of the
sources: a rectangle without area. -/
def IntRect.isEmpty (r : IntRect) : Bool :=
  decide (r.width ≤ 0) || decide (r.height ≤ 0)

/-- Modelled from the spec: `intersection(a, b)` of two `IntRect`, which is not
part of the sources: their common part, the zero rectangle when they do not
overlap. -/
def intersection (a b : IntRect) : IntRect :=
  let left := max a.x b.x
  let top := max a.y b.y
  let right := min a.maxX b.maxX
  let bottom := min a.maxY b.maxY
  if decide (left ≥ right) || decide (top ≥ bottom) then ⟨0, 0, 0, 0⟩
  else ⟨left, top, subInt right left, subInt bottom top⟩

/-- `normalizeRect(rect)`. -/
def normalizeRect (rect : IntRect) : IntRect :=
  ⟨min rect.x rect.maxX, min rect.y rect.maxY,
    max rect.width (negInt rect.width), max rect.height (negInt rect.height)⟩

/-- A rectangle of negative width and height: from (5, 7) back to (2, 3). -/
def rectBackwards : IntRect := ⟨5, 7, -3, -4⟩

/-- A pixel buffer (`unsigned char*`): the byte at each position. -/
@[reducible] def Buffer : Type := Int → Nat

/-- `std::swap(buf[p], buf[q])`. -/
def swapAt (buf : Buffer) (p q : Int) : Buffer :=
  fun k => if k = p then buf q else if k = q then buf p else buf k

/-- The loop `for (int k = 0; k < n; k++) body(k)` on a state. -/
def forRange {σ : Type} (n : Nat) (body : Int → σ → σ) (s : σ) : σ :=
  (List.range n).foldl (fun (s : σ) (k : Nat) => body (k : Int) s) s

/-- The number of turns of a loop `for (int j = 0; j < limit; j += 4)`. -/
def strideCount (limit : Int) : Nat :=
  ((limit + 3) / 4).toNat

/-- The four swaps of the inner loop of `swizzleImageData` for the pixels at
offset `j` of the two rows. -/
def swapPixelRows (buf : Buffer) (topRowStartPosition bottomRowStartPosition j : Int) :
    Buffer :=
  let b1 := swapAt buf (addInt topRowStartPosition j)
    (addInt (addInt bottomRowStartPosition j) 2)
  let b2 := swapAt b1 (addInt (addInt topRowStartPosition j) 1)
    (addInt (addInt bottomRowStartPosition j) 1)
  let b3 := swapAt b2 (addInt (addInt topRowStartPosition j) 2)
    (addInt bottomRowStartPosition j)
  swapAt b3 (addInt (addInt topRowStartPosition j) 3)
    (addInt (addInt bottomRowStartPosition j) 3)

/-- One turn of the outer loop of `swizzleImageData` with `flipY`: the rows `i`
and `height - 1 - i` are walked pixel by pixel. -/
def swapRows (buf : Buffer) (height bytesPerRow i : Int) : Buffer :=
  let topRowStartPosition := mulInt i bytesPerRow
  let bottomRowStartPosition := mulInt (subInt (subInt height 1) i) bytesPerRow
  forRange (strideCount bytesPerRow)
    (fun k buf => swapPixelRows buf topRowStartPosition bottomRowStartPosition (4 * k)) buf

/-- `swizzleImageData(srcAddr, height, bytesPerRow, flipY)`: the buffer after
the call. -/
def swizzleImageData (srcAddr : Buffer) (height bytesPerRow : Int) (flipY : Bool) : Buffer :=
  if flipY then
    forRange (Int.tdiv height 2).toNat (fun i buf => swapRows buf height bytesPerRow i) srcAddr
  else
    forRange (strideCount (mulInt height bytesPerRow))
      (fun k buf => swapAt buf (4 * k) (addInt (4 * k) 2)) srcAddr

/-- The position whose byte lands at position `c` when the bytes 0 and 2 of
every pixel of four bytes are exchanged. -/
def exchanged (c : Int) : Int :=
  if c % 4 = 0 then c + 2 else if c % 4 = 2 then c - 2 else c

/-- Modelled from the spec: `ImageData`, whose declaration is not part of the
sources: its size (`size()`) and its pixels (`data()->data()`), four bytes
(R, G, B, A) per pixel, row after row. -/
structure ImageData where
  width : Int
  height : Int
  data : Buffer

/-- Modelled from the spec: `SkImageInfo::bytesPerPixel()`, which is not part of
the sources, for the colour type `kBGRA_8888_SkColorType` of `info`: four bytes,
the pixel size that the tests `j % 4` of the copy loop go by. -/
def bytesPerPixel : Int := 4

/-- The state of the copy loops of the constructor: the buffer
`copiedDataBuffer` and, in the order of the program, the pairs of the position
written in `copiedDataBuffer` and the position read in `srcAddr`. -/
structure CopyState where
  copiedDataBuffer : Buffer
  accesses : List (Int × Int)

/-- The body of the inner copy loop of the constructor: the byte `j` of the
row. -/
def copyByte (srcAddr : Buffer) (srcStartCopyPosition dstStartCopyPosition j : Int)
    (st : CopyState) : CopyState :=
  let src :=
    if Int.tmod j 4 = 0 then addInt (addInt srcStartCopyPosition j) 2
    else if Int.tmod j 4 = 2 then subInt (addInt srcStartCopyPosition j) 2
    else addInt srcStartCopyPosition j
  let dst := addInt dstStartCopyPosition j
  ⟨Function.update st.copiedDataBuffer dst (srcAddr src), st.accesses ++ [(dst, src)]⟩

/-- The body of the outer copy loop of the constructor: the row `i` of the part
to copy. -/
def copyRow (srcAddr : Buffer) (srcPixelBytesPerRow dstPixelBytesPerRow dstHeight : Int)
    (srcPoint dstPoint : Int × Int) (copyWidth : Int) (flipY : Bool) (i : Int)
    (st : CopyState) : CopyState :=
  let srcStartCopyPosition :=
    addInt (mulInt (addInt i srcPoint.2) srcPixelBytesPerRow) (mulInt srcPoint.1 bytesPerPixel)
  let srcEndCopyPosition := addInt srcStartCopyPosition (mulInt copyWidth bytesPerPixel)
  let dstStartCopyPosition :=
    if flipY then
      addInt (mulInt (subInt (subInt (subInt dstHeight 1) dstPoint.2) i) dstPixelBytesPerRow)
        (mulInt dstPoint.1 bytesPerPixel)
    else
      addInt (mulInt (addInt dstPoint.2 i) dstPixelBytesPerRow) (mulInt dstPoint.1 bytesPerPixel)
  forRange (subInt srcEndCopyPosition srcStartCopyPosition).toNat
    (fun j st => copyByte srcAddr srcStartCopyPosition dstStartCopyPosition j st) st

/-- The number of bytes of `copiedDataBuffer`,
`dstHeight * dstPixelBytesPerRow`. -/
def copiedDataBufferLength (cropRect : IntRect) : Int :=
  mulInt cropRect.height (mulInt bytesPerPixel cropRect.width)

/-- The copy loops of the constructor, entered when `srcRect` is not empty:
`copiedDataBuffer`, all zero at first, receives the part of the `ImageData`
inside `cropRect`. -/
def copyCroppedData (data : ImageData) (cropRect : IntRect) (flipY : Bool) : CopyState :=
  let srcAddr := data.data
  let srcHeight := data.height
  let dstHeight := cropRect.height
  let srcPixelBytesPerRow := mulInt bytesPerPixel data.width
  let dstPixelBytesPerRow := mulInt bytesPerPixel cropRect.width
  let srcPoint : Int × Int :=
    (if cropRect.x > 0 then cropRect.x else 0, if cropRect.y > 0 then cropRect.y else 0)
  let dstPoint : Int × Int :=
    (if cropRect.x ≥ 0 then 0 else negInt cropRect.x,
      if cropRect.y ≥ 0 then 0 else negInt cropRect.y)
  let copyHeight :=
    if cropRect.height < subInt srcHeight srcPoint.2 then cropRect.height
    else subInt srcHeight srcPoint.2
  let copyWidth :=
    if cropRect.width < subInt data.width srcPoint.1 then cropRect.width
    else subInt data.width srcPoint.1
  forRange copyHeight.toNat
    (fun i st => copyRow srcAddr srcPixelBytesPerRow dstPixelBytesPerRow dstHeight srcPoint
      dstPoint copyWidth flipY i st)
    ⟨fun _ => 0, []⟩

/-- What the constructor leaves behind: the pixels of the image `m_image` (the
buffer handed to `SkImage::NewRasterCopy` or to `newSkImageFromRaster`, as it is
at that moment), the buffer of the `ImageData` after the call, and the accesses
of the copy loops. -/
structure Constructed where
  imagePixels : Buffer
  data : Buffer
  accesses : List (Int × Int)

/-- The constructor `ImageBitmap(ImageData* data, const IntRect& cropRect,
const ImageBitmapOptions& options)` for an image that is not premultiplied
(`m_isPremultiplied` is false); `flipY` is what `parseOptions` reads in the
options. -/
def constructFromImageData (data : ImageData) (cropRect : IntRect) (flipY : Bool) :
    Constructed :=
  let srcRect := intersection cropRect ⟨0, 0, data.width, data.height⟩
  let srcHeight := data.height
  let srcPixelBytesPerRow := mulInt bytesPerPixel data.width
  if cropRect = ⟨0, 0, data.width, data.height⟩ then
    let swizzled := swizzleImageData data.data srcHeight srcPixelBytesPerRow flipY
    ⟨swizzled, swizzleImageData swizzled srcHeight srcPixelBytesPerRow flipY, []⟩
  else if !srcRect.isEmpty then
    let st := copyCroppedData data cropRect flipY
    ⟨st.copiedDataBuffer, data.data, st.accesses⟩
  else
    ⟨fun _ => 0, data.data, []⟩

/-- The buffer that holds the bytes of the list, one after the other from
position 0, and zero elsewhere. -/
def bufferOf (bytes : List Nat) : Buffer :=
  fun p => if 0 ≤ p then bytes.getD p.toNat 0 else 0

/-- An `ImageData` of two rows of two pixels. -/
def dataTwoByTwo : ImageData :=
  ⟨2, 2, bufferOf [1, 2, 3, 4, 5, 6, 7, 8, 9, 10, 11, 12, 13, 14, 15, 16]⟩

/-- An `ImageData` of one pixel. -/
def dataOnePixel : ImageData := ⟨1, 1, bufferOf [10, 20, 30, 40]⟩

end ImageBitmap

namespace FocusController

/-! ## Lemmas on the scanning loops -/

theorem adjustedTabIndex_le (e : Element) : adjustedTabIndex e ≤ 32767 := by
  unfold adjustedTabIndex
  split
  · decide
  · exact e.tabIndex.hi

theorem scanForward_eq_some {p : Element → Bool} {l : List Element} {i r : Nat} :
    scanForward p l i = some r ↔
      ∃ k e, r = i + k ∧ l[k]? = some e ∧ p e = true ∧
        ∀ j x, j < k → l[j]? = some x → p x = false := by
  induction l generalizing i with
  | nil => simp [scanForward]
  | cons a l ih =>
    unfold scanForward
    by_cases ha : p a = true
    · simp only [ha, if_true, Option.some.injEq]
      constructor
      · intro h
        exact ⟨0, a, by omega, by simp, ha, by intro j x hj; omega⟩
      · rintro ⟨k, e, hr, hk, hp, hmin⟩
        cases k with
        | zero => omega
        | succ k =>
          have := hmin 0 a (by omega) (by simp)
          simp [ha] at this
    · simp only [ha, Bool.false_eq_true, if_false, ih]
      constructor
      · rintro ⟨k, e, hr, hk, hp, hmin⟩
        refine ⟨k + 1, e, by omega, by simpa using hk, hp, ?_⟩
        intro j x hj hx
        cases j with
        | zero => simp at hx; subst hx; simpa using ha
        | succ j => exact hmin j x (by omega) (by simpa using hx)
      · rintro ⟨k, e, hr, hk, hp, hmin⟩
        cases k with
        | zero => simp at hk; subst hk; exact absurd hp ha
        | succ k =>
          refine ⟨k, e, by omega, by simpa using hk, hp, ?_⟩
          intro j x hj hx
          exact hmin (j + 1) x (by omega) (by simpa using hx)

theorem scanForward_eq_none {p : Element → Bool} {l : List Element} {i : Nat} :
    scanForward p l i = none ↔ ∀ (k : Nat) (x : Element), l[k]? = some x → p x = false := by
  induction l generalizing i with
  | nil => simp [scanForward]
  | cons a l ih =>
    unfold scanForward
    by_cases ha : p a = true
    · simp only [ha, if_true]
      constructor
      · intro h; cases h
      · intro h
        have := h 0 a (by simp)
        simp [ha] at this
    · simp only [ha, Bool.false_eq_true, if_false, ih]
      constructor
      · intro h k x hx
        cases k with
        | zero => simp at hx; subst hx; simpa using ha
        | succ k => exact h k x (by simpa using hx)
      · intro h k x hx
        exact h (k + 1) x (by simpa using hx)

/-- Position form of `scanForward` on a suffix of the scope. -/
theorem scanForward_drop_eq_some {p : Element → Bool} {els : List Element} {s r : Nat} :
    scanForward p (els.drop s) s = some r ↔
      s ≤ r ∧ (∃ e, els[r]? = some e ∧ p e = true) ∧
        ∀ j x, s ≤ j → j < r → els[j]? = some x → p x = false := by
  rw [scanForward_eq_some]
  constructor
  · rintro ⟨k, e, hr, hk, hp, hmin⟩
    subst hr
    refine ⟨by omega, ⟨e, by simpa [List.getElem?_drop] using hk, hp⟩, ?_⟩
    intro j x hsj hjr hx
    refine hmin (j - s) x (by omega) ?_
    rw [List.getElem?_drop]
    have : s + (j - s) = j := by omega
    rw [this]; exact hx
  · rintro ⟨hsr, ⟨e, he, hp⟩, hmin⟩
    refine ⟨r - s, e, by omega, ?_, hp, ?_⟩
    · rw [List.getElem?_drop]
      have : s + (r - s) = r := by omega
      rw [this]; exact he
    · intro j x hj hx
      rw [List.getElem?_drop] at hx
      exact hmin (s + j) x (by omega) (by omega) hx

theorem scanForward_drop_eq_none {p : Element → Bool} {els : List Element} {s : Nat} :
    scanForward p (els.drop s) s = none ↔ ∀ j x, s ≤ j → els[j]? = some x → p x = false := by
  rw [scanForward_eq_none]
  constructor
  · intro h j x hsj hx
    refine h (j - s) x ?_
    rw [List.getElem?_drop]
    have : s + (j - s) = j := by omega
    rw [this]; exact hx
  · intro h k x hx
    rw [List.getElem?_drop] at hx
    exact h (s + k) x (by omega) hx

theorem scanBackward_eq_some {p : Element → Bool} {els : List Element} {s r : Nat} :
    scanBackward p els s = some r ↔
      r ≤ s ∧ (∃ e, els[r]? = some e ∧ p e = true) ∧
        ∀ j x, r < j → j ≤ s → els[j]? = some x → p x = false := by
  induction s with
  | zero =>
    unfold scanBackward
    cases h0 : els[0]? with
    | none =>
      simp only [Option.map_none', Option.getD_none, Bool.false_eq_true, if_false]
      constructor
      · intro h; cases h
      · rintro ⟨hr, ⟨e, he, _⟩, _⟩
        have : r = 0 := by omega
        subst this; rw [h0] at he; cases he
    | some a =>
      simp only [Option.map_some', Option.getD_some]
      by_cases ha : p a = true
      · simp only [ha, if_true, Option.some.injEq]
        constructor
        · intro h; subst h
          exact ⟨le_refl _, ⟨a, h0, ha⟩, by intro j x h1 h2; omega⟩
        · rintro ⟨hr, _, _⟩; omega
      · simp only [ha, Bool.false_eq_true, if_false]
        constructor
        · intro h; cases h
        · rintro ⟨hr, ⟨e, he, hp⟩, _⟩
          have : r = 0 := by omega
          subst this; rw [h0] at he; cases he; exact absurd hp ha
  | succ s ih =>
    unfold scanBackward
    by_cases hs : (els[s + 1]?.map p).getD false = true
    · simp only [hs, if_true, Option.some.injEq]
      constructor
      · intro h; subst h
        cases h1 : els[s + 1]? with
        | none => simp [h1] at hs
        | some a =>
          simp [h1] at hs
          exact ⟨le_refl _, ⟨a, rfl, hs⟩, by intro j x h1 h2; omega⟩
      · rintro ⟨hr, ⟨e, he, hp⟩, hmin⟩
        by_contra hne
        cases h1 : els[s + 1]? with
        | none => simp [h1] at hs
        | some a =>
          simp [h1] at hs
          have := hmin (s + 1) a (by omega) (le_refl _) h1
          simp [hs] at this
    · simp only [hs, Bool.false_eq_true, if_false, ih]
      constructor
      · rintro ⟨hr, he, hmin⟩
        refine ⟨by omega, he, ?_⟩
        intro j x h1 h2 hx
        by_cases hj : j = s + 1
        · subst hj
          simp [hx] at hs
          simpa using hs
        · exact hmin j x h1 (by omega) hx
      · rintro ⟨hr, ⟨e, he, hp⟩, hmin⟩
        have hrs : r ≠ s + 1 := by
          intro h; subst h
          simp [he, hp] at hs
        exact ⟨by omega, ⟨e, he, hp⟩, fun j x h1 h2 hx => hmin j x h1 (by omega) hx⟩

theorem scanBackward_eq_none {p : Element → Bool} {els : List Element} {s : Nat} :
    scanBackward p els s = none ↔ ∀ j x, j ≤ s → els[j]? = some x → p x = false := by
  induction s with
  | zero =>
    unfold scanBackward
    cases h0 : els[0]? with
    | none =>
      simp only [Option.map_none', Option.getD_none, Bool.false_eq_true, if_false, true_iff]
      intro j x hj hx
      have : j = 0 := by omega
      subst this; rw [h0] at hx; cases hx
    | some a =>
      simp only [Option.map_some', Option.getD_some]
      by_cases ha : p a = true
      · simp only [ha, if_true]
        constructor
        · intro h; cases h
        · intro h
          have := h 0 a (le_refl _) h0
          simp [ha] at this
      · simp only [ha, Bool.false_eq_true, if_false, true_iff]
        intro j x hj hx
        have : j = 0 := by omega
        subst this; rw [h0] at hx; cases hx; simpa using ha
  | succ s ih =>
    unfold scanBackward
    by_cases hs : (els[s + 1]?.map p).getD false = true
    · simp only [hs, if_true]
      constructor
      · intro h; cases h
      · intro h
        cases h1 : els[s + 1]? with
        | none => simp [h1] at hs
        | some a =>
          simp [h1] at hs
          have := h (s + 1) a (le_refl _) h1
          simp [hs] at this
    · simp only [hs, Bool.false_eq_true, if_false, ih]
      constructor
      · intro h j x hj hx
        by_cases hj2 : j = s + 1
        · subst hj2
          simp [hx] at hs
          simpa using hs
        · exact h j x (by omega) hx
      · intro h j x hj hx
        exact h j x (by omega) hx


theorem nextGreaterLoop_spec (t : Int) (l : List Element) (i : Nat) (w : Int) (win : Option Nat) :
    (nextGreaterLoop t l i w win = win ∧
      ∀ (k : Nat) (x : Element), l[k]? = some x → shouldVisit x = true → t < adjustedTabIndex x →
        w ≤ adjustedTabIndex x) ∨
    (∃ k e, nextGreaterLoop t l i w win = some (i + k) ∧ l[k]? = some e ∧ shouldVisit e = true ∧
      t < adjustedTabIndex e ∧ adjustedTabIndex e < w ∧
      (∀ (j : Nat) (x : Element), l[j]? = some x → shouldVisit x = true → t < adjustedTabIndex x →
        adjustedTabIndex e ≤ adjustedTabIndex x) ∧
      (∀ (j : Nat) (x : Element), j < k → l[j]? = some x → shouldVisit x = true →
        t < adjustedTabIndex x → adjustedTabIndex e < adjustedTabIndex x)) := by
  induction l generalizing i w win with
  | nil => left; simp [nextGreaterLoop]
  | cons a l ih =>
    unfold nextGreaterLoop
    by_cases hacc : (shouldVisit a && decide (adjustedTabIndex a > t)
        && decide (adjustedTabIndex a < w)) = true
    · simp only [hacc, if_true]
      simp only [Bool.and_eq_true, decide_eq_true_eq] at hacc
      obtain ⟨⟨hv, ht⟩, hw⟩ := hacc
      right
      rcases ih (i + 1) (adjustedTabIndex a) (some i) with ⟨hres, hall⟩ | ⟨k, e, hres, hk, hve, hte, hwe, hall, hbefore⟩
      · refine ⟨0, a, by simpa using hres, by simp, hv, ht, hw, ?_, by intro j x hj; omega⟩
        intro j x hx hvx htx
        cases j with
        | zero => simp at hx; subst hx; exact le_refl _
        | succ j => exact hall j x (by simpa using hx) hvx htx
      · refine ⟨k + 1, e, ?_, by simpa using hk, hve, hte, by omega, ?_, ?_⟩
        · rw [hres]; congr 1; omega
        · intro j x hx hvx htx
          cases j with
          | zero => simp at hx; subst hx; omega
          | succ j => exact hall j x (by simpa using hx) hvx htx
        · intro j x hj hx hvx htx
          cases j with
          | zero => simp at hx; subst hx; omega
          | succ j => exact hbefore j x (by omega) (by simpa using hx) hvx htx
    · simp only [hacc, Bool.false_eq_true, if_false]
      have hrej : shouldVisit a = true → t < adjustedTabIndex a → w ≤ adjustedTabIndex a := by
        intro hv ht
        by_contra hlt
        apply hacc
        simp only [Bool.and_eq_true, decide_eq_true_eq]
        exact ⟨⟨hv, ht⟩, by omega⟩
      rcases ih (i + 1) w win with ⟨hres, hall⟩ | ⟨k, e, hres, hk, hve, hte, hwe, hall, hbefore⟩
      · left
        refine ⟨hres, ?_⟩
        intro j x hx hvx htx
        cases j with
        | zero => simp at hx; subst hx; exact hrej hvx htx
        | succ j => exact hall j x (by simpa using hx) hvx htx
      · right
        refine ⟨k + 1, e, ?_, by simpa using hk, hve, hte, hwe, ?_, ?_⟩
        · rw [hres]; congr 1; omega
        · intro j x hx hvx htx
          cases j with
          | zero => simp at hx; subst hx; have := hrej hvx htx; omega
          | succ j => exact hall j x (by simpa using hx) hvx htx
        · intro j x hj hx hvx htx
          cases j with
          | zero => simp at hx; subst hx; have := hrej hvx htx; omega
          | succ j => exact hbefore j x (by omega) (by simpa using hx) hvx htx

/-- Soundness of `nextElementWithGreaterTabIndex` in terms of positions. -/
theorem nextElementWithGreaterTabIndex_some {els : List Element} {start : Option Nat} {t : Int}
    {r : Nat} (h : nextElementWithGreaterTabIndex els start t = some r) :
    ∃ s e, start = some s ∧ s ≤ r ∧ els[r]? = some e ∧ shouldVisit e = true ∧
      t < adjustedTabIndex e ∧
      (∀ (j : Nat) (x : Element), s ≤ j → els[j]? = some x → shouldVisit x = true →
        t < adjustedTabIndex x → adjustedTabIndex e ≤ adjustedTabIndex x) ∧
      (∀ (j : Nat) (x : Element), s ≤ j → j < r → els[j]? = some x → shouldVisit x = true →
        t < adjustedTabIndex x → adjustedTabIndex e < adjustedTabIndex x) := by
  cases start with
  | none => simp [nextElementWithGreaterTabIndex] at h
  | some s =>
    simp only [nextElementWithGreaterTabIndex] at h
    rcases nextGreaterLoop_spec t (els.drop s) s (shortMax + 1) none with ⟨hres, _⟩ | ⟨k, e, hres, hk, hve, hte, _, hall, hbefore⟩
    · rw [hres] at h; cases h
    · rw [hres] at h
      simp only [Option.some.injEq] at h
      subst h
      rw [List.getElem?_drop] at hk
      refine ⟨s, e, rfl, by omega, hk, hve, hte, ?_, ?_⟩
      · intro j x hj hx hvx htx
        refine hall (j - s) x ?_ hvx htx
        rw [List.getElem?_drop]
        have : s + (j - s) = j := by omega
        rw [this]; exact hx
      · intro j x hj hjr hx hvx htx
        refine hbefore (j - s) x (by omega) ?_ hvx htx
        rw [List.getElem?_drop]
        have : s + (j - s) = j := by omega
        rw [this]; exact hx

theorem nextElementWithGreaterTabIndex_none {els : List Element} {s : Nat} {t : Int}
    (h : nextElementWithGreaterTabIndex els (some s) t = none) :
    ∀ (j : Nat) (x : Element), s ≤ j → els[j]? = some x → shouldVisit x = true →
      adjustedTabIndex x ≤ t := by
  simp only [nextElementWithGreaterTabIndex] at h
  intro j x hj hx hvx
  by_contra hlt
  rcases nextGreaterLoop_spec t (els.drop s) s (shortMax + 1) none with ⟨_, hall⟩ | ⟨k, e, hres, _⟩
  · have := hall (j - s) x (by
      rw [List.getElem?_drop]
      have : s + (j - s) = j := by omega
      rw [this]; exact hx) hvx (by omega)
    have h2 := adjustedTabIndex_le x
    simp only [shortMax] at this
    omega
  · rw [hres] at h; cases h

theorem prevLowerLoop_spec (els : List Element) (t : Int) (i : Nat) (w : Int) (win : Option Nat) :
    (prevLowerLoop els t i (w, win) = win ∧
      ∀ (j : Nat) (x : Element), j ≤ i → els[j]? = some x → shouldVisit x = true →
        adjustedTabIndex x < t → adjustedTabIndex x ≤ w) ∨
    (∃ r e, prevLowerLoop els t i (w, win) = some r ∧ r ≤ i ∧ els[r]? = some e ∧
      shouldVisit e = true ∧ adjustedTabIndex e < t ∧ w < adjustedTabIndex e ∧
      (∀ (j : Nat) (x : Element), j ≤ i → els[j]? = some x → shouldVisit x = true →
        adjustedTabIndex x < t → adjustedTabIndex x ≤ adjustedTabIndex e) ∧
      (∀ (j : Nat) (x : Element), r < j → j ≤ i → els[j]? = some x → shouldVisit x = true →
        adjustedTabIndex x < t → adjustedTabIndex x < adjustedTabIndex e)) := by
  -- one step of the loop at position `i`
  have step : ∀ (i : Nat) (w : Int) (win : Option Nat),
      (prevLowerStep els t i (w, win) = (w, win) ∧
        ∀ x, els[i]? = some x → shouldVisit x = true → adjustedTabIndex x < t →
          adjustedTabIndex x ≤ w) ∨
      (∃ e, els[i]? = some e ∧ prevLowerStep els t i (w, win) = (adjustedTabIndex e, some i) ∧
        shouldVisit e = true ∧ adjustedTabIndex e < t ∧ w < adjustedTabIndex e) := by
    intro i w win
    unfold prevLowerStep
    cases hi : els[i]? with
    | none => left; simp
    | some a =>
      by_cases hacc : (shouldVisit a && decide (adjustedTabIndex a < t)
          && decide (adjustedTabIndex a > w)) = true
      · right
        simp only [hacc, if_true]
        simp only [Bool.and_eq_true, decide_eq_true_eq] at hacc
        exact ⟨a, rfl, rfl, hacc.1.1, hacc.1.2, hacc.2⟩
      · left
        simp only [hacc, Bool.false_eq_true, if_false, true_and]
        intro x hx hvx htx
        cases hx
        by_contra hlt
        apply hacc
        simp only [Bool.and_eq_true, decide_eq_true_eq]
        exact ⟨⟨hvx, htx⟩, by omega⟩
  induction i generalizing w win with
  | zero =>
    unfold prevLowerLoop
    rcases step 0 w win with ⟨hs, hrej⟩ | ⟨e, he, hs, hve, hte, hwe⟩
    · left
      rw [hs]
      refine ⟨rfl, ?_⟩
      intro j x hj hx hvx htx
      have : j = 0 := by omega
      subst this
      exact hrej x hx hvx htx
    · right
      rw [hs]
      refine ⟨0, e, rfl, le_refl _, he, hve, hte, hwe, ?_, by intro j x h1 h2; omega⟩
      intro j x hj hx hvx htx
      have : j = 0 := by omega
      subst this
      rw [he] at hx; cases hx; exact le_refl _
  | succ i ih =>
    unfold prevLowerLoop
    rcases step (i + 1) w win with ⟨hs, hrej⟩ | ⟨a, ha, hs, hva, hta, hwa⟩
    · rw [hs]
      rcases ih w win with ⟨hres, hall⟩ | ⟨r, e, hres, hr, he, hve, hte, hwe, hall, hafter⟩
      · left
        refine ⟨hres, ?_⟩
        intro j x hj hx hvx htx
        by_cases hj2 : j = i + 1
        · subst hj2; exact hrej x hx hvx htx
        · exact hall j x (by omega) hx hvx htx
      · right
        refine ⟨r, e, hres, by omega, he, hve, hte, hwe, ?_, ?_⟩
        · intro j x hj hx hvx htx
          by_cases hj2 : j = i + 1
          · subst hj2; have := hrej x hx hvx htx; omega
          · exact hall j x (by omega) hx hvx htx
        · intro j x hrj hj hx hvx htx
          by_cases hj2 : j = i + 1
          · subst hj2; have := hrej x hx hvx htx; omega
          · exact hafter j x hrj (by omega) hx hvx htx
    · rw [hs]
      right
      rcases ih (adjustedTabIndex a) (some (i + 1)) with ⟨hres, hall⟩ | ⟨r, e, hres, hr, he, hve, hte, hwe, hall, hafter⟩
      · refine ⟨i + 1, a, hres, le_refl _, ha, hva, hta, hwa, ?_, by intro j x h1 h2; omega⟩
        intro j x hj hx hvx htx
        by_cases hj2 : j = i + 1
        · subst hj2; rw [ha] at hx; cases hx; exact le_refl _
        · exact hall j x (by omega) hx hvx htx
      · refine ⟨r, e, hres, by omega, he, hve, hte, by omega, ?_, ?_⟩
        · intro j x hj hx hvx htx
          by_cases hj2 : j = i + 1
          · subst hj2; rw [ha] at hx; cases hx; omega
          · exact hall j x (by omega) hx hvx htx
        · intro j x hrj hj hx hvx htx
          by_cases hj2 : j = i + 1
          · subst hj2; rw [ha] at hx; cases hx; omega
          · exact hafter j x hrj (by omega) hx hvx htx

theorem mem_drop_iff {els : List Element} {s : Nat} {x : Element} :
    x ∈ els.drop s ↔ ∃ j, s ≤ j ∧ els[j]? = some x := by
  rw [List.mem_iff_getElem?]
  constructor
  · rintro ⟨k, hk⟩
    rw [List.getElem?_drop] at hk
    exact ⟨s + k, by omega, hk⟩
  · rintro ⟨j, hj, hx⟩
    refine ⟨j - s, ?_⟩
    rw [List.getElem?_drop]
    have : s + (j - s) = j := by omega
    rw [this]; exact hx

theorem mem_take_iff {els : List Element} {n : Nat} {x : Element} :
    x ∈ els.take n ↔ ∃ j, j < n ∧ els[j]? = some x := by
  rw [List.mem_iff_getElem?]
  constructor
  · rintro ⟨k, hk⟩
    rw [List.getElem?_take] at hk
    split at hk
    · exact ⟨k, by assumption, hk⟩
    · cases hk
  · rintro ⟨j, hj, hx⟩
    refine ⟨j, ?_⟩
    rw [List.getElem?_take, if_pos hj]
    exact hx

theorem mem_drop_take_iff {els : List Element} {s r : Nat} {x : Element} :
    x ∈ (els.take r).drop s ↔ ∃ j, s ≤ j ∧ j < r ∧ els[j]? = some x := by
  rw [List.mem_iff_getElem?]
  constructor
  · rintro ⟨k, hk⟩
    rw [List.getElem?_drop, List.getElem?_take] at hk
    split at hk
    · exact ⟨s + k, by omega, by assumption, hk⟩
    · cases hk
  · rintro ⟨j, hj, hjr, hx⟩
    refine ⟨j - s, ?_⟩
    rw [List.getElem?_drop, List.getElem?_take]
    have : s + (j - s) = j := by omega
    rw [this, if_pos hjr]; exact hx

/-! ## Claims on the linear scanner -/

theorem findExact_next_eq (els : List Element) (s : Nat) (t : Int) :
    findElementWithExactTabIndex els (traversalNext els s) t .Forward =
      scanForward (exactTabIndexTest t) (els.drop (s + 1)) (s + 1) := by
  unfold traversalNext
  split
  · rfl
  · rename_i h
    have : els.drop (s + 1) = [] := List.drop_eq_nil_of_le (by omega)
    simp [findElementWithExactTabIndex, this, scanForward]

theorem exactTabIndexTest_eq_true {t : Int} {x : Element} :
    exactTabIndexTest t x = true ↔ shouldVisit x = true ∧ adjustedTabIndex x = t := by
  simp [exactTabIndexTest]

theorem exactTabIndexTest_eq_false {t : Int} {x : Element} :
    exactTabIndexTest t x = false ↔ (shouldVisit x = true → adjustedTabIndex x ≠ t) := by
  simp [exactTabIndexTest]

theorem treeOrderTest_eq_true {x : Element} :
    treeOrderTest x = true ↔ shouldVisit x = true ∧ 0 ≤ adjustedTabIndex x := by
  simp [treeOrderTest]

theorem treeOrderTest_eq_false {x : Element} :
    treeOrderTest x = false ↔ (shouldVisit x = true → adjustedTabIndex x < 0) := by
  simp [treeOrderTest]

/-- C3: an element returned by `nextElementWithGreaterTabIndex(start, t)` is
visitable, has an adjusted tab index above `t`, no visitable element from
`start` on has an adjusted tab index strictly between `t` and its own, and no
visitable element between `start` and it has the same adjusted tab index. -/
theorem nextElementWithGreaterTabIndex_first_minimal (els : List Element) (start : Option Nat)
    (t : Int) (r : Nat) (h : nextElementWithGreaterTabIndex els start t = some r) :
    ∃ s e, start = some s ∧ s ≤ r ∧ els[r]? = some e ∧ shouldVisit e = true ∧
      t < adjustedTabIndex e ∧
      (∀ x ∈ els.drop s, shouldVisit x = true →
        ¬ (t < adjustedTabIndex x ∧ adjustedTabIndex x < adjustedTabIndex e)) ∧
      (∀ x ∈ (els.take r).drop s, shouldVisit x = true →
        adjustedTabIndex x ≠ adjustedTabIndex e) := by
  obtain ⟨s, e, hs, hsr, he, hve, hte, hall, hbefore⟩ := nextElementWithGreaterTabIndex_some h
  refine ⟨s, e, hs, hsr, he, hve, hte, ?_, ?_⟩
  · intro x hx hvx ⟨h1, h2⟩
    obtain ⟨j, hj, hjx⟩ := mem_drop_iff.1 hx
    have := hall j x hj hjx hvx h1
    omega
  · intro x hx hvx heq
    obtain ⟨j, hj, hjr, hjx⟩ := mem_drop_take_iff.1 hx
    have := hbefore j x hj hjr hjx hvx (by omega)
    omega

theorem nextElementWithGreaterTabIndex_first_minimal_witness :
    ∃ s e, some 0 = some s ∧ s ≤ 1 ∧ scopeTie[1]? = some e ∧ shouldVisit e = true ∧
      (3 : Int) < adjustedTabIndex e ∧
      (∀ x ∈ scopeTie.drop s, shouldVisit x = true →
        ¬ ((3 : Int) < adjustedTabIndex x ∧ adjustedTabIndex x < adjustedTabIndex e)) ∧
      (∀ x ∈ (scopeTie.take 1).drop s, shouldVisit x = true →
        adjustedTabIndex x ≠ adjustedTabIndex e) :=
  nextElementWithGreaterTabIndex_first_minimal scopeTie (some 0) 3 1 (by decide)

/-- C4: when a visitable element at or after `start` has an adjusted tab index
above `t`, `nextElementWithGreaterTabIndex(start, t)` returns an element: every
tab index beats the initial winning threshold. -/
theorem nextElementWithGreaterTabIndex_finds (els : List Element) (s : Nat) (t : Int)
    (x : Element) (hx : x ∈ els.drop s) (hv : shouldVisit x = true)
    (ht : t < adjustedTabIndex x) :
    ∃ r, nextElementWithGreaterTabIndex els (some s) t = some r := by
  cases hres : nextElementWithGreaterTabIndex els (some s) t with
  | some r => exact ⟨r, rfl⟩
  | none =>
    obtain ⟨j, hj, hjx⟩ := mem_drop_iff.1 hx
    have := nextElementWithGreaterTabIndex_none hres j x hj hjx hv
    omega

theorem nextElementWithGreaterTabIndex_finds_witness :
    ∃ r, nextElementWithGreaterTabIndex scopeMax (some 0) 32766 = some r :=
  nextElementWithGreaterTabIndex_finds scopeMax 0 32766
    (focusable 32767 (by decide) (by decide)) (List.Mem.head _) (by decide) (by decide)

/-- C5: `previousElementWithLowerTabIndex(start, t)` returns null iff no
visitable element at or before `start` has an adjusted tab index strictly
between 0 and `t`; otherwise it returns the visitable element with the maximal
such index, the latest one in document order among those with that index. -/
theorem previousElementWithLowerTabIndex_last_maximal (els : List Element) (s : Nat) (t : Int) :
    (previousElementWithLowerTabIndex els (some s) t = none ↔
      ∀ x ∈ els.take (s + 1), shouldVisit x = true →
        ¬ (0 < adjustedTabIndex x ∧ adjustedTabIndex x < t)) ∧
    (∀ r, previousElementWithLowerTabIndex els (some s) t = some r →
      r ≤ s ∧ ∃ e, els[r]? = some e ∧ shouldVisit e = true ∧
        0 < adjustedTabIndex e ∧ adjustedTabIndex e < t ∧
        (∀ x ∈ els.take (s + 1), shouldVisit x = true →
          0 < adjustedTabIndex x ∧ adjustedTabIndex x < t →
          adjustedTabIndex x ≤ adjustedTabIndex e) ∧
        (∀ x ∈ (els.take (s + 1)).drop (r + 1), shouldVisit x = true →
          adjustedTabIndex x ≠ adjustedTabIndex e)) := by
  simp only [previousElementWithLowerTabIndex]
  rcases prevLowerLoop_spec els t s 0 none with ⟨hres, hall⟩ | ⟨r, e, hres, hr, he, hve, hte, hwe, hall, hafter⟩
  · rw [hres]
    refine ⟨⟨fun _ => ?_, fun _ => rfl⟩, by intro r h; cases h⟩
    intro x hx hvx ⟨h1, h2⟩
    obtain ⟨j, hj, hjx⟩ := mem_take_iff.1 hx
    have := hall j x (by omega) hjx hvx h2
    omega
  · rw [hres]
    refine ⟨⟨fun h => Option.noConfusion h, ?_⟩, ?_⟩
    · intro h
      exfalso
      refine h e (mem_take_iff.2 ⟨r, by omega, he⟩) hve ⟨hwe, hte⟩
    · intro r2 hr2
      simp only [Option.some.injEq] at hr2
      subst hr2
      refine ⟨hr, e, he, hve, hwe, hte, ?_, ?_⟩
      · intro x hx hvx ⟨_, h2⟩
        obtain ⟨j, hj, hjx⟩ := mem_take_iff.1 hx
        exact hall j x (by omega) hjx hvx h2
      · intro x hx hvx heq
        obtain ⟨j, hj, hjs, hjx⟩ := mem_drop_take_iff.1 hx
        have := hafter j x (by omega) (by omega) hjx hvx (by omega)
        omega

/-- C6: `nextFocusableElement` never wraps inside one call: (a) from a start
with adjusted tab index 0 that no visitable element with adjusted tab index 0
follows, the result is null; (b) from the last element carrying the highest
positive tab index of a scope without visitable elements of adjusted tab index
0 or below, the result is null. -/
theorem nextFocusableElement_no_wrap (els : List Element) (s : Nat) (e : Element)
    (he : els[s]? = some e) :
    (adjustedTabIndex e = 0 →
      (∀ x ∈ els.drop (s + 1), shouldVisit x = true → adjustedTabIndex x ≠ 0) →
      nextFocusableElement els (some s) = none) ∧
    (0 < adjustedTabIndex e →
      (∀ x ∈ els, shouldVisit x = true → adjustedTabIndex x ≤ adjustedTabIndex e) →
      (∀ x ∈ els.drop (s + 1), shouldVisit x = true →
        adjustedTabIndex x ≠ adjustedTabIndex e) →
      (∀ x ∈ els, shouldVisit x = true → 0 < adjustedTabIndex x) →
      nextFocusableElement els (some s) = none) := by
  have hscan : ∀ t : Int,
      (∀ x ∈ els.drop (s + 1), shouldVisit x = true → adjustedTabIndex x ≠ t) →
      scanForward (exactTabIndexTest t) (els.drop (s + 1)) (s + 1) = none := by
    intro t h
    rw [scanForward_drop_eq_none]
    intro j x hj hjx
    rw [exactTabIndexTest_eq_false]
    exact h x (mem_drop_iff.2 ⟨j, hj, hjx⟩)
  constructor
  · intro h0 hnone
    simp only [nextFocusableElement, he, h0, findExact_next_eq, hscan 0 hnone]
    simp
  · intro hpos hmax hlast hnozero
    have hne : adjustedTabIndex e ≠ 0 := by omega
    have hnl : ¬ adjustedTabIndex e < 0 := by omega
    simp only [nextFocusableElement, he, hnl, if_false, findExact_next_eq, hscan _ hlast, hne,
      nextFocusableElementTail]
    have hfirst : firstElement els = some 0 := by
      unfold firstElement
      cases els with
      | nil => simp at he
      | cons a l => simp
    rw [hfirst]
    have hgreater : nextElementWithGreaterTabIndex els (some 0) (adjustedTabIndex e) = none := by
      cases hres : nextElementWithGreaterTabIndex els (some 0) (adjustedTabIndex e) with
      | none => rfl
      | some r =>
        obtain ⟨_, x, _, _, hx, hvx, htx, _⟩ := nextElementWithGreaterTabIndex_some hres
        have := hmax x (List.mem_iff_getElem?.2 ⟨r, hx⟩) hvx
        omega
    rw [hgreater]
    simp only [findElementWithExactTabIndex, List.drop_zero]
    rw [scanForward_eq_none]
    intro k x hkx
    rw [exactTabIndexTest_eq_false]
    intro hvx
    have := hnozero x (List.mem_iff_getElem?.2 ⟨k, hkx⟩) hvx
    omega

theorem nextFocusableElement_no_wrap_witness :
    nextFocusableElement scopeEndsInZero (some 1) = none ∧
      nextFocusableElement scopePositiveOnly (some 1) = none :=
  ⟨(nextFocusableElement_no_wrap scopeEndsInZero 1 (focusable 0 (by decide) (by decide)) rfl).1
      (by decide) (by decide),
   (nextFocusableElement_no_wrap scopePositiveOnly 1 (focusable 2 (by decide) (by decide)) rfl).2
      (by decide) (by decide) (by decide) (by decide)⟩

/-! ## Lemmas on the tabbing order -/


theorem tabOrderKey_cases {els : List Element} {i : Nat} {e : Element} (h : els[i]? = some e) :
    adjustedTabIndex e ≤ 32767 ∧
    ((adjustedTabIndex e = 0 ∧ tabOrderKey els i = 32768) ∨
      (adjustedTabIndex e ≠ 0 ∧ tabOrderKey els i = adjustedTabIndex e)) := by
  refine ⟨adjustedTabIndex_le e, ?_⟩
  unfold tabOrderKey adjustedTabIndexAt
  rw [h]
  by_cases h0 : adjustedTabIndex e = 0
  · left; simp [h0, shortMax]
  · right; simp [h0]

theorem firstElement_of_get {els : List Element} {i : Nat} {e : Element} (h : els[i]? = some e) :
    firstElement els = some 0 := by
  unfold firstElement
  cases els with
  | nil => simp at h
  | cons a l => simp

/-- The tail of `nextFocusableElement`: the least key above `t`. -/
theorem nextFocusableElementTail_some {els : List Element} {t : Int} {b : Nat} (ht0 : 0 ≤ t)
    (ht : t ≤ 32767) (h : nextFocusableElementTail els t = some b) :
    (∃ eb, els[b]? = some eb ∧ shouldVisit eb = true) ∧ t < tabOrderKey els b ∧
      ∀ (v : Nat) (ev : Element), els[v]? = some ev → shouldVisit ev = true →
        t < tabOrderKey els v → ¬ keyBefore els v b := by
  unfold nextFocusableElementTail at h
  cases hf : firstElement els with
  | none => simp [hf, nextElementWithGreaterTabIndex, findElementWithExactTabIndex] at h
  | some f =>
    have hf0 : f = 0 := by
      unfold firstElement at hf
      split at hf
      · cases hf
      · simpa using hf.symm
    subst hf0
    rw [hf] at h
    cases hg : nextElementWithGreaterTabIndex els (some 0) t with
    | some r =>
      rw [hg] at h
      simp only [Option.some.injEq] at h
      subst h
      obtain ⟨s, eb, hs, _, heb, hvb, htb, hall, hbefore⟩ := nextElementWithGreaterTabIndex_some hg
      simp only [Option.some.injEq] at hs
      subst hs
      obtain ⟨hbl, hbk⟩ := tabOrderKey_cases heb
      refine ⟨⟨eb, heb, hvb⟩, by omega, ?_⟩
      intro v ev hev hvv htv hlt
      obtain ⟨hvl, hvk⟩ := tabOrderKey_cases hev
      unfold keyBefore at hlt
      by_cases hz : adjustedTabIndex ev = 0
      · omega
      · have h1 := hall v ev (Nat.zero_le _) hev hvv (by omega)
        rcases hlt with hlt | ⟨hlt, hvr⟩
        · omega
        · have h2 := hbefore v ev (Nat.zero_le _) hvr hev hvv (by omega)
          omega
    | none =>
      rw [hg] at h
      simp only [findElementWithExactTabIndex] at h
      have hle := nextElementWithGreaterTabIndex_none hg
      rw [scanForward_drop_eq_some] at h
      obtain ⟨_, ⟨eb, heb, hpb⟩, hmin⟩ := h
      rw [exactTabIndexTest_eq_true] at hpb
      obtain ⟨hbl, hbk⟩ := tabOrderKey_cases heb
      refine ⟨⟨eb, heb, hpb.1⟩, ?_, ?_⟩
      · have := hpb.2; omega
      · intro v ev hev hvv htv hlt
        obtain ⟨hvl, hvk⟩ := tabOrderKey_cases hev
        have h1 := hle v ev (Nat.zero_le _) hev hvv
        have hb0 := hpb.2
        unfold keyBefore at hlt
        have hv0 : adjustedTabIndex ev = 0 := by omega
        rcases hlt with hlt | ⟨_, hvr⟩
        · omega
        · have := hmin v ev (Nat.zero_le _) hvr hev
          rw [exactTabIndexTest_eq_false] at this
          exact this hvv hv0

theorem nextFocusableElementTail_none {els : List Element} {t : Int}
    (h : nextFocusableElementTail els t = none) :
    ∀ (v : Nat) (ev : Element), els[v]? = some ev → shouldVisit ev = true →
      ¬ t < tabOrderKey els v := by
  intro v ev hev hvv htv
  unfold nextFocusableElementTail at h
  rw [firstElement_of_get hev] at h
  cases hg : nextElementWithGreaterTabIndex els (some 0) t with
  | some r => rw [hg] at h; cases h
  | none =>
    rw [hg] at h
    simp only [findElementWithExactTabIndex] at h
    have hle := nextElementWithGreaterTabIndex_none hg v ev (Nat.zero_le _) hev hvv
    rw [scanForward_drop_eq_none] at h
    have := h v ev (Nat.zero_le _) hev
    rw [exactTabIndexTest_eq_false] at this
    obtain ⟨hvl, hvk⟩ := tabOrderKey_cases hev
    have := this hvv
    omega

/-- From a start inside the tabbing cycle, a result of `nextFocusableElement`
is the immediate successor of the start in the key order. -/
theorem nextFocusableElement_some_succ {els : List Element} {a b : Nat} {ea : Element}
    (hea : els[a]? = some ea) (hta : 0 ≤ adjustedTabIndex ea)
    (h : nextFocusableElement els (some a) = some b) :
    (∃ eb, els[b]? = some eb ∧ shouldVisit eb = true) ∧ keyBefore els a b ∧
      ∀ (v : Nat) (ev : Element), els[v]? = some ev → shouldVisit ev = true →
        keyBefore els a v → ¬ keyBefore els v b := by
  obtain ⟨hal, hak⟩ := tabOrderKey_cases hea
  have hnl : ¬ adjustedTabIndex ea < 0 := by omega
  simp only [nextFocusableElement, hea, hnl, if_false, findExact_next_eq] at h
  cases hs : scanForward (exactTabIndexTest (adjustedTabIndex ea)) (els.drop (a + 1)) (a + 1) with
  | some r =>
    rw [hs] at h
    simp only [Option.some.injEq] at h
    subst h
    rw [scanForward_drop_eq_some] at hs
    obtain ⟨har, ⟨eb, heb, hpb⟩, hmin⟩ := hs
    rw [exactTabIndexTest_eq_true] at hpb
    obtain ⟨hbl, hbk⟩ := tabOrderKey_cases heb
    have hab := hpb.2
    refine ⟨⟨eb, heb, hpb.1⟩, ?_, ?_⟩
    · right; constructor <;> omega
    · intro v ev hev hvv h1 h2
      obtain ⟨hvl, hvk⟩ := tabOrderKey_cases hev
      unfold keyBefore at h1 h2
      have hvr : a + 1 ≤ v ∧ v < r ∧ adjustedTabIndex ev = adjustedTabIndex ea := by omega
      have := hmin v ev hvr.1 hvr.2.1 hev
      rw [exactTabIndexTest_eq_false] at this
      exact this hvv hvr.2.2
  | none =>
    rw [hs] at h
    rw [scanForward_drop_eq_none] at hs
    have hnoexact : ∀ (v : Nat) (ev : Element), els[v]? = some ev → shouldVisit ev = true →
        a < v → adjustedTabIndex ev ≠ adjustedTabIndex ea := by
      intro v ev hev hvv hav
      have := hs v ev (by omega) hev
      rw [exactTabIndexTest_eq_false] at this
      exact this hvv
    by_cases h0 : adjustedTabIndex ea = 0
    · simp [h0] at h
    · simp only [h0, if_false] at h
      obtain ⟨hvis, hkey, hmin⟩ := nextFocusableElementTail_some hta hal h
      refine ⟨hvis, ?_, ?_⟩
      · left; omega
      · intro v ev hev hvv h1
        obtain ⟨hvl, hvk⟩ := tabOrderKey_cases hev
        refine hmin v ev hev hvv ?_
        unfold keyBefore at h1
        rcases h1 with h1 | ⟨h1, hav⟩
        · omega
        · have := hnoexact v ev hev hvv hav
          omega

theorem nextFocusableElement_none_last {els : List Element} {a : Nat} {ea : Element}
    (hea : els[a]? = some ea) (hta : 0 ≤ adjustedTabIndex ea)
    (h : nextFocusableElement els (some a) = none) :
    ∀ (v : Nat) (ev : Element), els[v]? = some ev → shouldVisit ev = true →
      ¬ keyBefore els a v := by
  obtain ⟨hal, hak⟩ := tabOrderKey_cases hea
  have hnl : ¬ adjustedTabIndex ea < 0 := by omega
  simp only [nextFocusableElement, hea, hnl, if_false, findExact_next_eq] at h
  cases hs : scanForward (exactTabIndexTest (adjustedTabIndex ea)) (els.drop (a + 1)) (a + 1) with
  | some r => rw [hs] at h; cases h
  | none =>
    rw [hs] at h
    rw [scanForward_drop_eq_none] at hs
    intro v ev hev hvv h1
    obtain ⟨hvl, hvk⟩ := tabOrderKey_cases hev
    have hnoexact : a < v → adjustedTabIndex ev ≠ adjustedTabIndex ea := by
      intro hav
      have := hs v ev (by omega) hev
      rw [exactTabIndexTest_eq_false] at this
      exact this hvv
    unfold keyBefore at h1
    by_cases h0 : adjustedTabIndex ea = 0
    · rcases h1 with h1 | ⟨h1, hav⟩
      · omega
      · have := hnoexact hav
        omega
    · simp only [h0, if_false] at h
      have := nextFocusableElementTail_none h v ev hev hvv
      rcases h1 with h1 | ⟨h1, hav⟩
      · omega
      · have := hnoexact hav
        omega

theorem nextFocusableElement_null_first {els : List Element} {b : Nat}
    (H : ∀ (j : Nat) (x : Element), els[j]? = some x → shouldVisit x = true →
      0 ≤ adjustedTabIndex x)
    (h : nextFocusableElement els none = some b) :
    (∃ eb, els[b]? = some eb ∧ shouldVisit eb = true) ∧
      ∀ (v : Nat) (ev : Element), els[v]? = some ev → shouldVisit ev = true →
        ¬ keyBefore els v b := by
  simp only [nextFocusableElement] at h
  obtain ⟨hvis, _, hmin⟩ := nextFocusableElementTail_some (le_refl _) (by decide) h
  refine ⟨hvis, ?_⟩
  intro v ev hev hvv
  obtain ⟨hvl, hvk⟩ := tabOrderKey_cases hev
  have := H v ev hev hvv
  exact hmin v ev hev hvv (by omega)

theorem nextFocusableElement_null_none {els : List Element}
    (H : ∀ (j : Nat) (x : Element), els[j]? = some x → shouldVisit x = true →
      0 ≤ adjustedTabIndex x)
    (h : nextFocusableElement els none = none) :
    ∀ (v : Nat) (ev : Element), els[v]? = some ev → shouldVisit ev = true → False := by
  simp only [nextFocusableElement] at h
  intro v ev hev hvv
  obtain ⟨hvl, hvk⟩ := tabOrderKey_cases hev
  have := H v ev hev hvv
  exact nextFocusableElementTail_none h v ev hev hvv (by omega)

theorem visitableAt_iff {els : List Element} {i : Nat} :
    visitableAt els i = true ↔ ∃ e, els[i]? = some e ∧ shouldVisit e = true := by
  unfold visitableAt
  cases h : els[i]? with
  | none => simp
  | some e => simp

theorem keyBefore_irrefl (els : List Element) (i : Nat) : ¬ keyBefore els i i := by
  unfold keyBefore; omega

theorem keyBefore_trans {els : List Element} {i j k : Nat} (h1 : keyBefore els i j)
    (h2 : keyBefore els j k) : keyBefore els i k := by
  unfold keyBefore at *; omega

theorem keyBefore_total (els : List Element) (i j : Nat) :
    keyBefore els i j ∨ i = j ∨ keyBefore els j i := by
  unfold keyBefore; omega

theorem nextFocusableElement_afterStart_some {els : List Element} {prev : Option Nat} {b : Nat}
    (H : ∀ (j : Nat) (x : Element), els[j]? = some x → shouldVisit x = true →
      0 ≤ adjustedTabIndex x)
    (hprev : ∀ a, prev = some a → visitableAt els a = true)
    (h : nextFocusableElement els prev = some b) :
    visitableAt els b = true ∧ afterStart els prev b ∧
      ∀ v, visitableAt els v = true → afterStart els prev v → ¬ keyBefore els v b := by
  cases prev with
  | none =>
    obtain ⟨hvis, hmin⟩ := nextFocusableElement_null_first H h
    refine ⟨visitableAt_iff.2 hvis, trivial, ?_⟩
    intro v hv _
    obtain ⟨ev, hev, hvv⟩ := visitableAt_iff.1 hv
    exact hmin v ev hev hvv
  | some a =>
    obtain ⟨ea, hea, hva⟩ := visitableAt_iff.1 (hprev a rfl)
    obtain ⟨hvis, hlt, hmin⟩ := nextFocusableElement_some_succ hea (H a ea hea hva) h
    refine ⟨visitableAt_iff.2 hvis, hlt, ?_⟩
    intro v hv hav
    obtain ⟨ev, hev, hvv⟩ := visitableAt_iff.1 hv
    exact hmin v ev hev hvv hav

theorem nextFocusableElement_afterStart_none {els : List Element} {prev : Option Nat}
    (H : ∀ (j : Nat) (x : Element), els[j]? = some x → shouldVisit x = true →
      0 ≤ adjustedTabIndex x)
    (hprev : ∀ a, prev = some a → visitableAt els a = true)
    (h : nextFocusableElement els prev = none) :
    ∀ v, visitableAt els v = true → ¬ afterStart els prev v := by
  intro v hv hav
  obtain ⟨ev, hev, hvv⟩ := visitableAt_iff.1 hv
  cases prev with
  | none => exact nextFocusableElement_null_none H h v ev hev hvv
  | some a =>
    obtain ⟨ea, hea, hva⟩ := visitableAt_iff.1 (hprev a rfl)
    exact nextFocusableElement_none_last hea (H a ea hea hva) h v ev hev hvv hav

theorem tabbingSequence_walk (els : List Element)
    (H : ∀ (j : Nat) (x : Element), els[j]? = some x → shouldVisit x = true →
      0 ≤ adjustedTabIndex x)
    (L : List Nat) (hmem : ∀ v, v ∈ L ↔ visitableAt els v = true) :
    ∀ (suffix pre : List Nat) (prev : Option Nat), L = pre ++ suffix →
      suffix.Pairwise (keyBefore els) →
      (∀ v ∈ pre, ¬ afterStart els prev v) → (∀ v ∈ suffix, afterStart els prev v) →
      (∀ a, prev = some a → visitableAt els a = true) →
      tabbingSequence els (suffix.length + 1) prev = some suffix := by
  intro suffix
  induction suffix with
  | nil =>
    intro pre prev hL _ hpre _ hprev
    simp only [List.length_nil, tabbingSequence]
    cases hn : nextFocusableElement els prev with
    | none => rfl
    | some b =>
      exfalso
      obtain ⟨hvb, hab, _⟩ := nextFocusableElement_afterStart_some H hprev hn
      have : b ∈ pre := by
        have := (hmem b).2 hvb
        simpa [hL] using this
      exact hpre b this hab
  | cons b rest ih =>
    intro pre prev hL hpw hpre hsuf hprev
    have hbL : b ∈ L := by simp [hL]
    have hvb : visitableAt els b = true := (hmem b).1 hbL
    have hab : afterStart els prev b := hsuf b (List.mem_cons_self _ _)
    rw [List.pairwise_cons] at hpw
    have hnext : nextFocusableElement els prev = some b := by
      cases hn : nextFocusableElement els prev with
      | none => exact absurd hab (nextFocusableElement_afterStart_none H hprev hn b hvb)
      | some b' =>
        obtain ⟨hvb', hab', hmin⟩ := nextFocusableElement_afterStart_some H hprev hn
        have hb'L : b' ∈ pre ++ b :: rest := by
          rw [← hL]; exact (hmem b').2 hvb'
        rcases List.mem_append.1 hb'L with hp | hs
        · exact absurd hab' (hpre b' hp)
        · rcases List.mem_cons.1 hs with heq | hr
          · rw [heq]
          · exact absurd (hpw.1 b' hr) (hmin b hvb hab)
    have hrec := ih (pre ++ [b]) (some b) (by simp [hL]) hpw.2
      (by
        intro v hv hbv
        rcases List.mem_append.1 hv with hp | hs
        · apply hpre v hp
          cases prev with
          | none => trivial
          | some a => exact keyBefore_trans hab hbv
        · simp only [List.mem_singleton] at hs
          subst hs
          exact keyBefore_irrefl els _ hbv)
      (by intro v hv; exact hpw.1 v hv)
      (by intro a ha; cases ha; exact hvb)
    show tabbingSequence els ((rest.length + 1) + 1) prev = some (b :: rest)
    rw [tabbingSequence, hnext]
    simp only [hrec, Option.map_some']

theorem tabbingSequence_fuel_mono (els : List Element) :
    ∀ (fuel extra : Nat) (prev : Option Nat) (seq : List Nat),
      tabbingSequence els fuel prev = some seq →
      tabbingSequence els (fuel + extra) prev = some seq := by
  intro fuel
  induction fuel with
  | zero => intro extra prev seq h; simp [tabbingSequence] at h
  | succ fuel ih =>
    intro extra prev seq h
    have hf : fuel + 1 + extra = (fuel + extra) + 1 := by omega
    rw [hf]
    simp only [tabbingSequence] at h ⊢
    cases hn : nextFocusableElement els prev with
    | none => simpa [hn] using h
    | some b =>
      simp only [hn] at h ⊢
      cases hr : tabbingSequence els fuel (some b) with
      | none => simp [hr] at h
      | some rest =>
        rw [ih extra (some b) rest hr]
        simpa [hr] using h

theorem tabbingSequence_ends_in_null (els : List Element) :
    ∀ (fuel : Nat) (prev : Option Nat) (seq : List Nat),
      tabbingSequence els fuel prev = some seq →
      nextFocusableElement els (match seq.getLast? with | some l => some l | none => prev)
        = none := by
  intro fuel
  induction fuel with
  | zero => intro prev seq h; simp [tabbingSequence] at h
  | succ fuel ih =>
    intro prev seq h
    simp only [tabbingSequence] at h
    cases hn : nextFocusableElement els prev with
    | none =>
      simp only [hn, Option.some.injEq] at h
      subst h
      simpa using hn
    | some b =>
      simp only [hn] at h
      cases hr : tabbingSequence els fuel (some b) with
      | none => simp [hr] at h
      | some rest =>
        simp only [hr, Option.map_some', Option.some.injEq] at h
        subst h
        have := ih (some b) rest hr
        cases hl : rest.getLast? with
        | none =>
          have : rest = [] := by simpa using hl
          subst this
          simpa using this
        | some l =>
          rw [hl] at this
          have h2 : (b :: rest).getLast? = some l := by
            cases rest with
            | nil => simp at hl
            | cons c cs => simpa [List.getLast?_cons_cons] using hl
          rw [h2]; exact this

theorem keyBefore_precedes {els : List Element} {i j : Nat}
    (H : ∀ (j : Nat) (x : Element), els[j]? = some x → shouldVisit x = true →
      0 ≤ adjustedTabIndex x)
    (hi : visitableAt els i = true) (hj : visitableAt els j = true) (h : keyBefore els i j) :
    precedesInTabOrder els i j := by
  obtain ⟨ei, hei, hvi⟩ := visitableAt_iff.1 hi
  obtain ⟨ej, hej, hvj⟩ := visitableAt_iff.1 hj
  obtain ⟨hil, hik⟩ := tabOrderKey_cases hei
  obtain ⟨hjl, hjk⟩ := tabOrderKey_cases hej
  have h0i := H i ei hei hvi
  have h0j := H j ej hej hvj
  unfold keyBefore at h
  unfold precedesInTabOrder adjustedTabIndexAt
  rw [hei, hej]
  simp only
  omega

/-- The visitable positions of a scope sorted by the key order. -/
theorem exists_sorted_visitable (els : List Element) :
    ∃ L : List Nat, (∀ v, v ∈ L ↔ visitableAt els v = true) ∧ L.Pairwise (keyBefore els) ∧
      L.length ≤ els.length := by
  classical
  let r : Nat → Nat → Prop := fun i j => ¬ keyBefore els j i
  haveI : IsTotal Nat r := ⟨fun i j => by
    show ¬ keyBefore els j i ∨ ¬ keyBefore els i j
    unfold keyBefore; omega⟩
  haveI : IsTrans Nat r := ⟨fun i j k h1 h2 => by
    show ¬ keyBefore els k i
    have h1' : ¬ keyBefore els j i := h1
    have h2' : ¬ keyBefore els k j := h2
    unfold keyBefore at *; omega⟩
  let V := (List.range els.length).filter (fun i => visitableAt els i)
  refine ⟨V.insertionSort r, ?_, ?_, ?_⟩
  · intro v
    rw [(List.perm_insertionSort r V).mem_iff]
    simp only [V, List.mem_filter, List.mem_range]
    constructor
    · exact fun h => h.2
    · intro h
      refine ⟨?_, h⟩
      obtain ⟨e, he, _⟩ := visitableAt_iff.1 h
      exact (List.getElem?_eq_some_iff.1 he).1
  · have hs : (V.insertionSort r).Pairwise r := List.sorted_insertionSort r V
    have hn : (V.insertionSort r).Nodup :=
      (List.perm_insertionSort r V).nodup_iff.2 ((List.nodup_range _).filter _)
    refine (hs.and hn).imp ?_
    intro a b hab
    have h1 : ¬ keyBefore els b a := hab.1
    rcases keyBefore_total els a b with h | h | h
    · exact h
    · exact absurd h hab.2
    · exact absurd h h1
  · rw [List.length_insertionSort]
    calc V.length ≤ (List.range els.length).length := List.length_filter_le _ _
      _ = els.length := List.length_range _

/-- The walk of `nextFocusableElement` from a null start, each result fed back,
returns the visitable elements sorted by their key of the tabbing order and
ends in null. -/
theorem tabbingSequence_sorted (els : List Element)
    (H' : ∀ (j : Nat) (x : Element), els[j]? = some x → shouldVisit x = true →
      0 ≤ adjustedTabIndex x) :
    ∃ L, tabbingSequence els (els.length + 1) none = some L ∧
      (∀ i, i ∈ L ↔ visitableAt els i = true) ∧ L.Pairwise (keyBefore els) ∧
      nextFocusableElement els L.getLast? = none := by
  obtain ⟨L, hmem, hpw, hlen⟩ := exists_sorted_visitable els
  have hwalk := tabbingSequence_walk els H' L hmem L [] none rfl hpw
    (by intro v hv; cases hv) (by intro v _; trivial) (by intro a ha; cases ha)
  have hfuel := tabbingSequence_fuel_mono els (L.length + 1) (els.length - L.length) none L hwalk
  have hf : L.length + 1 + (els.length - L.length) = els.length + 1 := by omega
  rw [hf] at hfuel
  refine ⟨L, hfuel, hmem, hpw, ?_⟩
  have := tabbingSequence_ends_in_null els _ none L hfuel
  cases hl : L.getLast? with
  | none => simpa [hl] using this
  | some l => simpa [hl] using this

/-- C2: in a focus scope whose visitable elements all have an adjusted tab
index between 0 and 32767, calling `nextFocusableElement` from a null start and
feeding each result back visits every visitable element exactly once, positive
adjusted tab indices first in ascending order, then adjusted tab index 0, equal
indices in document order, and then returns null. -/
theorem tabbingSequence_visits_in_tab_order (els : List Element)
    (H : ∀ x ∈ els, shouldVisit x = true →
      0 ≤ adjustedTabIndex x ∧ adjustedTabIndex x ≤ 32767) :
    ∃ seq, tabbingSequence els (els.length + 1) none = some seq ∧
      seq.Nodup ∧ (∀ i, i ∈ seq ↔ visitableAt els i = true) ∧
      seq.Pairwise (precedesInTabOrder els) ∧
      nextFocusableElement els seq.getLast? = none := by
  have H' : ∀ (j : Nat) (x : Element), els[j]? = some x → shouldVisit x = true →
      0 ≤ adjustedTabIndex x :=
    fun j x hx hv => (H x (List.mem_iff_getElem?.2 ⟨j, hx⟩) hv).1
  obtain ⟨L, hfuel, hmem, hpw, hend⟩ := tabbingSequence_sorted els H'
  refine ⟨L, hfuel, ?_, hmem, ?_, hend⟩
  · exact hpw.imp (by intro a b h hab; subst hab; exact keyBefore_irrefl els _ h)
  · exact hpw.imp_of_mem (fun {a b} ha hb h =>
      keyBefore_precedes H' ((hmem a).1 ha) ((hmem b).1 hb) h)

theorem tabbingSequence_visits_in_tab_order_witness :
    tabbingSequence scopeMixed 6 none = some [2, 1, 4, 0, 3] ∧
    ∃ seq, tabbingSequence scopeMixed (scopeMixed.length + 1) none = some seq ∧
      seq.Nodup ∧ (∀ i, i ∈ seq ↔ visitableAt scopeMixed i = true) ∧
      seq.Pairwise (precedesInTabOrder scopeMixed) ∧
      nextFocusableElement scopeMixed seq.getLast? = none :=
  ⟨by decide, tabbingSequence_visits_in_tab_order scopeMixed (by decide)⟩

/-! ## The tabbing order walked backward -/

theorem previousElementWithLowerTabIndex_some {els : List Element} {s r : Nat} {t : Int}
    (h : previousElementWithLowerTabIndex els (some s) t = some r) :
    r ≤ s ∧ ∃ e, els[r]? = some e ∧ shouldVisit e = true ∧ 0 < adjustedTabIndex e ∧
      adjustedTabIndex e < t ∧
      (∀ (j : Nat) (x : Element), j ≤ s → els[j]? = some x → shouldVisit x = true →
        adjustedTabIndex x < t → adjustedTabIndex x ≤ adjustedTabIndex e) ∧
      (∀ (j : Nat) (x : Element), r < j → j ≤ s → els[j]? = some x → shouldVisit x = true →
        adjustedTabIndex x < t → adjustedTabIndex x < adjustedTabIndex e) := by
  simp only [previousElementWithLowerTabIndex] at h
  rcases prevLowerLoop_spec els t s 0 none with ⟨hres, _⟩ | ⟨r', e, hres, hr, he, hve, hte, hwe, hall, hafter⟩
  · rw [hres] at h; cases h
  · rw [hres] at h
    simp only [Option.some.injEq] at h
    subst h
    exact ⟨hr, e, he, hve, hwe, hte, hall, hafter⟩

theorem previousElementWithLowerTabIndex_none {els : List Element} {s : Nat} {t : Int}
    (h : previousElementWithLowerTabIndex els (some s) t = none) :
    ∀ (j : Nat) (x : Element), j ≤ s → els[j]? = some x → shouldVisit x = true →
      adjustedTabIndex x < t → adjustedTabIndex x ≤ 0 := by
  simp only [previousElementWithLowerTabIndex] at h
  rcases prevLowerLoop_spec els t s 0 none with ⟨_, hall⟩ | ⟨r', e, hres, _⟩
  · exact hall
  · rw [hres] at h; cases h

theorem lastElement_of_get {els : List Element} {i : Nat} {e : Element} (h : els[i]? = some e) :
    lastElement els = some (els.length - 1) ∧ i ≤ els.length - 1 := by
  have hi := (List.getElem?_eq_some_iff.1 h).1
  unfold lastElement
  cases els with
  | nil => simp at hi
  | cons a l => simp at hi ⊢; omega

theorem findExact_previous_some {els : List Element} {b a : Nat} {t : Int}
    (h : findElementWithExactTabIndex els (traversalPrevious b) t .Backward = some a) :
    a < b ∧ (∃ e, els[a]? = some e ∧ shouldVisit e = true ∧ adjustedTabIndex e = t) ∧
      ∀ (j : Nat) (x : Element), a < j → j < b → els[j]? = some x → shouldVisit x = true →
        adjustedTabIndex x ≠ t := by
  unfold traversalPrevious at h
  split at h
  · simp [findElementWithExactTabIndex] at h
  · rename_i hb
    simp only [findElementWithExactTabIndex] at h
    rw [scanBackward_eq_some] at h
    obtain ⟨hab, ⟨e, he, hp⟩, hmin⟩ := h
    rw [exactTabIndexTest_eq_true] at hp
    refine ⟨by omega, ⟨e, he, hp.1, hp.2⟩, ?_⟩
    intro j x haj hjb hx hvx
    have := hmin j x haj (by omega) hx
    rw [exactTabIndexTest_eq_false] at this
    exact this hvx

theorem findExact_previous_none {els : List Element} {b : Nat} {t : Int}
    (h : findElementWithExactTabIndex els (traversalPrevious b) t .Backward = none) :
    ∀ (j : Nat) (x : Element), j < b → els[j]? = some x → shouldVisit x = true →
      adjustedTabIndex x ≠ t := by
  intro j x hjb hx hvx
  unfold traversalPrevious at h
  split at h
  · omega
  · simp only [findElementWithExactTabIndex] at h
    rw [scanBackward_eq_none] at h
    have := h j x (by omega) hx
    rw [exactTabIndexTest_eq_false] at this
    exact this hvx

/-- The second half of `previousFocusableElement`, the search for a lower tab
index below the bound `t2`. -/
theorem previousLower_pred {els : List Element} {t2 : Int} {a : Nat}
    (h : previousElementWithLowerTabIndex els (lastElement els) t2 = some a) :
    (∃ ea, els[a]? = some ea ∧ shouldVisit ea = true ∧ 0 < adjustedTabIndex ea ∧
      adjustedTabIndex ea < t2) ∧
    ∀ (v : Nat) (ev : Element), els[v]? = some ev → shouldVisit ev = true →
      adjustedTabIndex ev ≠ 0 → adjustedTabIndex ev < t2 → ¬ keyBefore els a v := by
  cases hl : lastElement els with
  | none => simp [hl, previousElementWithLowerTabIndex] at h
  | some l =>
    rw [hl] at h
    obtain ⟨hal, ea, hea, hva, h0a, hta, hall, hafter⟩ := previousElementWithLowerTabIndex_some h
    obtain ⟨_, hak⟩ := tabOrderKey_cases hea
    refine ⟨⟨ea, hea, hva, h0a, hta⟩, ?_⟩
    intro v ev hev hvv hv0 hvt hlt
    obtain ⟨_, hvk⟩ := tabOrderKey_cases hev
    obtain ⟨hl2, hvl⟩ := lastElement_of_get hev
    rw [hl] at hl2
    simp only [Option.some.injEq] at hl2
    subst hl2
    have h1 := hall v ev hvl hev hvv hvt
    unfold keyBefore at hlt
    rcases hlt with hlt | ⟨hlt, hav⟩
    · omega
    · have := hafter v ev hav hvl hev hvv hvt
      omega

theorem previousLower_none {els : List Element} {t2 : Int}
    (h : previousElementWithLowerTabIndex els (lastElement els) t2 = none) :
    ∀ (v : Nat) (ev : Element), els[v]? = some ev → shouldVisit ev = true →
      adjustedTabIndex ev < t2 → adjustedTabIndex ev ≤ 0 := by
  intro v ev hev hvv hvt
  obtain ⟨hl, hvl⟩ := lastElement_of_get hev
  rw [hl] at h
  exact previousElementWithLowerTabIndex_none h v ev hvl hev hvv hvt

/-- From a start inside the tabbing cycle, a result of
`previousFocusableElement` is the immediate predecessor of the start in the key
order, among the visitable elements whose adjusted tab index is not 32767. -/
theorem previousFocusableElement_some_pred {els : List Element} {a b : Nat} {eb : Element}
    (heb : els[b]? = some eb) (htb : 0 ≤ adjustedTabIndex eb)
    (h : previousFocusableElement els (some b) = some a) :
    (∃ ea, els[a]? = some ea ∧ shouldVisit ea = true ∧ 0 ≤ adjustedTabIndex ea) ∧
      keyBefore els a b ∧
      ∀ (v : Nat) (ev : Element), els[v]? = some ev → shouldVisit ev = true →
        adjustedTabIndex ev ≠ 32767 → keyBefore els v b → ¬ keyBefore els a v := by
  obtain ⟨hbl, hbk⟩ := tabOrderKey_cases heb
  have hnl : ¬ adjustedTabIndex eb < 0 := by omega
  simp only [previousFocusableElement, heb, hnl, if_false] at h
  cases hs : findElementWithExactTabIndex els (traversalPrevious b) (adjustedTabIndex eb)
      .Backward with
  | some r =>
    rw [hs] at h
    simp only [Option.some.injEq] at h
    subst h
    obtain ⟨hrb, ⟨ea, hea, hva, hta⟩, hmin⟩ := findExact_previous_some hs
    obtain ⟨_, hak⟩ := tabOrderKey_cases hea
    refine ⟨⟨ea, hea, hva, by omega⟩, ?_, ?_⟩
    · right; constructor <;> omega
    · intro v ev hev hvv _ h1 h2
      obtain ⟨_, hvk⟩ := tabOrderKey_cases hev
      unfold keyBefore at h1 h2
      have hvr : r < v ∧ v < b ∧ adjustedTabIndex ev = adjustedTabIndex eb := by omega
      exact hmin v ev hvr.1 hvr.2.1 hev hvv hvr.2.2
  | none =>
    rw [hs] at h
    have hnoexact := findExact_previous_none hs
    simp only [Option.isSome_some, Bool.true_and] at h
    obtain ⟨⟨ea, hea, hva, h0a, hta⟩, hmax⟩ := previousLower_pred h
    obtain ⟨_, hak⟩ := tabOrderKey_cases hea
    by_cases h0 : adjustedTabIndex eb = 0
    · simp only [h0, ne_eq, not_true_eq_false, decide_False, Bool.false_eq_true, if_false,
        shortMax] at hta hmax
      refine ⟨⟨ea, hea, hva, by omega⟩, ?_, ?_⟩
      · left; omega
      · intro v ev hev hvv hv32 h1
        obtain ⟨hvl, hvk⟩ := tabOrderKey_cases hev
        unfold keyBefore at h1
        have hv0 : adjustedTabIndex ev ≠ 0 := by
          intro hv0
          rcases h1 with h1 | ⟨_, hvb⟩
          · omega
          · exact hnoexact v ev hvb hev hvv (by omega)
        exact hmax v ev hev hvv hv0 (by omega)
    · simp only [h0, ne_eq, not_false_eq_true, decide_True, if_true] at hta hmax
      refine ⟨⟨ea, hea, hva, by omega⟩, ?_, ?_⟩
      · left; omega
      · intro v ev hev hvv hv32 h1
        obtain ⟨hvl, hvk⟩ := tabOrderKey_cases hev
        unfold keyBefore at h1
        have hlt : adjustedTabIndex ev ≠ 0 ∧ adjustedTabIndex ev < adjustedTabIndex eb := by
          rcases h1 with h1 | ⟨h1, hvb⟩
          · omega
          · exact absurd (by omega) (hnoexact v ev hvb hev hvv)
        exact hmax v ev hev hvv hlt.1 hlt.2

theorem previousFocusableElement_none_first {els : List Element} {b : Nat} {eb : Element}
    (heb : els[b]? = some eb) (htb : 0 ≤ adjustedTabIndex eb)
    (h : previousFocusableElement els (some b) = none) :
    ∀ (v : Nat) (ev : Element), els[v]? = some ev → shouldVisit ev = true →
      0 ≤ adjustedTabIndex ev → adjustedTabIndex ev ≠ 32767 → ¬ keyBefore els v b := by
  obtain ⟨hbl, hbk⟩ := tabOrderKey_cases heb
  have hnl : ¬ adjustedTabIndex eb < 0 := by omega
  simp only [previousFocusableElement, heb, hnl, if_false] at h
  cases hs : findElementWithExactTabIndex els (traversalPrevious b) (adjustedTabIndex eb)
      .Backward with
  | some r => rw [hs] at h; cases h
  | none =>
    rw [hs] at h
    have hnoexact := findExact_previous_none hs
    simp only [Option.isSome_some, Bool.true_and] at h
    have hnone := previousLower_none h
    intro v ev hev hvv hv0 hv32 h1
    obtain ⟨hvl, hvk⟩ := tabOrderKey_cases hev
    have := hnone v ev hev hvv
    unfold keyBefore at h1
    by_cases h0 : adjustedTabIndex eb = 0
    · simp only [h0, ne_eq, not_true_eq_false, decide_False, Bool.false_eq_true, if_false,
        shortMax] at this
      rcases h1 with h1 | ⟨h1, hvb⟩
      · omega
      · exact hnoexact v ev hvb hev hvv (by omega)
    · simp only [h0, ne_eq, not_false_eq_true, decide_True, if_true] at this
      rcases h1 with h1 | ⟨h1, hvb⟩
      · omega
      · exact hnoexact v ev hvb hev hvv (by omega)

theorem previousFocusableElement_null_last {els : List Element} {a : Nat}
    (h : previousFocusableElement els none = some a) :
    (∃ ea, els[a]? = some ea ∧ shouldVisit ea = true ∧ 0 ≤ adjustedTabIndex ea) ∧
      ∀ (v : Nat) (ev : Element), els[v]? = some ev → shouldVisit ev = true →
        adjustedTabIndex ev ≠ 32767 → ¬ keyBefore els a v := by
  have hnl : ¬ (0 : Int) < 0 := by decide
  simp only [previousFocusableElement, hnl, if_false] at h
  cases hs : findElementWithExactTabIndex els (lastElement els) 0 .Backward with
  | some r =>
    rw [hs] at h
    simp only [Option.some.injEq] at h
    subst h
    cases hl : lastElement els with
    | none => simp [hl, findElementWithExactTabIndex] at hs
    | some l =>
      rw [hl] at hs
      simp only [findElementWithExactTabIndex] at hs
      rw [scanBackward_eq_some] at hs
      obtain ⟨hrl, ⟨ea, hea, hpa⟩, hmin⟩ := hs
      rw [exactTabIndexTest_eq_true] at hpa
      obtain ⟨_, hak⟩ := tabOrderKey_cases hea
      refine ⟨⟨ea, hea, hpa.1, by omega⟩, ?_⟩
      intro v ev hev hvv _ hlt
      obtain ⟨hvl, hvk⟩ := tabOrderKey_cases hev
      obtain ⟨hl2, hvle⟩ := lastElement_of_get hev
      rw [hl] at hl2
      simp only [Option.some.injEq] at hl2
      subst hl2
      unfold keyBefore at hlt
      have hv : r < v ∧ adjustedTabIndex ev = 0 := by omega
      have := hmin v ev hv.1 hvle hev
      rw [exactTabIndexTest_eq_false] at this
      exact this hvv hv.2
  | none =>
    rw [hs] at h
    simp only [Option.isSome_none, Bool.false_and, Bool.false_eq_true, if_false] at h
    obtain ⟨⟨ea, hea, hva, h0a, hta⟩, hmax⟩ := previousLower_pred h
    obtain ⟨_, hak⟩ := tabOrderKey_cases hea
    refine ⟨⟨ea, hea, hva, by omega⟩, ?_⟩
    intro v ev hev hvv hv32 hlt
    obtain ⟨hvl, hvk⟩ := tabOrderKey_cases hev
    have hv0 : adjustedTabIndex ev ≠ 0 := by
      intro hv0
      obtain ⟨hl, hvle⟩ := lastElement_of_get hev
      rw [hl] at hs
      simp only [findElementWithExactTabIndex] at hs
      rw [scanBackward_eq_none] at hs
      have := hs v ev hvle hev
      rw [exactTabIndexTest_eq_false] at this
      exact this hvv hv0
    simp only [shortMax] at hmax
    exact hmax v ev hev hvv hv0 (by omega) hlt

theorem previousFocusableElement_null_none {els : List Element}
    (h : previousFocusableElement els none = none) :
    ∀ (v : Nat) (ev : Element), els[v]? = some ev → shouldVisit ev = true →
      0 ≤ adjustedTabIndex ev → adjustedTabIndex ev ≠ 32767 → False := by
  have hnl : ¬ (0 : Int) < 0 := by decide
  simp only [previousFocusableElement, hnl, if_false] at h
  intro v ev hev hvv hv0 hv32
  obtain ⟨hl, hvle⟩ := lastElement_of_get hev
  cases hs : findElementWithExactTabIndex els (lastElement els) 0 .Backward with
  | some r => rw [hs] at h; cases h
  | none =>
    rw [hs] at h
    simp only [Option.isSome_none, Bool.false_and, Bool.false_eq_true, if_false] at h
    have := previousLower_none h v ev hev hvv
    simp only [shortMax] at this
    obtain ⟨hvl, _⟩ := tabOrderKey_cases hev
    have hz : adjustedTabIndex ev = 0 := by omega
    rw [hl] at hs
    simp only [findElementWithExactTabIndex] at hs
    rw [scanBackward_eq_none] at hs
    have := hs v ev hvle hev
    rw [exactTabIndexTest_eq_false] at this
    exact this hvv hz

/-! ### The forward walk without an assumption on the scope -/

theorem nextFocusableElement_some_succ_nonneg {els : List Element} {a b : Nat} {ea : Element}
    (hea : els[a]? = some ea) (hta : 0 ≤ adjustedTabIndex ea)
    (h : nextFocusableElement els (some a) = some b) :
    ∃ eb, els[b]? = some eb ∧ shouldVisit eb = true ∧ 0 ≤ adjustedTabIndex eb := by
  obtain ⟨⟨eb, heb, hvb⟩, hlt, _⟩ := nextFocusableElement_some_succ hea hta h
  obtain ⟨_, hak⟩ := tabOrderKey_cases hea
  obtain ⟨_, hbk⟩ := tabOrderKey_cases heb
  refine ⟨eb, heb, hvb, ?_⟩
  unfold keyBefore at hlt
  omega

theorem nextFocusableElement_null_min {els : List Element} {b : Nat}
    (h : nextFocusableElement els none = some b) :
    (∃ eb, els[b]? = some eb ∧ shouldVisit eb = true ∧ 0 ≤ adjustedTabIndex eb) ∧
      ∀ (v : Nat) (ev : Element), els[v]? = some ev → shouldVisit ev = true →
        0 ≤ adjustedTabIndex ev → ¬ keyBefore els v b := by
  simp only [nextFocusableElement] at h
  obtain ⟨⟨eb, heb, hvb⟩, hkey, hmin⟩ :=
    nextFocusableElementTail_some (le_refl _) (by decide) h
  obtain ⟨_, hbk⟩ := tabOrderKey_cases heb
  refine ⟨⟨eb, heb, hvb, by omega⟩, ?_⟩
  intro v ev hev hvv hv0
  obtain ⟨hvl, hvk⟩ := tabOrderKey_cases hev
  exact hmin v ev hev hvv (by omega)

theorem nextFocusableElement_null_empty {els : List Element}
    (h : nextFocusableElement els none = none) :
    ∀ (v : Nat) (ev : Element), els[v]? = some ev → shouldVisit ev = true →
      0 ≤ adjustedTabIndex ev → False := by
  simp only [nextFocusableElement] at h
  intro v ev hev hvv hv0
  obtain ⟨hvl, hvk⟩ := tabOrderKey_cases hev
  exact nextFocusableElementTail_none h v ev hev hvv (by omega)

/-! ### Forward and backward steps are inverse -/

/-- `previousFocusableElement` undoes a step of `nextFocusableElement` from a
visitable element whose adjusted tab index lies between 0 and 32766. -/
theorem previous_of_next {els : List Element} {a b : Nat} {ea : Element}
    (hea : els[a]? = some ea) (hva : shouldVisit ea = true) (hta : 0 ≤ adjustedTabIndex ea)
    (hta2 : adjustedTabIndex ea ≠ 32767)
    (h : nextFocusableElement els (some a) = some b) :
    previousFocusableElement els (some b) = some a := by
  obtain ⟨⟨eb, heb, hvb⟩, hab, hmin⟩ := nextFocusableElement_some_succ hea hta h
  obtain ⟨eb', heb', _, htb⟩ := nextFocusableElement_some_succ_nonneg hea hta h
  rw [heb] at heb'
  cases heb'
  cases hp : previousFocusableElement els (some b) with
  | none =>
    exact absurd hab (previousFocusableElement_none_first heb htb hp a ea hea hva hta hta2)
  | some a' =>
    obtain ⟨⟨ea', hea', hva', _⟩, ha'b, hmax⟩ := previousFocusableElement_some_pred heb htb hp
    rcases keyBefore_total els a a' with hlt | heq | hgt
    · exact absurd ha'b (hmin a' ea' hea' hva' hlt)
    · rw [heq]
    · exact absurd hgt (hmax a ea hea hva hta2 hab)

/-- `nextFocusableElement` undoes a step of `previousFocusableElement`. -/
theorem next_of_previous {els : List Element} {a b : Nat} {eb : Element}
    (heb : els[b]? = some eb) (hvb : shouldVisit eb = true) (htb : 0 ≤ adjustedTabIndex eb)
    (h32 : ∀ (v : Nat) (ev : Element), els[v]? = some ev → shouldVisit ev = true →
      adjustedTabIndex ev ≠ 32767)
    (h : previousFocusableElement els (some b) = some a) :
    nextFocusableElement els (some a) = some b := by
  obtain ⟨⟨ea, hea, hva, hta⟩, hab, hmax⟩ := previousFocusableElement_some_pred heb htb h
  cases hn : nextFocusableElement els (some a) with
  | none => exact absurd hab (nextFocusableElement_none_last hea hta hn b eb heb hvb)
  | some b' =>
    obtain ⟨⟨eb', heb', hvb'⟩, hab', hmin⟩ := nextFocusableElement_some_succ hea hta hn
    rcases keyBefore_total els b b' with hlt | heq | hgt
    · exact absurd hlt (hmin b eb heb hvb hab)
    · rw [heq]
    · exact absurd hab' (hmax b' eb' heb' hvb' (h32 b' eb' heb' hvb') hgt)

/-! ## Removal of elements -/

theorem originalPosition_getElem? (keep : Element → Bool) (els : List Element) (j : Nat) :
    (els.filter keep)[j]? = els[originalPosition keep els j]? := by
  induction els generalizing j with
  | nil => simp [originalPosition]
  | cons e rest ih =>
    unfold originalPosition
    by_cases hk : keep e = true
    · simp only [hk, if_true, List.filter_cons_of_pos]
      cases j with
      | zero => simp
      | succ j => simpa using ih j
    · simp only [hk, Bool.false_eq_true, if_false]
      rw [List.filter_cons_of_neg hk]
      simpa using ih j

theorem originalPosition_strictMono (keep : Element → Bool) (els : List Element) :
    ∀ i j, i < j → originalPosition keep els i < originalPosition keep els j := by
  induction els with
  | nil => intro i j h; simpa [originalPosition] using h
  | cons e rest ih =>
    intro i j h
    unfold originalPosition
    by_cases hk : keep e = true
    · simp only [hk, if_true]
      cases j with
      | zero => omega
      | succ j =>
        cases i with
        | zero => simp
        | succ i => simpa using ih i j (by omega)
    · simp only [hk, Bool.false_eq_true, if_false]
      simpa using ih i j h

/-- A result of `nextElementWithGreaterTabIndex` is determined by its properties. -/
theorem nextElementWithGreaterTabIndex_eq_some {els : List Element} {s r : Nat} {t : Int}
    {e : Element} (hsr : s ≤ r) (he : els[r]? = some e) (hv : shouldVisit e = true)
    (ht : t < adjustedTabIndex e)
    (hall : ∀ (j : Nat) (x : Element), s ≤ j → els[j]? = some x → shouldVisit x = true →
      t < adjustedTabIndex x → adjustedTabIndex e ≤ adjustedTabIndex x)
    (hbefore : ∀ (j : Nat) (x : Element), s ≤ j → j < r → els[j]? = some x →
      shouldVisit x = true → t < adjustedTabIndex x → adjustedTabIndex e < adjustedTabIndex x) :
    nextElementWithGreaterTabIndex els (some s) t = some r := by
  cases hres : nextElementWithGreaterTabIndex els (some s) t with
  | none =>
    have := nextElementWithGreaterTabIndex_none hres r e hsr he hv
    omega
  | some r' =>
    obtain ⟨s', e', hs', hsr', he', hv', ht', hall', hbefore'⟩ :=
      nextElementWithGreaterTabIndex_some hres
    simp only [Option.some.injEq] at hs'
    subst hs'
    have h1 := hall r' e' hsr' he' hv' ht'
    have h2 := hall' r e hsr he hv ht
    rcases Nat.lt_trichotomy r' r with hlt | heq | hgt
    · have := hbefore r' e' hsr' hlt he' hv' ht'
      omega
    · rw [heq]
    · have := hbefore' r e hsr hgt he hv ht
      omega

section Stability

variable {T T' : List Element} {f : Nat → Nat}

theorem embed_lt_iff (hf : ∀ i j, i < j → f i < f j) {i j : Nat} : f i < f j ↔ i < j := by
  constructor
  · intro h
    by_contra hn
    rcases Nat.lt_or_eq_of_le (Nat.le_of_not_lt hn) with h1 | h1
    · have := hf j i h1; omega
    · subst h1; omega
  · exact hf i j

theorem scanForward_stable_some (hf : ∀ i j, i < j → f i < f j)
    (hT : ∀ j, T'[j]? = T[f j]?) {p : Element → Bool} {a a' t : Nat}
    (hstart : ∀ j, a' ≤ j ↔ a ≤ f j)
    (h : scanForward p (T.drop a) a = some (f t)) :
    scanForward p (T'.drop a') a' = some t := by
  rw [scanForward_drop_eq_some] at h ⊢
  obtain ⟨hat, ⟨e, he, hp⟩, hmin⟩ := h
  refine ⟨(hstart t).2 hat, ⟨e, by rw [hT]; exact he, hp⟩, ?_⟩
  intro j x hj hjt hx
  rw [hT] at hx
  exact hmin (f j) x ((hstart j).1 hj) (hf j t hjt) hx

theorem scanForward_stable_none (hT : ∀ j, T'[j]? = T[f j]?) {p : Element → Bool} {a a' : Nat}
    (hstart : ∀ j, a' ≤ j ↔ a ≤ f j)
    (h : scanForward p (T.drop a) a = none) :
    scanForward p (T'.drop a') a' = none := by
  rw [scanForward_drop_eq_none] at h ⊢
  intro j x hj hx
  rw [hT] at hx
  exact h (f j) x ((hstart j).1 hj) hx

theorem nextGreater_stable_some (hf : ∀ i j, i < j → f i < f j)
    (hT : ∀ j, T'[j]? = T[f j]?) {ta : Int} {t : Nat}
    (h : nextElementWithGreaterTabIndex T (some 0) ta = some (f t)) :
    nextElementWithGreaterTabIndex T' (some 0) ta = some t := by
  obtain ⟨s, e, hs, _, he, hv, ht, hall, hbefore⟩ := nextElementWithGreaterTabIndex_some h
  simp only [Option.some.injEq] at hs
  subst hs
  refine nextElementWithGreaterTabIndex_eq_some (Nat.zero_le _) (by rw [hT]; exact he) hv ht ?_ ?_
  · intro j x _ hx hvx htx
    rw [hT] at hx
    exact hall (f j) x (Nat.zero_le _) hx hvx htx
  · intro j x _ hjt hx hvx htx
    rw [hT] at hx
    exact hbefore (f j) x (Nat.zero_le _) (hf j t hjt) hx hvx htx

theorem nextGreater_stable_none (hT : ∀ j, T'[j]? = T[f j]?) {ta : Int}
    (h : nextElementWithGreaterTabIndex T (some 0) ta = none) :
    nextElementWithGreaterTabIndex T' (some 0) ta = none := by
  cases hres : nextElementWithGreaterTabIndex T' (some 0) ta with
  | none => rfl
  | some r =>
    obtain ⟨_, e, _, _, he, hv, ht, _⟩ := nextElementWithGreaterTabIndex_some hres
    rw [hT] at he
    have := nextElementWithGreaterTabIndex_none h (f r) e (Nat.zero_le _) he hv
    omega

theorem nextFocusableElementTail_stable (hf : ∀ i j, i < j → f i < f j)
    (hT : ∀ j, T'[j]? = T[f j]?) {ta : Int} {t s : Nat} {es : Element}
    (hs : T'[s]? = some es)
    (h : nextFocusableElementTail T ta = some (f t)) :
    nextFocusableElementTail T' ta = some t := by
  have hs2 : T[f s]? = some es := by rw [← hT]; exact hs
  unfold nextFocusableElementTail at h ⊢
  rw [firstElement_of_get hs2] at h
  rw [firstElement_of_get hs]
  cases hg : nextElementWithGreaterTabIndex T (some 0) ta with
  | some r =>
    rw [hg] at h
    simp only [Option.some.injEq] at h
    subst h
    rw [nextGreater_stable_some hf hT hg]
  | none =>
    rw [hg] at h
    rw [nextGreater_stable_none hT hg]
    simp only [findElementWithExactTabIndex] at h ⊢
    exact scanForward_stable_some hf hT (by intro j; simp) h

/-- A direct step of `nextFocusableElement` from `s` to `t` survives the
removal of any other elements. -/
theorem nextFocusableElement_stable (hf : ∀ i j, i < j → f i < f j)
    (hT : ∀ j, T'[j]? = T[f j]?) {s t : Nat} (hs : s < T'.length)
    (h : nextFocusableElement T (some (f s)) = some (f t)) :
    nextFocusableElement T' (some s) = some t := by
  obtain ⟨es, hes⟩ : ∃ es, T'[s]? = some es := ⟨T'[s], List.getElem?_eq_getElem hs⟩
  have hes2 : T[f s]? = some es := by rw [← hT]; exact hes
  have hstart : ∀ j, s + 1 ≤ j ↔ f s + 1 ≤ f j := by
    intro j
    have := @embed_lt_iff f hf s j
    omega
  simp only [nextFocusableElement, hes, hes2, findExact_next_eq] at h ⊢
  by_cases hneg : adjustedTabIndex es < 0
  · simp only [hneg, if_true] at h ⊢
    cases hsc : scanForward treeOrderTest (T.drop (f s + 1)) (f s + 1) with
    | some r =>
      rw [hsc] at h
      simp only [Option.some.injEq] at h
      subst h
      rw [scanForward_stable_some hf hT hstart hsc]
    | none =>
      rw [hsc] at h
      rw [scanForward_stable_none hT hstart hsc]
      have h0 : adjustedTabIndex es ≠ 0 := by omega
      simp only [h0, if_false] at h ⊢
      exact nextFocusableElementTail_stable hf hT hes h
  · simp only [hneg, if_false] at h ⊢
    cases hsc : scanForward (exactTabIndexTest (adjustedTabIndex es)) (T.drop (f s + 1))
        (f s + 1) with
    | some r =>
      rw [hsc] at h
      simp only [Option.some.injEq] at h
      subst h
      rw [scanForward_stable_some hf hT hstart hsc]
    | none =>
      rw [hsc] at h
      rw [scanForward_stable_none hT hstart hsc]
      by_cases h0 : adjustedTabIndex es = 0
      · simp [h0] at h
      · simp only [h0, if_false] at h ⊢
        exact nextFocusableElementTail_stable hf hT hes h

end Stability

/-- C7, as the claim states it, fails: in the tree of tab indices 0, -1, 5, 0
the iteration from the element of tab index -1 reaches the first element of
tab index 0 before any other element that stays, but after the removal of the
element of tab index 5 `nextFocusableElement` returns the last element. -/
theorem removePositive_changes_order :
    ¬ ∀ (T : List Element) (s t fuel : Nat),
        s < (removePositive T).length → t < (removePositive T).length →
        reachesFirstKept T fuel (originalPosition keepsNonPositive T s)
          (originalPosition keepsNonPositive T t) = true →
        nextFocusableElement (removePositive T) (some s) = some t := by
  intro h
  have := h scopeNegativeStart 1 0 3 (by decide) (by decide) (by decide)
  revert this
  decide

/-- C7 (amended): if `nextFocusableElement` in `T` from `s` returns `t`
directly, `s` and `t` being elements that stay in `T'` (`T` without its elements
of positive tab index), then `nextFocusableElement` in `T'` from `s` returns
`t`. -/
theorem removePositive_keeps_direct_steps (T : List Element) (s t : Nat)
    (hs : s < (removePositive T).length)
    (h : nextFocusableElement T (some (originalPosition keepsNonPositive T s))
      = some (originalPosition keepsNonPositive T t)) :
    nextFocusableElement (removePositive T) (some s) = some t :=
  nextFocusableElement_stable (originalPosition_strictMono keepsNonPositive T)
    (originalPosition_getElem? keepsNonPositive T) hs h

theorem removePositive_keeps_direct_steps_witness :
    nextFocusableElement (removePositive scopeMixed) (some 0) = some 1 :=
  removePositive_keeps_direct_steps scopeMixed 0 1 (by decide) (by decide)


/-! ## Fuel -/

theorem recursivelyForwardLoop_mono (dom : Dom) :
    ∀ (fuel scope : Nat) (cand : Option Nat) (r : Option Ref),
      recursivelyForwardLoop dom fuel scope cand = some r →
      recursivelyForwardLoop dom (fuel + 1) scope cand = some r := by
  intro fuel
  induction fuel with
  | zero => intro scope cand r h; simp [recursivelyForwardLoop] at h
  | succ n ih =>
    intro scope cand r h
    cases cand with
    | none =>
      rw [recursivelyForwardLoop] at h ⊢
      exact h
    | some found =>
      rw [recursivelyForwardLoop] at h ⊢
      cases hel : (dom.scope scope).elements[found]? with
      | none => simpa [hel] using h
      | some element =>
        simp only [hel] at h ⊢
        have inner : ∀ (o : Option Nat) (k : Option (Option Ref)) (k' : Option (Option Ref)),
            (∀ r, k = some r → k' = some r) →
            (match (match o with
              | none => some none
              | some i => recursivelyForwardLoop dom n i
                  (findFocusableElementInternal .Forward (dom.scope i).elements none)) with
              | none => none
              | some (some f) => some (some f)
              | some none => k) = some r →
            (match (match o with
              | none => some none
              | some i => recursivelyForwardLoop dom (n + 1) i
                  (findFocusableElementInternal .Forward (dom.scope i).elements none)) with
              | none => none
              | some (some f) => some (some f)
              | some none => k') = some r := by
          intro o k k' hk hm
          cases o with
          | none => exact hk r hm
          | some i =>
            simp only at hm ⊢
            cases hin : recursivelyForwardLoop dom n i
                (findFocusableElementInternal .Forward (dom.scope i).elements none) with
            | none => simp [hin] at hm
            | some x =>
              rw [ih _ _ _ hin]
              rw [hin] at hm
              cases x with
              | none => exact hk r hm
              | some f => exact hm
        split_ifs at h ⊢ with h1 h2 h3
        · exact inner _ _ _ (fun r hr => ih _ _ _ hr) h
        · exact ih _ _ _ h
        · exact h
        · exact inner _ _ _ (fun r hr => ih _ _ _ hr) h

theorem recursivelyBackwardLoop_mono (dom : Dom) :
    ∀ (fuel scope : Nat) (cand : Option Nat) (r : Option Ref),
      recursivelyBackwardLoop dom fuel scope cand = some r →
      recursivelyBackwardLoop dom (fuel + 1) scope cand = some r := by
  intro fuel
  induction fuel with
  | zero => intro scope cand r h; simp [recursivelyBackwardLoop] at h
  | succ n ih =>
    intro scope cand r h
    cases cand with
    | none =>
      rw [recursivelyBackwardLoop] at h ⊢
      exact h
    | some found =>
      rw [recursivelyBackwardLoop] at h ⊢
      cases hel : (dom.scope scope).elements[found]? with
      | none => simpa [hel] using h
      | some element =>
        simp only [hel] at h ⊢
        have inner : ∀ (o : Option Nat) (k : Option (Option Ref)) (k' : Option (Option Ref)),
            (∀ r, k = some r → k' = some r) →
            (match (match o with
              | none => some none
              | some i => recursivelyBackwardLoop dom n i
                  (findFocusableElementInternal .Backward (dom.scope i).elements none)) with
              | none => none
              | some (some f) => some (some f)
              | some none => k) = some r →
            (match (match o with
              | none => some none
              | some i => recursivelyBackwardLoop dom (n + 1) i
                  (findFocusableElementInternal .Backward (dom.scope i).elements none)) with
              | none => none
              | some (some f) => some (some f)
              | some none => k') = some r := by
          intro o k k' hk hm
          cases o with
          | none => exact hk r hm
          | some i =>
            simp only at hm ⊢
            cases hin : recursivelyBackwardLoop dom n i
                (findFocusableElementInternal .Backward (dom.scope i).elements none) with
            | none => simp [hin] at hm
            | some x =>
              rw [ih _ _ _ hin]
              rw [hin] at hm
              cases x with
              | none => exact hk r hm
              | some f => exact hm
        split_ifs at h ⊢ with h1 h2 h3 h4 h5
        · exact inner _ _ _ (fun r hr => ih _ _ _ hr) h
        · exact inner _ _ _ (fun r hr => hr) h
        · exact ih _ _ _ h
        · exact inner _ _ _ (fun r hr => ih _ _ _ hr) h
        · exact h
        · exact ih _ _ _ h

theorem findFocusableElementRecursively_mono (dom : Dom) (type : WebFocusType)
    (fuel scope : Nat) (start : Option Nat) (r : Option Ref)
    (h : findFocusableElementRecursively dom type fuel scope start = some r) :
    findFocusableElementRecursively dom type (fuel + 1) scope start = some r := by
  cases type with
  | Forward => exact recursivelyForwardLoop_mono dom _ _ _ _ h
  | Backward => exact recursivelyBackwardLoop_mono dom _ _ _ _ h

theorem descending_mono (dom : Dom) (type : WebFocusType) :
    ∀ (fuel : Nat) (element : Option Ref) (r : Option Ref),
      findFocusableElementDescendingDownIntoFrameDocument dom type fuel element = some r →
      findFocusableElementDescendingDownIntoFrameDocument dom type (fuel + 1) element = some r := by
  intro fuel
  induction fuel with
  | zero =>
    intro element r h
    simp [findFocusableElementDescendingDownIntoFrameDocument] at h
  | succ n ih =>
    intro element r h
    cases element with
    | none =>
      rw [findFocusableElementDescendingDownIntoFrameDocument] at h ⊢
      exact h
    | some x =>
      rw [findFocusableElementDescendingDownIntoFrameDocument] at h ⊢
      cases hel : elementAt dom x with
      | none => simpa [hel] using h
      | some owner =>
        simp only [hel] at h ⊢
        split_ifs at h ⊢ with h1
        · exact h
        · cases hcf : owner.contentFrame with
          | none => simpa [hcf] using h
          | some cf =>
            cases cf with
            | remoteFrame => simpa [hcf] using h
            | localFrame document =>
              simp only [hcf] at h ⊢
              cases hrec : findFocusableElementRecursively dom type n document none with
              | none => simp [hrec] at h
              | some y =>
                rw [findFocusableElementRecursively_mono dom type _ _ _ _ hrec]
                rw [hrec] at h
                cases y with
                | none => exact h
                | some f => exact ih _ _ h

theorem climbForward_mono (dom : Dom) :
    ∀ (fuel scope : Nat) (found : Option Ref) (r : Option Ref),
      climbForward dom fuel scope found = some r →
      climbForward dom (fuel + 1) scope found = some r := by
  intro fuel
  induction fuel with
  | zero => intro scope found r h; simp [climbForward] at h
  | succ n ih =>
    intro scope found r h
    cases found with
    | some x =>
      rw [climbForward] at h ⊢
      exact h
    | none =>
      rw [climbForward] at h ⊢
      cases how : (dom.scope scope).owner with
      | none => simpa [how] using h
      | some owner =>
        simp only [how] at h ⊢
        cases hrec : findFocusableElementRecursivelyForward dom n owner.scope (some owner.pos) with
        | none => simp [hrec] at h
        | some y =>
          rw [show findFocusableElementRecursivelyForward dom (n + 1) owner.scope (some owner.pos)
            = some y from recursivelyForwardLoop_mono dom _ _ _ _ hrec]
          rw [hrec] at h
          exact ih _ _ _ h

theorem climbBackward_mono (dom : Dom) :
    ∀ (fuel scope : Nat) (found : Option Ref) (r : Option Ref),
      climbBackward dom fuel scope found = some r →
      climbBackward dom (fuel + 1) scope found = some r := by
  intro fuel
  induction fuel with
  | zero => intro scope found r h; simp [climbBackward] at h
  | succ n ih =>
    intro scope found r h
    cases found with
    | some x =>
      rw [climbBackward] at h ⊢
      exact h
    | none =>
      rw [climbBackward] at h ⊢
      cases how : (dom.scope scope).owner with
      | none => simpa [how] using h
      | some owner =>
        simp only [how] at h ⊢
        cases hel : elementAt dom owner with
        | none => simpa [hel] using h
        | some ownerElement =>
          simp only [hel] at h ⊢
          split_ifs at h ⊢ with h1
          · exact h
          · cases hrec : findFocusableElementRecursivelyBackward dom n owner.scope
                (some owner.pos) with
            | none => simp [hrec] at h
            | some y =>
              rw [show findFocusableElementRecursivelyBackward dom (n + 1) owner.scope
                (some owner.pos) = some y from recursivelyBackwardLoop_mono dom _ _ _ _ hrec]
              rw [hrec] at h
              exact ih _ _ _ h

theorem acrossForward_mono (dom : Dom) (fuel scope : Nat) (current : Option Nat)
    (r : Option Ref)
    (h : findFocusableElementAcrossFocusScopesForward dom fuel scope current = some r) :
    findFocusableElementAcrossFocusScopesForward dom (fuel + 1) scope current = some r := by
  unfold findFocusableElementAcrossFocusScopesForward at h ⊢
  simp only at h ⊢
  -- the tail after `found` is computed
  have tail : ∀ (x x' : Option (Option Ref)), (∀ y, x = some y → x' = some y) →
      (match x with
        | none => none
        | some found =>
          match climbForward dom fuel scope found with
          | none => none
          | some found =>
            findFocusableElementDescendingDownIntoFrameDocument dom .Forward fuel found) = some r →
      (match x' with
        | none => none
        | some found =>
          match climbForward dom (fuel + 1) scope found with
          | none => none
          | some found =>
            findFocusableElementDescendingDownIntoFrameDocument dom .Forward (fuel + 1) found)
        = some r := by
    intro x x' hx hm
    cases x with
    | none => simp at hm
    | some y =>
      rw [hx y rfl]
      simp only at hm ⊢
      cases hc : climbForward dom fuel scope y with
      | none => simp [hc] at hm
      | some z =>
        rw [climbForward_mono dom _ _ _ _ hc]
        rw [hc] at hm
        exact descending_mono dom _ _ _ _ hm
  refine tail _ _ ?_ h
  intro y hy
  have plain : ∀ y, findFocusableElementRecursivelyForward dom fuel scope current = some y →
      findFocusableElementRecursivelyForward dom (fuel + 1) scope current = some y :=
    fun y hy => recursivelyForwardLoop_mono dom _ _ _ _ hy
  cases hcur : current.bind (fun c => (dom.scope scope).elements[c]?) with
  | none =>
    rw [hcur] at hy
    exact plain y hy
  | some element =>
    rw [hcur] at hy
    simp only at hy ⊢
    split_ifs at hy ⊢ with h1
    · cases hown : ownedByShadowHost element with
      | none =>
        rw [hown] at hy
        exact plain y hy
      | some innerScope =>
        rw [hown] at hy
        simp only at hy ⊢
        cases hin : findFocusableElementRecursivelyForward dom fuel innerScope none with
        | none => simp [hin] at hy
        | some z =>
          rw [show findFocusableElementRecursivelyForward dom (fuel + 1) innerScope none = some z
            from recursivelyForwardLoop_mono dom _ _ _ _ hin]
          rw [hin] at hy
          cases z with
          | none => exact plain y hy
          | some f => exact hy
    · exact plain y hy

theorem acrossBackward_mono (dom : Dom) (fuel scope : Nat) (current : Option Nat)
    (r : Option Ref)
    (h : findFocusableElementAcrossFocusScopesBackward dom fuel scope current = some r) :
    findFocusableElementAcrossFocusScopesBackward dom (fuel + 1) scope current = some r := by
  unfold findFocusableElementAcrossFocusScopesBackward at h ⊢
  cases hrec : findFocusableElementRecursivelyBackward dom fuel scope current with
  | none => simp [hrec] at h
  | some y =>
    rw [show findFocusableElementRecursivelyBackward dom (fuel + 1) scope current = some y
      from recursivelyBackwardLoop_mono dom _ _ _ _ hrec]
    rw [hrec] at h
    simp only at h ⊢
    cases hc : climbBackward dom fuel scope y with
    | none => simp [hc] at h
    | some z =>
      rw [climbBackward_mono dom _ _ _ _ hc]
      rw [hc] at h
      exact descending_mono dom _ _ _ _ h

theorem findFocusableElement_mono (dom : Dom) (type : WebFocusType) (fuel : Nat) (element : Ref)
    (r : Option Ref) (h : findFocusableElement dom type fuel element = some r) :
    findFocusableElement dom type (fuel + 1) element = some r := by
  cases type with
  | Forward => exact acrossForward_mono dom _ _ _ _ h
  | Backward => exact acrossBackward_mono dom _ _ _ _ h

/-- A result reached with some fuel is reached with any larger fuel. -/
theorem fuel_le {α : Type} (f : Nat → Option α)
    (hmono : ∀ n r, f n = some r → f (n + 1) = some r) {n m : Nat} {r : α}
    (hnm : n ≤ m) (h : f n = some r) : f m = some r := by
  induction m with
  | zero =>
    have : n = 0 := by omega
    subst this; exact h
  | succ m ih =>
    rcases Nat.lt_or_eq_of_le hnm with hlt | heq
    · exact hmono m r (ih (by omega))
    · subst heq; exact h

/-! ## Claims on the recursive descent -/

theorem returns_of_eq {f : Nat → Option (Option Ref)}
    (hmono : ∀ n r, f n = some r → f (n + 1) = some r) {k : Nat} {r : Option Ref}
    (h : f k = some r) : Returns f r :=
  ⟨k, fun _ hn => fuel_le f hmono hn h⟩

theorem returns_unique {f : Nat → Option (Option Ref)} {r r' : Option Ref}
    (h : Returns f r) (h' : Returns f r') : r = r' := by
  obtain ⟨k, hk⟩ := h
  obtain ⟨k', hk'⟩ := h'
  have h1 := hk (max k k') (le_max_left _ _)
  have h2 := hk' (max k k') (le_max_right _ _)
  rw [h1] at h2
  exact Option.some.inj h2

/-- An element returned by the forward loop is neither a shadow host that
delegates focus nor a non-focusable focus scope owner. -/
theorem recursivelyForwardLoop_result (dom : Dom) :
    ∀ (fuel scope : Nat) (cand : Option Nat) (r : Ref),
      recursivelyForwardLoop dom fuel scope cand = some (some r) →
      ∃ e, elementAt dom r = some e ∧ isShadowHostDelegatesFocus e = false ∧
        isNonFocusableFocusScopeOwner e = false := by
  intro fuel
  induction fuel with
  | zero => intro scope cand r h; simp [recursivelyForwardLoop] at h
  | succ n ih =>
    intro scope cand r h
    cases cand with
    | none => simp [recursivelyForwardLoop] at h
    | some found =>
      rw [recursivelyForwardLoop] at h
      cases hel : (dom.scope scope).elements[found]? with
      | none => simp [hel] at h
      | some element =>
        simp only [hel] at h
        have inner : ∀ (o : Option Nat) (k : Option (Option Ref)),
            (k = some (some r) → ∃ e, elementAt dom r = some e ∧
              isShadowHostDelegatesFocus e = false ∧ isNonFocusableFocusScopeOwner e = false) →
            (match (match o with
              | none => some none
              | some i => recursivelyForwardLoop dom n i
                  (findFocusableElementInternal .Forward (dom.scope i).elements none)) with
              | none => none
              | some (some f) => some (some f)
              | some none => k) = some (some r) →
            ∃ e, elementAt dom r = some e ∧
              isShadowHostDelegatesFocus e = false ∧ isNonFocusableFocusScopeOwner e = false := by
          intro o k hk hm
          cases o with
          | none => exact hk hm
          | some i =>
            simp only at hm
            cases hin : recursivelyForwardLoop dom n i
                (findFocusableElementInternal .Forward (dom.scope i).elements none) with
            | none => simp [hin] at hm
            | some x =>
              rw [hin] at hm
              cases x with
              | none => exact hk hm
              | some f =>
                simp only [Option.some.injEq] at hm
                subst hm
                exact ih _ _ _ hin
        split_ifs at h with h1 h2 h3
        · exact inner _ _ (ih _ _ _) h
        · exact ih _ _ _ h
        · simp only [Option.some.injEq] at h
          subst h
          refine ⟨element, hel, by simpa using h1, by simpa using h3⟩
        · exact inner _ _ (ih _ _ _) h

/-- One turn of the forward loop at a shadow host that delegates focus. -/
theorem recursivelyForward_at_delegating_host (dom : Dom) (n scope : Nat) (start : Option Nat)
    (h : Nat) (host : Element) (inner : Nat)
    (hcand : nextFocusableElement (dom.scope scope).elements start = some h)
    (hhost : (dom.scope scope).elements[h]? = some host)
    (hdel : isShadowHostDelegatesFocus host = true)
    (hcustom : isShadowHostWithoutCustomFocusLogic host = true)
    (htab : 0 ≤ host.tabIndex.val)
    (hinner : ownedByShadowHost host = some inner) :
    findFocusableElementRecursivelyForward dom (n + 1) scope start =
      match findFocusableElementRecursivelyForward dom n inner none with
      | none => none
      | some (some c) => some (some c)
      | some none => findFocusableElementRecursivelyForward dom n scope (some h) := by
  unfold findFocusableElementRecursivelyForward
  simp only [findFocusableElementInternal, hcand]
  rw [recursivelyForwardLoop]
  simp only [hhost, hdel, hcustom, htab, hinner, findFocusableElementInternal, if_true,
    ge_iff_le, decide_True, Bool.and_self]
  try rfl

/-- C8: when the candidate of the linear forward scan is a shadow host `H`
that delegates focus, has no custom focus logic and a tab index `>= 0`: if the
recursive forward search from null in the shadow scope of `H` finds `C`,
`findFocusableElementRecursivelyForward` returns `C`, which is not `H`; if that
search finds nothing, the result is that of the search continued in the
current scope from `H`. -/
theorem recursivelyForward_delegating_host (dom : Dom) (scope : Nat) (start : Option Nat)
    (h : Nat) (host : Element) (inner : Nat)
    (hcand : nextFocusableElement (dom.scope scope).elements start = some h)
    (hhost : (dom.scope scope).elements[h]? = some host)
    (hdel : isShadowHostDelegatesFocus host = true)
    (hcustom : isShadowHostWithoutCustomFocusLogic host = true)
    (htab : 0 ≤ host.tabIndex.val)
    (hinner : ownedByShadowHost host = some inner) :
    (∀ c, Returns (fun n => findFocusableElementRecursivelyForward dom n inner none) (some c) →
      Returns (fun n => findFocusableElementRecursivelyForward dom n scope start) (some c) ∧
        c ≠ ⟨scope, h⟩) ∧
    (Returns (fun n => findFocusableElementRecursivelyForward dom n inner none) none →
      ∀ r, Returns (fun n => findFocusableElementRecursivelyForward dom n scope start) r ↔
        Returns (fun n => findFocusableElementRecursivelyForward dom n scope (some h)) r) := by
  have step := fun n => recursivelyForward_at_delegating_host dom n scope start h host inner
    hcand hhost hdel hcustom htab hinner
  constructor
  · rintro c ⟨k, hk⟩
    beta_reduce at hk
    constructor
    · refine ⟨k + 1, fun n hn => ?_⟩
      obtain ⟨m, rfl⟩ : ∃ m, n = m + 1 := ⟨n - 1, by omega⟩
      beta_reduce
      rw [step m, hk m (by omega)]
    · intro hc
      obtain ⟨e, he, hnd, _⟩ := recursivelyForwardLoop_result dom k inner _ c (hk k (le_refl _))
      rw [hc] at he
      simp only [elementAt] at he
      rw [hhost] at he
      cases he
      rw [hdel] at hnd
      cases hnd
  · rintro ⟨k, hk⟩ r
    beta_reduce at hk
    constructor
    · rintro ⟨k', hk'⟩
      beta_reduce at hk'
      refine ⟨max k k', fun n hn => ?_⟩
      have hn1 : k ≤ n := le_trans (le_max_left _ _) hn
      have hn2 : k' ≤ n := le_trans (le_max_right _ _) hn
      have h1 := hk' (n + 1) (by omega)
      rw [step n, hk n hn1] at h1
      exact h1
    · rintro ⟨k', hk'⟩
      beta_reduce at hk'
      refine ⟨max k k' + 1, fun n hn => ?_⟩
      obtain ⟨m, rfl⟩ : ∃ m, n = m + 1 := ⟨n - 1, by omega⟩
      have hm : max k k' ≤ m := by omega
      have hn1 : k ≤ m := le_trans (le_max_left _ _) hm
      have hn2 : k' ≤ m := le_trans (le_max_right _ _) hm
      beta_reduce
      rw [step m, hk m hn1]
      exact hk' m hn2

theorem descending_not_frame_owner (dom : Dom) (type : WebFocusType) (n : Nat) (r : Ref)
    (e : Element) (he : elementAt dom r = some e) (hf : e.isFrameOwnerElement = false) :
    findFocusableElementDescendingDownIntoFrameDocument dom type (n + 1) (some r)
      = some (some r) := by
  rw [findFocusableElementDescendingDownIntoFrameDocument]
  simp [he, hf]

theorem descending_null (dom : Dom) (type : WebFocusType) (n : Nat) :
    findFocusableElementDescendingDownIntoFrameDocument dom type (n + 1) none = some none := by
  rw [findFocusableElementDescendingDownIntoFrameDocument]

theorem climbBackward_found (dom : Dom) (n scope : Nat) (r : Ref) :
    climbBackward dom (n + 1) scope (some r) = some (some r) := by
  rw [climbBackward]

theorem climbForward_found (dom : Dom) (n scope : Nat) (r : Ref) :
    climbForward dom (n + 1) scope (some r) = some (some r) := by
  rw [climbForward]

theorem adjustedTabIndex_of_not_owner {e : Element} (hhost : isShadowHost e = false)
    (hins : isShadowInsertionPointFocusScopeOwner e = false) :
    isNonFocusableFocusScopeOwner e = false ∧ adjustedTabIndex e = e.tabIndex.val := by
  have : isNonFocusableFocusScopeOwner e = false := by
    simp [isNonFocusableFocusScopeOwner, isNonKeyboardFocusableShadowHost,
      isShadowHostWithoutCustomFocusLogic, hhost, hins]
  exact ⟨this, by simp [adjustedTabIndex, this]⟩

theorem recursivelyForward_delegating_host_witness :
    (Returns (fun n => findFocusableElementRecursivelyForward domDelegating n 0 none)
        (some ⟨1, 0⟩) ∧ (⟨1, 0⟩ : Ref) ≠ ⟨0, 0⟩) ∧
    Returns (fun n => findFocusableElementRecursivelyForward domDelegatingEmpty n 0 none)
        (some ⟨0, 1⟩) :=
  ⟨(recursivelyForward_delegating_host domDelegating 0 none 0 hostDelegating 1 (by decide) rfl
      (by decide) (by decide) (by decide) rfl).1 ⟨1, 0⟩
      (returns_of_eq (fun n r => recursivelyForwardLoop_mono _ n _ _ r) (k := 1) (by decide)),
   ((recursivelyForward_delegating_host domDelegatingEmpty 0 none 0 hostDelegating 1 (by decide)
      rfl (by decide) (by decide) (by decide) rfl).2
      (returns_of_eq (fun n r => recursivelyForwardLoop_mono _ n _ _ r) (k := 1) (by decide))
      (some ⟨0, 1⟩)).2
      (returns_of_eq (fun n r => recursivelyForwardLoop_mono _ n _ _ r) (k := 1) (by decide))⟩

/-- The forward loop returns a candidate that is no scope owner and does not
delegate focus. -/
theorem recursivelyForward_at_plain (dom : Dom) (n scope : Nat) (start : Option Nat)
    (c : Nat) (e : Element)
    (hcand : nextFocusableElement (dom.scope scope).elements start = some c)
    (he : (dom.scope scope).elements[c]? = some e)
    (hown : isNonFocusableFocusScopeOwner e = false)
    (hdel : isShadowHostDelegatesFocus e = false) :
    findFocusableElementRecursivelyForward dom (n + 1) scope start = some (some ⟨scope, c⟩) := by
  unfold findFocusableElementRecursivelyForward
  simp only [findFocusableElementInternal, hcand]
  rw [recursivelyForwardLoop]
  simp [he, hdel, hown]

theorem returns_acrossForward_plain {dom : Dom} {scope : Nat} {current : Nat} {c : Ref}
    {r : Option Ref} {e : Element}
    (he : (dom.scope scope).elements[current]? = some e) (hhost : isShadowHost e = false)
    (h1 : Returns (fun n => findFocusableElementRecursivelyForward dom n scope (some current))
      (some c))
    (h2 : Returns
      (fun n => findFocusableElementDescendingDownIntoFrameDocument dom .Forward n (some c)) r) :
    Returns (fun n => findFocusableElementAcrossFocusScopesForward dom n scope (some current))
      r := by
  obtain ⟨k1, hk1⟩ := h1
  obtain ⟨k2, hk2⟩ := h2
  beta_reduce at hk1 hk2
  refine ⟨max k1 k2 + 1, fun n hn => ?_⟩
  obtain ⟨m, rfl⟩ : ∃ m, n = m + 1 := ⟨n - 1, by omega⟩
  have hm : max k1 k2 ≤ m := by omega
  beta_reduce
  unfold findFocusableElementAcrossFocusScopesForward
  simp only [Option.bind, he, isShadowHostWithoutCustomFocusLogic, hhost, Bool.false_and,
    Bool.false_eq_true, if_false]
  rw [hk1 (m + 1) (le_trans (le_trans (le_max_left _ _) hm) (Nat.le_succ m))]
  simp only [climbForward_found]
  exact hk2 (m + 1) (le_trans (le_trans (le_max_right _ _) hm) (Nat.le_succ m))

/-- C1, as the claim states it, fails: `E` has tab index 0 but is not
keyboard-focusable; the forward navigation from `E` returns `F`, the next element
of the document, and the backward navigation from `F` returns `A`, not `E`. -/
theorem round_trip_fails_from_unfocusable_start :
    (domNotFocusableStart.scope 0).elements[1]? = some notFocusable ∧
    0 ≤ notFocusable.tabIndex.val ∧
    Returns (fun n => findFocusableElement domNotFocusableStart .Forward n ⟨0, 1⟩)
      (some ⟨0, 2⟩) ∧
    Returns (fun n => findFocusableElement domNotFocusableStart .Backward n ⟨0, 2⟩)
      (some ⟨0, 0⟩) ∧
    ¬ Returns (fun n => findFocusableElement domNotFocusableStart .Backward n ⟨0, 2⟩)
      (some ⟨0, 1⟩) := by
  have hb : Returns (fun n => findFocusableElement domNotFocusableStart .Backward n ⟨0, 2⟩)
      (some ⟨0, 0⟩) :=
    returns_of_eq (fun n r => findFocusableElement_mono _ _ n _ r) (k := 2) (by decide)
  refine ⟨rfl, by decide,
    returns_of_eq (fun n r => findFocusableElement_mono _ _ n _ r) (k := 2) (by decide), hb, ?_⟩
  intro h
  have := returns_unique hb h
  revert this
  decide

/-! ## The round trip of the navigation -/

/-! ## One turn of the loops -/

theorem recursivelyForwardLoop_step (dom : Dom) (n S v : Nat) (x : Element)
    (hx : (dom.scope S).elements[v]? = some x) :
    recursivelyForwardLoop dom (n + 1) S (some v) =
      match forwardYield dom n S v x with
      | none => none
      | some (some r) => some (some r)
      | some none => findFocusableElementRecursivelyForward dom n S (some v) := by
  rw [recursivelyForwardLoop]
  simp only [hx, forwardYield, innerSearch, findFocusableElementRecursively,
    findFocusableElementRecursivelyForward, findFocusableElementInternal]
  split_ifs <;> rfl

theorem recursivelyBackwardLoop_step (dom : Dom) (n S v : Nat) (x : Element)
    (hx : (dom.scope S).elements[v]? = some x) :
    recursivelyBackwardLoop dom (n + 1) S (some v) =
      match backwardYield dom n S v x with
      | none => none
      | some (some r) => some (some r)
      | some none => findFocusableElementRecursivelyBackward dom n S (some v) := by
  rw [recursivelyBackwardLoop]
  simp only [hx, backwardYield, innerSearch, findFocusableElementRecursively,
    findFocusableElementRecursivelyBackward, findFocusableElementInternal]
  split_ifs <;> first | rfl | (split <;> simp_all)

theorem recursivelyForward_le (dom : Dom) {n m S : Nat} {start : Option Nat} {r : Option Ref}
    (hnm : n ≤ m) (h : findFocusableElementRecursivelyForward dom n S start = some r) :
    findFocusableElementRecursivelyForward dom m S start = some r :=
  fuel_le (fun k => findFocusableElementRecursivelyForward dom k S start)
    (fun k r => recursivelyForwardLoop_mono dom k _ _ r) hnm h

theorem recursivelyBackward_le (dom : Dom) {n m S : Nat} {start : Option Nat} {r : Option Ref}
    (hnm : n ≤ m) (h : findFocusableElementRecursivelyBackward dom n S start = some r) :
    findFocusableElementRecursivelyBackward dom m S start = some r :=
  fuel_le (fun k => findFocusableElementRecursivelyBackward dom k S start)
    (fun k r => recursivelyBackwardLoop_mono dom k _ _ r) hnm h

theorem recursivelyBackwardLoop_le (dom : Dom) {n m S : Nat} {cand : Option Nat}
    {r : Option Ref} (hnm : n ≤ m) (h : recursivelyBackwardLoop dom n S cand = some r) :
    recursivelyBackwardLoop dom m S cand = some r :=
  fuel_le (fun k => recursivelyBackwardLoop dom k S cand)
    (fun k r => recursivelyBackwardLoop_mono dom k _ _ r) hnm h

theorem climbBackward_le (dom : Dom) {n m S : Nat} {found : Option Ref} {r : Option Ref}
    (hnm : n ≤ m) (h : climbBackward dom n S found = some r) :
    climbBackward dom m S found = some r :=
  fuel_le (fun k => climbBackward dom k S found) (fun k r => climbBackward_mono dom k _ _ r) hnm h

theorem descending_le (dom : Dom) (type : WebFocusType) {n m : Nat} {x : Option Ref}
    {r : Option Ref} (hnm : n ≤ m)
    (h : findFocusableElementDescendingDownIntoFrameDocument dom type n x = some r) :
    findFocusableElementDescendingDownIntoFrameDocument dom type m x = some r :=
  fuel_le (fun k => findFocusableElementDescendingDownIntoFrameDocument dom type k x)
    (fun k r => descending_mono dom type k _ r) hnm h

theorem backFrom_le (dom : Dom) {n m S : Nat} {cand : Option Nat} {r : Option Ref}
    (hnm : n ≤ m) (h : backFrom dom n S cand = some r) : backFrom dom m S cand = some r := by
  unfold backFrom at h ⊢
  cases hl : recursivelyBackwardLoop dom n S cand with
  | none => simp [hl] at h
  | some found =>
    rw [hl] at h
    rw [recursivelyBackwardLoop_le dom hnm hl]
    exact climbBackward_le dom hnm h

theorem backwardYield_le (dom : Dom) {n m S v : Nat} {x : Element} {r : Option Ref}
    (hnm : n ≤ m) (h : backwardYield dom n S v x = some r) :
    backwardYield dom m S v x = some r := by
  have inner : ∀ (o : Option Nat) (y : Option Ref),
      innerSearch dom .Backward n o = some y → innerSearch dom .Backward m o = some y := by
    intro o y hy
    cases o with
    | none => exact hy
    | some i => exact recursivelyBackward_le dom hnm hy
  unfold backwardYield at h ⊢
  split_ifs at h ⊢ <;>
    first
    | exact h
    | exact inner _ _ h
    | (cases hi : innerSearch dom .Backward n (ownedByShadowHost x) with
       | none => simp [hi] at h
       | some y => rw [hi] at h; rw [inner _ _ hi]; exact h)

/-! ### More inverse steps -/

theorem previous_of_next_null {els : List Element} {b : Nat}
    (h : nextFocusableElement els none = some b) :
    previousFocusableElement els (some b) = none := by
  obtain ⟨⟨eb, heb, hvb, htb⟩, hmin⟩ := nextFocusableElement_null_min h
  cases hp : previousFocusableElement els (some b) with
  | none => rfl
  | some a =>
    obtain ⟨⟨ea, hea, hva, hta⟩, hab, _⟩ := previousFocusableElement_some_pred heb htb hp
    exact absurd hab (hmin a ea hea hva hta)

theorem previous_null_of_next_none {els : List Element} {a : Nat} {ea : Element}
    (hea : els[a]? = some ea) (hva : shouldVisit ea = true) (hta : 0 ≤ adjustedTabIndex ea)
    (hta2 : adjustedTabIndex ea ≠ 32767)
    (h : nextFocusableElement els (some a) = none) :
    previousFocusableElement els none = some a := by
  have hlast := nextFocusableElement_none_last hea hta h
  cases hp : previousFocusableElement els none with
  | none => exact absurd (previousFocusableElement_null_none hp a ea hea hva hta hta2) id
  | some a' =>
    obtain ⟨⟨ea', hea', hva', _⟩, hmax⟩ := previousFocusableElement_null_last hp
    rcases keyBefore_total els a a' with hlt | heq | hgt
    · exact absurd hlt (hlast a' ea' hea' hva')
    · rw [heq]
    · exact absurd hgt (hmax a ea hea hva hta2)

theorem previous_null_of_next_null {els : List Element}
    (h : nextFocusableElement els none = none) :
    previousFocusableElement els none = none := by
  cases hp : previousFocusableElement els none with
  | none => rfl
  | some a =>
    obtain ⟨⟨ea, hea, hva, hta⟩, _⟩ := previousFocusableElement_null_last hp
    exact absurd (nextFocusableElement_null_empty h a ea hea hva hta) id

/-- The candidate that follows a start inside the tabbing cycle is inside
the tabbing cycle. -/
theorem next_startOk {dom : Dom} {S : Nat} {start : Option Nat} {c : Nat}
    (hs : StartOk dom S start)
    (h : nextFocusableElement (dom.scope S).elements start = some c) :
    ∃ x, (dom.scope S).elements[c]? = some x ∧ shouldVisit x = true ∧
      0 ≤ adjustedTabIndex x := by
  rcases hs with rfl | ⟨a, x, rfl, hx, hv, ht⟩
  · exact (nextFocusableElement_null_min h).1
  · exact nextFocusableElement_some_succ_nonneg hx ht h

/-- In a well-formed tree the backward step undoes the forward step from a
start inside the tabbing cycle. -/
theorem previous_of_next_startOk {dom : Dom} (hwf : WellFormed dom) {S : Nat}
    {start : Option Nat} {c : Nat} (hs : StartOk dom S start)
    (h : nextFocusableElement (dom.scope S).elements start = some c) :
    previousFocusableElement (dom.scope S).elements (some c) = start := by
  rcases hs with rfl | ⟨a, x, rfl, hx, hv, ht⟩
  · exact previous_of_next_null h
  · exact previous_of_next hx hv ht (hwf.below_short_max S a x hx hv) h

theorem previous_null_of_next_none_startOk {dom : Dom} (hwf : WellFormed dom) {S : Nat}
    {start : Option Nat} (hs : StartOk dom S start)
    (h : nextFocusableElement (dom.scope S).elements start = none) :
    previousFocusableElement (dom.scope S).elements none = start := by
  rcases hs with rfl | ⟨a, x, rfl, hx, hv, ht⟩
  · exact previous_null_of_next_null h
  · exact previous_null_of_next_none hx hv ht (hwf.below_short_max S a x hx hv) h

/-- A candidate that the forward loop skips is skipped by the backward loop,
when the scopes that the forward search found empty are empty backward. -/
theorem backwardYield_none_of_forwardYield_none {dom : Dom} (hwf : WellFormed dom)
    {k S v : Nat} {x : Element}
    (hQ : ∀ i, findFocusableElementRecursivelyForward dom k i none = some none →
      ∃ n, findFocusableElementRecursivelyBackward dom n i none = some none)
    (hx : (dom.scope S).elements[v]? = some x) (ht : 0 ≤ adjustedTabIndex x)
    (h : forwardYield dom k S v x = some none) :
    ∃ n, backwardYield dom n S v x = some none := by
  have hdh := hwf.delegates_host S v x hx
  have hih := hwf.insertion_point S v x hx
  have inner : ∀ o, innerSearch dom .Forward k o = some none →
      ∃ n, innerSearch dom .Backward n o = some none := by
    intro o ho
    cases o with
    | none => exact ⟨0, rfl⟩
    | some i => exact hQ i ho
  unfold forwardYield at h
  by_cases hdel : isShadowHostDelegatesFocus x = true
  · have hhost := hdh hdel
    have hins : isShadowInsertionPointFocusScopeOwner x = false := by
      cases hi : isShadowInsertionPointFocusScopeOwner x with
      | false => rfl
      | true => rw [hih hi] at hhost; cases hhost
    simp only [hdel, if_true] at h
    by_cases hcond : (decide (x.tabIndex.val ≥ 0) && isShadowHostWithoutCustomFocusLogic x) = true
    · simp only [hcond, if_true] at h
      obtain ⟨n, hn⟩ := inner _ h
      simp only [Bool.and_eq_true, decide_eq_true_eq] at hcond
      refine ⟨n, ?_⟩
      unfold backwardYield
      by_cases hkf : x.isKeyboardFocusable = true
      · simp [isKeyboardFocusableShadowHost, hcond.2, hkf, hn, hdel]
      · have hkf' : x.isKeyboardFocusable = false := by simpa using hkf
        have hneg : ¬ x.tabIndex.val < 0 := by omega
        simp [isKeyboardFocusableShadowHost, hcond.2, hkf', hdel, hneg,
          isNonFocusableFocusScopeOwner, isNonKeyboardFocusableShadowHost,
          ownedByNonFocusableFocusScopeOwner, hhost, hn]
    · refine ⟨0, ?_⟩
      unfold backwardYield
      by_cases hs : isShadowHostWithoutCustomFocusLogic x = true
      · have hneg : x.tabIndex.val < 0 := by
          by_contra hge
          apply hcond
          simp only [Bool.and_eq_true, decide_eq_true_eq]
          exact ⟨by omega, hs⟩
        have hkf : x.isKeyboardFocusable = false := by
          cases hk : x.isKeyboardFocusable with
          | false => rfl
          | true =>
            exfalso
            have : isNonFocusableFocusScopeOwner x = false := by
              simp [isNonFocusableFocusScopeOwner, isNonKeyboardFocusableShadowHost, hk, hins]
            simp only [adjustedTabIndex, this, Bool.false_eq_true, if_false] at ht
            omega
        simp [isKeyboardFocusableShadowHost, hkf, hdel, hneg]
      · have hs' : isShadowHostWithoutCustomFocusLogic x = false := by simpa using hs
        simp [isKeyboardFocusableShadowHost, hs', hdel, isNonFocusableFocusScopeOwner,
          isNonKeyboardFocusableShadowHost, hins]
  · have hdel' : isShadowHostDelegatesFocus x = false := by simpa using hdel
    simp only [hdel', Bool.false_eq_true, if_false] at h
    by_cases hown : isNonFocusableFocusScopeOwner x = true
    · simp only [hown, Bool.not_true, Bool.false_eq_true, if_false] at h
      obtain ⟨n, hn⟩ := inner _ h
      refine ⟨n, ?_⟩
      have hnk : isKeyboardFocusableShadowHost x = false := by
        simp only [isNonFocusableFocusScopeOwner, Bool.or_eq_true] at hown
        rcases hown with h1 | h1
        · simp only [isNonKeyboardFocusableShadowHost, Bool.and_eq_true,
            Bool.not_eq_true'] at h1
          simp [isKeyboardFocusableShadowHost, h1.2]
        · simp [isKeyboardFocusableShadowHost, isShadowHostWithoutCustomFocusLogic, hih h1]
      unfold backwardYield
      simp [hnk, hdel', hown, hn]
    · have hown' : isNonFocusableFocusScopeOwner x = false := by simpa using hown
      simp [hown'] at h

theorem recursivelyBackwardLoop_null (dom : Dom) (n S : Nat) :
    recursivelyBackwardLoop dom (n + 1) S none = some none := by
  rw [recursivelyBackwardLoop]

theorem backFrom_previous (dom : Dom) (n S : Nat) (start : Option Nat) :
    backFrom dom n S (previousFocusableElement (dom.scope S).elements start) =
      match findFocusableElementRecursivelyBackward dom n S start with
      | none => none
      | some found => climbBackward dom n S found := rfl

/-- The climb of the backward search out of a scope whose owner is not a
keyboard-focusable shadow host without `delegatesFocus`. -/
theorem climbBackward_step (dom : Dom) (n S : Nat) (o : Ref) (x : Element)
    (how : (dom.scope S).owner = some o) (hx : elementAt dom o = some x)
    (hk : (isKeyboardFocusableShadowHost x && !isShadowHostDelegatesFocus x) = false) :
    climbBackward dom (n + 1) S none =
      backFrom dom n o.scope (previousFocusableElement (dom.scope o.scope).elements
        (some o.pos)) := by
  rw [climbBackward, backFrom_previous]
  simp only [how, hx, hk, Bool.false_eq_true, if_false]

/-- A non-focusable focus scope owner is no keyboard-focusable shadow host. -/
theorem not_focusable_host_of_owner {dom : Dom} (hwf : WellFormed dom) {S v : Nat}
    {x : Element} (hx : (dom.scope S).elements[v]? = some x)
    (hown : isNonFocusableFocusScopeOwner x = true) :
    isKeyboardFocusableShadowHost x = false := by
  simp only [isNonFocusableFocusScopeOwner, Bool.or_eq_true] at hown
  rcases hown with h1 | h1
  · simp only [isNonKeyboardFocusableShadowHost, Bool.and_eq_true, Bool.not_eq_true'] at h1
    simp [isKeyboardFocusableShadowHost, h1.2]
  · simp [isKeyboardFocusableShadowHost, isShadowHostWithoutCustomFocusLogic,
      hwf.insertion_point S v x hx h1]

theorem innerScope_of_host {x : Element} (h : isShadowHost x = true) :
    innerScope x = ownedByShadowHost x := by
  simp [innerScope, h, ownedByShadowHost]

theorem innerScope_of_owner {x : Element} (hown : isNonFocusableFocusScopeOwner x = true) :
    innerScope x = ownedByNonFocusableFocusScopeOwner x := by
  unfold innerScope ownedByNonFocusableFocusScopeOwner
  by_cases hh : isShadowHost x = true
  · simp [hh, ownedByShadowHost]
  · have hh' : isShadowHost x = false := by simpa using hh
    have hins : isShadowInsertionPointFocusScopeOwner x = true := by
      simpa [isNonFocusableFocusScopeOwner, isNonKeyboardFocusableShadowHost,
        isShadowHostWithoutCustomFocusLogic, hh'] using hown
    simp [hh', hins, ownedByShadowInsertionPoint]

/-- The backward loop passes a candidate that it skips. -/
theorem backward_skip {dom : Dom} {S c : Nat} {x : Element} {start : Option Nat}
    (hx : (dom.scope S).elements[c]? = some x)
    (hprev : previousFocusableElement (dom.scope S).elements (some c) = start)
    (hskip : ∃ n, backwardYield dom n S c x = some none) :
    (∀ r, (∃ n, recursivelyBackwardLoop dom n S start = some r) →
      ∃ n, recursivelyBackwardLoop dom n S (some c) = some r) ∧
    (∀ r, (∃ n, backFrom dom n S start = some r) →
      ∃ n, backFrom dom n S (some c) = some r) := by
  obtain ⟨n1, hn1⟩ := hskip
  have key : ∀ n2 found, recursivelyBackwardLoop dom n2 S start = some found →
      recursivelyBackwardLoop dom (max n1 n2 + 1) S (some c) = some found := by
    intro n2 found h2
    rw [recursivelyBackwardLoop_step dom _ S c x hx,
      backwardYield_le dom (le_max_left n1 n2) hn1]
    show findFocusableElementRecursivelyBackward dom (max n1 n2) S (some c) = some found
    unfold findFocusableElementRecursivelyBackward findFocusableElementInternal
    rw [hprev]
    exact recursivelyBackwardLoop_le dom (le_max_right n1 n2) h2
  constructor
  · rintro r ⟨n2, h2⟩
    exact ⟨_, key n2 r h2⟩
  · rintro r ⟨n2, h2⟩
    unfold backFrom at h2
    cases hl : recursivelyBackwardLoop dom n2 S start with
    | none => simp [hl] at h2
    | some found =>
      rw [hl] at h2
      refine ⟨max n1 n2 + 1, ?_⟩
      unfold backFrom
      rw [key n2 found hl]
      exact climbBackward_le dom (by omega) h2

/-- The backward navigation mirrors a forward search. When the forward search
from `start` in the scope `S` returns `f`, the backward navigation from `f`
continues like the backward loop entered with `start`; when the forward search
finds nothing, the backward search from null arrives at `start`. -/
theorem forward_mirror {dom : Dom} (hwf : WellFormed dom) : ∀ k,
    (∀ S start f, findFocusableElementRecursivelyForward dom k S start = some (some f) →
      StartOk dom S start →
      ∀ r, (∃ n, backFrom dom n S start = some r) →
        ∃ n, backFrom dom n f.scope
          (previousFocusableElement (dom.scope f.scope).elements (some f.pos)) = some r) ∧
    (∀ S start, findFocusableElementRecursivelyForward dom k S start = some none →
      StartOk dom S start →
      ∀ r, (∃ n, recursivelyBackwardLoop dom n S start = some r) →
        ∃ n, findFocusableElementRecursivelyBackward dom n S none = some r) := by
  intro k
  induction k with
  | zero =>
    constructor
    · intro S start f h
      simp [findFocusableElementRecursivelyForward, recursivelyForwardLoop] at h
    · intro S start h
      simp [findFocusableElementRecursivelyForward, recursivelyForwardLoop] at h
  | succ k ih =>
    obtain ⟨ihP, ihQ⟩ := ih
    have hEmpty : ∀ i, findFocusableElementRecursivelyForward dom k i none = some none →
        ∃ n, findFocusableElementRecursivelyBackward dom n i none = some none :=
      fun i hi => ihQ i none hi (Or.inl rfl) none ⟨1, recursivelyBackwardLoop_null dom 0 i⟩
    constructor
    · intro S start f h hs r hr
      unfold findFocusableElementRecursivelyForward findFocusableElementInternal at h
      cases hn : nextFocusableElement (dom.scope S).elements start with
      | none => rw [hn, recursivelyForwardLoop] at h; cases h
      | some c =>
        obtain ⟨x, hx, hv, ht⟩ := next_startOk hs hn
        have hprev := previous_of_next_startOk hwf hs hn
        rw [hn, recursivelyForwardLoop_step dom k S c x hx] at h
        cases hy : forwardYield dom k S c x with
        | none => rw [hy] at h; cases h
        | some y =>
          rw [hy] at h
          cases y with
          | none =>
            have hskip := backwardYield_none_of_forwardYield_none hwf hEmpty hx ht hy
            exact ihP S (some c) f h (Or.inr ⟨c, x, rfl, hx, hv, ht⟩) r
              ((backward_skip hx hprev hskip).2 r hr)
          | some r' =>
            simp only [Option.some.injEq] at h
            subst h
            -- the candidate is returned, or the search in the scope behind it found `r'`
            have hinner : ∀ o, innerSearch dom .Forward k o = some (some r') →
                innerScope x = o →
                (isKeyboardFocusableShadowHost x && !isShadowHostDelegatesFocus x) = false →
                ∃ n, backFrom dom n r'.scope
                  (previousFocusableElement (dom.scope r'.scope).elements (some r'.pos))
                    = some r := by
              intro o ho hio hk
              cases o with
              | none => simp [innerSearch] at ho
              | some i =>
                refine ihP i none r' ho (Or.inl rfl) r ?_
                obtain ⟨n0, hn0⟩ := hr
                refine ⟨n0 + 1, ?_⟩
                unfold backFrom
                rw [recursivelyBackwardLoop_null]
                simp only
                rw [climbBackward_step dom n0 i ⟨S, c⟩ x (hwf.owner_of_inner S c x i hx hio) hx hk]
                simp only [hprev]
                exact hn0
            unfold forwardYield at hy
            by_cases hdel : isShadowHostDelegatesFocus x = true
            · simp only [hdel, if_true] at hy
              by_cases hcond : (decide (x.tabIndex.val ≥ 0)
                  && isShadowHostWithoutCustomFocusLogic x) = true
              · simp only [hcond, if_true] at hy
                refine hinner _ hy (innerScope_of_host (hwf.delegates_host S c x hx hdel)) ?_
                simp [hdel]
              · simp [hcond] at hy
            · have hdel' : isShadowHostDelegatesFocus x = false := by simpa using hdel
              simp only [hdel', Bool.false_eq_true, if_false] at hy
              by_cases hown : isNonFocusableFocusScopeOwner x = true
              · simp only [hown, Bool.not_true, Bool.false_eq_true, if_false] at hy
                refine hinner _ hy (innerScope_of_owner hown) ?_
                simp [not_focusable_host_of_owner hwf hx hown]
              · have hown' : isNonFocusableFocusScopeOwner x = false := by simpa using hown
                simp only [hown', Bool.not_false, if_true, Option.some.injEq] at hy
                subst hy
                simp only [hprev]
                exact hr
    · intro S start h hs r hr
      unfold findFocusableElementRecursivelyForward findFocusableElementInternal at h
      cases hn : nextFocusableElement (dom.scope S).elements start with
      | none =>
        obtain ⟨n, hn'⟩ := hr
        refine ⟨n, ?_⟩
        unfold findFocusableElementRecursivelyBackward findFocusableElementInternal
        rw [previous_null_of_next_none_startOk hwf hs hn]
        exact hn'
      | some c =>
        obtain ⟨x, hx, hv, ht⟩ := next_startOk hs hn
        have hprev := previous_of_next_startOk hwf hs hn
        rw [hn, recursivelyForwardLoop_step dom k S c x hx] at h
        cases hy : forwardYield dom k S c x with
        | none => rw [hy] at h; cases h
        | some y =>
          rw [hy] at h
          cases y with
          | none =>
            have hskip := backwardYield_none_of_forwardYield_none hwf hEmpty hx ht hy
            exact ihQ S (some c) h (Or.inr ⟨c, x, rfl, hx, hv, ht⟩) r
              ((backward_skip hx hprev hskip).1 r hr)
          | some r' => cases h

theorem recursivelyBackwardLoop_pos {dom : Dom} {n S : Nat} {cand : Option Nat}
    {r : Option Ref} (h : recursivelyBackwardLoop dom n S cand = some r) :
    ∃ m, n = m + 1 := by
  cases n with
  | zero => simp [recursivelyBackwardLoop] at h
  | succ m => exact ⟨m, rfl⟩

/-- The backward loop arrives at a keyboard-focusable start that is no scope
owner of another kind, when the shadow tree behind it is empty. -/
theorem arrivesAt_start {dom : Dom} {e : Ref} {E : Element}
    (hE : elementAt dom e = some E) (hkf : E.isKeyboardFocusable = true)
    (hdel : isShadowHostDelegatesFocus E = false)
    (hins : isShadowInsertionPointFocusScopeOwner E = false)
    (hframe : E.isFrameOwnerElement = false)
    (hempty : isKeyboardFocusableShadowHost E = true →
      ∃ n, innerSearch dom .Backward n (ownedByShadowHost E) = some none) :
    ArrivesAt dom e e.scope e.pos := by
  have hE' : (dom.scope e.scope).elements[e.pos]? = some E := hE
  have hyield : ∃ n, backwardYield dom n e.scope e.pos E = some (some e) := by
    by_cases hk : isKeyboardFocusableShadowHost E = true
    · obtain ⟨n, hn⟩ := hempty hk
      refine ⟨n, ?_⟩
      unfold backwardYield
      simp [hk, hn, hdel]
    · have hk' : isKeyboardFocusableShadowHost E = false := by simpa using hk
      refine ⟨0, ?_⟩
      unfold backwardYield
      have hown : isNonFocusableFocusScopeOwner E = false := by
        simp [isNonFocusableFocusScopeOwner, isNonKeyboardFocusableShadowHost, hkf, hins]
      simp [hk', hdel, hown]
  obtain ⟨n, hn⟩ := hyield
  refine ⟨n + 1, e, ?_, descending_not_frame_owner dom .Backward n e E hE hframe⟩
  rw [recursivelyBackwardLoop_step dom n e.scope e.pos E hE', hn]

/-- From a candidate at which the backward loop arrives at `e`, and after which
the forward search finds nothing, the backward loop of the scope above arrives
at `e` when entered with the owner. -/
theorem arrivesAt_owner {dom : Dom} (hwf : WellFormed dom) {e : Ref} {S c k : Nat} {o : Ref}
    {x : Element} (harr : ArrivesAt dom e S c) (hs : StartOk dom S (some c))
    (hnone : findFocusableElementRecursivelyForward dom k S (some c) = some none)
    (hx : elementAt dom o = some x) (hent : Enterable x) (hinner : innerScope x = some S) :
    ArrivesAt dom e o.scope o.pos := by
  have hx' : (dom.scope o.scope).elements[o.pos]? = some x := hx
  obtain ⟨n, y, hloop, hdesc⟩ := harr
  obtain ⟨n', hn'⟩ := (forward_mirror hwf k).2 S (some c) hnone hs (some y) ⟨n, hloop⟩
  obtain ⟨hvis, hadj, hcustom, hdeltab⟩ := hent
  by_cases hfo : x.isFrameOwnerElement = true
  · obtain ⟨hhost, hins⟩ := hwf.frame_owner o.scope o.pos x hx' hfo
    have hdel : isShadowHostDelegatesFocus x = false := by
      cases hd : isShadowHostDelegatesFocus x with
      | false => rfl
      | true => rw [hwf.delegates_host o.scope o.pos x hx' hd] at hhost; cases hhost
    have hcf : x.contentFrame = some (.localFrame S) := by
      simp only [innerScope, hhost, hins, hfo, Bool.false_eq_true, if_false, if_true] at hinner
      cases hc : x.contentFrame with
      | none => simp [hc] at hinner
      | some cf =>
        cases cf with
        | remoteFrame => simp [hc] at hinner
        | localFrame d =>
          simp only [hc, Option.some.injEq] at hinner
          rw [hinner]
    have hyield : backwardYield dom (max n n') o.scope o.pos x = some (some o) := by
      unfold backwardYield
      simp [isKeyboardFocusableShadowHost, isShadowHostWithoutCustomFocusLogic, hhost, hdel,
        isNonFocusableFocusScopeOwner, isNonKeyboardFocusableShadowHost, hins]
    refine ⟨max n n' + 1, o, ?_, ?_⟩
    · rw [recursivelyBackwardLoop_step dom _ o.scope o.pos x hx', hyield]
    · rw [findFocusableElementDescendingDownIntoFrameDocument]
      simp only [hx, hfo, Bool.not_true, Bool.false_eq_true, if_false, hcf,
        findFocusableElementRecursively]
      rw [recursivelyBackward_le dom (le_max_right n n') hn']
      exact descending_le dom .Backward (le_max_left n n') hdesc
  · have hfo' : x.isFrameOwnerElement = false := by simpa using hfo
    have hyield : backwardYield dom n' o.scope o.pos x = some (some y) := by
      by_cases hhost : isShadowHost x = true
      · have hown : ownedByShadowHost x = some S := by
          rw [← innerScope_of_host hhost]; exact hinner
        have hs : isShadowHostWithoutCustomFocusLogic x = true := by
          simp [isShadowHostWithoutCustomFocusLogic, hhost, hcustom hhost]
        unfold backwardYield
        by_cases hkf : x.isKeyboardFocusable = true
        · simp [isKeyboardFocusableShadowHost, hs, hkf, hown, innerSearch,
            findFocusableElementRecursively, hn']
        · have hkf' : x.isKeyboardFocusable = false := by simpa using hkf
          have hneg : isShadowHostDelegatesFocus x = true → ¬ x.tabIndex.val < 0 :=
            fun hd => by have := hdeltab hd; omega
          have hskip : (isShadowHostDelegatesFocus x && decide (x.tabIndex.val < 0)) = false := by
            cases hd : isShadowHostDelegatesFocus x with
            | false => rfl
            | true => simpa using hneg hd
          simp [isKeyboardFocusableShadowHost, hs, hkf', hskip, isNonFocusableFocusScopeOwner,
            isNonKeyboardFocusableShadowHost, ownedByNonFocusableFocusScopeOwner, hhost, hown,
            innerSearch, findFocusableElementRecursively, hn']
      · have hhost' : isShadowHost x = false := by simpa using hhost
        have hins : isShadowInsertionPointFocusScopeOwner x = true := by
          cases hi : isShadowInsertionPointFocusScopeOwner x with
          | true => rfl
          | false => simp [innerScope, hhost', hi, hfo'] at hinner
        have hold : x.olderShadowRoot = some S := by
          simpa [innerScope, hhost', hins] using hinner
        have hdel : isShadowHostDelegatesFocus x = false := by
          cases hd : isShadowHostDelegatesFocus x with
          | false => rfl
          | true => rw [hwf.delegates_host o.scope o.pos x hx' hd] at hhost'; cases hhost'
        unfold backwardYield
        simp [isKeyboardFocusableShadowHost, isShadowHostWithoutCustomFocusLogic, hhost', hdel,
          isNonFocusableFocusScopeOwner, hins, ownedByNonFocusableFocusScopeOwner,
          ownedByShadowInsertionPoint, hold, innerSearch, findFocusableElementRecursively, hn']
    refine ⟨max n n' + 1, y, ?_, descending_le dom .Backward (by omega) hdesc⟩
    rw [recursivelyBackwardLoop_step dom _ o.scope o.pos x hx',
      backwardYield_le dom (le_max_right n n') hyield]

/-- When the backward loop entered with a candidate arrives at `e`, so does the
backward navigation from what the forward search finds after the candidate. -/
theorem backwardArrivesAt_of_found {dom : Dom} (hwf : WellFormed dom) {e f0 : Ref}
    {S c k : Nat} (harr : ArrivesAt dom e S c) (hs : StartOk dom S (some c))
    (hfound : findFocusableElementRecursivelyForward dom k S (some c) = some (some f0)) :
    BackwardArrivesAt dom e f0 := by
  obtain ⟨n, y, hloop, hdesc⟩ := harr
  obtain ⟨m, rfl⟩ := recursivelyBackwardLoop_pos hloop
  have hback : backFrom dom (m + 1) S (some c) = some (some y) := by
    unfold backFrom
    rw [hloop]
    exact climbBackward_found dom m S y
  obtain ⟨n', hn'⟩ := (forward_mirror hwf k).1 S (some c) f0 hfound hs (some y) ⟨_, hback⟩
  exact ⟨max (m + 1) n', y, backFrom_le dom (le_max_right _ _) hn',
    descending_le dom .Backward (le_max_left _ _) hdesc⟩

/-- The climb of the forward search up the focus scopes is mirrored by the
backward navigation. -/
theorem backwardArrivesAt_of_climb {dom : Dom} (hwf : WellFormed dom) {e : Ref}
    (habove : EnterableAbove dom e.scope) : ∀ (k S c : Nat) (found : Option Ref) (f0 : Ref),
    AncestorScope dom e.scope S → ArrivesAt dom e S c → StartOk dom S (some c) →
    (∃ k0, findFocusableElementRecursivelyForward dom k0 S (some c) = some found) →
    climbForward dom k S found = some (some f0) → BackwardArrivesAt dom e f0 := by
  intro k
  induction k with
  | zero => intro S c found f0 _ _ _ _ h; simp [climbForward] at h
  | succ k ih =>
    intro S c found f0 hanc harr hs hrec hclimb
    obtain ⟨k0, hk0⟩ := hrec
    cases found with
    | some f0' =>
      rw [climbForward] at hclimb
      simp only [Option.some.injEq] at hclimb
      subst hclimb
      exact backwardArrivesAt_of_found hwf harr hs hk0
    | none =>
      rw [climbForward] at hclimb
      cases how : (dom.scope S).owner with
      | none => simp [how] at hclimb
      | some o =>
        simp only [how] at hclimb
        obtain ⟨x, hx, hent, hinner⟩ := habove S o hanc how
        cases hrec' : findFocusableElementRecursivelyForward dom k o.scope (some o.pos) with
        | none => simp [hrec'] at hclimb
        | some found' =>
          rw [hrec'] at hclimb
          exact ih o.scope o.pos found' f0 (AncestorScope.step hanc how)
            (arrivesAt_owner hwf harr hs hk0 hx hent hinner)
            (Or.inr ⟨o.pos, x, rfl, hx, hent.1, hent.2.1⟩) ⟨k, hrec'⟩ hclimb

/-- The descent of the forward navigation into frames is mirrored by the
backward navigation. -/
theorem backwardArrivesAt_of_descent {dom : Dom} (hwf : WellFormed dom) {e : Ref} :
    ∀ (k : Nat) (f0 f : Ref), BackwardArrivesAt dom e f0 →
    findFocusableElementDescendingDownIntoFrameDocument dom .Forward k (some f0)
      = some (some f) → BackwardArrivesAt dom e f := by
  intro k
  induction k with
  | zero =>
    intro f0 f _ h
    simp [findFocusableElementDescendingDownIntoFrameDocument] at h
  | succ k ih =>
    intro f0 f harr h
    rw [findFocusableElementDescendingDownIntoFrameDocument] at h
    cases hel : elementAt dom f0 with
    | none =>
      simp only [hel, Option.some.injEq] at h
      subst h; exact harr
    | some owner =>
      simp only [hel] at h
      by_cases hfo : owner.isFrameOwnerElement = true
      · simp only [hfo, Bool.not_true, Bool.false_eq_true, if_false] at h
        cases hcf : owner.contentFrame with
        | none =>
          simp only [hcf, Option.some.injEq] at h
          subst h; exact harr
        | some cf =>
          cases cf with
          | remoteFrame =>
            simp only [hcf, Option.some.injEq] at h
            subst h; exact harr
          | localFrame d =>
            simp only [hcf, findFocusableElementRecursively] at h
            cases hrec : findFocusableElementRecursivelyForward dom k d none with
            | none => simp [hrec] at h
            | some x1 =>
              rw [hrec] at h
              cases x1 with
              | none =>
                simp only [Option.some.injEq] at h
                subst h; exact harr
              | some x1 =>
                simp only at h
                refine ih x1 f ?_ h
                have hel' : (dom.scope f0.scope).elements[f0.pos]? = some owner := hel
                obtain ⟨hhost, hins⟩ := hwf.frame_owner f0.scope f0.pos owner hel' hfo
                have hinner : innerScope owner = some d := by
                  simp [innerScope, hhost, hins, hfo, hcf]
                have hown := hwf.owner_of_inner f0.scope f0.pos owner d hel' hinner
                obtain ⟨n, y, hback, hdesc⟩ := harr
                have hclimb : backFrom dom (n + 1) d none = some (some y) := by
                  unfold backFrom
                  rw [recursivelyBackwardLoop_null]
                  simp only
                  rw [climbBackward_step dom n d f0 owner hown hel
                    (by simp [isKeyboardFocusableShadowHost, isShadowHostWithoutCustomFocusLogic,
                      hhost])]
                  exact hback
                obtain ⟨n', hn'⟩ := (forward_mirror hwf k).1 d none x1 hrec (Or.inl rfl) (some y)
                  ⟨_, hclimb⟩
                exact ⟨max n n', y, backFrom_le dom (le_max_right _ _) hn',
                  descending_le dom .Backward (le_max_left _ _) hdesc⟩
      · have hfo' : owner.isFrameOwnerElement = false := by simpa using hfo
        simp only [hfo', Bool.not_false, if_true, Option.some.injEq] at h
        subst h; exact harr

theorem returns_backward_of_arrives {dom : Dom} {e f : Ref} (h : BackwardArrivesAt dom e f) :
    Returns (fun n => findFocusableElement dom .Backward n f) (some e) := by
  obtain ⟨n, y, hback, hdesc⟩ := h
  refine returns_of_eq (fun n r => findFocusableElement_mono dom .Backward n f r) (k := n) ?_
  show findFocusableElementAcrossFocusScopesBackward dom n f.scope (some f.pos) = some (some e)
  unfold findFocusableElementAcrossFocusScopesBackward
  rw [backFrom_previous] at hback
  cases hrec : findFocusableElementRecursivelyBackward dom n f.scope (some f.pos) with
  | none => simp [hrec] at hback
  | some found =>
    rw [hrec] at hback
    simp only at hback ⊢
    rw [hback]
    exact hdesc

/-- C1 (amended): in a well-formed tree of focus scopes in which every owner of
a scope above `e` is enterable, for every keyboard-focusable element `e` with a
non-negative tab index that does not delegate focus and is neither a shadow
insertion point that owns a focus scope nor a frame owner: if
`findFocusableElement(Forward, e)` returns a non-null element `f`, then
`findFocusableElement(Backward, f)` returns `e`. -/
theorem round_trip_across_scopes (dom : Dom) (hwf : WellFormed dom) (e f : Ref) (E : Element)
    (hE : elementAt dom e = some E) (hkf : E.isKeyboardFocusable = true)
    (htab : 0 ≤ E.tabIndex.val)
    (hdel : isShadowHostDelegatesFocus E = false)
    (hins : isShadowInsertionPointFocusScopeOwner E = false)
    (hframe : E.isFrameOwnerElement = false)
    (habove : EnterableAbove dom e.scope)
    (hfwd : Returns (fun n => findFocusableElement dom .Forward n e) (some f)) :
    Returns (fun n => findFocusableElement dom .Backward n f) (some e) := by
  apply returns_backward_of_arrives
  obtain ⟨k, hk⟩ := hfwd
  have hk := hk k (le_refl _)
  have hE' : (dom.scope e.scope).elements[e.pos]? = some E := hE
  have hown : isNonFocusableFocusScopeOwner E = false := by
    simp [isNonFocusableFocusScopeOwner, isNonKeyboardFocusableShadowHost, hkf, hins]
  have hadj : adjustedTabIndex E = E.tabIndex.val := by simp [adjustedTabIndex, hown]
  have hvis : shouldVisit E = true := by simp [shouldVisit, hkf]
  have hs : StartOk dom e.scope (some e.pos) :=
    Or.inr ⟨e.pos, E, rfl, hE', hvis, by omega⟩
  -- the search that starts after `e` in the scope of `e`
  have plain : ∀ (found : Option Ref),
      (isKeyboardFocusableShadowHost E = true →
        ∃ n, innerSearch dom .Backward n (ownedByShadowHost E) = some none) →
      findFocusableElementRecursivelyForward dom k e.scope (some e.pos) = some found →
      (match climbForward dom k e.scope found with
        | none => none
        | some found =>
          findFocusableElementDescendingDownIntoFrameDocument dom .Forward k found)
        = some (some f) →
      BackwardArrivesAt dom e f := by
    intro found hempty hrec htail
    cases hc : climbForward dom k e.scope found with
    | none => simp [hc] at htail
    | some found' =>
      rw [hc] at htail
      simp only at htail
      cases found' with
      | none =>
        cases k with
        | zero => simp [findFocusableElementDescendingDownIntoFrameDocument] at htail
        | succ k => simp [findFocusableElementDescendingDownIntoFrameDocument] at htail
      | some f0 =>
        have harr := arrivesAt_start hE hkf hdel hins hframe hempty
        have := backwardArrivesAt_of_climb hwf habove k e.scope e.pos found f0
          AncestorScope.refl harr hs ⟨k, hrec⟩ hc
        exact backwardArrivesAt_of_descent hwf k f0 f this htail
  simp only [findFocusableElement, findFocusableElementAcrossFocusScopes,
    findFocusableElementAcrossFocusScopesForward, Option.bind, hE'] at hk
  by_cases hhost : isShadowHostWithoutCustomFocusLogic E = true
  · simp only [hhost, if_true] at hk
    have hkfsh : isKeyboardFocusableShadowHost E = true := by
      simp [isKeyboardFocusableShadowHost, hhost, hkf]
    cases hin : ownedByShadowHost E with
    | none =>
      simp only [hin] at hk
      cases hrec : findFocusableElementRecursivelyForward dom k e.scope (some e.pos) with
      | none => simp [hrec] at hk
      | some found =>
        rw [hrec] at hk
        exact plain found (fun _ => ⟨0, by simp [hin, innerSearch]⟩) hrec hk
    | some i =>
      simp only [hin] at hk
      cases hinner : findFocusableElementRecursivelyForward dom k i none with
      | none => simp [hinner] at hk
      | some x =>
        rw [hinner] at hk
        cases x with
        | none =>
          simp only at hk
          have hempty : ∃ n, innerSearch dom .Backward n (ownedByShadowHost E) = some none := by
            obtain ⟨n, hn⟩ := (forward_mirror hwf k).2 i none hinner (Or.inl rfl) none
              ⟨1, recursivelyBackwardLoop_null dom 0 i⟩
            exact ⟨n, by simpa [hin, innerSearch, findFocusableElementRecursively] using hn⟩
          cases hrec : findFocusableElementRecursivelyForward dom k e.scope (some e.pos) with
          | none => simp [hrec] at hk
          | some found =>
            rw [hrec] at hk
            exact plain found (fun _ => hempty) hrec hk
        | some x =>
          simp only at hk
          cases hc : climbForward dom k e.scope (some x) with
          | none => simp [hc] at hk
          | some found' =>
            rw [hc] at hk
            simp only at hk
            have hk1 : ∃ m, k = m + 1 := by
              cases k with
              | zero => simp [climbForward] at hc
              | succ m => exact ⟨m, rfl⟩
            obtain ⟨m, rfl⟩ := hk1
            rw [climbForward_found] at hc
            simp only [Option.some.injEq] at hc
            subst hc
            have hish : isShadowHost E = true := by
              simp only [isShadowHostWithoutCustomFocusLogic, Bool.and_eq_true] at hhost
              exact hhost.1
            have hinnerE : innerScope E = some i := by
              rw [innerScope_of_host hish]; exact hin
            have hownE := hwf.owner_of_inner e.scope e.pos E i hE' hinnerE
            have hclimb : backFrom dom (1 + 1) i none = some (some e) := by
              unfold backFrom
              rw [recursivelyBackwardLoop_null]
              simp only
              rw [climbBackward]
              simp [hownE, hE, hkfsh, hdel]
            obtain ⟨n', hn'⟩ := (forward_mirror hwf (m + 1)).1 i none x hinner (Or.inl rfl)
              (some e) ⟨_, hclimb⟩
            have harr : BackwardArrivesAt dom e x :=
              ⟨n' + 1, e, backFrom_le dom (Nat.le_succ _) hn',
                descending_not_frame_owner dom .Backward n' e E hE hframe⟩
            exact backwardArrivesAt_of_descent hwf (m + 1) x f harr hk
  · have hhost' : isShadowHostWithoutCustomFocusLogic E = false := by simpa using hhost
    simp only [hhost', Bool.false_eq_true, if_false] at hk
    have hkfsh : isKeyboardFocusableShadowHost E = false := by
      simp [isKeyboardFocusableShadowHost, hhost']
    cases hrec : findFocusableElementRecursivelyForward dom k e.scope (some e.pos) with
    | none => simp [hrec] at hk
    | some found =>
      rw [hrec] at hk
      exact plain found (fun h => by rw [hkfsh] at h; cases h) hrec hk

theorem domHostThenB_wellFormed : WellFormed domHostThenB := by
  have hels : ∀ (S p : Nat) (x : Element), (domHostThenB.scope S).elements[p]? = some x →
      (S = 0 ∧ p = 0 ∧ x = hostNotFocusable) ∨
      (S = 0 ∧ p = 1 ∧ x = focusable 0 (by decide) (by decide)) ∨
      (S = 1 ∧ p = 0 ∧ x = focusable 0 (by decide) (by decide)) := by
    intro S p x h
    match S, p with
    | 0, 0 => left; simp [domHostThenB] at h; exact ⟨rfl, rfl, h.symm⟩
    | 0, 1 => right; left; simp [domHostThenB] at h; exact ⟨rfl, rfl, h.symm⟩
    | 0, p + 2 => simp [domHostThenB] at h
    | 1, 0 => right; right; simp [domHostThenB] at h; exact ⟨rfl, rfl, h.symm⟩
    | 1, p + 1 => simp [domHostThenB] at h
    | S + 2, p => simp [domHostThenB] at h
  constructor
  · intro S p x i hx hi
    rcases hels S p x hx with ⟨rfl, rfl, rfl⟩ | ⟨rfl, rfl, rfl⟩ | ⟨rfl, rfl, rfl⟩
    · have : i = 1 := by
        have h1 : innerScope hostNotFocusable = some 1 := by decide
        rw [h1] at hi
        exact (Option.some.inj hi).symm
      subst this
      rfl
    · have h1 : innerScope (focusable 0 (by decide) (by decide)) = none := by decide
      rw [h1] at hi; cases hi
    · have h1 : innerScope (focusable 0 (by decide) (by decide)) = none := by decide
      rw [h1] at hi; cases hi
  · intro S p x hx hd
    rcases hels S p x hx with ⟨rfl, rfl, rfl⟩ | ⟨rfl, rfl, rfl⟩ | ⟨rfl, rfl, rfl⟩ <;>
      exact absurd hd (by decide)
  · intro S p x hx hd
    rcases hels S p x hx with ⟨rfl, rfl, rfl⟩ | ⟨rfl, rfl, rfl⟩ | ⟨rfl, rfl, rfl⟩ <;>
      exact absurd hd (by decide)
  · intro S p x hx hd
    rcases hels S p x hx with ⟨rfl, rfl, rfl⟩ | ⟨rfl, rfl, rfl⟩ | ⟨rfl, rfl, rfl⟩ <;>
      exact absurd hd (by decide)
  · intro S p x hx _
    rcases hels S p x hx with ⟨rfl, rfl, rfl⟩ | ⟨rfl, rfl, rfl⟩ | ⟨rfl, rfl, rfl⟩ <;> decide

theorem domHostThenB_enterableAbove : EnterableAbove domHostThenB 1 := by
  have hanc : ∀ T, AncestorScope domHostThenB 1 T → T = 1 ∨ T = 0 := by
    intro T h
    induction h with
    | refl => left; rfl
    | step _ how ih =>
      rcases ih with rfl | rfl
      · right
        simp only [domHostThenB, Option.some.injEq] at how
        rw [← how]
      · simp [domHostThenB] at how
  intro T o h how
  rcases hanc T h with rfl | rfl
  · simp only [domHostThenB, Option.some.injEq] at how
    subst how
    exact ⟨hostNotFocusable, rfl, ⟨by decide, by decide, by decide, by decide⟩, by decide⟩
  · simp [domHostThenB] at how

theorem round_trip_across_scopes_witness :
    Returns (fun n => findFocusableElement domHostThenB .Forward n ⟨1, 0⟩) (some ⟨0, 1⟩) ∧
    Returns (fun n => findFocusableElement domHostThenB .Backward n ⟨0, 1⟩) (some ⟨1, 0⟩) :=
  have hfwd : Returns (fun n => findFocusableElement domHostThenB .Forward n ⟨1, 0⟩)
      (some ⟨0, 1⟩) :=
    returns_of_eq (fun n r => findFocusableElement_mono _ _ n _ r) (k := 2) (by decide)
  ⟨hfwd, round_trip_across_scopes domHostThenB domHostThenB_wellFormed ⟨1, 0⟩ ⟨0, 1⟩
    (focusable 0 (by decide) (by decide)) rfl (by decide) (by decide) (by decide) (by decide)
    (by decide) domHostThenB_enterableAbove hfwd⟩

/-! ## The scenario of a host that is not focusable -/

theorem plain_facts {x : Element} (hkf : x.isKeyboardFocusable = true)
    (hhost : isShadowHost x = false) (hins : isShadowInsertionPointFocusScopeOwner x = false) :
    isNonFocusableFocusScopeOwner x = false ∧ shouldVisit x = true ∧
      adjustedTabIndex x = x.tabIndex.val := by
  obtain ⟨h1, h2⟩ := adjustedTabIndex_of_not_owner hhost hins
  exact ⟨h1, by simp [shouldVisit, hkf], h2⟩

/-- C10: in a document whose elements are `Host` and `B` in this order, `Host`
a shadow host that is not keyboard-focusable (its tab index, -1 in the
scenario, plays no role), does not delegate focus and has no custom focus logic,
its shadow tree holding the one element `A`, with `A` and `B` keyboard-focusable
of tab index 0 and neither scope owners nor frame owners: the forward navigation
across focus scopes returns `A` from null in the document, `B` from `A`, and null
from `B`, whatever the fuel from 2 on; `Host` is not returned. -/
theorem forward_through_non_focusable_host (dom : Dom) (D S : Nat) (host a b : Element)
    (hD : (dom.scope D).elements = [host, b]) (hDo : (dom.scope D).owner = none)
    (hS : (dom.scope S).elements = [a]) (hSo : (dom.scope S).owner = some ⟨D, 0⟩)
    (hroot : host.youngestShadowRoot = some S)
    (hkf : host.isKeyboardFocusable = false)
    (hdel : isShadowHostDelegatesFocus host = false)
    (hcustom : hasCustomFocusLogic host = false)
    (hakf : a.isKeyboardFocusable = true) (hatab : a.tabIndex.val = 0)
    (hahost : isShadowHost a = false)
    (hains : isShadowInsertionPointFocusScopeOwner a = false)
    (hadel : isShadowHostDelegatesFocus a = false) (haframe : a.isFrameOwnerElement = false)
    (hbkf : b.isKeyboardFocusable = true) (hbtab : b.tabIndex.val = 0)
    (hbhost : isShadowHost b = false)
    (hbins : isShadowInsertionPointFocusScopeOwner b = false)
    (hbdel : isShadowHostDelegatesFocus b = false) (hbframe : b.isFrameOwnerElement = false)
    (n : Nat) :
    findFocusableElementAcrossFocusScopesForward dom (n + 2) D none = some (some ⟨S, 0⟩) ∧
    findFocusableElementAcrossFocusScopesForward dom (n + 2) S (some 0) = some (some ⟨D, 1⟩) ∧
    findFocusableElementAcrossFocusScopesForward dom (n + 2) D (some 1) = some none ∧
    (⟨S, 0⟩ : Ref) ≠ ⟨D, 0⟩ ∧ (⟨D, 1⟩ : Ref) ≠ ⟨D, 0⟩ := by
  obtain ⟨haown, havis, haadj⟩ := plain_facts hakf hahost hains
  obtain ⟨hbown, hbvis, hbadj⟩ := plain_facts hbkf hbhost hbins
  have hishost : isShadowHost host = true := by simp [isShadowHost, hroot]
  have hhown : isNonFocusableFocusScopeOwner host = true := by
    simp [isNonFocusableFocusScopeOwner, isNonKeyboardFocusableShadowHost,
      isShadowHostWithoutCustomFocusLogic, hishost, hcustom, hkf]
  have hhvis : shouldVisit host = true := by simp [shouldVisit, hhown]
  have hhadj : adjustedTabIndex host = 0 := by simp [adjustedTabIndex, hhown]
  have hcustom' : isShadowHostWithoutCustomFocusLogic host = true := by
    simp [isShadowHostWithoutCustomFocusLogic, hishost, hcustom]
  have hSD : S ≠ D := by
    intro h
    rw [h, hD] at hS
    simp at hS
  -- the linear scanner on the two scopes
  have hnextD0 : nextFocusableElement (dom.scope D).elements none = some 0 := by
    simp [hD, nextFocusableElement, nextFocusableElementTail, firstElement,
      nextElementWithGreaterTabIndex, nextGreaterLoop, findElementWithExactTabIndex, scanForward,
      exactTabIndexTest, hhvis, hhadj, hbvis, hbadj, hbtab]
  have hnextD1 : nextFocusableElement (dom.scope D).elements (some 0) = some 1 := by
    simp [hD, nextFocusableElement, traversalNext, findElementWithExactTabIndex, scanForward,
      exactTabIndexTest, hhadj, hbvis, hbadj, hbtab]
  have hnextD2 : nextFocusableElement (dom.scope D).elements (some 1) = none := by
    simp [hD, nextFocusableElement, traversalNext, findElementWithExactTabIndex,
      hbadj, hbtab]
  have hnextS0 : nextFocusableElement (dom.scope S).elements none = some 0 := by
    simp [hS, nextFocusableElement, nextFocusableElementTail, firstElement,
      nextElementWithGreaterTabIndex, nextGreaterLoop, findElementWithExactTabIndex, scanForward,
      exactTabIndexTest, havis, haadj, hatab]
  have hnextS1 : nextFocusableElement (dom.scope S).elements (some 0) = none := by
    simp [hS, nextFocusableElement, traversalNext, findElementWithExactTabIndex,
      haadj, hatab]
  have hDget0 : (dom.scope D).elements[0]? = some host := by rw [hD]; rfl
  have hDget1 : (dom.scope D).elements[1]? = some b := by rw [hD]; rfl
  have hSget0 : (dom.scope S).elements[0]? = some a := by rw [hS]; rfl
  -- the recursive searches
  have recS : ∀ m, findFocusableElementRecursivelyForward dom (m + 1) S none
      = some (some ⟨S, 0⟩) :=
    fun m => recursivelyForward_at_plain dom m S none 0 a hnextS0 hSget0 haown hadel
  have recSend : ∀ m, findFocusableElementRecursivelyForward dom (m + 1) S (some 0)
      = some none := by
    intro m
    simp [findFocusableElementRecursivelyForward, findFocusableElementInternal, hnextS1,
      recursivelyForwardLoop]
  have recD : ∀ m, findFocusableElementRecursivelyForward dom (m + 2) D none
      = some (some ⟨S, 0⟩) := by
    intro m
    unfold findFocusableElementRecursivelyForward
    simp only [findFocusableElementInternal, hnextD0]
    rw [recursivelyForwardLoop_step dom (m + 1) D 0 host hDget0]
    have : forwardYield dom (m + 1) D 0 host = some (some ⟨S, 0⟩) := by
      simp [forwardYield, hdel, hhown, ownedByNonFocusableFocusScopeOwner, hishost,
        ownedByShadowHost, hroot, innerSearch, findFocusableElementRecursively, recS m]
    rw [this]
  have recDhost : ∀ m, findFocusableElementRecursivelyForward dom (m + 1) D (some 0)
      = some (some ⟨D, 1⟩) :=
    fun m => recursivelyForward_at_plain dom m D (some 0) 1 b hnextD1 hDget1 hbown hbdel
  have recDend : ∀ m, findFocusableElementRecursivelyForward dom (m + 1) D (some 1)
      = some none := by
    intro m
    simp [findFocusableElementRecursivelyForward, findFocusableElementInternal, hnextD2,
      recursivelyForwardLoop]
  have hael : elementAt dom ⟨S, 0⟩ = some a := hSget0
  have hbel : elementAt dom ⟨D, 1⟩ = some b := hDget1
  refine ⟨?_, ?_, ?_, ?_, ?_⟩
  · unfold findFocusableElementAcrossFocusScopesForward
    simp only [Option.bind, recD n, climbForward_found]
    exact descending_not_frame_owner dom .Forward (n + 1) ⟨S, 0⟩ a hael haframe
  · unfold findFocusableElementAcrossFocusScopesForward
    simp only [Option.bind, hSget0, isShadowHostWithoutCustomFocusLogic, hahost, Bool.false_and,
      Bool.false_eq_true, if_false, recSend (n + 1)]
    have hclimb : climbForward dom (n + 2) S none = some (some ⟨D, 1⟩) := by
      rw [climbForward]
      simp only [hSo, recDhost n]
      exact climbForward_found dom n D ⟨D, 1⟩
    simp only [hclimb]
    exact descending_not_frame_owner dom .Forward (n + 1) ⟨D, 1⟩ b hbel hbframe
  · unfold findFocusableElementAcrossFocusScopesForward
    simp only [Option.bind, hDget1, isShadowHostWithoutCustomFocusLogic, hbhost, Bool.false_and,
      Bool.false_eq_true, if_false, recDend (n + 1)]
    have hclimb : climbForward dom (n + 2) D none = some none := by
      rw [climbForward]
      simp only [hDo]
    simp only [hclimb]
    exact descending_null dom .Forward (n + 1)
  · intro h
    exact hSD (congrArg Ref.scope h)
  · intro h
    have := congrArg Ref.pos h
    simp at this

theorem forward_through_non_focusable_host_witness :
    findFocusableElementAcrossFocusScopesForward domHostThenB 2 0 none = some (some ⟨1, 0⟩) ∧
    findFocusableElementAcrossFocusScopesForward domHostThenB 2 1 (some 0)
      = some (some ⟨0, 1⟩) ∧
    findFocusableElementAcrossFocusScopesForward domHostThenB 2 0 (some 1) = some none ∧
    (⟨1, 0⟩ : Ref) ≠ ⟨0, 0⟩ ∧ (⟨0, 1⟩ : Ref) ≠ ⟨0, 0⟩ :=
  forward_through_non_focusable_host domHostThenB 0 1 hostNotFocusable
    (focusable 0 (by decide) (by decide)) (focusable 0 (by decide) (by decide))
    rfl rfl rfl rfl rfl rfl rfl rfl rfl rfl rfl rfl rfl rfl rfl rfl rfl rfl rfl rfl 0

/-! ## The exact search -/

/-- C19: `findElementWithExactTabIndex(start, t, type)` returns the first
element on the walk from `start` (inclusive; next in document order when
forward, previous when backward) that is visitable, i.e. keyboard-focusable or a
non-focusable focus scope owner, and whose adjusted tab index equals `t`; it
returns null iff the walk holds no such element. -/
theorem findElementWithExactTabIndex_first_match (els : List Element) (start : Option Nat)
    (t : Int) (type : WebFocusType) :
    (∀ r : Nat, findElementWithExactTabIndex els start t type = some r ↔
      ∃ (s : Nat) (e : Element), start = some s ∧ onWalk type s r ∧ els[r]? = some e ∧
        (e.isKeyboardFocusable = true ∨ isNonFocusableFocusScopeOwner e = true) ∧
        adjustedTabIndex e = t ∧
        ∀ (j : Nat) (x : Element), walkedBefore type s r j → els[j]? = some x →
          ¬ ((x.isKeyboardFocusable = true ∨ isNonFocusableFocusScopeOwner x = true) ∧
            adjustedTabIndex x = t)) ∧
    (findElementWithExactTabIndex els start t type = none ↔
      ∀ (s j : Nat) (x : Element), start = some s → onWalk type s j → els[j]? = some x →
        ¬ ((x.isKeyboardFocusable = true ∨ isNonFocusableFocusScopeOwner x = true) ∧
          adjustedTabIndex x = t)) := by
  have hv : ∀ x : Element, shouldVisit x = true ↔
      (x.isKeyboardFocusable = true ∨ isNonFocusableFocusScopeOwner x = true) := by
    intro x; simp [shouldVisit]
  have hf : ∀ x : Element, exactTabIndexTest t x = false ↔
      ¬ ((x.isKeyboardFocusable = true ∨ isNonFocusableFocusScopeOwner x = true) ∧
        adjustedTabIndex x = t) := by
    intro x
    rw [exactTabIndexTest_eq_false, ← hv]
    tauto
  cases start with
  | none =>
    refine ⟨fun r => ⟨fun h => ?_, fun h => ?_⟩, ⟨fun _ s j x hs => ?_, fun _ => rfl⟩⟩
    · simp [findElementWithExactTabIndex] at h
    · obtain ⟨s, e, hs, _⟩ := h
      exact Option.noConfusion hs
    · exact Option.noConfusion hs
  | some s =>
    cases type with
    | Forward =>
      refine ⟨fun r => ?_, ?_⟩
      · show scanForward (exactTabIndexTest t) (els.drop s) s = some r ↔ _
        rw [scanForward_drop_eq_some]
        constructor
        · rintro ⟨hsr, ⟨e, he, hp⟩, hbefore⟩
          rw [exactTabIndexTest_eq_true, hv] at hp
          refine ⟨s, e, rfl, hsr, he, hp.1, hp.2, ?_⟩
          intro j x hj hx
          exact (hf x).1 (hbefore j x hj.1 hj.2 hx)
        · rintro ⟨s', e, hs, hsr, he, hk, ht, hbefore⟩
          cases hs
          refine ⟨hsr, ⟨e, he, ?_⟩, ?_⟩
          · rw [exactTabIndexTest_eq_true, hv]
            exact ⟨hk, ht⟩
          · intro j x h1 h2 hx
            exact (hf x).2 (hbefore j x ⟨h1, h2⟩ hx)
      · show scanForward (exactTabIndexTest t) (els.drop s) s = none ↔ _
        rw [scanForward_drop_eq_none]
        constructor
        · intro h s' j x hs hj hx
          cases hs
          exact (hf x).1 (h j x hj hx)
        · intro h j x hj hx
          exact (hf x).2 (h s j x rfl hj hx)
    | Backward =>
      refine ⟨fun r => ?_, ?_⟩
      · show scanBackward (exactTabIndexTest t) els s = some r ↔ _
        rw [scanBackward_eq_some]
        constructor
        · rintro ⟨hsr, ⟨e, he, hp⟩, hbefore⟩
          rw [exactTabIndexTest_eq_true, hv] at hp
          refine ⟨s, e, rfl, hsr, he, hp.1, hp.2, ?_⟩
          intro j x hj hx
          exact (hf x).1 (hbefore j x hj.1 hj.2 hx)
        · rintro ⟨s', e, hs, hsr, he, hk, ht, hbefore⟩
          cases hs
          refine ⟨hsr, ⟨e, he, ?_⟩, ?_⟩
          · rw [exactTabIndexTest_eq_true, hv]
            exact ⟨hk, ht⟩
          · intro j x h1 h2 hx
            exact (hf x).2 (hbefore j x ⟨h1, h2⟩ hx)
      · show scanBackward (exactTabIndexTest t) els s = none ↔ _
        rw [scanBackward_eq_none]
        constructor
        · intro h s' j x hs hj hx
          cases hs
          exact (hf x).1 (h j x hj hx)
        · intro h j x hj hx
          exact (hf x).2 (h s j x rfl hj hx)

/-! ## Termination of the searches -/

theorem nextFocusableElement_step_key {els : List Element} {a b : Nat} {ea : Element}
    (hea : els[a]? = some ea) (h : nextFocusableElement els (some a) = some b) :
    (∃ eb, els[b]? = some eb ∧ shouldVisit eb = true) ∧ keyBefore els a b := by
  by_cases hta : 0 ≤ adjustedTabIndex ea
  · exact ⟨(nextFocusableElement_some_succ hea hta h).1, (nextFocusableElement_some_succ hea hta h).2.1⟩
  · obtain ⟨_, hak⟩ := tabOrderKey_cases hea
    have hneg : adjustedTabIndex ea < 0 := by omega
    have h0 : adjustedTabIndex ea ≠ 0 := by omega
    simp only [nextFocusableElement, hea, hneg, if_true] at h
    cases hs : scanForward treeOrderTest (els.drop (a + 1)) (a + 1) with
    | some r =>
      rw [hs] at h
      simp only [Option.some.injEq] at h
      subst h
      rw [scanForward_drop_eq_some] at hs
      obtain ⟨_, ⟨eb, heb, hpb⟩, _⟩ := hs
      rw [treeOrderTest_eq_true] at hpb
      obtain ⟨_, hbk⟩ := tabOrderKey_cases heb
      refine ⟨⟨eb, heb, hpb.1⟩, ?_⟩
      left; omega
    | none =>
      rw [hs] at h
      simp only [h0, if_false, nextFocusableElementTail] at h
      cases hg : nextElementWithGreaterTabIndex els (firstElement els) (adjustedTabIndex ea) with
      | some w =>
        rw [hg] at h
        simp only [Option.some.injEq] at h
        subst h
        obtain ⟨s, eb, _, _, heb, hvb, htb, _⟩ := nextElementWithGreaterTabIndex_some hg
        obtain ⟨_, hbk⟩ := tabOrderKey_cases heb
        refine ⟨⟨eb, heb, hvb⟩, ?_⟩
        left; omega
      | none =>
        rw [hg, firstElement_of_get hea] at h
        simp only [findElementWithExactTabIndex, List.drop_zero] at h
        rw [scanForward_eq_some] at h
        obtain ⟨k, eb, hk, heb, hpb, _⟩ := h
        simp only [Nat.zero_add] at hk
        subst hk
        rw [exactTabIndexTest_eq_true] at hpb
        obtain ⟨_, hbk⟩ := tabOrderKey_cases heb
        refine ⟨⟨eb, heb, hpb.1⟩, ?_⟩
        left; omega

theorem previousFocusableElement_step_nonneg {els : List Element} {a b : Nat} {eb : Element}
    (heb : els[b]? = some eb) (h : previousFocusableElement els (some b) = some a) :
    ∃ ea, els[a]? = some ea ∧ shouldVisit ea = true ∧ 0 ≤ adjustedTabIndex ea := by
  by_cases htb : 0 ≤ adjustedTabIndex eb
  · exact (previousFocusableElement_some_pred heb htb h).1
  · have hneg : adjustedTabIndex eb < 0 := by omega
    simp only [previousFocusableElement, heb, hneg, if_true] at h
    have hlow : ∀ t2, previousElementWithLowerTabIndex els (lastElement els) t2 = some a →
        ∃ ea, els[a]? = some ea ∧ shouldVisit ea = true ∧ 0 ≤ adjustedTabIndex ea := by
      intro t2 h2
      obtain ⟨⟨ea, hea, hva, h0a, _⟩, _⟩ := previousLower_pred h2
      exact ⟨ea, hea, hva, by omega⟩
    cases hp : traversalPrevious b with
    | none =>
      rw [hp] at h
      exact hlow _ h
    | some i =>
      rw [hp] at h
      simp only at h
      cases hs : scanBackward treeOrderTest els i with
      | some r =>
        rw [hs] at h
        simp only [Option.some.injEq] at h
        subst h
        rw [scanBackward_eq_some] at hs
        obtain ⟨_, ⟨ea, hea, hpa⟩, _⟩ := hs
        rw [treeOrderTest_eq_true] at hpa
        exact ⟨ea, hea, hpa.1, hpa.2⟩
      | none =>
        rw [hs] at h
        exact hlow _ h

theorem candidatesAfter_lt {els : List Element} {a b : Nat} (hb : b < els.length)
    (h : keyBefore els a b) : candidatesAfter els b < candidatesAfter els a := by
  unfold candidatesAfter
  apply Finset.card_lt_card
  rw [Finset.ssubset_iff_of_subset]
  · refine ⟨b, ?_, ?_⟩
    · simp [hb, h]
    · simp [keyBefore_irrefl]
  · intro j hj
    simp only [Finset.mem_filter, Finset.mem_range] at hj ⊢
    exact ⟨hj.1, keyBefore_trans h hj.2⟩

theorem candidatesBefore_lt {els : List Element} {a b : Nat} (ha : a < els.length)
    (h : keyBefore els a b) : candidatesBefore els a < candidatesBefore els b := by
  unfold candidatesBefore
  apply Finset.card_lt_card
  rw [Finset.ssubset_iff_of_subset]
  · refine ⟨a, ?_, ?_⟩
    · simp [ha, h]
    · simp [keyBefore_irrefl]
  · intro j hj
    simp only [Finset.mem_filter, Finset.mem_range] at hj ⊢
    exact ⟨hj.1, keyBefore_trans hj.2 h⟩

theorem lt_length_of_get {els : List Element} {i : Nat} {e : Element} (h : els[i]? = some e) :
    i < els.length := by
  by_contra hn
  rw [List.getElem?_eq_none (by omega)] at h
  exact Option.noConfusion h

theorem recursivelyForwardLoop_le (dom : Dom) {n m S : Nat} {cand : Option Nat}
    {r : Option Ref} (hnm : n ≤ m) (h : recursivelyForwardLoop dom n S cand = some r) :
    recursivelyForwardLoop dom m S cand = some r :=
  fuel_le (fun k => recursivelyForwardLoop dom k S cand)
    (fun k r => recursivelyForwardLoop_mono dom k _ _ r) hnm h

theorem innerSearch_le (dom : Dom) (type : WebFocusType) {n m : Nat} {o : Option Nat}
    {y : Option Ref} (hnm : n ≤ m) (h : innerSearch dom type n o = some y) :
    innerSearch dom type m o = some y := by
  cases o with
  | none => exact h
  | some i =>
    cases type with
    | Forward => exact recursivelyForward_le dom hnm h
    | Backward => exact recursivelyBackward_le dom hnm h

theorem forwardYield_le (dom : Dom) {n m S v : Nat} {x : Element} {r : Option Ref}
    (hnm : n ≤ m) (h : forwardYield dom n S v x = some r) :
    forwardYield dom m S v x = some r := by
  unfold forwardYield at h ⊢
  split_ifs at h ⊢ <;>
    first
    | exact h
    | exact innerSearch_le dom .Forward hnm h

/-- The scopes that the loops enter behind a candidate have a smaller rank. -/
theorem rank_ownedByShadowHost {dom : Dom} {rank : Nat → Nat} (hn : NestedBelow dom rank)
    {S p : Nat} {x : Element} (hx : (dom.scope S).elements[p]? = some x) {i : Nat}
    (hi : ownedByShadowHost x = some i) : rank i < rank S :=
  hn.shadow_root S p x i hx hi

theorem rank_ownedByNonFocusable {dom : Dom} {rank : Nat → Nat} (hn : NestedBelow dom rank)
    {S p : Nat} {x : Element} (hx : (dom.scope S).elements[p]? = some x)
    (hown : isNonFocusableFocusScopeOwner x = true) {i : Nat}
    (hi : ownedByNonFocusableFocusScopeOwner x = some i) : rank i < rank S := by
  unfold ownedByNonFocusableFocusScopeOwner at hi
  by_cases hh : isShadowHost x = true
  · rw [if_pos hh] at hi
    exact hn.shadow_root S p x i hx hi
  · rw [if_neg hh] at hi
    have hins : isShadowInsertionPointFocusScopeOwner x = true := by
      simp only [isNonFocusableFocusScopeOwner, isNonKeyboardFocusableShadowHost,
        isShadowHostWithoutCustomFocusLogic, Bool.or_eq_true, Bool.and_eq_true] at hown
      rcases hown with h1 | h1
      · exact absurd h1.1.1 hh
      · exact h1
    exact hn.older_shadow_root S p x i hx hins hi

theorem innerSearch_terminates (dom : Dom) (type : WebFocusType) (o : Option Nat)
    (h : ∀ i, o = some i → ∃ n r, findFocusableElementRecursively dom type n i none = some r) :
    ∃ n r, innerSearch dom type n o = some r := by
  cases o with
  | none => exact ⟨0, none, rfl⟩
  | some i => exact h i rfl

theorem recursivelyForwardLoop_terminates (dom : Dom) (rank : Nat → Nat)
    (hn : NestedBelow dom rank) :
    ∀ (k S : Nat), rank S = k → ∀ cand : Option Nat,
      ∃ n r, recursivelyForwardLoop dom n S cand = some r := by
  intro k
  induction k using Nat.strong_induction_on with
  | _ k ih =>
    intro S hS
    have hinner : ∀ i, rank i < rank S →
        ∃ n r, findFocusableElementRecursively dom .Forward n i none = some r := by
      intro i hi
      exact ih (rank i) (hS ▸ hi) i rfl _
    have hyield : ∀ (v : Nat) (x : Element), (dom.scope S).elements[v]? = some x →
        ∃ n y, forwardYield dom n S v x = some y := by
      intro v x hx
      unfold forwardYield
      split_ifs with h1 h2 h3
      · exact innerSearch_terminates dom .Forward _
          (fun i hi => hinner i (rank_ownedByShadowHost hn hx hi))
      · exact ⟨0, none, rfl⟩
      · exact ⟨0, _, rfl⟩
      · refine innerSearch_terminates dom .Forward _
          (fun i hi => hinner i (rank_ownedByNonFocusable hn hx ?_ hi))
        simpa using h3
    have main : ∀ (m c : Nat), candidatesAfter (dom.scope S).elements c = m →
        ∃ n r, recursivelyForwardLoop dom n S (some c) = some r := by
      intro m
      induction m using Nat.strong_induction_on with
      | _ m ihm =>
        intro c hc
        cases hx : (dom.scope S).elements[c]? with
        | none => exact ⟨1, none, by simp [recursivelyForwardLoop, hx]⟩
        | some x =>
          obtain ⟨n1, y, hy⟩ := hyield c x hx
          cases y with
          | some r =>
            exact ⟨n1 + 1, some r, by rw [recursivelyForwardLoop_step dom n1 S c x hx, hy]⟩
          | none =>
            have hskip : ∃ n2 r, recursivelyForwardLoop dom n2 S
                (nextFocusableElement (dom.scope S).elements (some c)) = some r := by
              cases hnext : nextFocusableElement (dom.scope S).elements (some c) with
              | none => exact ⟨1, none, rfl⟩
              | some b =>
                obtain ⟨⟨eb, heb, _⟩, hkey⟩ := nextFocusableElement_step_key hx hnext
                exact ihm _ (hc ▸ candidatesAfter_lt (lt_length_of_get heb) hkey) b rfl
            obtain ⟨n2, r, hr⟩ := hskip
            refine ⟨max n1 n2 + 1, r, ?_⟩
            rw [recursivelyForwardLoop_step dom _ S c x hx,
              forwardYield_le dom (le_max_left n1 n2) hy]
            exact recursivelyForwardLoop_le dom (le_max_right n1 n2) hr
    intro cand
    cases cand with
    | none => exact ⟨1, none, rfl⟩
    | some c => exact main _ c rfl

theorem candidatesBefore_le (els : List Element) (c : Nat) :
    candidatesBefore els c ≤ els.length := by
  unfold candidatesBefore
  calc ((Finset.range els.length).filter (fun j => keyBefore els j c)).card
      ≤ (Finset.range els.length).card := Finset.card_filter_le _ _
    _ = els.length := Finset.card_range _

theorem adjustedTabIndexAt_of_get {els : List Element} {i : Nat} {e : Element}
    (h : els[i]? = some e) : adjustedTabIndexAt els i = adjustedTabIndex e := by
  unfold adjustedTabIndexAt
  rw [h]

theorem backwardMeasure_lt {els : List Element} {a b : Nat} {eb : Element}
    (heb : els[b]? = some eb) (h : previousFocusableElement els (some b) = some a) :
    backwardMeasure els a < backwardMeasure els b := by
  obtain ⟨ea, hea, _, hta⟩ := previousFocusableElement_step_nonneg heb h
  unfold backwardMeasure
  rw [adjustedTabIndexAt_of_get hea, adjustedTabIndexAt_of_get heb, if_pos hta]
  by_cases htb : 0 ≤ adjustedTabIndex eb
  · rw [if_pos htb]
    exact candidatesBefore_lt (lt_length_of_get hea)
      (previousFocusableElement_some_pred heb htb h).2.1
  · rw [if_neg htb]
    have := candidatesBefore_le els a
    omega

theorem recursivelyBackwardLoop_terminates (dom : Dom) (rank : Nat → Nat)
    (hn : NestedBelow dom rank) :
    ∀ (k S : Nat), rank S = k → ∀ cand : Option Nat,
      ∃ n r, recursivelyBackwardLoop dom n S cand = some r := by
  intro k
  induction k using Nat.strong_induction_on with
  | _ k ih =>
    intro S hS
    have hinner : ∀ i, rank i < rank S →
        ∃ n r, findFocusableElementRecursively dom .Backward n i none = some r := by
      intro i hi
      exact ih (rank i) (hS ▸ hi) i rfl _
    have hyield : ∀ (v : Nat) (x : Element), (dom.scope S).elements[v]? = some x →
        ∃ n y, backwardYield dom n S v x = some y := by
      intro v x hx
      unfold backwardYield
      by_cases h1 : isKeyboardFocusableShadowHost x = true
      · simp only [if_pos h1]
        obtain ⟨n, y, hy⟩ := innerSearch_terminates dom .Backward (ownedByShadowHost x)
          (fun i hi => hinner i (rank_ownedByShadowHost hn hx hi))
        refine ⟨n, ?_⟩
        rw [hy]
        cases y with
        | some r => exact ⟨_, rfl⟩
        | none =>
          by_cases hd : isShadowHostDelegatesFocus x = true
          · exact ⟨none, by simp [hd]⟩
          · exact ⟨some ⟨S, v⟩, by simp [hd]⟩
      · simp only [if_neg h1]
        by_cases h2 : (isShadowHostDelegatesFocus x && decide (x.tabIndex.val < 0)) = true
        · simp only [if_pos h2]
          exact ⟨0, none, rfl⟩
        · simp only [if_neg h2]
          by_cases h3 : isNonFocusableFocusScopeOwner x = true
          · simp only [if_pos h3]
            exact innerSearch_terminates dom .Backward _
              (fun i hi => hinner i (rank_ownedByNonFocusable hn hx h3 hi))
          · simp only [if_neg h3]
            by_cases h4 : (!isShadowHostDelegatesFocus x) = true
            · simp only [if_pos h4]
              exact ⟨0, _, rfl⟩
            · simp only [if_neg h4]
              exact ⟨0, none, rfl⟩
    have main : ∀ (m c : Nat), backwardMeasure (dom.scope S).elements c = m →
        ∃ n r, recursivelyBackwardLoop dom n S (some c) = some r := by
      intro m
      induction m using Nat.strong_induction_on with
      | _ m ihm =>
        intro c hc
        cases hx : (dom.scope S).elements[c]? with
        | none => exact ⟨1, none, by simp [recursivelyBackwardLoop, hx]⟩
        | some x =>
          obtain ⟨n1, y, hy⟩ := hyield c x hx
          cases y with
          | some r =>
            exact ⟨n1 + 1, some r, by rw [recursivelyBackwardLoop_step dom n1 S c x hx, hy]⟩
          | none =>
            have hskip : ∃ n2 r, recursivelyBackwardLoop dom n2 S
                (previousFocusableElement (dom.scope S).elements (some c)) = some r := by
              cases hprev : previousFocusableElement (dom.scope S).elements (some c) with
              | none => exact ⟨1, none, rfl⟩
              | some a => exact ihm _ (hc ▸ backwardMeasure_lt hx hprev) a rfl
            obtain ⟨n2, r, hr⟩ := hskip
            refine ⟨max n1 n2 + 1, r, ?_⟩
            rw [recursivelyBackwardLoop_step dom _ S c x hx,
              backwardYield_le dom (le_max_left n1 n2) hy]
            exact recursivelyBackwardLoop_le dom (le_max_right n1 n2) hr
    intro cand
    cases cand with
    | none => exact ⟨1, none, rfl⟩
    | some c => exact main _ c rfl

/-- With finitely nested scopes the recursive search of one scope returns, in
both directions and from every start. -/
theorem recursively_terminates (dom : Dom) (rank : Nat → Nat) (hn : NestedBelow dom rank)
    (type : WebFocusType) (S : Nat) (start : Option Nat) :
    ∃ n r, findFocusableElementRecursively dom type n S start = some r := by
  cases type with
  | Forward => exact recursivelyForwardLoop_terminates dom rank hn _ S rfl _
  | Backward => exact recursivelyBackwardLoop_terminates dom rank hn _ S rfl _

/-- The search of a scope returns an element of that scope or of a scope nested
in it. -/
theorem recursivelyForwardLoop_rank (dom : Dom) (rank : Nat → Nat) (hn : NestedBelow dom rank) :
    ∀ (n S : Nat) (cand : Option Nat) (r : Ref),
      recursivelyForwardLoop dom n S cand = some (some r) → rank r.scope ≤ rank S := by
  intro n
  induction n with
  | zero => intro S cand r h; simp [recursivelyForwardLoop] at h
  | succ n ih =>
    intro S cand r h
    cases cand with
    | none => simp [recursivelyForwardLoop] at h
    | some c =>
      cases hx : (dom.scope S).elements[c]? with
      | none => simp [recursivelyForwardLoop, hx] at h
      | some x =>
        rw [recursivelyForwardLoop_step dom n S c x hx] at h
        have hin : ∀ (o : Option Nat) (y : Ref), (∀ i, o = some i → rank i < rank S) →
            innerSearch dom .Forward n o = some (some y) → rank y.scope ≤ rank S := by
          intro o y ho hy
          cases o with
          | none => simp [innerSearch] at hy
          | some i => exact le_trans (ih i _ y hy) (le_of_lt (ho i rfl))
        cases hy : forwardYield dom n S c x with
        | none => simp [hy] at h
        | some y =>
          rw [hy] at h
          cases y with
          | none => exact ih S _ r h
          | some y =>
            simp only [Option.some.injEq] at h
            subst h
            unfold forwardYield at hy
            split_ifs at hy with h1 h2 h3
            · exact hin _ _ (fun i hi => rank_ownedByShadowHost hn hx hi) hy
            · exact Option.noConfusion (Option.some.inj hy)
            · simp only [Option.some.injEq] at hy
              subst hy
              exact le_refl _
            · refine hin _ _ (fun i hi => rank_ownedByNonFocusable hn hx ?_ hi) hy
              simpa using h3

theorem recursivelyBackwardLoop_rank (dom : Dom) (rank : Nat → Nat)
    (hn : NestedBelow dom rank) :
    ∀ (n S : Nat) (cand : Option Nat) (r : Ref),
      recursivelyBackwardLoop dom n S cand = some (some r) → rank r.scope ≤ rank S := by
  intro n
  induction n with
  | zero => intro S cand r h; simp [recursivelyBackwardLoop] at h
  | succ n ih =>
    intro S cand r h
    cases cand with
    | none => simp [recursivelyBackwardLoop] at h
    | some c =>
      cases hx : (dom.scope S).elements[c]? with
      | none => simp [recursivelyBackwardLoop, hx] at h
      | some x =>
        rw [recursivelyBackwardLoop_step dom n S c x hx] at h
        have hin : ∀ (o : Option Nat) (y : Ref), (∀ i, o = some i → rank i < rank S) →
            innerSearch dom .Backward n o = some (some y) → rank y.scope ≤ rank S := by
          intro o y ho hy
          cases o with
          | none => simp [innerSearch] at hy
          | some i => exact le_trans (ih i _ y hy) (le_of_lt (ho i rfl))
        cases hy : backwardYield dom n S c x with
        | none => simp [hy] at h
        | some y =>
          rw [hy] at h
          cases y with
          | none => exact ih S _ r h
          | some y =>
            simp only [Option.some.injEq] at h
            subst h
            unfold backwardYield at hy
            by_cases h1 : isKeyboardFocusableShadowHost x = true
            · rw [if_pos h1] at hy
              cases hi : innerSearch dom .Backward n (ownedByShadowHost x) with
              | none => simp [hi] at hy
              | some z =>
                rw [hi] at hy
                cases z with
                | some z =>
                  simp only [Option.some.injEq] at hy
                  subst hy
                  exact hin _ _ (fun i hi => rank_ownedByShadowHost hn hx hi) hi
                | none =>
                  simp only at hy
                  by_cases hd : isShadowHostDelegatesFocus x = true
                  · rw [if_pos hd] at hy
                    exact Option.noConfusion (Option.some.inj hy)
                  · rw [if_neg hd] at hy
                    simp only [Option.some.injEq] at hy
                    subst hy
                    exact le_refl _
            · rw [if_neg h1] at hy
              by_cases h2 : (isShadowHostDelegatesFocus x && decide (x.tabIndex.val < 0)) = true
              · rw [if_pos h2] at hy
                exact Option.noConfusion (Option.some.inj hy)
              · rw [if_neg h2] at hy
                by_cases h3 : isNonFocusableFocusScopeOwner x = true
                · rw [if_pos h3] at hy
                  exact hin _ _ (fun i hi => rank_ownedByNonFocusable hn hx h3 hi) hy
                · rw [if_neg h3] at hy
                  by_cases h4 : (!isShadowHostDelegatesFocus x) = true
                  · rw [if_pos h4] at hy
                    simp only [Option.some.injEq] at hy
                    subst hy
                    exact le_refl _
                  · rw [if_neg h4] at hy
                    exact Option.noConfusion (Option.some.inj hy)

theorem recursively_rank (dom : Dom) (rank : Nat → Nat) (hn : NestedBelow dom rank)
    (type : WebFocusType) {n S : Nat} {start : Option Nat} {r : Ref}
    (h : findFocusableElementRecursively dom type n S start = some (some r)) :
    rank r.scope ≤ rank S := by
  cases type with
  | Forward => exact recursivelyForwardLoop_rank dom rank hn n S _ r h
  | Backward => exact recursivelyBackwardLoop_rank dom rank hn n S _ r h

theorem localContentDocumentAt_of_get {dom : Dom} {x : Ref} {o : Element}
    (he : elementAt dom x = some o) :
    localContentDocumentAt dom x = localContentDocument o := by
  unfold localContentDocumentAt
  rw [he]
  rfl

theorem descending_step_plain (dom : Dom) (type : WebFocusType) (n : Nat) (x : Ref)
    (h : localContentDocumentAt dom x = none) :
    findFocusableElementDescendingDownIntoFrameDocument dom type (n + 1) (some x)
      = some (some x) := by
  rw [findFocusableElementDescendingDownIntoFrameDocument]
  cases he : elementAt dom x with
  | none => rfl
  | some o =>
    rw [localContentDocumentAt_of_get he] at h
    unfold localContentDocument at h
    simp only
    generalize o.isFrameOwnerElement = b at h ⊢
    generalize o.contentFrame = c at h ⊢
    cases b with
    | false => rfl
    | true =>
      cases c with
      | none => rfl
      | some c =>
        cases c with
        | localFrame d => exact Option.noConfusion h
        | remoteFrame => rfl

theorem descending_step_local (dom : Dom) (type : WebFocusType) (n : Nat) (x : Ref) (d : Nat)
    (h : localContentDocumentAt dom x = some d) :
    findFocusableElementDescendingDownIntoFrameDocument dom type (n + 1) (some x) =
      match findFocusableElementRecursively dom type n d none with
      | none => none
      | some none => some (some x)
      | some (some foundElement) =>
        findFocusableElementDescendingDownIntoFrameDocument dom type n (some foundElement) := by
  rw [findFocusableElementDescendingDownIntoFrameDocument]
  cases he : elementAt dom x with
  | none =>
    unfold localContentDocumentAt at h
    rw [he] at h
    exact Option.noConfusion h
  | some o =>
    rw [localContentDocumentAt_of_get he] at h
    unfold localContentDocument at h
    simp only
    generalize o.isFrameOwnerElement = b at h ⊢
    generalize o.contentFrame = c at h ⊢
    cases b with
    | false => exact Option.noConfusion h
    | true =>
      cases c with
      | none => exact Option.noConfusion h
      | some c =>
        cases c with
        | localFrame d' =>
          simp only [if_true, Option.some.injEq] at h
          subst h
          rfl
        | remoteFrame => exact Option.noConfusion h

theorem rank_localContentDocumentAt {dom : Dom} {rank : Nat → Nat} (hn : NestedBelow dom rank)
    {x : Ref} {d : Nat} (h : localContentDocumentAt dom x = some d) :
    rank d < rank x.scope := by
  cases he : elementAt dom x with
  | none =>
    unfold localContentDocumentAt at h
    rw [he] at h
    exact Option.noConfusion h
  | some o =>
    rw [localContentDocumentAt_of_get he] at h
    exact hn.content_document x.scope x.pos o d he h

/-- The descent into frame documents from an element: it returns, the result is
the element itself unless a local frame document lies behind it, and the result
has no local frame document behind it or one whose search finds nothing. -/
theorem descending_from_element (dom : Dom) (rank : Nat → Nat) (hn : NestedBelow dom rank)
    (type : WebFocusType) :
    ∀ (k : Nat) (x : Ref), rank x.scope = k →
      ∃ n y, findFocusableElementDescendingDownIntoFrameDocument dom type n (some x)
          = some (some y) ∧
        (localContentDocumentAt dom x = none → y = x) ∧
        (localContentDocumentAt dom y = none ∨
          ∃ d m, localContentDocumentAt dom y = some d ∧
            findFocusableElementRecursively dom type m d none = some none) := by
  intro k
  induction k using Nat.strong_induction_on with
  | _ k ih =>
    intro x hk
    cases hd : localContentDocumentAt dom x with
    | none =>
      exact ⟨1, x, descending_step_plain dom type 0 x hd, fun _ => rfl, Or.inl hd⟩
    | some d =>
      obtain ⟨n1, r, hr⟩ := recursively_terminates dom rank hn type d none
      cases r with
      | none =>
        refine ⟨n1 + 1, x, ?_, fun h => Option.noConfusion h, Or.inr ⟨d, n1, hd, hr⟩⟩
        rw [descending_step_local dom type n1 x d hd, hr]
      | some f =>
        have hlt : rank f.scope < k :=
          hk ▸ lt_of_le_of_lt (recursively_rank dom rank hn type hr)
            (rank_localContentDocumentAt hn hd)
        obtain ⟨n2, y, hy, _, hprop⟩ := ih _ hlt f rfl
        refine ⟨max n1 n2 + 1, y, ?_, fun h => Option.noConfusion h, hprop⟩
        rw [descending_step_local dom type _ x d hd,
          fuel_le (fun j => findFocusableElementRecursively dom type j d none)
            (fun j r => findFocusableElementRecursively_mono dom type j d none r)
            (le_max_left n1 n2) hr]
        exact descending_le dom type (le_max_right n1 n2) hy

/-- C11: with finitely nested frames,
`findFocusableElementDescendingDownIntoFrameDocument(type, x)` returns; the
result is null iff `x` is null; it is `x` itself when `x` is not a frame owner
element with a local content frame; and it is always either an element that is
not such a frame owner, or a frame owner whose embedded document yields nothing
when it is searched recursively from null. -/
theorem descending_result (dom : Dom) (rank : Nat → Nat) (hn : NestedBelow dom rank)
    (type : WebFocusType) (x : Option Ref) :
    ∃ r, Returns (fun n => findFocusableElementDescendingDownIntoFrameDocument dom type n x) r ∧
      (r = none ↔ x = none) ∧
      (∀ e, x = some e → localContentDocumentAt dom e = none → r = some e) ∧
      (∀ y, r = some y → localContentDocumentAt dom y = none ∨
        ∃ d, localContentDocumentAt dom y = some d ∧
          Returns (fun n => findFocusableElementRecursively dom type n d none) none) := by
  cases x with
  | none =>
    refine ⟨none, returns_of_eq (descending_mono dom type · none) (descending_null dom type 0),
      ⟨fun _ => rfl, fun _ => rfl⟩, fun e he => Option.noConfusion he,
      fun y hy => Option.noConfusion hy⟩
  | some e =>
    obtain ⟨n, y, hy, hsame, hprop⟩ := descending_from_element dom rank hn type _ e rfl
    refine ⟨some y, returns_of_eq (descending_mono dom type · (some e)) hy,
      ⟨fun h => Option.noConfusion h, fun h => Option.noConfusion h⟩, ?_, ?_⟩
    · intro e' he' hd
      cases he'
      rw [hsame hd]
    · intro y' hy'
      cases hy'
      rcases hprop with h | ⟨d, m, hd, hm⟩
      · exact Or.inl h
      · exact Or.inr ⟨d, hd, returns_of_eq
          (findFocusableElementRecursively_mono dom type · d none) hm⟩

theorem climbForward_le (dom : Dom) {n m S : Nat} {found : Option Ref} {r : Option Ref}
    (hnm : n ≤ m) (h : climbForward dom n S found = some r) :
    climbForward dom m S found = some r :=
  fuel_le (fun k => climbForward dom k S found) (fun k r => climbForward_mono dom k _ _ r) hnm h

theorem climbForward_terminates (dom : Dom) (rank level : Nat → Nat)
    (hb : NestedBelow dom rank) (ha : NestedAbove dom level) :
    ∀ (k S : Nat), level S = k → ∀ found : Option Ref,
      ∃ n r, climbForward dom n S found = some r := by
  intro k
  induction k using Nat.strong_induction_on with
  | _ k ih =>
    intro S hS found
    cases found with
    | some f => exact ⟨1, some f, rfl⟩
    | none =>
      cases how : (dom.scope S).owner with
      | none => exact ⟨1, none, by simp [climbForward, how]⟩
      | some o =>
        obtain ⟨n1, r1, h1⟩ := recursively_terminates dom rank hb .Forward o.scope (some o.pos)
        obtain ⟨n2, r2, h2⟩ := ih _ (hS ▸ ha S o how) o.scope rfl r1
        refine ⟨max n1 n2 + 1, r2, ?_⟩
        rw [climbForward]
        simp only [how]
        rw [recursivelyForward_le dom (le_max_left n1 n2) h1]
        exact climbForward_le dom (le_max_right n1 n2) h2

theorem climbBackward_terminates (dom : Dom) (rank level : Nat → Nat)
    (hb : NestedBelow dom rank) (ha : NestedAbove dom level) :
    ∀ (k S : Nat), level S = k → ∀ found : Option Ref,
      ∃ n r, climbBackward dom n S found = some r := by
  intro k
  induction k using Nat.strong_induction_on with
  | _ k ih =>
    intro S hS found
    cases found with
    | some f => exact ⟨1, some f, rfl⟩
    | none =>
      cases how : (dom.scope S).owner with
      | none => exact ⟨1, none, by simp [climbBackward, how]⟩
      | some o =>
        cases hel : elementAt dom o with
        | none => exact ⟨1, none, by simp [climbBackward, how, hel]⟩
        | some x =>
          by_cases hx : (isKeyboardFocusableShadowHost x && !isShadowHostDelegatesFocus x) = true
          · exact ⟨1, some o, by simp only [climbBackward, how, hel, if_pos hx]⟩
          · obtain ⟨n1, r1, h1⟩ :=
              recursively_terminates dom rank hb .Backward o.scope (some o.pos)
            obtain ⟨n2, r2, h2⟩ := ih _ (hS ▸ ha S o how) o.scope rfl r1
            refine ⟨max n1 n2 + 1, r2, ?_⟩
            rw [climbBackward]
            simp only [how, hel, if_neg hx]
            rw [recursivelyBackward_le dom (le_max_left n1 n2) h1]
            exact climbBackward_le dom (le_max_right n1 n2) h2

theorem descending_terminates (dom : Dom) (rank : Nat → Nat) (hb : NestedBelow dom rank)
    (type : WebFocusType) (x : Option Ref) :
    ∃ n r, findFocusableElementDescendingDownIntoFrameDocument dom type n x = some r := by
  cases x with
  | none => exact ⟨1, none, rfl⟩
  | some e =>
    obtain ⟨n, y, hy, _⟩ := descending_from_element dom rank hb type _ e rfl
    exact ⟨n, some y, hy⟩

theorem acrossBackward_terminates (dom : Dom) (rank level : Nat → Nat)
    (hb : NestedBelow dom rank) (ha : NestedAbove dom level) (S : Nat) (current : Option Nat) :
    ∃ n r, findFocusableElementAcrossFocusScopesBackward dom n S current = some r := by
  obtain ⟨n1, r1, h1⟩ := recursively_terminates dom rank hb .Backward S current
  obtain ⟨n2, r2, h2⟩ := climbBackward_terminates dom rank level hb ha _ S rfl r1
  obtain ⟨n3, r3, h3⟩ := descending_terminates dom rank hb .Backward r2
  refine ⟨max n1 (max n2 n3), r3, ?_⟩
  unfold findFocusableElementAcrossFocusScopesBackward
  rw [recursivelyBackward_le dom (le_max_left _ _) h1]
  simp only
  rw [climbBackward_le dom (le_trans (le_max_left n2 n3) (le_max_right _ _)) h2]
  exact descending_le dom .Backward (le_trans (le_max_right n2 n3) (le_max_right _ _)) h3

theorem acrossForward_terminates (dom : Dom) (rank level : Nat → Nat)
    (hb : NestedBelow dom rank) (ha : NestedAbove dom level) (S : Nat) (current : Option Nat) :
    ∃ n r, findFocusableElementAcrossFocusScopesForward dom n S current = some r := by
  obtain ⟨n1, r1, h1⟩ := recursively_terminates dom rank hb .Forward S current
  -- the rest of the function, once the first search has produced `found`
  have rest : ∀ (found : Option Ref), ∃ n r, ∀ m, n ≤ m →
      (match climbForward dom m S found with
        | none => none
        | some found =>
          findFocusableElementDescendingDownIntoFrameDocument dom .Forward m found) = some r := by
    intro found
    obtain ⟨n2, r2, h2⟩ := climbForward_terminates dom rank level hb ha _ S rfl found
    obtain ⟨n3, r3, h3⟩ := descending_terminates dom rank hb .Forward r2
    refine ⟨max n2 n3, r3, fun m hm => ?_⟩
    rw [climbForward_le dom (le_trans (le_max_left n2 n3) hm) h2]
    exact descending_le dom .Forward (le_trans (le_max_right n2 n3) hm) h3
  have plain : ∃ n r, ∀ m, n ≤ m →
      (match findFocusableElementRecursivelyForward dom m S current with
        | none => none
        | some found =>
          match climbForward dom m S found with
          | none => none
          | some found =>
            findFocusableElementDescendingDownIntoFrameDocument dom .Forward m found)
        = some r := by
    obtain ⟨n2, r2, h2⟩ := rest r1
    refine ⟨max n1 n2, r2, fun m hm => ?_⟩
    rw [recursivelyForward_le dom (le_trans (le_max_left n1 n2) hm) h1]
    exact h2 m (le_trans (le_max_right n1 n2) hm)
  unfold findFocusableElementAcrossFocusScopesForward
  simp only
  cases hc : current.bind (fun c => (dom.scope S).elements[c]?) with
  | none =>
    obtain ⟨n, r, h⟩ := plain
    exact ⟨n, r, h n (le_refl n)⟩
  | some element =>
    simp only
    by_cases hh : isShadowHostWithoutCustomFocusLogic element = true
    · simp only [if_pos hh]
      cases ho : ownedByShadowHost element with
      | none =>
        obtain ⟨n, r, h⟩ := plain
        exact ⟨n, r, h n (le_refl n)⟩
      | some i =>
        simp only
        obtain ⟨n4, r4, h4⟩ := recursively_terminates dom rank hb .Forward i none
        cases r4 with
        | none =>
          obtain ⟨n, r, h⟩ := plain
          refine ⟨max n n4, r, ?_⟩
          rw [recursivelyForward_le dom (le_max_right n n4) h4]
          exact h _ (le_max_left n n4)
        | some f =>
          obtain ⟨n2, r2, h2⟩ := rest (some f)
          refine ⟨max n2 n4, r2, ?_⟩
          rw [recursivelyForward_le dom (le_max_right n2 n4) h4]
          exact h2 _ (le_max_left n2 n4)
    · simp only [if_neg hh]
      obtain ⟨n, r, h⟩ := plain
      exact ⟨n, r, h n (le_refl n)⟩

theorem across_terminates (dom : Dom) (rank level : Nat → Nat)
    (hb : NestedBelow dom rank) (ha : NestedAbove dom level) (type : WebFocusType) (S : Nat)
    (current : Option Nat) :
    ∃ r, Returns (fun n => findFocusableElementAcrossFocusScopes dom type n S current) r := by
  cases type with
  | Forward =>
    obtain ⟨n, r, h⟩ := acrossForward_terminates dom rank level hb ha S current
    exact ⟨r, returns_of_eq (fun k r => acrossForward_mono dom k S current r) h⟩
  | Backward =>
    obtain ⟨n, r, h⟩ := acrossBackward_terminates dom rank level hb ha S current
    exact ⟨r, returns_of_eq (fun k r => acrossBackward_mono dom k S current r) h⟩

theorem candidatesAfter_lt_length {els : List Element} {c : Nat} (hc : c < els.length) :
    candidatesAfter els c < els.length := by
  unfold candidatesAfter
  calc ((Finset.range els.length).filter (fun j => keyBefore els c j)).card
      < (Finset.range els.length).card := by
        apply Finset.card_lt_card
        rw [Finset.ssubset_iff_of_subset (Finset.filter_subset _ _)]
        exact ⟨c, by simp [hc], by simp [keyBefore_irrefl]⟩
    _ = els.length := Finset.card_range _

theorem candidatesBefore_lt_length {els : List Element} {c : Nat} (hc : c < els.length) :
    candidatesBefore els c < els.length := by
  unfold candidatesBefore
  calc ((Finset.range els.length).filter (fun j => keyBefore els j c)).card
      < (Finset.range els.length).card := by
        apply Finset.card_lt_card
        rw [Finset.ssubset_iff_of_subset (Finset.filter_subset _ _)]
        exact ⟨c, by simp [hc], by simp [keyBefore_irrefl]⟩
    _ = els.length := Finset.card_range _

/-- The forward candidates after `c`: strictly ascending in the tabbing order,
so none of them is met twice. -/
theorem candidateSequence_forward_from (els : List Element) :
    ∀ (m c : Nat) (ec : Element), candidatesAfter els c = m → els[c]? = some ec →
      ∃ n l, n ≤ m + 1 ∧ candidateSequence .Forward els n (some c) = some l ∧
        l.Pairwise (keyBefore els) ∧ ∀ x ∈ l, keyBefore els c x := by
  intro m
  induction m using Nat.strong_induction_on with
  | _ m ih =>
    intro c ec hm hc
    cases hnext : nextFocusableElement els (some c) with
    | none =>
      exact ⟨1, [], by omega, by simp [candidateSequence, findFocusableElementInternal, hnext],
        List.Pairwise.nil, by intro x hx; cases hx⟩
    | some b =>
      obtain ⟨⟨eb, heb, _⟩, hkey⟩ := nextFocusableElement_step_key hc hnext
      have hlt := candidatesAfter_lt (lt_length_of_get heb) hkey
      obtain ⟨n, l, hn, hl, hpw, hall⟩ := ih _ (hm ▸ hlt) b eb rfl heb
      refine ⟨n + 1, b :: l, by omega, ?_, ?_, ?_⟩
      · simp [candidateSequence, findFocusableElementInternal, hnext, hl]
      · exact List.Pairwise.cons hall hpw
      · intro x hx
        rcases List.mem_cons.1 hx with rfl | hx
        · exact hkey
        · exact keyBefore_trans hkey (hall x hx)

/-- The backward candidates before `c`: strictly descending in the tabbing order. -/
theorem candidateSequence_backward_from (els : List Element) :
    ∀ (m c : Nat) (ec : Element), candidatesBefore els c = m → els[c]? = some ec →
      0 ≤ adjustedTabIndex ec →
      ∃ n l, n ≤ m + 1 ∧ candidateSequence .Backward els n (some c) = some l ∧
        l.Pairwise (fun x y => keyBefore els y x) ∧ ∀ x ∈ l, keyBefore els x c := by
  intro m
  induction m using Nat.strong_induction_on with
  | _ m ih =>
    intro c ec hm hc htc
    cases hprev : previousFocusableElement els (some c) with
    | none =>
      exact ⟨1, [], by omega, by simp [candidateSequence, findFocusableElementInternal, hprev],
        List.Pairwise.nil, by intro x hx; cases hx⟩
    | some a =>
      obtain ⟨⟨ea, hea, _, hta⟩, hkey, _⟩ := previousFocusableElement_some_pred hc htc hprev
      have hlt := candidatesBefore_lt (lt_length_of_get hea) hkey
      obtain ⟨n, l, hn, hl, hpw, hall⟩ := ih _ (hm ▸ hlt) a ea rfl hea hta
      refine ⟨n + 1, a :: l, by omega, ?_, ?_, ?_⟩
      · simp [candidateSequence, findFocusableElementInternal, hprev, hl]
      · exact List.Pairwise.cons hall hpw
      · intro x hx
        rcases List.mem_cons.1 hx with rfl | hx
        · exact hkey
        · exact keyBefore_trans (hall x hx) hkey

/-- The first candidate of a forward search is an element of the scope. -/
theorem nextFocusableElement_in_scope {els : List Element} {start : Option Nat} {b : Nat}
    (h : nextFocusableElement els start = some b) : ∃ eb, els[b]? = some eb := by
  cases start with
  | none =>
    obtain ⟨⟨eb, heb, _⟩, _⟩ := nextFocusableElement_null_min h
    exact ⟨eb, heb⟩
  | some a =>
    cases ha : els[a]? with
    | none => simp [nextFocusableElement, ha] at h
    | some ea =>
      obtain ⟨⟨eb, heb, _⟩, _⟩ := nextFocusableElement_step_key ha h
      exact ⟨eb, heb⟩

/-- The result of `previousFocusableElement` is a visitable element of the
scope whose adjusted tab index is not negative. -/
theorem previousFocusableElement_in_scope {els : List Element} {start : Option Nat} {a : Nat}
    (h : previousFocusableElement els start = some a) :
    ∃ ea, els[a]? = some ea ∧ shouldVisit ea = true ∧ 0 ≤ adjustedTabIndex ea := by
  cases start with
  | none => exact (previousFocusableElement_null_last h).1
  | some b =>
    cases hb : els[b]? with
    | none => simp [previousFocusableElement, hb] at h
    | some eb => exact previousFocusableElement_step_nonneg hb h

theorem candidateSequence_nodup (type : WebFocusType) (els : List Element)
    (start : Option Nat) :
    ∃ n l, n ≤ els.length + 1 ∧ candidateSequence type els n start = some l ∧ l.Nodup := by
  cases type with
  | Forward =>
    cases hnext : nextFocusableElement els start with
    | none =>
      exact ⟨1, [], by omega, by simp [candidateSequence, findFocusableElementInternal, hnext],
        List.nodup_nil⟩
    | some b =>
      obtain ⟨eb, heb⟩ := nextFocusableElement_in_scope hnext
      obtain ⟨n, l, hn, hl, hpw, hall⟩ := candidateSequence_forward_from els _ b eb rfl heb
      have := candidatesAfter_lt_length (lt_length_of_get heb)
      refine ⟨n + 1, b :: l, by omega, ?_, ?_⟩
      · simp [candidateSequence, findFocusableElementInternal, hnext, hl]
      · exact (List.Pairwise.cons hall hpw).imp
          (by intro x y h hxy; subst hxy; exact keyBefore_irrefl els _ h)
  | Backward =>
    cases hprev : previousFocusableElement els start with
    | none =>
      exact ⟨1, [], by omega, by simp [candidateSequence, findFocusableElementInternal, hprev],
        List.nodup_nil⟩
    | some a =>
      obtain ⟨ea, hea, _, hta⟩ := previousFocusableElement_in_scope hprev
      obtain ⟨n, l, hn, hl, hpw, hall⟩ :=
        candidateSequence_backward_from els _ a ea rfl hea hta
      have := candidatesBefore_lt_length (lt_length_of_get hea)
      refine ⟨n + 1, a :: l, by omega, ?_, ?_⟩
      · simp [candidateSequence, findFocusableElementInternal, hprev, hl]
      · exact (List.Pairwise.cons hall hpw).imp
          (by intro x y h hxy; subst hxy; exact keyBefore_irrefl els _ h)

/-- C17: in a tree of finitely nested shadow scopes and frames, from every
scope and every start (an element or null) and in both directions,
`findFocusableElementAcrossFocusScopes` returns an element or null, and so does
`findFocusableElementRecursively`; the candidates that its loop feeds back into
`nextFocusableElement` or `previousFocusableElement` are pairwise different and
end in null after at most as many steps as the scope has elements. -/
theorem across_focus_scopes_terminates (dom : Dom) (rank level : Nat → Nat)
    (hb : NestedBelow dom rank) (ha : NestedAbove dom level) (type : WebFocusType) (S : Nat)
    (start : Option Nat) :
    (∃ r, Returns (fun n => findFocusableElementAcrossFocusScopes dom type n S start) r) ∧
    (∃ r, Returns (fun n => findFocusableElementRecursively dom type n S start) r) ∧
    (∃ n l, n ≤ (dom.scope S).elements.length + 1 ∧
      candidateSequence type (dom.scope S).elements n start = some l ∧ l.Nodup) := by
  refine ⟨across_terminates dom rank level hb ha type S start, ?_,
    candidateSequence_nodup type _ start⟩
  obtain ⟨n, r, h⟩ := recursively_terminates dom rank hb type S start
  exact ⟨r, returns_of_eq (findFocusableElementRecursively_mono dom type · S start) h⟩

/-! ### The nested example -/

theorem domNested_elements (S p : Nat) (x : Element)
    (h : (domNested.scope S).elements[p]? = some x) :
    (S = 0 ∧ p = 0 ∧ x = hostNotFocusable) ∨ (S = 0 ∧ p = 1 ∧ x = frameOwnerLocal) ∨
    (S = 0 ∧ p = 2 ∧ x = focusable 0 (by decide) (by decide)) ∨
    (S = 1 ∧ p = 0 ∧ x = focusable 0 (by decide) (by decide)) ∨
    (S = 2 ∧ p = 0 ∧ x = focusable 0 (by decide) (by decide)) := by
  match S, p with
  | 0, 0 => left; simp [domNested] at h; exact ⟨rfl, rfl, h.symm⟩
  | 0, 1 => right; left; simp [domNested] at h; exact ⟨rfl, rfl, h.symm⟩
  | 0, 2 => right; right; left; simp [domNested] at h; exact ⟨rfl, rfl, h.symm⟩
  | 0, p + 3 => simp [domNested] at h
  | 1, 0 => right; right; right; left; simp [domNested] at h; exact ⟨rfl, rfl, h.symm⟩
  | 1, p + 1 => simp [domNested] at h
  | 2, 0 => right; right; right; right; simp [domNested] at h; exact ⟨rfl, rfl, h.symm⟩
  | 2, p + 1 => simp [domNested] at h
  | S + 3, p => simp [domNested] at h

theorem domNested_nestedBelow : NestedBelow domNested domNestedRank := by
  constructor
  · intro S p x i hx hi
    rcases domNested_elements S p x hx with ⟨rfl, rfl, rfl⟩ | ⟨rfl, rfl, rfl⟩ |
      ⟨rfl, rfl, rfl⟩ | ⟨rfl, rfl, rfl⟩ | ⟨rfl, rfl, rfl⟩
    · cases hi; decide
    all_goals exact Option.noConfusion hi
  · intro S p x i hx hins hi
    rcases domNested_elements S p x hx with ⟨rfl, rfl, rfl⟩ | ⟨rfl, rfl, rfl⟩ |
      ⟨rfl, rfl, rfl⟩ | ⟨rfl, rfl, rfl⟩ | ⟨rfl, rfl, rfl⟩ <;>
      exact Option.noConfusion hi
  · intro S p x d hx hd
    rcases domNested_elements S p x hx with ⟨rfl, rfl, rfl⟩ | ⟨rfl, rfl, rfl⟩ |
      ⟨rfl, rfl, rfl⟩ | ⟨rfl, rfl, rfl⟩ | ⟨rfl, rfl, rfl⟩
    · exact Option.noConfusion hd
    · cases hd; decide
    all_goals exact Option.noConfusion hd

theorem domNested_nestedAbove : NestedAbove domNested domNestedLevel := by
  intro S o h
  match S with
  | 0 => simp [domNested] at h
  | 1 => simp only [domNested, Option.some.injEq] at h; subst h; decide
  | 2 => simp only [domNested, Option.some.injEq] at h; subst h; decide
  | S + 3 => simp [domNested] at h

theorem descending_result_witness :
    findFocusableElementDescendingDownIntoFrameDocument domNested .Forward 3 (some ⟨0, 1⟩)
      = some (some ⟨2, 0⟩) ∧
    ∃ r, Returns (fun n => findFocusableElementDescendingDownIntoFrameDocument domNested
        .Forward n (some ⟨0, 1⟩)) r ∧
      (r = none ↔ some (⟨0, 1⟩ : Ref) = none) ∧
      (∀ e, some (⟨0, 1⟩ : Ref) = some e → localContentDocumentAt domNested e = none →
        r = some e) ∧
      (∀ y, r = some y → localContentDocumentAt domNested y = none ∨
        ∃ d, localContentDocumentAt domNested y = some d ∧
          Returns (fun n => findFocusableElementRecursively domNested .Forward n d none) none) :=
  ⟨by decide,
    descending_result domNested domNestedRank domNested_nestedBelow .Forward (some ⟨0, 1⟩)⟩

theorem across_focus_scopes_terminates_witness :
    (∃ r, Returns (fun n => findFocusableElementAcrossFocusScopes domNested .Backward n 1
      (some 0)) r) ∧
    (∃ r, Returns (fun n => findFocusableElementRecursively domNested .Backward n 1
      (some 0)) r) ∧
    (∃ n l, n ≤ (domNested.scope 1).elements.length + 1 ∧
      candidateSequence .Backward (domNested.scope 1).elements n (some 0) = some l ∧ l.Nodup) :=
  across_focus_scopes_terminates domNested domNestedRank domNestedLevel domNested_nestedBelow
    domNested_nestedAbove .Backward 1 (some 0)

/-! ## The backward search from null -/

/-- Below the tab index 32767 the backward search from null finds the last
element of the forward tabbing order. -/
theorem previousFocusableElement_null_of_order (els : List Element)
    (H : ∀ x ∈ els, shouldVisit x = true →
      0 ≤ adjustedTabIndex x ∧ adjustedTabIndex x < 32767)
    (hne : ∃ x ∈ els, shouldVisit x = true) :
    ∃ seq last, tabbingSequence els (els.length + 1) none = some seq ∧
      seq.getLast? = some last ∧ previousFocusableElement els none = some last := by
  have H2 : ∀ x ∈ els, shouldVisit x = true →
      0 ≤ adjustedTabIndex x ∧ adjustedTabIndex x ≤ 32767 :=
    fun x hx hv => ⟨(H x hx hv).1, le_of_lt (H x hx hv).2⟩
  have Hget : ∀ (v : Nat) (ev : Element), els[v]? = some ev → shouldVisit ev = true →
      0 ≤ adjustedTabIndex ev ∧ adjustedTabIndex ev ≠ 32767 := by
    intro v ev hev hv
    have := H ev (List.mem_iff_getElem?.2 ⟨v, hev⟩) hv
    exact ⟨this.1, by omega⟩
  obtain ⟨seq, hseq, hmem, _, hlast⟩ := tabbingSequence_sorted els
    (fun j x hx hv => (H2 x (List.mem_iff_getElem?.2 ⟨j, hx⟩) hv).1)
  obtain ⟨x, hx, hvx⟩ := hne
  obtain ⟨i, hi⟩ := List.mem_iff_getElem?.1 hx
  have hiseq : i ∈ seq := (hmem i).2 (visitableAt_iff.2 ⟨x, hi, hvx⟩)
  cases hl : seq.getLast? with
  | none =>
    rw [List.getLast?_eq_none_iff] at hl
    rw [hl] at hiseq
    cases hiseq
  | some last =>
    refine ⟨seq, last, hseq, hl, ?_⟩
    have hlmem : last ∈ seq := List.mem_of_getLast?_eq_some hl
    obtain ⟨el, hel, hvl⟩ := visitableAt_iff.1 ((hmem last).1 hlmem)
    rw [hl] at hlast
    have hmaxl := nextFocusableElement_none_last hel (Hget last el hel hvl).1 hlast
    cases hp : previousFocusableElement els none with
    | none =>
      exact absurd (previousFocusableElement_null_none hp i x hi hvx (Hget i x hi hvx).1
        (Hget i x hi hvx).2) id
    | some a =>
      obtain ⟨⟨ea, hea, hva, _⟩, hmaxa⟩ := previousFocusableElement_null_last hp
      rcases keyBefore_total els a last with h | h | h
      · exact absurd h (hmaxa last el hel hvl (Hget last el hel hvl).2)
      · rw [h]
      · exact absurd h (hmaxl a ea hea hva)

/-- C20 (the code at the failing input): in the scope of one keyboard-focusable
element of tab index 32767 the forward tabbing order from null consists of that
element, and `previousFocusableElement(scope, null)` returns null instead of
it. -/
theorem previousFocusableElement_null_misses_short_max :
    (∀ x ∈ scopeMax, shouldVisit x = true →
      0 ≤ adjustedTabIndex x ∧ adjustedTabIndex x ≤ 32767) ∧
    (∃ x ∈ scopeMax, shouldVisit x = true) ∧
    tabbingSequence scopeMax (scopeMax.length + 1) none = some [0] ∧
    previousFocusableElement scopeMax none = none := by
  refine ⟨?_, ⟨_, List.Mem.head _, by decide⟩, by decide, by decide⟩
  intro x hx _
  simp only [scopeMax, List.mem_singleton] at hx
  subst hx
  decide

/-! ## Claims on the focus controller -/

/-- C12, as the claim states it, fails: while a focus-frame transition is in
progress (`m_isChangingFocusedFrame` is true) the call `setFocusedFrame(nullptr)`
is not suppressed: the focused frame becomes null, the flag ends as false and
the blur of the old frame is dispatched. -/
theorem setFocusedFrame_null_during_transition :
    stateInTransition.isChangingFocusedFrame = true ∧
    (setFocusedFrame pageOfLocalFrames stateInTransition none true).focusedFrame = none ∧
    (setFocusedFrame pageOfLocalFrames stateInTransition none true).isChangingFocusedFrame
      = false ∧
    (setFocusedFrame pageOfLocalFrames stateInTransition none true).effects
      = [.selectionSetFocused 1 false, .windowBlur 1] := by
  decide

/-- The early return of `setFocusedFrame`: the state is the one before the
call. -/
theorem setFocusedFrame_early_return (page : Page) (st : FocusState) (frame : Option Nat)
    (notifyEmbedder : Bool)
    (h : st.focusedFrame = frame ∨ (st.isChangingFocusedFrame = true ∧ frame ≠ none)) :
    setFocusedFrame page st frame notifyEmbedder = st := by
  unfold setFocusedFrame
  rw [if_pos]
  rcases h with h | ⟨h1, h2⟩
  · simp [h]
  · cases frame with
    | none => exact absurd rfl h2
    | some f => simp [h1]

/-- C12 (amended): `setFocusedFrame(frame)` changes nothing, neither the focused
frame nor the transition flag nor the calls made, whenever `frame` equals the
focused frame, or a focus-frame transition is in progress and `frame` is not
null. -/
theorem setFocusedFrame_no_op (page : Page) (st : FocusState) (frame : Option Nat)
    (notifyEmbedder : Bool)
    (h : st.focusedFrame = frame ∨ (st.isChangingFocusedFrame = true ∧ frame ≠ none)) :
    setFocusedFrame page st frame notifyEmbedder = st := by
  unfold setFocusedFrame
  rw [if_pos]
  rcases h with h | ⟨h1, h2⟩
  · simp [h]
  · cases frame with
    | none => exact absurd rfl h2
    | some f => simp [h1]

theorem setFocusedFrame_no_op_witness :
    stateInTransition.isChangingFocusedFrame = true ∧
    setFocusedFrame pageOfLocalFrames stateInTransition (some 2) true = stateInTransition :=
  ⟨rfl, setFocusedFrame_no_op pageOfLocalFrames stateInTransition (some 2) true
    (Or.inr ⟨rfl, fun h => Option.noConfusion h⟩)⟩

/-- C13, as the claim states it, fails: the page has no focus (`isFocused()` is
false) and the focused frame changes from frame 1 to frame 2; the blur of
frame 1, its selection set unfocused and a `blur` event on its window, is
dispatched all the same. -/
theorem setFocusedFrame_blurs_unfocused_page :
    stateUnfocusedPage.isFocused = false ∧
    (setFocusedFrame pageOfLocalFrames stateUnfocusedPage (some 2) true).focusedFrame
      = some 2 ∧
    (setFocusedFrame pageOfLocalFrames stateUnfocusedPage (some 2) true).effects
      = [.selectionSetFocused 1 false, .windowBlur 1, .frameFocused 2] := by
  decide

theorem setFocusedFrame_effects (page : Page) (st : FocusState) (frame : Option Nat)
    (notifyEmbedder : Bool) (hne : st.focusedFrame ≠ frame)
    (hfree : st.isChangingFocusedFrame = false ∨ frame = none) :
    (setFocusedFrame page st frame notifyEmbedder).focusedFrame = frame ∧
    (setFocusedFrame page st frame notifyEmbedder).isChangingFocusedFrame = false ∧
    (setFocusedFrame page st frame notifyEmbedder).isFocused = st.isFocused ∧
    (setFocusedFrame page st frame notifyEmbedder).isActive = st.isActive ∧
    (setFocusedFrame page st frame notifyEmbedder).focusedElement = st.focusedElement ∧
    (setFocusedFrame page st frame notifyEmbedder).startingPoint = st.startingPoint ∧
    (setFocusedFrame page st frame notifyEmbedder).effects = st.effects ++
      (blurOldFrame page (st.focusedFrame.filter (fun f => (page.frame f).isLocalFrame)) ++
        (focusNewFrame page (frame.filter (fun f => (page.frame f).isLocalFrame)) st.isFocused ++
          notifyFrameFocused page frame notifyEmbedder)) := by
  have hc : (decide (st.focusedFrame = frame) ||
      (st.isChangingFocusedFrame && frame.isSome)) = false := by
    rcases hfree with h | h
    · simp [hne, h]
    · subst h; simp [hne]
  unfold setFocusedFrame
  rw [hc]
  simp [FocusState.dispatch, List.append_assoc]

/-- C13 (amended): when `setFocusedFrame` changes the focused frame, (a) the
focus of the new frame, its selection set focused and a `focus` event on its
window, is dispatched only if the page has focus (`isFocused()`), and only for
a new frame that is local and has a view; (b) it is dispatched for such a frame
when the page has focus; (c) the blur of the old frame, its selection set
unfocused and a `blur` event on its window, is dispatched whenever the old frame
is local and has a view, whether the page has focus or not. -/
theorem setFocusedFrame_focus_only_if_page_focused (page : Page) (st : FocusState)
    (frame : Option Nat) (notifyEmbedder : Bool) (hne : st.focusedFrame ≠ frame)
    (hfree : st.isChangingFocusedFrame = false ∨ frame = none) :
    (∀ f, (Effect.selectionSetFocused f true ∈
          dispatchedSince st (setFocusedFrame page st frame notifyEmbedder) ∨
        Effect.windowFocus f ∈
          dispatchedSince st (setFocusedFrame page st frame notifyEmbedder)) →
      st.isFocused = true ∧ frame = some f ∧ (page.frame f).isLocalFrame = true ∧
        (page.frame f).hasView = true) ∧
    (∀ f, frame = some f → (page.frame f).isLocalFrame = true → (page.frame f).hasView = true →
      st.isFocused = true →
      Effect.selectionSetFocused f true ∈
          dispatchedSince st (setFocusedFrame page st frame notifyEmbedder) ∧
        Effect.windowFocus f ∈
          dispatchedSince st (setFocusedFrame page st frame notifyEmbedder)) ∧
    (∀ f, st.focusedFrame = some f → (page.frame f).isLocalFrame = true →
      (page.frame f).hasView = true →
      Effect.selectionSetFocused f false ∈
          dispatchedSince st (setFocusedFrame page st frame notifyEmbedder) ∧
        Effect.windowBlur f ∈
          dispatchedSince st (setFocusedFrame page st frame notifyEmbedder)) := by
  have heff := (setFocusedFrame_effects page st frame notifyEmbedder hne hfree).2.2.2.2.2.2
  have hd : dispatchedSince st (setFocusedFrame page st frame notifyEmbedder) =
      blurOldFrame page (st.focusedFrame.filter (fun f => (page.frame f).isLocalFrame)) ++
        (focusNewFrame page (frame.filter (fun f => (page.frame f).isLocalFrame)) st.isFocused ++
          notifyFrameFocused page frame notifyEmbedder) := by
    unfold dispatchedSince
    rw [heff, List.drop_left]
  rw [hd]
  have hblur : ∀ (o : Option Nat) (f : Nat),
      Effect.selectionSetFocused f true ∉ blurOldFrame page o ∧
      Effect.windowFocus f ∉ blurOldFrame page o := by
    intro o f
    cases o with
    | none => simp [blurOldFrame]
    | some g => simp only [blurOldFrame]; split_ifs <;> simp
  have hnotify : ∀ (o : Option Nat) (b : Bool) (f : Nat),
      Effect.selectionSetFocused f true ∉ notifyFrameFocused page o b ∧
      Effect.windowFocus f ∉ notifyFrameFocused page o b := by
    intro o b f
    cases o with
    | none => simp [notifyFrameFocused]
    | some g => simp only [notifyFrameFocused]; split_ifs <;> simp
  refine ⟨?_, ?_, ?_⟩
  · intro f hf
    have hin : Effect.selectionSetFocused f true ∈ focusNewFrame page
          (frame.filter (fun f => (page.frame f).isLocalFrame)) st.isFocused ∨
        Effect.windowFocus f ∈ focusNewFrame page
          (frame.filter (fun f => (page.frame f).isLocalFrame)) st.isFocused := by
      simp only [List.mem_append] at hf
      rcases hf with (h | h | h) | (h | h | h)
      · exact absurd h (hblur _ f).1
      · exact Or.inl h
      · exact absurd h (hnotify _ _ f).1
      · exact absurd h (hblur _ f).2
      · exact Or.inr h
      · exact absurd h (hnotify _ _ f).2
    cases frame with
    | none => simp [focusNewFrame] at hin
    | some g =>
      by_cases hl : (page.frame g).isLocalFrame = true
      · simp only [Option.filter, hl, if_true, focusNewFrame] at hin
        by_cases hv : ((page.frame g).hasView && st.isFocused) = true
        · rw [if_pos hv] at hin
          simp only [Bool.and_eq_true] at hv
          have hfg : f = g := by
            rcases hin with h | h <;> simp at h <;> exact h
          subst hfg
          exact ⟨hv.2, rfl, hl, hv.1⟩
        · rw [if_neg hv] at hin
          simp at hin
      · simp [Option.filter, hl, focusNewFrame] at hin
  · intro f hf hl hv hfoc
    subst hf
    simp [Option.filter, hl, focusNewFrame, hv, hfoc]
  · intro f hf hl hv
    simp [hf, Option.filter, hl, blurOldFrame, hv]

theorem setFocusedFrame_focus_only_if_page_focused_witness :
    Effect.windowBlur 1 ∈ dispatchedSince stateUnfocusedPage
      (setFocusedFrame pageOfLocalFrames stateUnfocusedPage (some 2) true) ∧
    Effect.windowFocus 2 ∉ dispatchedSince stateUnfocusedPage
      (setFocusedFrame pageOfLocalFrames stateUnfocusedPage (some 2) true) :=
  have h := setFocusedFrame_focus_only_if_page_focused pageOfLocalFrames stateUnfocusedPage
    (some 2) true (by decide) (Or.inl rfl)
  ⟨(h.2.2 1 rfl rfl rfl).2, fun hin => absurd (h.1 2 (Or.inr hin)).1 (by decide)⟩

/-- C16: when the focused element of the focused frame differs from `element`,
is the root of an editable region and does not relinquish the editing focus
(its document has no frame, or it has no root editable element),
`setFocusedElement(element, frame, params)` returns false and changes nothing:
the focused frame, the focused elements, the transition flag and the calls
made, the input-method notification among them, are as before. -/
theorem setFocusedElement_refused (page : Page) (st : FocusState) (element : Option Ref)
    (newFocusedFrame : Option Nat) (old : Ref)
    (hold : ((focusedLocalFrame page st).map (fun f => (page.frame f).document)).bind
      st.focusedElement = some old)
    (hdiff : element ≠ some old)
    (hroot : page.isRootEditableElement old = true)
    (hrel : page.documentFrame (page.documentOf old.scope) = none ∨
      page.hasRootEditableElement old = false) :
    setFocusedElement page st element newFocusedFrame = (false, st) := by
  have hr : relinquishesEditingFocus page old = false := by
    unfold relinquishesEditingFocus
    rcases hrel with h | h
    · simp [h]
    · simp [h]
  unfold setFocusedElement
  simp only [hold]
  have h1 : (element.isSome && decide (some old = element)) = false := by
    cases element with
    | none => rfl
    | some e =>
      have : ¬ (some old = some e) := fun h => hdiff h.symm
      simp [this]
  rw [h1]
  simp [hroot, hr]

theorem setFocusedElement_refused_witness :
    setFocusedElement pageEditable stateEditing (some ⟨0, 1⟩) (some 0) = (false, stateEditing) :=
  setFocusedElement_refused pageEditable stateEditing (some ⟨0, 1⟩) (some 0) ⟨0, 0⟩ rfl
    (by decide) rfl (Or.inl rfl)

/-- `setFocusedFrame` keeps the focused elements and the starting points of the
documents, and only adds to the calls made. -/
theorem setFocusedFrame_keeps (page : Page) (st : FocusState) (frame : Option Nat)
    (notifyEmbedder : Bool) :
    (setFocusedFrame page st frame notifyEmbedder).focusedElement = st.focusedElement ∧
    (setFocusedFrame page st frame notifyEmbedder).startingPoint = st.startingPoint ∧
    ∃ calls, (setFocusedFrame page st frame notifyEmbedder).effects = st.effects ++ calls ∧
      ∀ (e : Ref) (t : WebFocusType), Effect.focus e t ∉ calls := by
  by_cases h : st.focusedFrame = frame ∨ (st.isChangingFocusedFrame = true ∧ frame ≠ none)
  · rw [setFocusedFrame_early_return page st frame notifyEmbedder h]
    exact ⟨rfl, rfl, [], by simp, by simp⟩
  · have hne : st.focusedFrame ≠ frame := fun hh => h (Or.inl hh)
    have hfree : st.isChangingFocusedFrame = false ∨ frame = none := by
      by_cases hf : frame = none
      · exact Or.inr hf
      · left
        cases hc : st.isChangingFocusedFrame with
        | false => rfl
        | true => exact absurd (Or.inr ⟨hc, hf⟩) h
    obtain ⟨_, _, _, _, h5, h6, h7⟩ := setFocusedFrame_effects page st frame notifyEmbedder hne hfree
    refine ⟨h5, h6, _, h7, ?_⟩
    intro e t
    simp only [List.mem_append, not_or]
    refine ⟨?_, ?_, ?_⟩
    · cases st.focusedFrame.filter (fun f => (page.frame f).isLocalFrame) with
      | none => simp [blurOldFrame]
      | some g => simp only [blurOldFrame]; split_ifs <;> simp
    · cases frame.filter (fun f => (page.frame f).isLocalFrame) with
      | none => simp [focusNewFrame]
      | some g => simp only [focusNewFrame]; split_ifs <;> simp
    · cases frame with
      | none => simp [notifyFrameFocused]
      | some g => simp only [notifyFrameFocused]; split_ifs <;> simp

/-- After `setFocusedFrame(nullptr)` no frame is focused. -/
theorem setFocusedFrame_null (page : Page) (st : FocusState) (notifyEmbedder : Bool) :
    (setFocusedFrame page st none notifyEmbedder).focusedFrame = none := by
  by_cases h : st.focusedFrame = none
  · rw [setFocusedFrame_early_return page st none notifyEmbedder (Or.inl h)]
    exact h
  · exact (setFocusedFrame_effects page st none notifyEmbedder h (Or.inr rfl)).1

/-- Outside a transition `setFocusedFrame(frame)` makes `frame` the focused frame. -/
theorem setFocusedFrame_sets (page : Page) (st : FocusState) (frame : Option Nat)
    (notifyEmbedder : Bool) (hfree : st.isChangingFocusedFrame = false) :
    (setFocusedFrame page st frame notifyEmbedder).focusedFrame = frame := by
  by_cases h : st.focusedFrame = frame
  · rw [setFocusedFrame_early_return page st frame notifyEmbedder (Or.inl h)]
    exact h
  · exact (setFocusedFrame_effects page st frame notifyEmbedder h (Or.inl hfree)).1

theorem dispatchedSince_append (st st' : FocusState) (calls : List Effect)
    (h : st'.effects = st.effects ++ calls) : dispatchedSince st st' = calls := by
  unfold dispatchedSince
  rw [h, List.drop_left]

theorem handOff_spec (page : Page) (st : FocusState) (document : Nat) (type : WebFocusType) :
    (handOff page st document type).focusedElement document = none ∧
    (handOff page st document type).focusedFrame = none ∧
    Effect.clearFocusedElement document ∈ dispatchedSince st (handOff page st document type) ∧
    Effect.takeFocus type ∈ dispatchedSince st (handOff page st document type) := by
  obtain ⟨h1, _, calls, h3, _⟩ := setFocusedFrame_keeps page
    (setSequentialFocusNavigationStartingPoint (clearFocusedElement st document) document none)
    none page.notifyEmbedderDefault
  have heff : (handOff page st document type).effects =
      st.effects ++ ([.clearFocusedElement document] ++ calls ++ [.takeFocus type]) := by
    unfold handOff FocusState.dispatch
    simp only
    rw [h3]
    simp [setSequentialFocusNavigationStartingPoint, clearFocusedElement]
  rw [dispatchedSince_append st _ _ heff]
  refine ⟨?_, ?_, by simp, by simp⟩
  · show (setFocusedFrame page _ none page.notifyEmbedderDefault).focusedElement document = none
    rw [h1]
    simp [setSequentialFocusNavigationStartingPoint, clearFocusedElement]
  · exact setFocusedFrame_null page _ _

/-- The first part of `advanceFocusInDocumentOrder` when the resolver finds no
candidate and the frame has no remote ancestor. -/
theorem findCandidate_of_none (page : Page) (st : FocusState) (frame : Nat)
    (start : Option Ref) (type : WebFocusType) (initialFocus : Bool) (n : Nat)
    (hlocal : (page.frame frame).localFrameRoot = (page.frame frame).treeTop)
    (hnone : resolveCandidate page type n (page.frame frame).document
      (navigationStart page st frame start type initialFocus) = some none) :
    findCandidate page st frame start type initialFocus n =
      if !initialFocus && page.canTakeFocus type then
        some (.done true (handOff page st (page.frame frame).document type))
      else
        match wrapSearch page type n with
        | none => none
        | some none => some (.done false st)
        | some (some element) => some (.found element) := by
  unfold findCandidate
  simp only [hnone, hlocal, ne_eq, not_true_eq_false, decide_False, Bool.false_eq_true, if_false]
  rfl

/-- The outcome of the second part of `advanceFocusInDocumentOrder` for an
element that is focused as an element. -/
theorem focusCandidate_element (page : Page) (st : FocusState) (frame : Nat)
    (type : WebFocusType) (e : Ref)
    (hne : st.focusedElement (page.frame frame).document ≠ some e)
    (hf : focusesFrame page e = false) :
    (focusCandidate page st frame type e).1 = true ∧
    Effect.focus e type ∈ dispatchedSince st (focusCandidate page st frame type e).2 := by
  unfold focusCandidate
  simp only [hne, decide_False, Bool.false_eq_true, if_false, hf]
  refine ⟨trivial, ?_⟩
  generalize hs1 : (if decide (page.documentOf e.scope ≠ (page.frame frame).document) = true
    then clearFocusedElement st (page.frame frame).document else st) = st1
  have h1 : ∃ c1, st1.effects = st.effects ++ c1 := by
    rw [← hs1]
    split_ifs
    · exact ⟨_, rfl⟩
    · exact ⟨[], by simp⟩
  obtain ⟨c1, hc1⟩ := h1
  obtain ⟨_, _, c2, hc2, _⟩ := setFocusedFrame_keeps page st1
    (page.documentFrame (page.documentOf e.scope)) page.notifyEmbedderDefault
  by_cases hcb : (page.frame frame).caretBrowsingEnabled = true
  · simp only [hcb, if_true, FocusState.dispatch]
    rw [dispatchedSince_append st _ (c1 ++ c2 ++ [.setSelection frame e] ++ [.focus e type])
      (by simp [hc2, hc1])]
    simp
  · simp only [hcb, Bool.false_eq_true, if_false, FocusState.dispatch]
    rw [dispatchedSince_append st _ (c1 ++ c2 ++ [.focus e type]) (by simp [hc2, hc1])]
    simp

/-- The second part of `advanceFocusInDocumentOrder` returns false only for a
frame owner without a content frame. -/
theorem focusCandidate_false (page : Page) (st : FocusState) (frame : Nat)
    (type : WebFocusType) (e : Ref) (h : (focusCandidate page st frame type e).1 = false) :
    focusesFrame page e = true ∧ contentFrameOf page e = none ∧
      focusCandidate page st frame type e = (false, st) := by
  unfold focusCandidate at h ⊢
  by_cases h1 : st.focusedElement (page.frame frame).document = some e
  · simp [h1] at h
  · simp only [h1, decide_False, Bool.false_eq_true, if_false] at h ⊢
    cases hf : focusesFrame page e with
    | false => simp [hf] at h
    | true =>
      simp only [hf, if_true] at h ⊢
      cases hc : contentFrameOf page e with
      | none => simp
      | some c =>
        rw [hc] at h
        simp only at h
        split_ifs at h

/-- C14 (amended): in a page without remote ancestor frames, when the resolver
finds no candidate: (a) if the initial-focus flag is false and the host's
`canTakeFocus(type)` is true, `advanceFocus` returns true, the focused element
of the document is cleared, no frame is focused and `takeFocus(type)` is
called; (b) if the initial-focus flag is true or `canTakeFocus(type)` is false,
the search wraps to the first element found from null in the document of the
main frame, followed down into frame documents: the call returns false and
changes nothing when that search finds nothing; an element found that is not
yet focused and not handled as a frame owner is focused and the call returns
true; and the call returns false only when the search finds nothing or finds a
frame owner without a content frame. -/
theorem advanceFocus_without_candidate (page : Page) (st : FocusState) (type : WebFocusType)
    (initialFocus : Bool)
    (hlocal : (page.frame (focusedOrMainFrame page st)).localFrameRoot =
      (page.frame (focusedOrMainFrame page st)).treeTop)
    (hnone : Returns (fun n => resolveCandidate page type n
      (page.frame (focusedOrMainFrame page st)).document
      (navigationStart page st (focusedOrMainFrame page st) none type initialFocus)) none) :
    (initialFocus = false → page.canTakeFocus type = true →
      ∃ st', ReturnsResult (fun n => advanceFocus page st type initialFocus n) (true, st') ∧
        st'.focusedElement (page.frame (focusedOrMainFrame page st)).document = none ∧
        st'.focusedFrame = none ∧ Effect.takeFocus type ∈ dispatchedSince st st') ∧
    ((initialFocus = true ∨ page.canTakeFocus type = false) →
      ∀ w, Returns (fun n => wrapSearch page type n) w →
        ∃ result st', ReturnsResult (fun n => advanceFocus page st type initialFocus n)
            (result, st') ∧
          (w = none → result = false ∧ st' = st) ∧
          (∀ e, w = some e →
            st.focusedElement (page.frame (focusedOrMainFrame page st)).document ≠ some e →
            focusesFrame page e = false →
            result = true ∧ Effect.focus e type ∈ dispatchedSince st st') ∧
          (result = false → w = none ∨
            ∃ e, w = some e ∧ focusesFrame page e = true ∧ contentFrameOf page e = none)) := by
  obtain ⟨k, hk⟩ := hnone
  beta_reduce at hk
  constructor
  · intro hi hc
    refine ⟨handOff page st (page.frame (focusedOrMainFrame page st)).document type,
      ⟨k, fun n hn => ?_⟩, (handOff_spec page st _ type).1, (handOff_spec page st _ type).2.1,
      (handOff_spec page st _ type).2.2.2⟩
    beta_reduce
    unfold advanceFocus advanceFocusInDocumentOrder
    rw [findCandidate_of_none page st _ none type initialFocus n hlocal (hk n hn)]
    simp [hi, hc]
  · intro hcond w hw
    obtain ⟨k', hk'⟩ := hw
    beta_reduce at hk'
    have hif : (!initialFocus && page.canTakeFocus type) = false := by
      rcases hcond with h | h
      · simp [h]
      · simp [h]
    have hrun : ∀ n, max k k' ≤ n → advanceFocus page st type initialFocus n =
        match w with
        | none => some (false, st)
        | some e => some (focusCandidate page st (focusedOrMainFrame page st) type e) := by
      intro n hn
      unfold advanceFocus advanceFocusInDocumentOrder
      rw [findCandidate_of_none page st _ none type initialFocus n hlocal
        (hk n (le_trans (le_max_left _ _) hn)), hif, hk' n (le_trans (le_max_right _ _) hn)]
      cases w <;> rfl
    cases w with
    | none =>
      exact ⟨false, st, ⟨max k k', hrun⟩, fun _ => ⟨rfl, rfl⟩,
        fun e he => Option.noConfusion he, fun _ => Or.inl rfl⟩
    | some e =>
      refine ⟨(focusCandidate page st (focusedOrMainFrame page st) type e).1,
        (focusCandidate page st (focusedOrMainFrame page st) type e).2, ⟨max k k', hrun⟩,
        fun h => Option.noConfusion h, ?_, ?_⟩
      · intro e' he' hne hf
        cases he'
        exact focusCandidate_element page st _ type e hne hf
      · intro hfalse
        obtain ⟨h1, h2, _⟩ := focusCandidate_false page st _ type e hfalse
        exact Or.inr ⟨e, rfl, h1, h2⟩

/-- C14, as the claim states it, fails: (a) the resolver finds no candidate and
the host can take the focus, but with the initial-focus flag set
`advanceFocus` does not hand the focus over: it wraps, finds nothing in the
empty document and returns false without a call of `takeFocus`; (b) the host
declines, the wrapping search finds a frame owner without a content frame, and
the call returns false although that search found an element. -/
theorem advanceFocus_initial_or_frame_owner :
    (pageEmptyDocument.canTakeFocus .Forward = true ∧
      resolveCandidate pageEmptyDocument .Forward 3 0 none = some none ∧
      observe (advanceFocus pageEmptyDocument {} .Forward true 3)
        = some (false, none, none, [])) ∧
    (pageFrameOwnerEmpty.canTakeFocus .Forward = false ∧
      resolveCandidate pageFrameOwnerEmpty .Forward 3 0 (some ⟨0, 0⟩) = some none ∧
      wrapSearch pageFrameOwnerEmpty .Forward 3 = some (some ⟨0, 0⟩) ∧
      observe (advanceFocus pageFrameOwnerEmpty stateStartingPoint .Forward false 3)
        = some (false, some 0, none, [])) :=
  ⟨⟨by decide, by decide, by decide⟩, ⟨by decide, by decide, by decide, by decide⟩⟩

/-- C15, as the claim states it, fails: (a) the candidate is a frame owner with
a content frame that is already the focused element of the document: the call
returns true at once, the focused element is not cleared and the focused frame
stays frame 0; (b) while a focus-frame transition is in progress the focused
frame does not become the content frame. -/
theorem advanceFocus_focused_frame_owner :
    (wrapSearch pageFrameOwnerRemote .Forward 3 = some (some ⟨0, 0⟩) ∧
      focusesFrame pageFrameOwnerRemote ⟨0, 0⟩ = true ∧
      contentFrameOf pageFrameOwnerRemote ⟨0, 0⟩ = some 7 ∧
      observe (advanceFocusInDocumentOrder pageFrameOwnerRemote stateFirstFocused 0 none
        .Forward false 3) = some (true, some 0, some ⟨0, 0⟩, [])) ∧
    (resolveCandidate pageFrameOwnerRemote .Forward 3 0 none = some (some ⟨0, 0⟩) ∧
      observe (advanceFocusInDocumentOrder pageFrameOwnerRemote stateChanging 0 none
        .Forward false 3)
        = some (true, some 0, none, [.clearFocusedElement 0, .remoteAdvanceFocus .Forward 0])) :=
  ⟨⟨by decide, by decide, by decide, by decide⟩, ⟨by decide, by decide⟩⟩

theorem resolveCandidate_mono (page : Page) (type : WebFocusType) (document : Nat)
    (current : Option Ref) (n : Nat) (r : Option Ref)
    (h : resolveCandidate page type n document current = some r) :
    resolveCandidate page type (n + 1) document current = some r := by
  cases current with
  | none =>
    cases type with
    | Forward => exact acrossForward_mono page.dom n document none r h
    | Backward => exact acrossBackward_mono page.dom n document none r h
  | some c =>
    cases type with
    | Forward => exact acrossForward_mono page.dom n c.scope (some c.pos) r h
    | Backward => exact acrossBackward_mono page.dom n c.scope (some c.pos) r h

/-- A result of the wrapping search reached with some fuel is reached with more. -/
theorem wrapSearch_mono (page : Page) (type : WebFocusType) (n : Nat) (r : Option Ref)
    (h : wrapSearch page type n = some r) : wrapSearch page type (n + 1) = some r := by
  unfold wrapSearch at h ⊢
  cases h1 : findFocusableElementRecursively page.dom type n
      (page.frame page.mainFrame).document none with
  | none => simp [h1] at h
  | some element =>
    rw [h1] at h
    rw [findFocusableElementRecursively_mono page.dom type n _ none element h1]
    exact descending_mono page.dom type n element r h

theorem advanceFocus_without_candidate_witness :
    (stateLastFocused.focusedElement 0 = some ⟨0, 3⟩ ∧
      stateLastFocused.focusedFrame = some 0 ∧
      ∃ st', ReturnsResult (fun n => advanceFocus pageMixedHost stateLastFocused .Forward false n)
          (true, st') ∧
        st'.focusedElement 0 = none ∧ st'.focusedFrame = none ∧
        Effect.takeFocus .Forward ∈ dispatchedSince stateLastFocused st') ∧
    (∃ result st',
      ReturnsResult (fun n => advanceFocus pageMixed stateLastFocused .Forward false n)
        (result, st') ∧
      result = true ∧ Effect.focus ⟨0, 2⟩ .Forward ∈ dispatchedSince stateLastFocused st') ∧
    (∃ result st',
      ReturnsResult (fun n => advanceFocus pageEmptyDocument {} .Backward true n)
        (result, st') ∧
      result = false ∧ st' = {}) :=
  ⟨⟨rfl, rfl,
      (advanceFocus_without_candidate pageMixedHost stateLastFocused .Forward false rfl
        (returns_of_eq (resolveCandidate_mono pageMixedHost .Forward _ _) (k := 3)
          (by decide))).1 rfl rfl⟩,
    Exists.elim
      ((advanceFocus_without_candidate pageMixed stateLastFocused .Forward false rfl
        (returns_of_eq (resolveCandidate_mono pageMixed .Forward _ _) (k := 3)
          (by decide))).2 (Or.inr rfl) (some ⟨0, 2⟩)
        (returns_of_eq (wrapSearch_mono pageMixed .Forward) (k := 3) (by decide)))
      (fun result hr => Exists.elim hr (fun st' hs =>
        ⟨result, st', hs.1, hs.2.2.1 ⟨0, 2⟩ rfl (by decide) (by decide)⟩)),
    Exists.elim
      ((advanceFocus_without_candidate pageEmptyDocument {} .Backward true rfl
        (returns_of_eq (resolveCandidate_mono pageEmptyDocument .Backward _ _) (k := 3)
          (by decide))).2 (Or.inl rfl) none
        (returns_of_eq (wrapSearch_mono pageEmptyDocument .Backward) (k := 3) (by decide)))
      (fun result hr => Exists.elim hr (fun st' hs =>
        ⟨result, st', hs.1, hs.2.1 rfl⟩))⟩

/-- C15 (amended): in `advanceFocusInDocumentOrder`, for a found candidate that is
a frame owner element and not the focused element of the starting document:
(a) if it is not a keyboard-focusable plug-in element, the owner itself is not
focused; with a content frame the call returns true, the focused element of
the starting document is cleared and, outside a focus-frame transition, the
focused frame becomes that content frame; without a content frame the call
returns false and changes nothing; (b) if it is a keyboard-focusable plug-in
element, it is focused as an element and the call returns true. -/
theorem advanceFocus_frame_owner (page : Page) (st : FocusState) (frame : Nat)
    (start : Option Ref) (type : WebFocusType) (initialFocus : Bool) (n : Nat) (e : Ref)
    (x : Element)
    (hfound : findCandidate page st frame start type initialFocus n = some (.found e))
    (hx : elementAt page.dom e = some x) (howner : x.isFrameOwnerElement = true)
    (hne : st.focusedElement (page.frame frame).document ≠ some e) :
    ((page.isHTMLPlugInElement e = false ∨ x.isKeyboardFocusable = false) →
      (∀ c, contentFrameOf page e = some c →
        ∃ st', advanceFocusInDocumentOrder page st frame start type initialFocus n
            = some (true, st') ∧
          st'.focusedElement (page.frame frame).document = none ∧
          (st.isChangingFocusedFrame = false → st'.focusedFrame = some c) ∧
          ∀ t, Effect.focus e t ∉ dispatchedSince st st') ∧
      (contentFrameOf page e = none →
        advanceFocusInDocumentOrder page st frame start type initialFocus n
          = some (false, st))) ∧
    (page.isHTMLPlugInElement e = true → x.isKeyboardFocusable = true →
      ∃ st', advanceFocusInDocumentOrder page st frame start type initialFocus n
          = some (true, st') ∧
        Effect.focus e type ∈ dispatchedSince st st') := by
  have hrun : advanceFocusInDocumentOrder page st frame start type initialFocus n =
      some (focusCandidate page st frame type e) := by
    unfold advanceFocusInDocumentOrder
    rw [hfound]
  rw [hrun]
  constructor
  · intro hkind
    have hf : focusesFrame page e = true := by
      unfold focusesFrame
      rw [hx]
      rcases hkind with h | h
      · simp [howner, h]
      · simp [howner, h]
    constructor
    · intro c hc
      obtain ⟨h1, _, calls, h3, h4⟩ := setFocusedFrame_keeps page
        (clearFocusedElement st (page.frame frame).document) (some c) page.notifyEmbedderDefault
      have hfe : (setFocusedFrame page (clearFocusedElement st (page.frame frame).document)
          (some c) page.notifyEmbedderDefault).focusedElement (page.frame frame).document
          = none := by
        rw [h1]
        simp [clearFocusedElement]
      have hff : st.isChangingFocusedFrame = false →
          (setFocusedFrame page (clearFocusedElement st (page.frame frame).document)
            (some c) page.notifyEmbedderDefault).focusedFrame = some c :=
        fun h => setFocusedFrame_sets page _ _ _ h
      unfold focusCandidate
      simp only [hne, decide_False, Bool.false_eq_true, if_false, hf, if_true, hc]
      by_cases hl : (page.frame c).isLocalFrame = true
      · simp only [hl, Bool.not_true, Bool.false_eq_true, if_false]
        refine ⟨_, rfl, hfe, hff, ?_⟩
        intro t
        rw [dispatchedSince_append st _ ([.clearFocusedElement (page.frame frame).document]
          ++ calls) (by rw [h3]; simp [clearFocusedElement])]
        simp [h4]
      · simp only [hl, Bool.not_false, if_true]
        refine ⟨_, rfl, hfe, hff, ?_⟩
        intro t
        rw [dispatchedSince_append st _ ([.clearFocusedElement (page.frame frame).document]
          ++ calls ++ [.remoteAdvanceFocus type frame])
          (by simp only [FocusState.dispatch]; rw [h3]; simp [clearFocusedElement])]
        simp [h4]
    · intro hc
      unfold focusCandidate
      simp [hne, hf, hc]
  · intro hp hk
    have hf : focusesFrame page e = false := by
      unfold focusesFrame
      rw [hx]
      simp [hp, hk]
    obtain ⟨h1, h2⟩ := focusCandidate_element page st frame type e hne hf
    exact ⟨(focusCandidate page st frame type e).2, by rw [← h1], h2⟩

theorem advanceFocus_frame_owner_witness :
    ∃ st', advanceFocusInDocumentOrder pageFrameOwnerRemote stateFrameFocused 0 none .Forward
        false 3 = some (true, st') ∧
      st'.focusedElement 0 = none ∧ st'.focusedFrame = some 7 ∧
      ∀ t, Effect.focus ⟨0, 0⟩ t ∉ dispatchedSince stateFrameFocused st' :=
  have h := ((advanceFocus_frame_owner pageFrameOwnerRemote stateFrameFocused 0 none .Forward
    false 3 ⟨0, 0⟩ frameOwnerRemote rfl rfl rfl (by decide)).1 (Or.inl rfl)).1 7
    (by decide)
  h.imp (fun _ hs => ⟨hs.1, hs.2.1, hs.2.2.1 rfl, hs.2.2.2⟩)

/-- C18, as the claim states it, fails: (a) the rectangles of the accepted
candidate and of the closest candidate overlap in a corner, the node hit at the
midpoint of the intersection lies in the candidate and not in the closest one,
and the closest one, which has the smaller distance, stays the closest; (b) the
same happens to a candidate inside the rectangle of the closest one when the two
are on the same line, and (c) when the main frame is remote. -/
theorem updateFocusCandidate_partial_overlap :
    (acceptsCandidate hitTestFindsFirst .Right {} candidateTopLeft = true ∧
      closestOverlapping.isNull = false ∧
      (intersection candidateTopLeft.rect closestOverlapping.rect).isEmpty = false ∧
      visibleNodeContains hitTestFindsFirst candidateTopLeft
        (hitTestAtMidpoint hitTestFindsFirst
          (intersection candidateTopLeft.rect closestOverlapping.rect)) = true ∧
      visibleNodeContains hitTestFindsFirst closestOverlapping
        (hitTestAtMidpoint hitTestFindsFirst
          (intersection candidateTopLeft.rect closestOverlapping.rect)) = false ∧
      updateFocusCandidateIfNeeded hitTestFindsFirst .Right {} candidateTopLeft
        closestOverlapping = closestOverlapping ∧
      closestOverlapping ≠ candidateTopLeft) ∧
    (acceptsCandidate hitTestSameLine .Right {} candidateInside = true ∧
      (intersection candidateInside.rect closestOverlapping.rect).isEmpty = false ∧
      visibleNodeContains hitTestSameLine candidateInside
        (hitTestAtMidpoint hitTestSameLine
          (intersection candidateInside.rect closestOverlapping.rect)) = true ∧
      updateFocusCandidateIfNeeded hitTestSameLine .Right {} candidateInside
        closestOverlapping = closestOverlapping ∧
      closestOverlapping ≠ candidateInside) ∧
    (acceptsCandidate hitTestRemoteMainFrame .Right {} candidateInside = true ∧
      (intersection candidateInside.rect closestOverlapping.rect).isEmpty = false ∧
      visibleNodeContains hitTestRemoteMainFrame candidateInside
        (hitTestAtMidpoint hitTestRemoteMainFrame
          (intersection candidateInside.rect closestOverlapping.rect)) = true ∧
      updateFocusCandidateIfNeeded hitTestRemoteMainFrame .Right {} candidateInside
        closestOverlapping = closestOverlapping ∧
      closestOverlapping ≠ candidateInside) :=
  ⟨by decide, by decide, by decide⟩

/-- C18 (amended): in `updateFocusCandidateIfNeeded`, for an accepted candidate
and a closest candidate that are not on the same line, with a local main frame,
and whose rectangles intersect in the whole rectangle of the candidate: if the
visible node of the candidate contains the node hit at the midpoint of the
intersection, the candidate becomes the closest; if not, and the visible node
of the closest one contains it, the closest one stays; in both cases whatever
the distances are. -/
theorem updateFocusCandidate_hit_test (env : SpatialNavigation) (type : Direction)
    (current candidate closest : FocusCandidate)
    (hacc : acceptsCandidate env type current candidate = true)
    (hclosest : closest.isNull = false)
    (hoverlap : (intersection (env.distanceDataForNode type current candidate).rect
      closest.rect).isEmpty = false)
    (hwithin : intersection (env.distanceDataForNode type current candidate).rect closest.rect
      = (env.distanceDataForNode type current candidate).rect)
    (hline : env.areElementsOnSameLine closest (env.distanceDataForNode type current candidate)
      = false)
    (hlocal : env.mainFrameIsLocal = true) :
    (visibleNodeContains env (env.distanceDataForNode type current candidate)
        (hitTestAtMidpoint env (intersection
          (env.distanceDataForNode type current candidate).rect closest.rect)) = true →
      updateFocusCandidateIfNeeded env type current candidate closest
        = env.distanceDataForNode type current candidate) ∧
    (visibleNodeContains env (env.distanceDataForNode type current candidate)
        (hitTestAtMidpoint env (intersection
          (env.distanceDataForNode type current candidate).rect closest.rect)) = false →
      visibleNodeContains env closest
        (hitTestAtMidpoint env (intersection
          (env.distanceDataForNode type current candidate).rect closest.rect)) = true →
      updateFocusCandidateIfNeeded env type current candidate closest = closest) := by
  simp only [acceptsCandidate, Bool.and_eq_true, Bool.not_eq_true', decide_eq_false_iff_not]
    at hacc
  obtain ⟨⟨⟨h1, h2⟩, h3⟩, h4⟩ := hacc
  have hcond : (!(intersection (env.distanceDataForNode type current candidate).rect
      closest.rect).isEmpty && !env.areElementsOnSameLine closest
        (env.distanceDataForNode type current candidate)
      && decide (intersection (env.distanceDataForNode type current candidate).rect closest.rect
        = (env.distanceDataForNode type current candidate).rect)) = true := by
    rw [hoverlap, hline]
    simp [hwithin]
  constructor
  · intro hc
    unfold updateFocusCandidateIfNeeded
    simp only [h1, h2, Bool.false_eq_true, if_false, h3, decide_False, h4, hclosest, hcond,
      if_true, hlocal, Bool.not_true, hc]
  · intro hc hcl
    unfold updateFocusCandidateIfNeeded
    simp only [h1, h2, Bool.false_eq_true, if_false, h3, decide_False, h4, hclosest, hcond,
      if_true, hlocal, Bool.not_true, hc, hcl]

theorem updateFocusCandidate_hit_test_witness :
    updateFocusCandidateIfNeeded hitTestFindsFirst .Right {} candidateInside closestOverlapping
      = candidateInside :=
  (updateFocusCandidate_hit_test hitTestFindsFirst .Right {} candidateInside closestOverlapping
    (by decide) (by decide) (by decide) (by decide) (by decide) (by decide)).1 (by decide)

/-! ## The results of the searches -/

/-- An element returned by the backward loop is not a shadow host that
delegates focus. -/
theorem recursivelyBackwardLoop_result (dom : Dom) :
    ∀ (fuel scope : Nat) (cand : Option Nat) (r : Ref),
      recursivelyBackwardLoop dom fuel scope cand = some (some r) →
      ∃ e, elementAt dom r = some e ∧ isShadowHostDelegatesFocus e = false := by
  intro fuel
  induction fuel with
  | zero => intro scope cand r h; simp [recursivelyBackwardLoop] at h
  | succ n ih =>
    intro scope cand r h
    cases cand with
    | none => simp [recursivelyBackwardLoop] at h
    | some c =>
      cases hx : (dom.scope scope).elements[c]? with
      | none => simp [recursivelyBackwardLoop, hx] at h
      | some x =>
        rw [recursivelyBackwardLoop_step dom n scope c x hx] at h
        have hin : ∀ (o : Option Nat) (y : Ref),
            innerSearch dom .Backward n o = some (some y) →
            ∃ e, elementAt dom y = some e ∧ isShadowHostDelegatesFocus e = false := by
          intro o y hy
          cases o with
          | none => simp [innerSearch] at hy
          | some i => exact ih i _ y hy
        cases hy : backwardYield dom n scope c x with
        | none => simp [hy] at h
        | some y =>
          rw [hy] at h
          cases y with
          | none => exact ih scope _ r h
          | some y =>
            simp only [Option.some.injEq] at h
            subst h
            unfold backwardYield at hy
            by_cases h1 : isKeyboardFocusableShadowHost x = true
            · rw [if_pos h1] at hy
              cases hi : innerSearch dom .Backward n (ownedByShadowHost x) with
              | none => simp [hi] at hy
              | some z =>
                rw [hi] at hy
                cases z with
                | some z =>
                  simp only [Option.some.injEq] at hy
                  subst hy
                  exact hin _ _ hi
                | none =>
                  simp only at hy
                  by_cases hd : isShadowHostDelegatesFocus x = true
                  · rw [if_pos hd] at hy
                    exact Option.noConfusion (Option.some.inj hy)
                  · rw [if_neg hd] at hy
                    simp only [Option.some.injEq] at hy
                    subst hy
                    exact ⟨x, hx, by simpa using hd⟩
            · rw [if_neg h1] at hy
              by_cases h2 : (isShadowHostDelegatesFocus x && decide (x.tabIndex.val < 0)) = true
              · rw [if_pos h2] at hy
                exact Option.noConfusion (Option.some.inj hy)
              · rw [if_neg h2] at hy
                by_cases h3 : isNonFocusableFocusScopeOwner x = true
                · rw [if_pos h3] at hy
                  exact hin _ _ hy
                · rw [if_neg h3] at hy
                  by_cases h4 : (!isShadowHostDelegatesFocus x) = true
                  · rw [if_pos h4] at hy
                    simp only [Option.some.injEq] at hy
                    subst hy
                    exact ⟨x, hx, by simpa using h4⟩
                  · rw [if_neg h4] at hy
                    exact Option.noConfusion (Option.some.inj hy)

/-- C23: for every scope and start, the element returned by
`findFocusableElementRecursivelyForward` is not a shadow host that delegates
focus and not a non-focusable focus scope owner (neither a shadow host without
custom focus logic that is not keyboard-focusable, nor an active shadow
insertion point with an older shadow root), and the element returned by
`findFocusableElementRecursivelyBackward` is not a shadow host that delegates
focus; with finitely nested scopes both searches do return. -/
theorem recursively_never_returns_scope_owner (dom : Dom) (scope : Nat)
    (start : Option Nat) :
    (∀ (fuel : Nat) (r : Ref),
      findFocusableElementRecursivelyForward dom fuel scope start = some (some r) →
      ∃ e, elementAt dom r = some e ∧ isShadowHostDelegatesFocus e = false ∧
        isNonFocusableFocusScopeOwner e = false ∧
        ¬ (isShadowHost e = true ∧ hasCustomFocusLogic e = false ∧
          e.isKeyboardFocusable = false) ∧
        ¬ (e.isActiveShadowInsertionPoint = true ∧ e.olderShadowRoot.isSome = true)) ∧
    (∀ (fuel : Nat) (r : Ref),
      findFocusableElementRecursivelyBackward dom fuel scope start = some (some r) →
      ∃ e, elementAt dom r = some e ∧ isShadowHostDelegatesFocus e = false) ∧
    (∀ rank : Nat → Nat, NestedBelow dom rank →
      (∃ n r, findFocusableElementRecursivelyForward dom n scope start = some r) ∧
      (∃ n r, findFocusableElementRecursivelyBackward dom n scope start = some r)) := by
  refine ⟨?_, ?_, ?_⟩
  · intro fuel r h
    obtain ⟨e, he, hd, hown⟩ := recursivelyForwardLoop_result dom fuel scope _ r h
    refine ⟨e, he, hd, hown, ?_, ?_⟩
    · rintro ⟨h1, h2, h3⟩
      simp [isNonFocusableFocusScopeOwner, isNonKeyboardFocusableShadowHost,
        isShadowHostWithoutCustomFocusLogic, h1, h2, h3] at hown
    · rintro ⟨h1, h2⟩
      simp [isNonFocusableFocusScopeOwner, isShadowInsertionPointFocusScopeOwner, h1, h2] at hown
  · intro fuel r h
    exact recursivelyBackwardLoop_result dom fuel scope _ r h
  · intro rank hn
    exact ⟨recursively_terminates dom rank hn .Forward scope start,
      recursively_terminates dom rank hn .Backward scope start⟩

theorem recursively_never_returns_scope_owner_witness :
    (∃ e, elementAt domHostThenB ⟨1, 0⟩ = some e ∧ isShadowHostDelegatesFocus e = false ∧
        isNonFocusableFocusScopeOwner e = false ∧
        ¬ (isShadowHost e = true ∧ hasCustomFocusLogic e = false ∧
          e.isKeyboardFocusable = false) ∧
        ¬ (e.isActiveShadowInsertionPoint = true ∧ e.olderShadowRoot.isSome = true)) ∧
    (∃ e, elementAt domDelegating ⟨1, 0⟩ = some e ∧ isShadowHostDelegatesFocus e = false) ∧
    (∃ n r, findFocusableElementRecursivelyForward domNested n 0 none = some r) :=
  ⟨(recursively_never_returns_scope_owner domHostThenB 0 none).1 3 ⟨1, 0⟩ (by decide),
    (recursively_never_returns_scope_owner domDelegating 0 (some 1)).2.1 3 ⟨1, 0⟩ (by decide),
    ((recursively_never_returns_scope_owner domNested 0 none).2.2 domNestedRank
      domNested_nestedBelow).1⟩

/-- C21 (the code at the failing input): in the scope `[a, b]` of a
keyboard-focusable element `a` of tab index 32767 followed by a
keyboard-focusable element `b` of tab index 0, `a` is visitable with a
non-negative adjusted tab index and `nextFocusableElement(scope, a)` returns
`b`, but `previousFocusableElement(scope, b)` returns null instead of `a`. -/
theorem previousFocusableElement_misses_short_max_before_zero :
    visitableAt scopeMaxThenZero 0 = true ∧ 0 ≤ adjustedTabIndexAt scopeMaxThenZero 0 ∧
    nextFocusableElement scopeMaxThenZero (some 0) = some 1 ∧
    previousFocusableElement scopeMaxThenZero (some 1) = none := by
  decide

/-- C22 (the code at the failing input): in the scope of two keyboard-focusable
elements of tab index -1 and -2, `nextFocusableElement(scope, start)` from the
second element returns the first one, which is visitable and whose adjusted tab
index is -1, a negative one. -/
theorem nextFocusableElement_returns_negative :
    nextFocusableElement scopeNegativeOnly (some 1) = some 0 ∧
    visitableAt scopeNegativeOnly 0 = true ∧
    adjustedTabIndexAt scopeNegativeOnly 0 = -1 := by
  decide

/-- What holds of the results of the two linear searches. -/
theorem focusableElement_results (els : List Element) (start : Option Nat) (r : Nat) :
    (nextFocusableElement els start = some r →
      visitableAt els r = true ∧ start ≠ some r ∧
      ((∀ s, start = some s → 0 ≤ adjustedTabIndexAt els s) → 0 ≤ adjustedTabIndexAt els r)) ∧
    (previousFocusableElement els start = some r →
      visitableAt els r = true ∧ start ≠ some r ∧ 0 ≤ adjustedTabIndexAt els r) := by
  constructor
  · intro h
    cases start with
    | none =>
      obtain ⟨⟨er, her, hv, ht⟩, _⟩ := nextFocusableElement_null_min h
      exact ⟨visitableAt_iff.2 ⟨er, her, hv⟩, fun hh => Option.noConfusion hh,
        fun _ => by rw [adjustedTabIndexAt_of_get her]; exact ht⟩
    | some s =>
      cases hs : els[s]? with
      | none => simp [nextFocusableElement, hs] at h
      | some es =>
        obtain ⟨⟨er, her, hv⟩, hkey⟩ := nextFocusableElement_step_key hs h
        refine ⟨visitableAt_iff.2 ⟨er, her, hv⟩, ?_, ?_⟩
        · intro hh
          cases hh
          exact keyBefore_irrefl els _ hkey
        · intro hnn
          have h0 := hnn s rfl
          rw [adjustedTabIndexAt_of_get hs] at h0
          obtain ⟨er', her', _, ht⟩ := nextFocusableElement_some_succ_nonneg hs h0 h
          rw [adjustedTabIndexAt_of_get her']
          exact ht
  · intro h
    obtain ⟨er, her, hv, ht⟩ := previousFocusableElement_in_scope h
    refine ⟨visitableAt_iff.2 ⟨er, her, hv⟩, ?_, by rw [adjustedTabIndexAt_of_get her]; exact ht⟩
    intro hh
    subst hh
    by_cases htr : 0 ≤ adjustedTabIndex er
    · exact keyBefore_irrefl els _ (previousFocusableElement_some_pred her htr h).2.1
    · -- a start outside the tabbing cycle is never returned
      exact htr ht

end FocusController

namespace ImageBitmap

/-! ## Arithmetic of `int` and `normalizeRect` -/

theorem toInt32_of_inInt32 {n : Int} (h : InInt32 n) : toInt32 n = n := by
  unfold InInt32 at h
  unfold toInt32
  omega

/-- C28: for every rectangle `r` whose coordinates, whose corner
`(x + width, y + height)` and whose negated sizes are values of `int` (nothing
overflows): `normalizeRect(r)` has a non-negative width and height, it spans
horizontally from `min(x, x + width)` to `max(x, x + width)` and vertically from
`min(y, y + height)` to `max(y, y + height)`, it equals `r` when the width and
the height of `r` are non-negative, and
`normalizeRect(normalizeRect(r)) = normalizeRect(r)`. -/
theorem normalizeRect_spec (r : IntRect)
    (hx : InInt32 r.x) (hy : InInt32 r.y)
    (hmaxX : InInt32 (r.x + r.width)) (hmaxY : InInt32 (r.y + r.height))
    (hnegW : InInt32 (-r.width)) (hnegH : InInt32 (-r.height)) :
    0 ≤ (normalizeRect r).width ∧ 0 ≤ (normalizeRect r).height ∧
    (normalizeRect r).x = min r.x (r.x + r.width) ∧
    (normalizeRect r).maxX = max r.x (r.x + r.width) ∧
    (normalizeRect r).y = min r.y (r.y + r.height) ∧
    (normalizeRect r).maxY = max r.y (r.y + r.height) ∧
    (0 ≤ r.width → 0 ≤ r.height → normalizeRect r = r) ∧
    normalizeRect (normalizeRect r) = normalizeRect r := by
  have hid : ∀ s : IntRect, InInt32 (s.x + s.width) → InInt32 (s.y + s.height) →
      InInt32 (-s.width) → InInt32 (-s.height) → 0 ≤ s.width → 0 ≤ s.height →
      normalizeRect s = s := by
    intro s h1 h2 h3 h4 hw hh
    cases s with
    | mk sx sy sw sh =>
      simp only [normalizeRect, IntRect.maxX, IntRect.maxY, addInt, negInt,
        toInt32_of_inInt32 h1, toInt32_of_inInt32 h2, toInt32_of_inInt32 h3,
        toInt32_of_inInt32 h4] at *
      congr 1 <;> omega
  have hform : normalizeRect r = ⟨min r.x (r.x + r.width), min r.y (r.y + r.height),
      max r.width (-r.width), max r.height (-r.height)⟩ := by
    simp only [normalizeRect, IntRect.maxX, IntRect.maxY, addInt, negInt,
      toInt32_of_inInt32 hmaxX, toInt32_of_inInt32 hmaxY, toInt32_of_inInt32 hnegW,
      toInt32_of_inInt32 hnegH]
  unfold InInt32 at hx hy hmaxX hmaxY hnegW hnegH
  have hmx : (normalizeRect r).maxX = max r.x (r.x + r.width) := by
    rw [hform]
    simp only [IntRect.maxX, addInt]
    rw [toInt32_of_inInt32 (by unfold InInt32; omega)]
    omega
  have hmy : (normalizeRect r).maxY = max r.y (r.y + r.height) := by
    rw [hform]
    simp only [IntRect.maxY, addInt]
    rw [toInt32_of_inInt32 (by unfold InInt32; omega)]
    omega
  refine ⟨by rw [hform]; simp only; omega, by rw [hform]; simp only; omega,
    by rw [hform], hmx, by rw [hform], hmy, ?_, ?_⟩
  · intro hw hh
    exact hid r (by unfold InInt32; omega) (by unfold InInt32; omega)
      (by unfold InInt32; omega) (by unfold InInt32; omega) hw hh
  · apply hid
    · rw [hform]; simp only; unfold InInt32; omega
    · rw [hform]; simp only; unfold InInt32; omega
    · rw [hform]; simp only; unfold InInt32; omega
    · rw [hform]; simp only; unfold InInt32; omega
    · rw [hform]; simp only; omega
    · rw [hform]; simp only; omega

theorem normalizeRect_spec_witness :
    normalizeRect rectBackwards = ⟨2, 3, 3, 4⟩ ∧
    (normalizeRect rectBackwards).maxX = max rectBackwards.x
      (rectBackwards.x + rectBackwards.width) ∧
    normalizeRect (normalizeRect rectBackwards) = normalizeRect rectBackwards :=
  have h := normalizeRect_spec rectBackwards (by decide) (by decide) (by decide) (by decide)
    (by decide) (by decide)
  ⟨by decide, h.2.2.2.1, h.2.2.2.2.2.2.2⟩

/-! ## The loops of `swizzleImageData` -/

theorem forRange_zero {σ : Type} (body : Int → σ → σ) (s : σ) : forRange 0 body s = s := rfl

theorem forRange_succ {σ : Type} (n : Nat) (body : Int → σ → σ) (s : σ) :
    forRange (n + 1) body s = body (n : Int) (forRange n body s) := by
  unfold forRange
  rw [List.range_succ, List.foldl_append]
  rfl

theorem inInt32_of_bounds {n : Int} (h0 : 0 ≤ n) (h1 : n ≤ 2147483647) : InInt32 n :=
  ⟨by omega, h1⟩

theorem exchanged_zero {c : Int} (h : c % 4 = 0) : exchanged c = c + 2 := by
  unfold exchanged
  rw [if_pos h]

theorem exchanged_two {c : Int} (h : c % 4 = 2) : exchanged c = c - 2 := by
  unfold exchanged
  rw [if_neg (by omega), if_pos h]

theorem exchanged_other {c : Int} (h0 : c % 4 ≠ 0) (h2 : c % 4 ≠ 2) : exchanged c = c := by
  unfold exchanged
  rw [if_neg h0, if_neg h2]

/-- The loop of `swizzleImageData` without `flipY`, after `m` turns. -/
theorem swizzle_plain_loop (buf : Buffer) :
    ∀ m : Nat, 4 * (m : Int) ≤ 2147483648 →
      forRange m (fun k b => swapAt b (4 * k) (addInt (4 * k) 2)) buf =
        fun p => if 0 ≤ p ∧ p < 4 * (m : Int) then buf (exchanged p) else buf p := by
  intro m
  induction m with
  | zero =>
    intro _
    funext p
    rw [forRange_zero, if_neg]
    push_cast
    omega
  | succ n ih =>
    intro hm
    rw [forRange_succ, ih (by omega)]
    have h2 : addInt (4 * (n : Int)) 2 = 4 * (n : Int) + 2 :=
      toInt32_of_inInt32 (inInt32_of_bounds (by omega) (by omega))
    rw [h2]
    funext p
    simp only [swapAt]
    push_cast
    by_cases hp0 : p = 4 * (n : Int)
    · subst hp0
      rw [if_pos rfl, if_neg (by omega), if_pos (by omega), exchanged_zero (by omega)]
    · by_cases hp2 : p = 4 * (n : Int) + 2
      · subst hp2
        rw [if_neg (by omega), if_pos rfl, if_neg (by omega), if_pos (by omega),
          exchanged_two (by omega)]
        have : 4 * (n : Int) + 2 - 2 = 4 * (n : Int) := by omega
        rw [this]
      · rw [if_neg hp0, if_neg hp2]
        by_cases hin : 0 ≤ p ∧ p < 4 * (n : Int)
        · rw [if_pos hin, if_pos (by omega)]
        · rw [if_neg hin]
          by_cases hin2 : 0 ≤ p ∧ p < 4 * ((n : Int) + 1)
          · rw [if_pos hin2, exchanged_other (by omega) (by omega)]
          · rw [if_neg hin2]

theorem addInt_eq {a b : Int} (h0 : 0 ≤ a + b) (h1 : a + b ≤ 2147483647) :
    addInt a b = a + b :=
  toInt32_of_inInt32 (inInt32_of_bounds h0 h1)

/-- The four swaps of one turn of the inner loop, without wrap-around. -/
theorem swapPixelRows_eq (buf : Buffer) (t b j : Int) (ht : 0 ≤ t) (hj : 0 ≤ j)
    (htb : t + j + 4 ≤ b) (hb : b + j + 3 ≤ 2147483647) :
    swapPixelRows buf t b j =
      swapAt (swapAt (swapAt (swapAt buf (t + j) (b + j + 2)) (t + j + 1) (b + j + 1))
        (t + j + 2) (b + j)) (t + j + 3) (b + j + 3) := by
  unfold swapPixelRows
  have e1 : addInt t j = t + j := addInt_eq (by omega) (by omega)
  have e2 : addInt b j = b + j := addInt_eq (by omega) (by omega)
  have e3 : addInt (b + j) 2 = b + j + 2 := addInt_eq (by omega) (by omega)
  have e4 : addInt (t + j) 1 = t + j + 1 := addInt_eq (by omega) (by omega)
  have e5 : addInt (b + j) 1 = b + j + 1 := addInt_eq (by omega) (by omega)
  have e6 : addInt (t + j) 2 = t + j + 2 := addInt_eq (by omega) (by omega)
  have e7 : addInt (t + j) 3 = t + j + 3 := addInt_eq (by omega) (by omega)
  have e8 : addInt (b + j) 3 = b + j + 3 := addInt_eq (by omega) (by omega)
  simp only [e1, e2, e3, e4, e5, e6, e7, e8]

theorem swapAt_left (buf : Buffer) (p q : Int) : swapAt buf p q p = buf q := by
  unfold swapAt
  rw [if_pos rfl]

theorem swapAt_right (buf : Buffer) (p q : Int) (h : q ≠ p) : swapAt buf p q q = buf p := by
  unfold swapAt
  rw [if_neg h, if_pos rfl]

theorem swapAt_other (buf : Buffer) (p q k : Int) (h1 : k ≠ p) (h2 : k ≠ q) :
    swapAt buf p q k = buf k := by
  unfold swapAt
  rw [if_neg h1, if_neg h2]

theorem exchanged_spec (c : Int) :
    (c % 4 = 0 ∧ exchanged c = c + 2) ∨ (c % 4 = 2 ∧ exchanged c = c - 2) ∨
      (c % 4 ≠ 0 ∧ c % 4 ≠ 2 ∧ exchanged c = c) := by
  by_cases h0 : c % 4 = 0
  · exact Or.inl ⟨h0, exchanged_zero h0⟩
  · by_cases h2 : c % 4 = 2
    · exact Or.inr (Or.inl ⟨h2, exchanged_two h2⟩)
    · exact Or.inr (Or.inr ⟨h0, h2, exchanged_other h0 h2⟩)

theorem swapPixel_T0 (g : Buffer) (t b : Int) (h : t + 4 ≤ b) :
    swapAt (swapAt (swapAt (swapAt g t (b + 2)) (t + 1) (b + 1)) (t + 2) b) (t + 3) (b + 3) (t) = g (b + 2) := by
  rw [swapAt_other _ (t + 3) (b + 3) (t) (by omega) (by omega), swapAt_other _ (t + 2) (b) (t) (by omega) (by omega), swapAt_other _ (t + 1) (b + 1) (t) (by omega) (by omega), swapAt_left _ (t) (b + 2)]

theorem swapPixel_T1 (g : Buffer) (t b : Int) (h : t + 4 ≤ b) :
    swapAt (swapAt (swapAt (swapAt g t (b + 2)) (t + 1) (b + 1)) (t + 2) b) (t + 3) (b + 3) (t + 1) = g (b + 1) := by
  rw [swapAt_other _ (t + 3) (b + 3) (t + 1) (by omega) (by omega), swapAt_other _ (t + 2) (b) (t + 1) (by omega) (by omega), swapAt_left _ (t + 1) (b + 1), swapAt_other _ (t) (b + 2) (b + 1) (by omega) (by omega)]

theorem swapPixel_T2 (g : Buffer) (t b : Int) (h : t + 4 ≤ b) :
    swapAt (swapAt (swapAt (swapAt g t (b + 2)) (t + 1) (b + 1)) (t + 2) b) (t + 3) (b + 3) (t + 2) = g (b) := by
  rw [swapAt_other _ (t + 3) (b + 3) (t + 2) (by omega) (by omega), swapAt_left _ (t + 2) (b), swapAt_other _ (t + 1) (b + 1) (b) (by omega) (by omega), swapAt_other _ (t) (b + 2) (b) (by omega) (by omega)]

theorem swapPixel_T3 (g : Buffer) (t b : Int) (h : t + 4 ≤ b) :
    swapAt (swapAt (swapAt (swapAt g t (b + 2)) (t + 1) (b + 1)) (t + 2) b) (t + 3) (b + 3) (t + 3) = g (b + 3) := by
  rw [swapAt_left _ (t + 3) (b + 3), swapAt_other _ (t + 2) (b) (b + 3) (by omega) (by omega), swapAt_other _ (t + 1) (b + 1) (b + 3) (by omega) (by omega), swapAt_other _ (t) (b + 2) (b + 3) (by omega) (by omega)]

theorem swapPixel_B0 (g : Buffer) (t b : Int) (h : t + 4 ≤ b) :
    swapAt (swapAt (swapAt (swapAt g t (b + 2)) (t + 1) (b + 1)) (t + 2) b) (t + 3) (b + 3) (b) = g (t + 2) := by
  rw [swapAt_other _ (t + 3) (b + 3) (b) (by omega) (by omega), swapAt_right _ (t + 2) (b) (by omega), swapAt_other _ (t + 1) (b + 1) (t + 2) (by omega) (by omega), swapAt_other _ (t) (b + 2) (t + 2) (by omega) (by omega)]

theorem swapPixel_B1 (g : Buffer) (t b : Int) (h : t + 4 ≤ b) :
    swapAt (swapAt (swapAt (swapAt g t (b + 2)) (t + 1) (b + 1)) (t + 2) b) (t + 3) (b + 3) (b + 1) = g (t + 1) := by
  rw [swapAt_other _ (t + 3) (b + 3) (b + 1) (by omega) (by omega), swapAt_other _ (t + 2) (b) (b + 1) (by omega) (by omega), swapAt_right _ (t + 1) (b + 1) (by omega), swapAt_other _ (t) (b + 2) (t + 1) (by omega) (by omega)]

theorem swapPixel_B2 (g : Buffer) (t b : Int) (h : t + 4 ≤ b) :
    swapAt (swapAt (swapAt (swapAt g t (b + 2)) (t + 1) (b + 1)) (t + 2) b) (t + 3) (b + 3) (b + 2) = g (t) := by
  rw [swapAt_other _ (t + 3) (b + 3) (b + 2) (by omega) (by omega), swapAt_other _ (t + 2) (b) (b + 2) (by omega) (by omega), swapAt_other _ (t + 1) (b + 1) (b + 2) (by omega) (by omega), swapAt_right _ (t) (b + 2) (by omega)]

theorem swapPixel_B3 (g : Buffer) (t b : Int) (h : t + 4 ≤ b) :
    swapAt (swapAt (swapAt (swapAt g t (b + 2)) (t + 1) (b + 1)) (t + 2) b) (t + 3) (b + 3) (b + 3) = g (t + 3) := by
  rw [swapAt_right _ (t + 3) (b + 3) (by omega), swapAt_other _ (t + 2) (b) (t + 3) (by omega) (by omega), swapAt_other _ (t + 1) (b + 1) (t + 3) (by omega) (by omega), swapAt_other _ (t) (b + 2) (t + 3) (by omega) (by omega)]

/-- The four swaps of one turn of the inner loop: the two pixels change places,
their bytes 0 and 2 exchanged. -/
theorem swapPixel_apply (g : Buffer) (t b : Int) (h : t + 4 ≤ b) (p : Int) :
    swapAt (swapAt (swapAt (swapAt g t (b + 2)) (t + 1) (b + 1)) (t + 2) b) (t + 3) (b + 3) p =
      if t ≤ p ∧ p < t + 4 then g (b + exchanged (p - t))
      else if b ≤ p ∧ p < b + 4 then g (t + exchanged (p - b))
      else g p := by
  by_cases hT : t ≤ p ∧ p < t + 4
  · rw [if_pos hT]
    have hp : p = t ∨ p = t + 1 ∨ p = t + 2 ∨ p = t + 3 := by omega
    rcases hp with hp | hp | hp | hp
    · subst hp
      rw [swapPixel_T0 g _ b h]
      exact congrArg g (by have := exchanged_spec (p - p); omega)
    · subst hp
      rw [swapPixel_T1 g t b h]
      exact congrArg g (by have := exchanged_spec (t + 1 - t); omega)
    · subst hp
      rw [swapPixel_T2 g t b h]
      exact congrArg g (by have := exchanged_spec (t + 2 - t); omega)
    · subst hp
      rw [swapPixel_T3 g t b h]
      exact congrArg g (by have := exchanged_spec (t + 3 - t); omega)
  · rw [if_neg hT]
    by_cases hB : b ≤ p ∧ p < b + 4
    · rw [if_pos hB]
      have hp : p = b ∨ p = b + 1 ∨ p = b + 2 ∨ p = b + 3 := by omega
      rcases hp with hp | hp | hp | hp
      · subst hp
        rw [swapPixel_B0 g t _ h]
        exact congrArg g (by have := exchanged_spec (p - p); omega)
      · subst hp
        rw [swapPixel_B1 g t b h]
        exact congrArg g (by have := exchanged_spec (b + 1 - b); omega)
      · subst hp
        rw [swapPixel_B2 g t b h]
        exact congrArg g (by have := exchanged_spec (b + 2 - b); omega)
      · subst hp
        rw [swapPixel_B3 g t b h]
        exact congrArg g (by have := exchanged_spec (b + 3 - b); omega)
    · rw [if_neg hB, swapAt_other _ _ _ _ (by omega) (by omega),
        swapAt_other _ _ _ _ (by omega) (by omega), swapAt_other _ _ _ _ (by omega) (by omega),
        swapAt_other _ _ _ _ (by omega) (by omega)]

/-- The inner loop of `swizzleImageData` with `flipY`, after `m` turns: the
first `4 * m` bytes of the two rows have changed places, the bytes 0 and 2 of
every pixel exchanged. -/
theorem swizzle_row_loop (buf : Buffer) (t b : Int) (ht : 0 ≤ t) :
    ∀ m : Nat, t + 4 * (m : Int) ≤ b → b + 4 * (m : Int) ≤ 2147483648 →
      forRange m (fun k buf => swapPixelRows buf t b (4 * k)) buf =
        fun p =>
          if t ≤ p ∧ p < t + 4 * (m : Int) then buf (b + exchanged (p - t))
          else if b ≤ p ∧ p < b + 4 * (m : Int) then buf (t + exchanged (p - b))
          else buf p := by
  intro m
  induction m with
  | zero =>
    intro _ _
    funext p
    rw [forRange_zero, if_neg, if_neg]
    · push_cast
      omega
    · push_cast
      omega
  | succ n ih =>
    intro h1 h2
    push_cast at h1 h2
    rw [forRange_succ, ih (by omega) (by omega),
      swapPixelRows_eq _ t b (4 * (n : Int)) ht (by omega) (by omega) (by omega)]
    funext p
    rw [swapPixel_apply _ (t + 4 * (n : Int)) (b + 4 * (n : Int)) (by omega) p]
    push_cast
    have e1 := exchanged_spec (p - (t + 4 * (n : Int)))
    have e2 := exchanged_spec (p - t)
    have e3 := exchanged_spec (p - (b + 4 * (n : Int)))
    have e4 := exchanged_spec (p - b)
    by_cases hT : t + 4 * (n : Int) ≤ p ∧ p < t + 4 * (n : Int) + 4
    · have hR : t ≤ p ∧ p < t + 4 * ((n : Int) + 1) := by omega
      rw [if_pos hT, if_pos hR, if_neg (by omega), if_neg (by omega)]
      exact congrArg buf (by omega)
    · rw [if_neg hT]
      by_cases hB : b + 4 * (n : Int) ≤ p ∧ p < b + 4 * (n : Int) + 4
      · have hR1 : ¬ (t ≤ p ∧ p < t + 4 * ((n : Int) + 1)) := by omega
        have hR2 : b ≤ p ∧ p < b + 4 * ((n : Int) + 1) := by omega
        rw [if_pos hB, if_neg hR1, if_pos hR2, if_neg (by omega), if_neg (by omega)]
        exact congrArg buf (by omega)
      · rw [if_neg hB]
        by_cases h3 : t ≤ p ∧ p < t + 4 * (n : Int)
        · have hR : t ≤ p ∧ p < t + 4 * ((n : Int) + 1) := by omega
          rw [if_pos h3, if_pos hR]
        · have hR : ¬ (t ≤ p ∧ p < t + 4 * ((n : Int) + 1)) := by omega
          rw [if_neg h3, if_neg hR]
          by_cases h4 : b ≤ p ∧ p < b + 4 * (n : Int)
          · have hR2 : b ≤ p ∧ p < b + 4 * ((n : Int) + 1) := by omega
            rw [if_pos h4, if_pos hR2]
          · have hR2 : ¬ (b ≤ p ∧ p < b + 4 * ((n : Int) + 1)) := by omega
            rw [if_neg h4, if_neg hR2]

theorem mul_row_le {B a b : Int} (hB : 0 ≤ B) (h : a ≤ b) : a * B ≤ b * B :=
  Int.mul_le_mul_of_nonneg_right h hB

/-- A position of row `r` lies in row `s` only when `r = s`. -/
theorem in_row_iff (B r s c : Int) (hc0 : 0 ≤ c) (hc : c < B) :
    (s * B ≤ r * B + c ∧ r * B + c < s * B + B) ↔ r = s := by
  constructor
  · rintro ⟨h1, h2⟩
    by_contra hne
    rcases lt_or_gt_of_ne hne with hlt | hgt
    · have := mul_row_le (by omega : 0 ≤ B) (by omega : r + 1 ≤ s)
      rw [add_mul] at this
      omega
    · have := mul_row_le (by omega : 0 ≤ B) (by omega : s + 1 ≤ r)
      rw [add_mul] at this
      omega
  · intro h
    subst h
    omega

theorem exchanged_lt {B c : Int} (hB4 : B % 4 = 0) (hc0 : 0 ≤ c) (hc : c < B) :
    0 ≤ exchanged c ∧ exchanged c < B := by
  have := exchanged_spec c
  omega

theorem exchanged_exchanged (c : Int) : exchanged (exchanged c) = c := by
  have h1 := exchanged_spec c
  have h2 := exchanged_spec (exchanged c)
  omega

theorem strideCount_eq {B : Int} (hB : 0 ≤ B) (hB4 : B % 4 = 0) :
    4 * ((strideCount B : Nat) : Int) = B := by
  unfold strideCount
  rw [Int.toNat_of_nonneg (by omega)]
  omega

theorem subInt_eq {a b : Int} (h0 : 0 ≤ a - b) (h1 : a - b ≤ 2147483647) :
    subInt a b = a - b :=
  toInt32_of_inInt32 (inInt32_of_bounds h0 h1)

theorem mulInt_eq {a b : Int} (h0 : 0 ≤ a * b) (h1 : a * b ≤ 2147483647) :
    mulInt a b = a * b :=
  toInt32_of_inInt32 (inInt32_of_bounds h0 h1)

theorem le_mul_of_pos {h B : Int} (hh : 0 ≤ h) (hB : 0 < B) : h ≤ h * B := by
  have := Int.mul_le_mul_of_nonneg_left (by omega : 1 ≤ B) hh
  rw [mul_one] at this
  exact this

/-- One turn of the outer loop of `swizzleImageData` with `flipY`: the rows `i`
and `height - 1 - i` change places, the bytes 0 and 2 of every pixel exchanged. -/
theorem swapRows_eq (buf : Buffer) (h B : Int) (i : Nat) (hB : 0 < B) (hB4 : B % 4 = 0)
    (hsize : h * B ≤ 2147483647) (hi : 2 * ((i : Int) + 1) ≤ h) :
    swapRows buf h B i =
      fun p =>
        if (i : Int) * B ≤ p ∧ p < (i : Int) * B + B then
          buf ((h - 1 - i) * B + exchanged (p - (i : Int) * B))
        else if (h - 1 - i) * B ≤ p ∧ p < (h - 1 - i) * B + B then
          buf ((i : Int) * B + exchanged (p - (h - 1 - i) * B))
        else buf p := by
  have f0 : h ≤ h * B := le_mul_of_pos (by omega) hB
  have f1 : 0 ≤ (i : Int) * B := Int.mul_nonneg (by omega) (by omega)
  have f2 : ((i : Int) + 1) * B ≤ (h - 1 - i) * B := mul_row_le (by omega) (by omega)
  have f3 : (h - i) * B ≤ h * B := mul_row_le (by omega) (by omega)
  have f4 : (h - i) * B = (h - 1 - i) * B + B := by ring
  have f5 : ((i : Int) + 1) * B = (i : Int) * B + B := by ring
  have e1 : subInt h 1 = h - 1 := subInt_eq (by omega) (by omega)
  have e2 : subInt (h - 1) i = h - 1 - i := subInt_eq (by omega) (by omega)
  have e3 : mulInt i B = i * B := mulInt_eq (by omega) (by omega)
  have e4 : mulInt (h - 1 - i) B = (h - 1 - i) * B := mulInt_eq (by omega) (by omega)
  have e5 := strideCount_eq (by omega : 0 ≤ B) hB4
  unfold swapRows
  simp only [e1, e2, e3, e4]
  rw [swizzle_row_loop buf _ _ f1 (strideCount B) (by omega) (by omega), e5]

/-- The outer loop of `swizzleImageData` with `flipY`, after `m` turns: the
first `m` rows and the last `m` rows have changed places in reversed order, the
bytes 0 and 2 of every pixel exchanged; the other rows are as they were. -/
theorem swizzle_flip_loop (buf : Buffer) (h B : Int) (hB : 0 < B) (hB4 : B % 4 = 0)
    (hsize : h * B ≤ 2147483647) :
    ∀ m : Nat, 2 * (m : Int) ≤ h → ∀ r c : Int, 0 ≤ c → c < B →
      forRange m (fun i buf => swapRows buf h B i) buf (r * B + c) =
        if (0 ≤ r ∧ r < m) ∨ (h - 1 - m < r ∧ r ≤ h - 1) then
          buf ((h - 1 - r) * B + exchanged c)
        else buf (r * B + c) := by
  intro m
  induction m with
  | zero =>
    intro _ r c _ _
    rw [forRange_zero, if_neg]
    push_cast
    omega
  | succ n ih =>
    intro hm r c hc0 hc
    push_cast at hm
    have ih1 := ih (by omega)
    have hx := exchanged_lt hB4 hc0 hc
    rw [forRange_succ, swapRows_eq _ h B n hB hB4 hsize (by omega)]
    push_cast
    show (if _ then _ else if _ then _ else _) = _
    by_cases hr : r = n
    · have hR : (0 ≤ r ∧ r < (n : Int) + 1) ∨ (h - 1 - ((n : Int) + 1) < r ∧ r ≤ h - 1) := by
        omega
      rw [if_pos hR, if_pos ((in_row_iff B r n c hc0 hc).2 hr)]
      subst hr
      have e : (n : Int) * B + c - (n : Int) * B = c := by omega
      rw [e, ih1 (h - 1 - n) (exchanged c) hx.1 hx.2, if_neg (by omega)]
    · rw [if_neg (fun hh => hr ((in_row_iff B r n c hc0 hc).1 hh))]
      by_cases hr2 : r = h - 1 - n
      · have hR : (0 ≤ r ∧ r < (n : Int) + 1) ∨ (h - 1 - ((n : Int) + 1) < r ∧ r ≤ h - 1) := by
          omega
        rw [if_pos hR, if_pos ((in_row_iff B r (h - 1 - n) c hc0 hc).2 hr2)]
        subst hr2
        have e : (h - 1 - (n : Int)) * B + c - (h - 1 - (n : Int)) * B = c := by omega
        have e2 : h - 1 - (h - 1 - (n : Int)) = n := by omega
        rw [e, e2, ih1 n (exchanged c) hx.1 hx.2, if_neg (by omega)]
      · rw [if_neg (fun hh => hr2 ((in_row_iff B r (h - 1 - n) c hc0 hc).1 hh)), ih1 r c hc0 hc]
        by_cases hS : (0 ≤ r ∧ r < (n : Int)) ∨ (h - 1 - (n : Int) < r ∧ r ≤ h - 1)
        · have hR : (0 ≤ r ∧ r < (n : Int) + 1) ∨
              (h - 1 - ((n : Int) + 1) < r ∧ r ≤ h - 1) := by omega
          rw [if_pos hS, if_pos hR]
        · have hR : ¬ ((0 ≤ r ∧ r < (n : Int) + 1) ∨
              (h - 1 - ((n : Int) + 1) < r ∧ r ≤ h - 1)) := by omega
          rw [if_neg hS, if_neg hR]

theorem tdiv_two_toNat {h : Int} (hh : 0 ≤ h) :
    2 * (((Int.tdiv h 2).toNat : Nat) : Int) ≤ h ∧
      h < 2 * (((Int.tdiv h 2).toNat : Nat) : Int) + 2 := by
  rw [Int.tdiv_eq_ediv hh (by omega), Int.toNat_of_nonneg (by omega)]
  omega

/-- What `swizzleImageData` with `flipY` does to the byte `c` of row `r`: the
rows above and below the middle change places with their mirror row, the bytes
0 and 2 of every pixel exchanged; with an odd `height` the middle row is as it
was. -/
theorem swizzleImageData_flip_apply (buf : Buffer) (h B : Int) (hh : 0 ≤ h) (hB : 0 < B)
    (hB4 : B % 4 = 0) (hsize : h * B ≤ 2147483647) (r c : Int) (hc0 : 0 ≤ c) (hc : c < B) :
    swizzleImageData buf h B true (r * B + c) =
      if 0 ≤ r ∧ r < h ∧ 2 * r + 1 ≠ h then buf ((h - 1 - r) * B + exchanged c)
      else buf (r * B + c) := by
  have hd := tdiv_two_toNat hh
  unfold swizzleImageData
  rw [if_pos rfl, swizzle_flip_loop buf h B hB hB4 hsize _ hd.1 r c hc0 hc]
  by_cases hS : 0 ≤ r ∧ r < h ∧ 2 * r + 1 ≠ h
  · rw [if_pos hS, if_pos (by omega)]
  · rw [if_neg hS, if_neg (by omega)]

/-- What `swizzleImageData` without `flipY` does: the bytes 0 and 2 of every
pixel of the buffer are exchanged. -/
theorem swizzleImageData_plain_apply (buf : Buffer) (h B : Int) (hB4 : B % 4 = 0)
    (hsize0 : 0 ≤ h * B) (hsize : h * B ≤ 2147483647) (p : Int) :
    swizzleImageData buf h B false p =
      if 0 ≤ p ∧ p < h * B then buf (exchanged p) else buf p := by
  have h4 : (h * B) % 4 = 0 := by
    rw [Int.mul_emod, hB4]
    simp
  unfold swizzleImageData
  have e := strideCount_eq hsize0 h4
  rw [if_neg (by simp), mulInt_eq hsize0 hsize, swizzle_plain_loop buf _ (by omega), e]

theorem toInt32_inInt32 (n : Int) : InInt32 (toInt32 n) := by
  unfold InInt32 toInt32
  omega

theorem forRange_id {σ : Type} (body : Int → σ → σ) (hbody : ∀ k s, body k s = s) (s : σ) :
    ∀ n : Nat, forRange n body s = s := by
  intro n
  induction n with
  | zero => rfl
  | succ n ih => rw [forRange_succ, hbody, ih]

theorem strideCount_nonpos {B : Int} (hB : B ≤ 0) : strideCount B = 0 := by
  unfold strideCount
  exact Int.toNat_eq_zero.2 (by omega)

theorem tdiv_two_small {h : Int} (hh : h ≤ 1) : (Int.tdiv h 2).toNat = 0 := by
  apply Int.toNat_eq_zero.2
  by_cases h0 : 0 ≤ h
  · rw [Int.tdiv_eq_ediv h0 (by omega)]
    omega
  · have h1 : h = -(-h) := by omega
    rw [h1, Int.neg_tdiv, Int.tdiv_eq_ediv (by omega) (by omega)]
    omega

/-- Without `flipY`, `swizzleImageData` applied twice restores every byte, for
every `height` and `bytesPerRow`. -/
theorem swizzleImageData_plain_twice (buf : Buffer) (h B : Int) :
    swizzleImageData (swizzleImageData buf h B false) h B false = buf := by
  have hN := toInt32_inInt32 (h * B)
  have hm : 4 * ((strideCount (mulInt h B) : Nat) : Int) ≤ 2147483648 := by
    unfold strideCount mulInt
    unfold InInt32 at hN
    by_cases h0 : 0 ≤ toInt32 (h * B) + 3
    · rw [Int.toNat_of_nonneg (by omega)]
      omega
    · rw [Int.toNat_eq_zero.2 (by omega)]
      omega
  unfold swizzleImageData
  rw [if_neg (by simp), swizzle_plain_loop buf _ hm, swizzle_plain_loop _ _ hm]
  funext p
  have e1 := exchanged_spec p
  by_cases hp : 0 ≤ p ∧ p < 4 * ((strideCount (mulInt h B) : Nat) : Int)
  · rw [if_pos hp]
    show (if _ then _ else _) = _
    rw [if_pos (by omega), exchanged_exchanged]
  · rw [if_neg hp]
    show (if _ then _ else _) = _
    rw [if_neg hp]

/-- With `flipY`, `swizzleImageData` applied twice restores every byte when
`bytesPerRow` is a multiple of 4 and the size `height * bytesPerRow` of a buffer
of positive height and width is an `int`. -/
theorem swizzleImageData_flip_twice (buf : Buffer) (h B : Int) (hB4 : B % 4 = 0)
    (hsize : 0 < h → 0 < B → h * B ≤ 2147483647) :
    swizzleImageData (swizzleImageData buf h B true) h B true = buf := by
  by_cases hh : h ≤ 1
  · unfold swizzleImageData
    rw [if_pos rfl, tdiv_two_small hh]
    rfl
  · by_cases hB : B ≤ 0
    · have hrow : ∀ (k : Int) (s : Buffer), swapRows s h B k = s := by
        intro k s
        unfold swapRows
        rw [strideCount_nonpos hB]
        rfl
      unfold swizzleImageData
      rw [if_pos rfl, forRange_id _ hrow, if_pos rfl, forRange_id _ hrow]
    · have hs := hsize (by omega) (by omega)
      funext p
      have hp : p = p / B * B + p % B := by
        have := Int.ediv_add_emod p B
        rw [mul_comm] at this
        omega
      have hc0 : 0 ≤ p % B := Int.emod_nonneg p (by omega)
      have hc : p % B < B := Int.emod_lt_of_pos p (by omega)
      have hx := exchanged_lt hB4 hc0 hc
      rw [hp, swizzleImageData_flip_apply _ h B (by omega) (by omega) hB4 hs _ _ hc0 hc]
      by_cases hS : 0 ≤ p / B ∧ p / B < h ∧ 2 * (p / B) + 1 ≠ h
      · rw [if_pos hS, swizzleImageData_flip_apply _ h B (by omega) (by omega) hB4 hs _ _
          hx.1 hx.2, if_pos (by omega), exchanged_exchanged]
        have e : h - 1 - (h - 1 - p / B) = p / B := by omega
        rw [e]
      · rw [if_neg hS, swizzleImageData_flip_apply _ h B (by omega) (by omega) hB4 hs _ _
          hc0 hc, if_neg hS]

/-! ## The copy loops of the constructor -/

theorem copyByte_buffer (srcAddr : Buffer) (s d : Int) (k : Nat) (st : CopyState)
    (hs : 0 ≤ s) (hd : 0 ≤ d) (hsk : s + k + 2 ≤ 2147483647) (hdk : d + k ≤ 2147483647) :
    (copyByte srcAddr s d k st).copiedDataBuffer =
      Function.update st.copiedDataBuffer (d + k) (srcAddr (s + exchanged k)) := by
  unfold copyByte
  have e1 : addInt d k = d + k := addInt_eq (by omega) (by omega)
  have e2 : addInt s k = s + k := addInt_eq (by omega) (by omega)
  have e3 : Int.tmod (k : Int) 4 = (k : Int) % 4 := Int.tmod_eq_emod (by omega) (by omega)
  have hx := exchanged_spec (k : Int)
  simp only [e1, e2, e3]
  by_cases h0 : (k : Int) % 4 = 0
  · rw [if_pos h0, addInt_eq (by omega) (by omega)]
    exact congrArg (fun x => Function.update st.copiedDataBuffer (d + k) (srcAddr x)) (by omega)
  · rw [if_neg h0]
    by_cases h2 : (k : Int) % 4 = 2
    · rw [if_pos h2, subInt_eq (by omega) (by omega)]
      exact congrArg (fun x => Function.update st.copiedDataBuffer (d + k) (srcAddr x))
        (by omega)
    · rw [if_neg h2]
      exact congrArg (fun x => Function.update st.copiedDataBuffer (d + k) (srcAddr x))
        (by omega)

/-- The inner copy loop of the constructor, after `n` turns: the first `n`
bytes of the row of `copiedDataBuffer` hold the bytes of the row of the source,
the bytes 0 and 2 of every pixel exchanged. -/
theorem copy_byte_loop (srcAddr : Buffer) (s d : Int) (st : CopyState) (hs : 0 ≤ s)
    (hd : 0 ≤ d) :
    ∀ n : Nat, s + n + 1 ≤ 2147483647 → d + n ≤ 2147483648 →
      (forRange n (fun j st => copyByte srcAddr s d j st) st).copiedDataBuffer =
        fun p =>
          if d ≤ p ∧ p < d + n then srcAddr (s + exchanged (p - d))
          else st.copiedDataBuffer p := by
  intro n
  induction n with
  | zero =>
    intro _ _
    funext p
    rw [forRange_zero, if_neg]
    push_cast
    omega
  | succ n ih =>
    intro h1 h2
    push_cast at h1 h2
    rw [forRange_succ, copyByte_buffer srcAddr s d n _ hs hd (by omega) (by omega),
      ih (by omega) (by omega)]
    funext p
    push_cast
    by_cases hp : p = d + n
    · subst hp
      have e : d + (n : Int) - d = n := by omega
      rw [Function.update_same, if_pos (by omega), e]
    · rw [Function.update_noteq hp]
      by_cases hin : d ≤ p ∧ p < d + n
      · have hR : d ≤ p ∧ p < d + ((n : Int) + 1) := by omega
        rw [if_pos hin, if_pos hR]
      · have hR : ¬ (d ≤ p ∧ p < d + ((n : Int) + 1)) := by omega
        rw [if_neg hin, if_neg hR]

/-- One turn of the outer copy loop of the constructor for a crop whose origin
has no negative coordinate: the row `i` of the part to copy lands in the row
`i` of `copiedDataBuffer`, in the row `dstHeight - 1 - i` with `flipY`. -/
theorem copyRow_buffer (srcAddr : Buffer) (sB dB ch cx cy cW : Int) (flipY : Bool) (i : Nat)
    (st : CopyState) (hcx : 0 ≤ cx) (hcy : 0 ≤ cy) (hsB : 0 < sB) (hdB : 0 < dB)
    (hcW : 0 ≤ cW) (hcWd : 4 * cW ≤ dB) (hi : (i : Int) < ch)
    (hsrc : ((i : Int) + cy) * sB + cx * 4 + 4 * cW ≤ 2147483644)
    (hdst : ch * dB ≤ 2147483647) :
    (copyRow srcAddr sB dB ch (cx, cy) (0, 0) cW flipY i st).copiedDataBuffer =
      fun p =>
        if (if flipY then ch - 1 - (i : Int) else (i : Int)) * dB ≤ p ∧
            p < (if flipY then ch - 1 - (i : Int) else (i : Int)) * dB + 4 * cW then
          srcAddr (((i : Int) + cy) * sB + cx * 4 +
            exchanged (p - (if flipY then ch - 1 - (i : Int) else (i : Int)) * dB))
        else st.copiedDataBuffer p := by
  have p1 : (i : Int) + cy ≤ ((i : Int) + cy) * sB := le_mul_of_pos (by omega) hsB
  have p2 : ch ≤ ch * dB := le_mul_of_pos (by omega) hdB
  have p3 : 0 ≤ (i : Int) * dB := Int.mul_nonneg (by omega) (by omega)
  have p4 : ((i : Int) + 1) * dB ≤ ch * dB := mul_row_le (by omega) (by omega)
  have p5 : ((i : Int) + 1) * dB = (i : Int) * dB + dB := by ring
  have p6 : 0 ≤ (ch - 1 - (i : Int)) * dB := Int.mul_nonneg (by omega) (by omega)
  have p7 : (ch - 1 - (i : Int) + 1) * dB ≤ ch * dB := mul_row_le (by omega) (by omega)
  have p8 : (ch - 1 - (i : Int) + 1) * dB = (ch - 1 - (i : Int)) * dB + dB := by ring
  have g1 : (0 : Int) ≤ ((i : Int) + cy) * sB + cx * 4 := by omega
  have e1 : addInt i cy = i + cy := addInt_eq (by omega) (by omega)
  have e2 : mulInt ((i : Int) + cy) sB = ((i : Int) + cy) * sB := mulInt_eq (by omega) (by omega)
  have e3 : mulInt cx bytesPerPixel = cx * 4 :=
    show mulInt cx 4 = cx * 4 from mulInt_eq (by omega) (by omega)
  have e4 : addInt (((i : Int) + cy) * sB) (cx * 4) = ((i : Int) + cy) * sB + cx * 4 :=
    addInt_eq (by omega) (by omega)
  have e5 : mulInt cW bytesPerPixel = cW * 4 :=
    show mulInt cW 4 = cW * 4 from mulInt_eq (by omega) (by omega)
  have e6 : addInt (((i : Int) + cy) * sB + cx * 4) (cW * 4) =
      ((i : Int) + cy) * sB + cx * 4 + cW * 4 := addInt_eq (by omega) (by omega)
  have e7 : subInt (((i : Int) + cy) * sB + cx * 4 + cW * 4) (((i : Int) + cy) * sB + cx * 4) =
      cW * 4 := by
    rw [subInt_eq (by omega) (by omega)]
    omega
  have e8 : mulInt 0 bytesPerPixel = 0 := by decide
  have e9 : (((cW * 4).toNat : Nat) : Int) = 4 * cW := by
    rw [Int.toNat_of_nonneg (by omega)]
    omega
  unfold copyRow
  simp only [e1, e2, e3, e4, e5, e6, e7, e8]
  cases flipY with
  | false =>
    have d1 : addInt 0 (i : Int) = i := by
      rw [addInt_eq (by omega) (by omega)]
      omega
    have d2 : mulInt (i : Int) dB = i * dB := mulInt_eq (by omega) (by omega)
    have d3 : addInt ((i : Int) * dB) 0 = i * dB := by
      rw [addInt_eq (by omega) (by omega)]
      omega
    simp only [d1, d2, d3, Bool.false_eq_true, if_false]
    rw [copy_byte_loop srcAddr _ _ st g1 (by omega) (cW * 4).toNat (by rw [e9]; omega)
      (by rw [e9]; omega), e9]
  | true =>
    have d0 : subInt ch 1 = ch - 1 := subInt_eq (by omega) (by omega)
    have d0b : subInt (ch - 1) 0 = ch - 1 := by
      rw [subInt_eq (by omega) (by omega)]
      omega
    have d1 : subInt (ch - 1) (i : Int) = ch - 1 - i := subInt_eq (by omega) (by omega)
    have d2 : mulInt (ch - 1 - (i : Int)) dB = (ch - 1 - (i : Int)) * dB :=
      mulInt_eq (by omega) (by omega)
    have d3 : addInt ((ch - 1 - (i : Int)) * dB) 0 = (ch - 1 - (i : Int)) * dB := by
      rw [addInt_eq (by omega) (by omega)]
      omega
    simp only [d0, d0b, d1, d2, d3, if_true]
    rw [copy_byte_loop srcAddr _ _ st g1 (by omega) (cW * 4).toNat (by rw [e9]; omega)
      (by rw [e9]; omega), e9]

/-- A loop that writes one row per turn: the turn `i` writes the first `w` bytes
of the row `ρ i`, and no two turns write the same row. -/
theorem rows_loop (body : Int → CopyState → CopyState) (ρ : Int → Int)
    (hρ : ∀ a b, ρ a = ρ b → a = b) (dB w : Int) (hw : w ≤ dB) (f : Int → Int → Nat)
    (st0 : CopyState) :
    ∀ m : Nat,
      (∀ i : Nat, i < m → ∀ st, (body i st).copiedDataBuffer =
        fun p => if ρ i * dB ≤ p ∧ p < ρ i * dB + w then f i (p - ρ i * dB)
          else st.copiedDataBuffer p) →
      ∀ dy c : Int, 0 ≤ c → c < dB →
        (forRange m body st0).copiedDataBuffer (ρ dy * dB + c) =
          if 0 ≤ dy ∧ dy < m ∧ c < w then f dy c else st0.copiedDataBuffer (ρ dy * dB + c) := by
  intro m
  induction m with
  | zero =>
    intro _ dy c _ _
    rw [forRange_zero, if_neg]
    push_cast
    omega
  | succ n ih =>
    intro hbody dy c hc0 hc
    have ih1 := ih (fun i hi st => hbody i (by omega) st) dy c hc0 hc
    rw [forRange_succ, hbody n (by omega)]
    show (if _ then _ else _) = _
    push_cast
    by_cases hdy : dy = n
    · subst hdy
      by_cases hcw : c < w
      · have hR : 0 ≤ (n : Int) ∧ (n : Int) < (n : Int) + 1 ∧ c < w := by omega
        have e : ρ (n : Int) * dB + c - ρ (n : Int) * dB = c := by omega
        rw [if_pos hR, if_pos (by omega), e]
      · have hR : ¬ (0 ≤ (n : Int) ∧ (n : Int) < (n : Int) + 1 ∧ c < w) := by omega
        rw [if_neg hR, if_neg (by omega), ih1, if_neg (by omega)]
    · have hrow : ¬ (ρ (n : Int) * dB ≤ ρ dy * dB + c ∧ ρ dy * dB + c < ρ (n : Int) * dB + w) := by
        intro hh
        have h2 : ρ dy = ρ (n : Int) :=
          (in_row_iff dB (ρ dy) (ρ (n : Int)) c hc0 hc).1 ⟨hh.1, by omega⟩
        exact hdy (hρ _ _ h2)
      rw [if_neg hrow, ih1]
      by_cases hS : 0 ≤ dy ∧ dy < (n : Int) ∧ c < w
      · have hR : 0 ≤ dy ∧ dy < (n : Int) + 1 ∧ c < w := by omega
        rw [if_pos hS, if_pos hR]
      · have hR : ¬ (0 ≤ dy ∧ dy < (n : Int) + 1 ∧ c < w) := by omega
        rw [if_neg hS, if_neg hR]

/-- The copy loops of the constructor for a crop whose origin has no negative
coordinate, after `m` rows. -/
theorem copy_rows_loop (srcAddr : Buffer) (sB dB ch cx cy cW H : Int) (flipY : Bool)
    (hcx : 0 ≤ cx) (hcy : 0 ≤ cy) (hsB : 0 < sB) (hdB : 0 < dB) (hcW : 0 ≤ cW)
    (hcWd : 4 * cW ≤ dB) (hrow : cx * 4 + 4 * cW ≤ sB) (hsrc : H * sB ≤ 2147483644)
    (hdst : ch * dB ≤ 2147483647) (m : Nat) (hm : (m : Int) ≤ ch) (hmH : (m : Int) + cy ≤ H)
    (dy c : Int) (hc0 : 0 ≤ c) (hc : c < dB) :
    (forRange m (fun i st => copyRow srcAddr sB dB ch (cx, cy) (0, 0) cW flipY i st)
        ⟨fun _ => 0, []⟩).copiedDataBuffer
        ((if flipY then ch - 1 - dy else dy) * dB + c) =
      if 0 ≤ dy ∧ dy < m ∧ c < 4 * cW then srcAddr ((dy + cy) * sB + cx * 4 + exchanged c)
      else 0 := by
  have hρ : ∀ a b : Int, (fun x : Int => if flipY then ch - 1 - x else x) a =
      (fun x : Int => if flipY then ch - 1 - x else x) b → a = b := by
    intro a b hab
    cases flipY with
    | false => exact hab
    | true =>
      simp only [if_true] at hab
      omega
  exact rows_loop (fun i st => copyRow srcAddr sB dB ch (cx, cy) (0, 0) cW flipY i st)
    (fun x : Int => if flipY then ch - 1 - x else x) hρ dB (4 * cW) hcWd
    (fun i x => srcAddr ((i + cy) * sB + cx * 4 + exchanged x)) ⟨fun _ => 0, []⟩ m
    (fun i hi st => by
      have q1 : ((i : Int) + cy + 1) * sB ≤ H * sB := mul_row_le (by omega) (by omega)
      have q2 : ((i : Int) + cy + 1) * sB = ((i : Int) + cy) * sB + sB := by ring
      exact copyRow_buffer srcAddr sB dB ch cx cy cW flipY i st hcx hcy hsB hdB hcW hcWd
        (by omega) (by omega) hdst)
    dy c hc0 hc

theorem intersection_isEmpty (W H : Int) (cropRect : IntRect) (hW : 0 < W) (hH : 0 < H)
    (hWle : W ≤ 2147483647) (hHle : H ≤ 2147483647)
    (hx : 0 ≤ cropRect.x) (hy : 0 ≤ cropRect.y) (hw : 0 ≤ cropRect.width)
    (hh : 0 ≤ cropRect.height) (hmaxX : cropRect.x + cropRect.width ≤ 2147483647)
    (hmaxY : cropRect.y + cropRect.height ≤ 2147483647) :
    (intersection cropRect ⟨0, 0, W, H⟩).isEmpty = true ↔
      (W ≤ cropRect.x ∨ cropRect.width = 0) ∨ (H ≤ cropRect.y ∨ cropRect.height = 0) := by
  have e1 : addInt cropRect.x cropRect.width = cropRect.x + cropRect.width :=
    addInt_eq (by omega) (by omega)
  have e2 : addInt cropRect.y cropRect.height = cropRect.y + cropRect.height :=
    addInt_eq (by omega) (by omega)
  have e3 : addInt 0 W = W := by
    rw [addInt_eq (by omega) (by omega)]
    omega
  have e4 : addInt 0 H = H := by
    rw [addInt_eq (by omega) (by omega)]
    omega
  unfold intersection
  simp only [IntRect.maxX, IntRect.maxY, e1, e2, e3, e4]
  by_cases hE : max cropRect.x 0 ≥ min (cropRect.x + cropRect.width) W ∨
      max cropRect.y 0 ≥ min (cropRect.y + cropRect.height) H
  · have hb : (decide (max cropRect.x 0 ≥ min (cropRect.x + cropRect.width) W) ||
        decide (max cropRect.y 0 ≥ min (cropRect.y + cropRect.height) H)) = true := by
      simpa using hE
    rw [if_pos hb]
    constructor
    · intro _
      omega
    · intro _
      decide
  · have hb : ¬ ((decide (max cropRect.x 0 ≥ min (cropRect.x + cropRect.width) W) ||
        decide (max cropRect.y 0 ≥ min (cropRect.y + cropRect.height) H)) = true) := by
      simpa using hE
    rw [if_neg hb]
    have s1 : subInt (min (cropRect.x + cropRect.width) W) (max cropRect.x 0) =
        min (cropRect.x + cropRect.width) W - max cropRect.x 0 :=
      subInt_eq (by omega) (by omega)
    have s2 : subInt (min (cropRect.y + cropRect.height) H) (max cropRect.y 0) =
        min (cropRect.y + cropRect.height) H - max cropRect.y 0 :=
      subInt_eq (by omega) (by omega)
    simp only [IntRect.isEmpty, s1, s2, Bool.or_eq_true, decide_eq_true_eq]
    omega

theorem le_mul_of_pos_left {a b : Int} (ha : 0 ≤ a) (hb : 0 < b) : a ≤ b * a := by
  have := le_mul_of_pos ha hb
  rw [mul_comm] at this
  exact this

/-- The partial-crop path of the constructor
`ImageBitmap(ImageData*, cropRect, options)` for an image that is not
premultiplied, as long as no size overflows: for an `ImageData` of positive size
and a crop rectangle of non-negative origin and size, the sizes in bytes and the
far corner being values of `int`, the byte `b` of the destination pixel
`(dx, dy)`, which is in the row `dy` without `flipY` and in the row
`dstHeight - 1 - dy` with `flipY`, is the byte of the source pixel
`(cropRect.x + dx, cropRect.y + dy)` with the bytes 0 and 2 exchanged when that
pixel lies inside the `ImageData`, and is 0 otherwise. -/
theorem constructFromImageData_partial_crop (data : ImageData) (cropRect : IntRect)
    (flipY : Bool) (hW : 0 < data.width) (hH : 0 < data.height)
    (hsrc : data.height * (4 * data.width) ≤ 2147483647)
    (hx : 0 ≤ cropRect.x) (hy : 0 ≤ cropRect.y) (hw : 0 ≤ cropRect.width)
    (hh : 0 ≤ cropRect.height) (hmaxX : cropRect.x + cropRect.width ≤ 2147483647)
    (hmaxY : cropRect.y + cropRect.height ≤ 2147483647)
    (hdst : cropRect.height * (4 * cropRect.width) ≤ 2147483647)
    (hcrop : cropRect ≠ ⟨0, 0, data.width, data.height⟩)
    (dx dy b : Int) (hdx0 : 0 ≤ dx) (hdx : dx < cropRect.width) (hdy0 : 0 ≤ dy)
    (hdy : dy < cropRect.height) (hb0 : 0 ≤ b) (hb : b < 4) :
    (constructFromImageData data cropRect flipY).imagePixels
        ((if flipY then cropRect.height - 1 - dy else dy) * (4 * cropRect.width) +
          (4 * dx + b)) =
      if cropRect.x + dx < data.width ∧ cropRect.y + dy < data.height then
        data.data ((cropRect.y + dy) * (4 * data.width) + (4 * (cropRect.x + dx) + exchanged b))
      else 0 := by
  obtain ⟨cx, cy, cw, ch⟩ := cropRect
  obtain ⟨W, H, src⟩ := data
  simp only at hW hH hsrc hx hy hw hh hmaxX hmaxY hdst hdx hdy hcrop ⊢
  have q1 : 4 * W ≤ H * (4 * W) := le_mul_of_pos_left (by omega) hH
  have q2 : H ≤ H * (4 * W) := le_mul_of_pos (by omega) (by omega)
  have q3 : H * (4 * W) = 4 * (H * W) := by ring
  have hempty := intersection_isEmpty W H ⟨cx, cy, cw, ch⟩ hW hH (by omega) (by omega) hx hy hw
    hh hmaxX hmaxY
  simp only at hempty
  unfold constructFromImageData
  simp only
  rw [if_neg hcrop]
  by_cases hE : (intersection ⟨cx, cy, cw, ch⟩ ⟨0, 0, W, H⟩).isEmpty = true
  · have hcond : ¬ (cx + dx < W ∧ cy + dy < H) := by
      have := hempty.1 hE
      omega
    rw [hE, if_neg hcond]
    rfl
  · have hne : ¬ ((W ≤ cx ∨ cw = 0) ∨ (H ≤ cy ∨ ch = 0)) := fun hh2 => hE (hempty.2 hh2)
    have hEf : (intersection ⟨cx, cy, cw, ch⟩ ⟨0, 0, W, H⟩).isEmpty = false := by
      cases hv : (intersection ⟨cx, cy, cw, ch⟩ ⟨0, 0, W, H⟩).isEmpty with
      | false => rfl
      | true => exact absurd hv hE
    have q4 : 4 * cw ≤ ch * (4 * cw) := le_mul_of_pos_left (by omega) (by omega)
    have s1 : (if cx > 0 then cx else 0) = cx := by
      by_cases h0 : cx > 0
      · rw [if_pos h0]
      · rw [if_neg h0]
        omega
    have s2 : (if cy > 0 then cy else 0) = cy := by
      by_cases h0 : cy > 0
      · rw [if_pos h0]
      · rw [if_neg h0]
        omega
    have s3 : (if cx ≥ 0 then 0 else negInt cx) = 0 := if_pos hx
    have s4 : (if cy ≥ 0 then 0 else negInt cy) = 0 := if_pos hy
    have s5 : subInt H cy = H - cy := subInt_eq (by omega) (by omega)
    have s6 : subInt W cx = W - cx := subInt_eq (by omega) (by omega)
    have s7 : mulInt bytesPerPixel W = 4 * W :=
      show mulInt 4 W = 4 * W from mulInt_eq (by omega) (by omega)
    have s8 : mulInt bytesPerPixel cw = 4 * cw :=
      show mulInt 4 cw = 4 * cw from mulInt_eq (by omega) (by omega)
    rw [hEf]
    simp only [Bool.not_false, if_true, copyCroppedData, s1, s2, s3, s4, s5, s6, s7, s8]
    have hcH : (((if ch < H - cy then ch else H - cy).toNat : Nat) : Int) =
        if ch < H - cy then ch else H - cy := by
      apply Int.toNat_of_nonneg
      by_cases h0 : ch < H - cy
      · rw [if_pos h0]
        omega
      · rw [if_neg h0]
        omega
    have hcHle : (if ch < H - cy then ch else H - cy) ≤ ch ∧
        (if ch < H - cy then ch else H - cy) + cy ≤ H ∧
        (dy < (if ch < H - cy then ch else H - cy) ↔ cy + dy < H) := by
      by_cases h0 : ch < H - cy
      · rw [if_pos h0]
        omega
      · rw [if_neg h0]
        omega
    have hcW : 0 ≤ (if cw < W - cx then cw else W - cx) ∧
        (if cw < W - cx then cw else W - cx) ≤ cw ∧
        (if cw < W - cx then cw else W - cx) ≤ W - cx ∧
        (dx < (if cw < W - cx then cw else W - cx) ↔ cx + dx < W) := by
      by_cases h0 : cw < W - cx
      · rw [if_pos h0]
        omega
      · rw [if_neg h0]
        omega
    rw [copy_rows_loop src (4 * W) (4 * cw) ch cx cy (if cw < W - cx then cw else W - cx) H
      flipY hx hy (by omega) (by omega) hcW.1 (by omega) (by omega) (by omega) hdst _
      (by rw [hcH]; exact hcHle.1) (by rw [hcH]; exact hcHle.2.1) dy (4 * dx + b) (by omega)
      (by omega), hcH]
    have hx4 : exchanged (4 * dx + b) = 4 * dx + exchanged b := by
      have h1 := exchanged_spec (4 * dx + b)
      have h2 := exchanged_spec b
      omega
    have hadd : (cy + dy) * (4 * W) = (dy + cy) * (4 * W) := by rw [add_comm]
    by_cases hin : cx + dx < W ∧ cy + dy < H
    · have hc4 := hcW.2.2.2.2 hin.1
      rw [if_pos hin, if_pos ⟨hdy0, hcHle.2.2.2 hin.2, by omega⟩, hx4, hadd]
      exact congrArg src (by omega)
    · rw [if_neg hin, if_neg]
      intro h3
      apply hin
      exact ⟨hcW.2.2.2.1 (by omega), hcHle.2.2.1 h3.2.1⟩

/-! ## Claims on `swizzleImageData` and the constructor -/

/-- C24 (the code at the failing input): for the `ImageData` of 2 x 2 pixels and
the crop rectangle `(-1, -1, 2, 2)`, whose intersection with the data is not
empty, `copiedDataBuffer` has 16 bytes; without `flipY` the copy loops write
the positions 12 to 27 of it, with `flipY` the positions 4 to 11 and -4 to 3;
the positions read in the source are inside its 16 bytes. -/
theorem copy_writes_outside_copiedDataBuffer :
    (intersection ⟨-1, -1, 2, 2⟩ ⟨0, 0, dataTwoByTwo.width, dataTwoByTwo.height⟩).isEmpty = false ∧
    copiedDataBufferLength ⟨-1, -1, 2, 2⟩ = 16 ∧
    (constructFromImageData dataTwoByTwo ⟨-1, -1, 2, 2⟩ false).accesses.map Prod.fst =
      [12, 13, 14, 15, 16, 17, 18, 19, 20, 21, 22, 23, 24, 25, 26, 27] ∧
    (constructFromImageData dataTwoByTwo ⟨-1, -1, 2, 2⟩ true).accesses.map Prod.fst =
      [4, 5, 6, 7, 8, 9, 10, 11, -4, -3, -2, -1, 0, 1, 2, 3] ∧
    (constructFromImageData dataTwoByTwo ⟨-1, -1, 2, 2⟩ false).accesses.map Prod.snd =
      [2, 1, 0, 3, 6, 5, 4, 7, 10, 9, 8, 11, 14, 13, 12, 15] := by
  refine ⟨by decide, by decide, by decide, by decide, by decide⟩

/-- C27 (the code at the failing input): for the `ImageData` of one pixel
`[10, 20, 30, 40]` and the crop rectangle `(0, 0, 65536, 65536)`, whose
intersection with the data is not empty, the size
`dstHeight * dstPixelBytesPerRow` of `copiedDataBuffer` wraps to 0; with `flipY`
the row position `(dstHeight - 1) * dstPixelBytesPerRow` wraps to -262144, where
the four bytes are written, and the byte 0 of the destination pixel `(0, 0)`, in
the row `dstHeight - 1`, is 0 and not the byte 2 of the source pixel, 30;
without `flipY` the positions 0 to 3 of the empty buffer are written. -/
theorem constructFromImageData_size_overflow :
    (intersection ⟨0, 0, 65536, 65536⟩ ⟨0, 0, dataOnePixel.width, dataOnePixel.height⟩).isEmpty
      = false ∧
    copiedDataBufferLength ⟨0, 0, 65536, 65536⟩ = 0 ∧
    (constructFromImageData dataOnePixel ⟨0, 0, 65536, 65536⟩ true).accesses.map Prod.fst =
      [-262144, -262143, -262142, -262141] ∧
    (constructFromImageData dataOnePixel ⟨0, 0, 65536, 65536⟩ true).imagePixels
      ((65536 - 1 - 0) * (4 * 65536) + (4 * 0 + 0)) = 0 ∧
    dataOnePixel.data ((0 + 0) * (4 * 1) + (4 * (0 + 0) + exchanged 0)) = 30 ∧
    (constructFromImageData dataOnePixel ⟨0, 0, 65536, 65536⟩ false).accesses.map Prod.fst =
      [0, 1, 2, 3] := by
  refine ⟨by decide, by decide, by decide, by decide, by decide, by decide⟩

/-- C25 (the code at the failing input): with `flipY`, `swizzleImageData` leaves
a buffer of one row of one pixel as it is, where without `flipY` the bytes 0 and
2 of the pixel change places; in a buffer of three rows of one pixel the first
and the last row change places with their bytes 0 and 2 exchanged, and the
middle row keeps the bytes of the input in their order. -/
theorem swizzleImageData_flipY_leaves_middle_row :
    (List.range 4).map (fun p => swizzleImageData (bufferOf [1, 2, 3, 4]) 1 4 true p) =
      [1, 2, 3, 4] ∧
    (List.range 4).map (fun p => swizzleImageData (bufferOf [1, 2, 3, 4]) 1 4 false p) =
      [3, 2, 1, 4] ∧
    (List.range 12).map
        (fun p => swizzleImageData (bufferOf [1, 2, 3, 4, 5, 6, 7, 8, 9, 10, 11, 12]) 3 4 true p) =
      [11, 10, 9, 12, 5, 6, 7, 8, 3, 2, 1, 4] := by
  refine ⟨by decide, by decide, by decide⟩

/-- C26: for every buffer, every `height`, every `bytesPerRow` that is a multiple
of 4 and both values of `flipY`, the size `height * bytesPerRow` of a buffer of
positive height and width being a value of `int`: `swizzleImageData` applied
twice with the same arguments gives the buffer back byte for byte, and so the
full-size path of the constructor leaves the buffer of its `ImageData` as it
was. -/
theorem swizzleImageData_twice (buf : Buffer) (height bytesPerRow : Int) (flipY : Bool)
    (h4 : bytesPerRow % 4 = 0)
    (hsize : 0 < height → 0 < bytesPerRow → height * bytesPerRow ≤ 2147483647) :
    swizzleImageData (swizzleImageData buf height bytesPerRow flipY) height bytesPerRow flipY =
        buf ∧
      ∀ data : ImageData, data.data = buf → data.height = height →
        mulInt bytesPerPixel data.width = bytesPerRow →
        (constructFromImageData data ⟨0, 0, data.width, data.height⟩ flipY).data = data.data := by
  have h1 : swizzleImageData (swizzleImageData buf height bytesPerRow flipY) height bytesPerRow
      flipY = buf := by
    cases flipY with
    | false => exact swizzleImageData_plain_twice buf height bytesPerRow
    | true => exact swizzleImageData_flip_twice buf height bytesPerRow h4 hsize
  refine ⟨h1, ?_⟩
  intro data hd hh hb
  unfold constructFromImageData
  simp only [if_true]
  rw [hd, hh, hb, h1]

theorem swizzleImageData_twice_witness :
    swizzleImageData (swizzleImageData dataTwoByTwo.data 2 8 true) 2 8 true = dataTwoByTwo.data ∧
      (constructFromImageData dataTwoByTwo ⟨0, 0, 2, 2⟩ true).data = dataTwoByTwo.data :=
  ⟨(swizzleImageData_twice dataTwoByTwo.data 2 8 true (by decide) (fun _ _ => by decide)).1,
    (swizzleImageData_twice dataTwoByTwo.data 2 8 true (by decide) (fun _ _ => by decide)).2
      dataTwoByTwo rfl rfl (by decide)⟩

theorem constructFromImageData_partial_crop_witness :
    (constructFromImageData dataTwoByTwo ⟨1, 0, 2, 2⟩ true).imagePixels 8 = 7 ∧
      (constructFromImageData dataTwoByTwo ⟨1, 0, 2, 2⟩ true).imagePixels 12 = 0 :=
  ⟨constructFromImageData_partial_crop dataTwoByTwo ⟨1, 0, 2, 2⟩ true (by decide) (by decide)
      (by decide) (by decide) (by decide) (by decide) (by decide) (by decide) (by decide)
      (by decide) (by decide) 0 0 0 (by decide) (by decide) (by decide) (by decide) (by decide)
      (by decide),
    constructFromImageData_partial_crop dataTwoByTwo ⟨1, 0, 2, 2⟩ true (by decide) (by decide)
      (by decide) (by decide) (by decide) (by decide) (by decide) (by decide) (by decide)
      (by decide) (by decide) 1 0 0 (by decide) (by decide) (by decide) (by decide) (by decide)
      (by decide)⟩

/-! ## The accesses of the copy loops -/

/-- A property that every turn of a loop keeps holds after the loop. -/
theorem forRange_invariant {σ : Type} (P : σ → Prop) (body : Int → σ → σ) (s : σ) (hs : P s) :
    ∀ n : Nat, (∀ k : Nat, k < n → ∀ t, P t → P (body k t)) → P (forRange n body s) := by
  intro n
  induction n with
  | zero => intro _; exact hs
  | succ n ih =>
    intro h
    rw [forRange_succ]
    exact h n (by omega) _ (ih (fun k hk t ht => h k (by omega) t ht))

theorem copyByte_accesses (srcAddr : Buffer) (s d : Int) (k : Nat) (st : CopyState)
    (hs : 0 ≤ s) (hsk : s + k + 2 ≤ 2147483647) :
    (copyByte srcAddr s d k st).accesses = st.accesses ++ [(addInt d k, s + exchanged k)] := by
  unfold copyByte
  have e2 : addInt s k = s + k := addInt_eq (by omega) (by omega)
  have e3 : Int.tmod (k : Int) 4 = (k : Int) % 4 := Int.tmod_eq_emod (by omega) (by omega)
  have hx := exchanged_spec (k : Int)
  simp only [e2, e3]
  by_cases h0 : (k : Int) % 4 = 0
  · rw [if_pos h0, @addInt_eq (s + k) 2 (by omega) (by omega)]
    exact congrArg (fun x => st.accesses ++ [(addInt d k, x)]) (by omega)
  · rw [if_neg h0]
    by_cases h2 : (k : Int) % 4 = 2
    · rw [if_pos h2, subInt_eq (by omega) (by omega)]
      exact congrArg (fun x => st.accesses ++ [(addInt d k, x)]) (by omega)
    · rw [if_neg h2]
      exact congrArg (fun x => st.accesses ++ [(addInt d k, x)]) (by omega)

/-- The accesses of the inner copy loop of the constructor: the turn `k` writes
the position `dstStartCopyPosition + k` and reads the position of the byte `k`
of the source row, the bytes 0 and 2 of every pixel exchanged. -/
theorem copy_byte_loop_accesses (srcAddr : Buffer) (s d : Int) (st : CopyState)
    (Q : Int × Int → Prop) (hs : 0 ≤ s) (n : Nat) (hn : s + n + 1 ≤ 2147483647)
    (hst : ∀ a ∈ st.accesses, Q a)
    (hk : ∀ k : Nat, k < n → Q (addInt d k, s + exchanged k)) :
    ∀ a ∈ (forRange n (fun j st => copyByte srcAddr s d j st) st).accesses, Q a := by
  apply forRange_invariant (fun t : CopyState => ∀ a ∈ t.accesses, Q a) _ st hst n
  intro k hkn t ht a ha
  rw [copyByte_accesses srcAddr s d k t hs (by omega)] at ha
  rcases List.mem_append.1 ha with h | h
  · exact ht a h
  · rw [List.mem_singleton] at h
    rw [h]
    exact hk k hkn

/-- The positions read by one turn of the outer copy loop of the constructor
lie in the part of the source row that is copied, wherever the row is written. -/
theorem copyRow_reads (srcAddr : Buffer) (sB dB ch sx sy cW : Int) (dstPoint : Int × Int)
    (flipY : Bool) (i : Nat) (st : CopyState) (P : Int → Prop) (hsx : 0 ≤ sx) (hsy : 0 ≤ sy)
    (hsB : 0 < sB) (hcW : 0 ≤ cW)
    (hsrc : ((i : Int) + sy) * sB + sx * 4 + 4 * cW ≤ 2147483644)
    (hst : ∀ a ∈ st.accesses, P a.2)
    (hP : ∀ x, ((i : Int) + sy) * sB + sx * 4 ≤ x →
      x < ((i : Int) + sy) * sB + sx * 4 + 4 * cW → P x) :
    ∀ a ∈ (copyRow srcAddr sB dB ch (sx, sy) dstPoint cW flipY i st).accesses, P a.2 := by
  have p1 : (i : Int) + sy ≤ ((i : Int) + sy) * sB := le_mul_of_pos (by omega) hsB
  have g1 : (0 : Int) ≤ ((i : Int) + sy) * sB + sx * 4 := by omega
  have e1 : addInt i sy = i + sy := addInt_eq (by omega) (by omega)
  have e2 : mulInt ((i : Int) + sy) sB = ((i : Int) + sy) * sB := mulInt_eq (by omega) (by omega)
  have e3 : mulInt sx bytesPerPixel = sx * 4 :=
    show mulInt sx 4 = sx * 4 from mulInt_eq (by omega) (by omega)
  have e4 : addInt (((i : Int) + sy) * sB) (sx * 4) = ((i : Int) + sy) * sB + sx * 4 :=
    addInt_eq (by omega) (by omega)
  have e5 : mulInt cW bytesPerPixel = cW * 4 :=
    show mulInt cW 4 = cW * 4 from mulInt_eq (by omega) (by omega)
  have e6 : addInt (((i : Int) + sy) * sB + sx * 4) (cW * 4) =
      ((i : Int) + sy) * sB + sx * 4 + cW * 4 := addInt_eq (by omega) (by omega)
  have e7 : subInt (((i : Int) + sy) * sB + sx * 4 + cW * 4) (((i : Int) + sy) * sB + sx * 4) =
      cW * 4 := by
    rw [subInt_eq (by omega) (by omega)]
    omega
  have e9 : (((cW * 4).toNat : Nat) : Int) = 4 * cW := by
    rw [Int.toNat_of_nonneg (by omega)]
    omega
  unfold copyRow
  simp only [e1, e2, e3, e4, e5, e6, e7]
  apply copy_byte_loop_accesses srcAddr _ _ st (fun a => P a.2) g1 (cW * 4).toNat
    (by rw [e9]; omega) hst
  intro k hk
  have hk2 : (k : Int) < 4 * cW := by
    rw [← e9]
    exact Int.ofNat_lt.2 hk
  have hx := exchanged_lt (by omega : (4 * cW) % 4 = 0) (by omega : (0 : Int) ≤ k) hk2
  exact hP _ (by omega) (by omega)

/-- The positions written by one turn of the outer copy loop of the constructor
for a crop whose origin has no negative coordinate lie in the first
`4 * copyWidth` bytes of the destination row. -/
theorem copyRow_writes (srcAddr : Buffer) (sB dB ch cx cy cW : Int) (flipY : Bool) (i : Nat)
    (st : CopyState) (P : Int → Prop) (hcx : 0 ≤ cx) (hcy : 0 ≤ cy) (hsB : 0 < sB)
    (hdB : 0 < dB) (hcW : 0 ≤ cW) (hcWd : 4 * cW ≤ dB) (hi : (i : Int) < ch)
    (hsrc : ((i : Int) + cy) * sB + cx * 4 + 4 * cW ≤ 2147483644)
    (hdst : ch * dB ≤ 2147483647) (hst : ∀ a ∈ st.accesses, P a.1)
    (hP : ∀ x, (if flipY then ch - 1 - (i : Int) else (i : Int)) * dB ≤ x →
      x < (if flipY then ch - 1 - (i : Int) else (i : Int)) * dB + 4 * cW → P x) :
    ∀ a ∈ (copyRow srcAddr sB dB ch (cx, cy) (0, 0) cW flipY i st).accesses, P a.1 := by
  have p1 : (i : Int) + cy ≤ ((i : Int) + cy) * sB := le_mul_of_pos (by omega) hsB
  have p2 : ch ≤ ch * dB := le_mul_of_pos (by omega) hdB
  have p3 : 0 ≤ (i : Int) * dB := Int.mul_nonneg (by omega) (by omega)
  have p4 : ((i : Int) + 1) * dB ≤ ch * dB := mul_row_le (by omega) (by omega)
  have p5 : ((i : Int) + 1) * dB = (i : Int) * dB + dB := by ring
  have p6 : 0 ≤ (ch - 1 - (i : Int)) * dB := Int.mul_nonneg (by omega) (by omega)
  have p7 : (ch - 1 - (i : Int) + 1) * dB ≤ ch * dB := mul_row_le (by omega) (by omega)
  have p8 : (ch - 1 - (i : Int) + 1) * dB = (ch - 1 - (i : Int)) * dB + dB := by ring
  have g1 : (0 : Int) ≤ ((i : Int) + cy) * sB + cx * 4 := by omega
  have e1 : addInt i cy = i + cy := addInt_eq (by omega) (by omega)
  have e2 : mulInt ((i : Int) + cy) sB = ((i : Int) + cy) * sB := mulInt_eq (by omega) (by omega)
  have e3 : mulInt cx bytesPerPixel = cx * 4 :=
    show mulInt cx 4 = cx * 4 from mulInt_eq (by omega) (by omega)
  have e4 : addInt (((i : Int) + cy) * sB) (cx * 4) = ((i : Int) + cy) * sB + cx * 4 :=
    addInt_eq (by omega) (by omega)
  have e5 : mulInt cW bytesPerPixel = cW * 4 :=
    show mulInt cW 4 = cW * 4 from mulInt_eq (by omega) (by omega)
  have e6 : addInt (((i : Int) + cy) * sB + cx * 4) (cW * 4) =
      ((i : Int) + cy) * sB + cx * 4 + cW * 4 := addInt_eq (by omega) (by omega)
  have e7 : subInt (((i : Int) + cy) * sB + cx * 4 + cW * 4) (((i : Int) + cy) * sB + cx * 4) =
      cW * 4 := by
    rw [subInt_eq (by omega) (by omega)]
    omega
  have e8 : mulInt 0 bytesPerPixel = 0 := by decide
  have e9 : (((cW * 4).toNat : Nat) : Int) = 4 * cW := by
    rw [Int.toNat_of_nonneg (by omega)]
    omega
  have hkn : ∀ k : Nat, k < (cW * 4).toNat → (k : Int) < 4 * cW := by
    intro k hk
    rw [← e9]
    exact Int.ofNat_lt.2 hk
  unfold copyRow
  simp only [e1, e2, e3, e4, e5, e6, e7, e8]
  cases flipY with
  | false =>
    have d1 : addInt 0 (i : Int) = i := by
      rw [addInt_eq (by omega) (by omega)]
      omega
    have d2 : mulInt (i : Int) dB = i * dB := mulInt_eq (by omega) (by omega)
    have d3 : addInt ((i : Int) * dB) 0 = i * dB := by
      rw [addInt_eq (by omega) (by omega)]
      omega
    simp only [d1, d2, d3, Bool.false_eq_true, if_false] at hP ⊢
    apply copy_byte_loop_accesses srcAddr _ _ st (fun a => P a.1) g1 (cW * 4).toNat
      (by rw [e9]; omega) hst
    intro k hk
    have hk2 := hkn k hk
    have d4 : addInt ((i : Int) * dB) k = i * dB + k := addInt_eq (by omega) (by omega)
    rw [d4]
    exact hP _ (by omega) (by omega)
  | true =>
    have d0 : subInt ch 1 = ch - 1 := subInt_eq (by omega) (by omega)
    have d0b : subInt (ch - 1) 0 = ch - 1 := by
      rw [subInt_eq (by omega) (by omega)]
      omega
    have d1 : subInt (ch - 1) (i : Int) = ch - 1 - i := subInt_eq (by omega) (by omega)
    have d2 : mulInt (ch - 1 - (i : Int)) dB = (ch - 1 - (i : Int)) * dB :=
      mulInt_eq (by omega) (by omega)
    have d3 : addInt ((ch - 1 - (i : Int)) * dB) 0 = (ch - 1 - (i : Int)) * dB := by
      rw [addInt_eq (by omega) (by omega)]
      omega
    simp only [d0, d0b, d1, d2, d3, if_true] at hP ⊢
    apply copy_byte_loop_accesses srcAddr _ _ st (fun a => P a.1) g1 (cW * 4).toNat
      (by rw [e9]; omega) hst
    intro k hk
    have hk2 := hkn k hk
    have d4 : addInt ((ch - 1 - (i : Int)) * dB) k = (ch - 1 - (i : Int)) * dB + k :=
      addInt_eq (by omega) (by omega)
    rw [d4]
    exact hP _ (by omega) (by omega)

/-- When the intersection of a normalized crop rectangle with the rectangle of
the data is empty. -/
theorem intersection_isEmpty_iff (W H : Int) (cropRect : IntRect) (hW : 0 < W) (hH : 0 < H)
    (hWle : W ≤ 2147483647) (hHle : H ≤ 2147483647)
    (hx : -2147483648 ≤ cropRect.x) (hy : -2147483648 ≤ cropRect.y)
    (hw : 0 ≤ cropRect.width) (hh : 0 ≤ cropRect.height)
    (hmaxX : cropRect.x + cropRect.width ≤ 2147483647)
    (hmaxY : cropRect.y + cropRect.height ≤ 2147483647) :
    (intersection cropRect ⟨0, 0, W, H⟩).isEmpty = true ↔
      (max cropRect.x 0 ≥ min (cropRect.x + cropRect.width) W ∨
        max cropRect.y 0 ≥ min (cropRect.y + cropRect.height) H) := by
  have e1 : addInt cropRect.x cropRect.width = cropRect.x + cropRect.width :=
    toInt32_of_inInt32 ⟨by omega, by omega⟩
  have e2 : addInt cropRect.y cropRect.height = cropRect.y + cropRect.height :=
    toInt32_of_inInt32 ⟨by omega, by omega⟩
  have e3 : addInt 0 W = W := by
    rw [addInt_eq (by omega) (by omega)]
    omega
  have e4 : addInt 0 H = H := by
    rw [addInt_eq (by omega) (by omega)]
    omega
  unfold intersection
  simp only [IntRect.maxX, IntRect.maxY, e1, e2, e3, e4]
  by_cases hE : max cropRect.x 0 ≥ min (cropRect.x + cropRect.width) W ∨
      max cropRect.y 0 ≥ min (cropRect.y + cropRect.height) H
  · have hb : (decide (max cropRect.x 0 ≥ min (cropRect.x + cropRect.width) W) ||
        decide (max cropRect.y 0 ≥ min (cropRect.y + cropRect.height) H)) = true := by
      simpa using hE
    rw [if_pos hb]
    constructor
    · intro _
      exact hE
    · intro _
      decide
  · have hb : ¬ ((decide (max cropRect.x 0 ≥ min (cropRect.x + cropRect.width) W) ||
        decide (max cropRect.y 0 ≥ min (cropRect.y + cropRect.height) H)) = true) := by
      simpa using hE
    rw [if_neg hb]
    have s1 : subInt (min (cropRect.x + cropRect.width) W) (max cropRect.x 0) =
        min (cropRect.x + cropRect.width) W - max cropRect.x 0 :=
      subInt_eq (by omega) (by omega)
    have s2 : subInt (min (cropRect.y + cropRect.height) H) (max cropRect.y 0) =
        min (cropRect.y + cropRect.height) H - max cropRect.y 0 :=
      subInt_eq (by omega) (by omega)
    simp only [IntRect.isEmpty, s1, s2, Bool.or_eq_true, decide_eq_true_eq]
    omega

/-- The copy loops of the constructor read inside the buffer of the `ImageData`:
for every `ImageData` of positive size and every normalized crop rectangle,
whatever its origin, with and without `flipY`, every position read in the source
lies in `[0, height * 4 * width)`. -/
theorem constructFromImageData_reads_inside (data : ImageData) (cropRect : IntRect)
    (flipY : Bool) (hW : 0 < data.width) (hH : 0 < data.height)
    (hsrc : data.height * (4 * data.width) ≤ 2147483647)
    (hx : -2147483648 ≤ cropRect.x) (hy : -2147483648 ≤ cropRect.y)
    (hw : 0 ≤ cropRect.width) (hh : 0 ≤ cropRect.height)
    (hmaxX : cropRect.x + cropRect.width ≤ 2147483647)
    (hmaxY : cropRect.y + cropRect.height ≤ 2147483647) :
    ∀ a ∈ (constructFromImageData data cropRect flipY).accesses,
      0 ≤ a.2 ∧ a.2 < data.height * (4 * data.width) := by
  obtain ⟨cx, cy, cw, ch⟩ := cropRect
  obtain ⟨W, H, src⟩ := data
  simp only at hW hH hsrc hx hy hw hh hmaxX hmaxY ⊢
  have q1 : 4 * W ≤ H * (4 * W) := le_mul_of_pos_left (by omega) hH
  have q2 : H ≤ H * (4 * W) := le_mul_of_pos (by omega) (by omega)
  have q3 : H * (4 * W) = 4 * (H * W) := by ring
  have hempty := intersection_isEmpty_iff W H ⟨cx, cy, cw, ch⟩ hW hH (by omega) (by omega) hx hy
    hw hh hmaxX hmaxY
  simp only at hempty
  unfold constructFromImageData
  simp only
  by_cases hfull : (⟨cx, cy, cw, ch⟩ : IntRect) = ⟨0, 0, W, H⟩
  · rw [if_pos hfull]
    intro a ha
    exact absurd ha (List.not_mem_nil a)
  · rw [if_neg hfull]
    by_cases hE : (intersection ⟨cx, cy, cw, ch⟩ ⟨0, 0, W, H⟩).isEmpty = true
    · rw [hE]
      intro a ha
      exact absurd ha (List.not_mem_nil a)
    · have hne : ¬ (max cx 0 ≥ min (cx + cw) W ∨ max cy 0 ≥ min (cy + ch) H) :=
        fun hh2 => hE (hempty.2 hh2)
      have hEf : (intersection ⟨cx, cy, cw, ch⟩ ⟨0, 0, W, H⟩).isEmpty = false := by
        cases hv : (intersection ⟨cx, cy, cw, ch⟩ ⟨0, 0, W, H⟩).isEmpty with
        | false => rfl
        | true => exact absurd hv hE
      have s1 : (if cx > 0 then cx else 0) = max cx 0 := by
        by_cases h0 : cx > 0
        · rw [if_pos h0]
          omega
        · rw [if_neg h0]
          omega
      have s2 : (if cy > 0 then cy else 0) = max cy 0 := by
        by_cases h0 : cy > 0
        · rw [if_pos h0]
          omega
        · rw [if_neg h0]
          omega
      have s5 : subInt H (max cy 0) = H - max cy 0 := subInt_eq (by omega) (by omega)
      have s6 : subInt W (max cx 0) = W - max cx 0 := subInt_eq (by omega) (by omega)
      have s7 : mulInt bytesPerPixel W = 4 * W :=
        show mulInt 4 W = 4 * W from mulInt_eq (by omega) (by omega)
      rw [hEf]
      simp only [Bool.not_false, if_true, copyCroppedData, s1, s2, s5, s6, s7]
      have hcH : ∀ i : Nat,
          i < (if ch < H - max cy 0 then ch else H - max cy 0).toNat →
            (i : Int) + max cy 0 + 1 ≤ H := by
        intro i hi
        have h2 := (Int.lt_toNat).1 hi
        by_cases h0 : ch < H - max cy 0
        · rw [if_pos h0] at h2
          omega
        · rw [if_neg h0] at h2
          omega
      have hcW : 0 ≤ (if cw < W - max cx 0 then cw else W - max cx 0) ∧
          (if cw < W - max cx 0 then cw else W - max cx 0) ≤ W - max cx 0 := by
        by_cases h0 : cw < W - max cx 0
        · rw [if_pos h0]
          omega
        · rw [if_neg h0]
          omega
      apply forRange_invariant
        (fun t : CopyState => ∀ a ∈ t.accesses, 0 ≤ a.2 ∧ a.2 < H * (4 * W)) _ _
        (fun a ha => absurd ha (List.not_mem_nil a))
      intro i hi t ht
      have hrow := hcH i hi
      have r1 : ((i : Int) + max cy 0 + 1) * (4 * W) ≤ H * (4 * W) :=
        mul_row_le (by omega) hrow
      have r2 : ((i : Int) + max cy 0 + 1) * (4 * W) =
          ((i : Int) + max cy 0) * (4 * W) + 4 * W := by ring
      have r3 : 0 ≤ ((i : Int) + max cy 0) * (4 * W) :=
        Int.mul_nonneg (by omega) (by omega)
      exact copyRow_reads src (4 * W) _ ch (max cx 0) (max cy 0) _ _ flipY i t
        (fun x => 0 ≤ x ∧ x < H * (4 * W)) (by omega) (by omega) (by omega) hcW.1 (by omega) ht
        (fun x hx1 hx2 => ⟨by omega, by omega⟩)

/-- The copy loops of the constructor write inside `copiedDataBuffer` when the
origin of the crop rectangle has no negative coordinate: for every `ImageData`
of positive size and every such crop rectangle of non-negative size, with and
without `flipY`, every position written lies in
`[0, dstHeight * dstPixelBytesPerRow)`. -/
theorem constructFromImageData_writes_inside (data : ImageData) (cropRect : IntRect)
    (flipY : Bool) (hW : 0 < data.width) (hH : 0 < data.height)
    (hsrc : data.height * (4 * data.width) ≤ 2147483647)
    (hx : 0 ≤ cropRect.x) (hy : 0 ≤ cropRect.y) (hw : 0 ≤ cropRect.width)
    (hh : 0 ≤ cropRect.height) (hmaxX : cropRect.x + cropRect.width ≤ 2147483647)
    (hmaxY : cropRect.y + cropRect.height ≤ 2147483647)
    (hdst : cropRect.height * (4 * cropRect.width) ≤ 2147483647) :
    ∀ a ∈ (constructFromImageData data cropRect flipY).accesses,
      0 ≤ a.1 ∧ a.1 < copiedDataBufferLength cropRect := by
  obtain ⟨cx, cy, cw, ch⟩ := cropRect
  obtain ⟨W, H, src⟩ := data
  simp only at hW hH hsrc hx hy hw hh hmaxX hmaxY hdst ⊢
  have q1 : 4 * W ≤ H * (4 * W) := le_mul_of_pos_left (by omega) hH
  have q2 : H ≤ H * (4 * W) := le_mul_of_pos (by omega) (by omega)
  have q3 : H * (4 * W) = 4 * (H * W) := by ring
  have hempty := intersection_isEmpty W H ⟨cx, cy, cw, ch⟩ hW hH (by omega) (by omega) hx hy hw
    hh hmaxX hmaxY
  simp only at hempty
  unfold constructFromImageData
  simp only
  by_cases hfull : (⟨cx, cy, cw, ch⟩ : IntRect) = ⟨0, 0, W, H⟩
  · rw [if_pos hfull]
    intro a ha
    exact absurd ha (List.not_mem_nil a)
  · rw [if_neg hfull]
    by_cases hE : (intersection ⟨cx, cy, cw, ch⟩ ⟨0, 0, W, H⟩).isEmpty = true
    · rw [hE]
      intro a ha
      exact absurd ha (List.not_mem_nil a)
    · have hne : ¬ ((W ≤ cx ∨ cw = 0) ∨ (H ≤ cy ∨ ch = 0)) := fun hh2 => hE (hempty.2 hh2)
      have hEf : (intersection ⟨cx, cy, cw, ch⟩ ⟨0, 0, W, H⟩).isEmpty = false := by
        cases hv : (intersection ⟨cx, cy, cw, ch⟩ ⟨0, 0, W, H⟩).isEmpty with
        | false => rfl
        | true => exact absurd hv hE
      have q4 : 4 * cw ≤ ch * (4 * cw) := le_mul_of_pos_left (by omega) (by omega)
      have s1 : (if cx > 0 then cx else 0) = cx := by
        by_cases h0 : cx > 0
        · rw [if_pos h0]
        · rw [if_neg h0]
          omega
      have s2 : (if cy > 0 then cy else 0) = cy := by
        by_cases h0 : cy > 0
        · rw [if_pos h0]
        · rw [if_neg h0]
          omega
      have s3 : (if cx ≥ 0 then 0 else negInt cx) = 0 := if_pos hx
      have s4 : (if cy ≥ 0 then 0 else negInt cy) = 0 := if_pos hy
      have s5 : subInt H cy = H - cy := subInt_eq (by omega) (by omega)
      have s6 : subInt W cx = W - cx := subInt_eq (by omega) (by omega)
      have s7 : mulInt bytesPerPixel W = 4 * W :=
        show mulInt 4 W = 4 * W from mulInt_eq (by omega) (by omega)
      have s8 : mulInt bytesPerPixel cw = 4 * cw :=
        show mulInt 4 cw = 4 * cw from mulInt_eq (by omega) (by omega)
      have s9 : copiedDataBufferLength ⟨cx, cy, cw, ch⟩ = ch * (4 * cw) := by
        unfold copiedDataBufferLength
        simp only [s8]
        exact mulInt_eq (by omega) (by omega)
      rw [hEf, s9]
      simp only [Bool.not_false, if_true, copyCroppedData, s1, s2, s3, s4, s5, s6, s7, s8]
      have hcH : ∀ i : Nat, i < (if ch < H - cy then ch else H - cy).toNat →
          (i : Int) + cy + 1 ≤ H ∧ (i : Int) < ch := by
        intro i hi
        have h2 := (Int.lt_toNat).1 hi
        by_cases h0 : ch < H - cy
        · rw [if_pos h0] at h2
          omega
        · rw [if_neg h0] at h2
          omega
      have hcW : 0 ≤ (if cw < W - cx then cw else W - cx) ∧
          (if cw < W - cx then cw else W - cx) ≤ W - cx ∧
          (if cw < W - cx then cw else W - cx) ≤ cw := by
        by_cases h0 : cw < W - cx
        · rw [if_pos h0]
          omega
        · rw [if_neg h0]
          omega
      apply forRange_invariant
        (fun t : CopyState => ∀ a ∈ t.accesses, 0 ≤ a.1 ∧ a.1 < ch * (4 * cw)) _ _
        (fun a ha => absurd ha (List.not_mem_nil a))
      intro i hi t ht
      have hrow := hcH i hi
      have r1 : ((i : Int) + cy + 1) * (4 * W) ≤ H * (4 * W) := mul_row_le (by omega) hrow.1
      have r2 : ((i : Int) + cy + 1) * (4 * W) = ((i : Int) + cy) * (4 * W) + 4 * W := by ring
      have r3 : 0 ≤ (if flipY then ch - 1 - (i : Int) else (i : Int)) * (4 * cw) := by
        apply Int.mul_nonneg _ (by omega)
        cases flipY with
        | false => simp only [Bool.false_eq_true, if_false]; omega
        | true => simp only [if_true]; omega
      have r4 : ((if flipY then ch - 1 - (i : Int) else (i : Int)) + 1) * (4 * cw) ≤
          ch * (4 * cw) := by
        apply mul_row_le (by omega)
        cases flipY with
        | false => simp only [Bool.false_eq_true, if_false]; omega
        | true => simp only [if_true]; omega
      have r5 : ((if flipY then ch - 1 - (i : Int) else (i : Int)) + 1) * (4 * cw) =
          (if flipY then ch - 1 - (i : Int) else (i : Int)) * (4 * cw) + 4 * cw := by ring
      exact copyRow_writes src (4 * W) (4 * cw) ch cx cy _ flipY i t
        (fun x => 0 ≤ x ∧ x < ch * (4 * cw)) hx hy (by omega) (by omega) hcW.1 (by omega)
        hrow.2 (by omega) hdst ht (fun x hx1 hx2 => ⟨by omega, by omega⟩)

theorem constructFromImageData_reads_inside_witness :
    ∀ a ∈ (constructFromImageData dataTwoByTwo ⟨-1, -1, 2, 2⟩ true).accesses,
      0 ≤ a.2 ∧ a.2 < 2 * (4 * 2) :=
  constructFromImageData_reads_inside dataTwoByTwo ⟨-1, -1, 2, 2⟩ true (by decide) (by decide)
    (by decide) (by decide) (by decide) (by decide) (by decide) (by decide) (by decide)

theorem constructFromImageData_writes_inside_witness :
    ∀ a ∈ (constructFromImageData dataTwoByTwo ⟨1, 0, 2, 2⟩ true).accesses,
      0 ≤ a.1 ∧ a.1 < copiedDataBufferLength ⟨1, 0, 2, 2⟩ :=
  constructFromImageData_writes_inside dataTwoByTwo ⟨1, 0, 2, 2⟩ true (by decide) (by decide)
    (by decide) (by decide) (by decide) (by decide) (by decide) (by decide) (by decide)
    (by decide)

end ImageBitmap
